import Mathlib

/-! Revolve: binomial checkpointing schedules.

A shallow embedding of the scheduling routines of `revolve.cpp` / `src.c`
(`numforw`, `maxrange`, `Offline::revolve`) and the properties proved about them.

C `int` values are integers reduced to the 32-bit two's-complement range by `wrap`
after every arithmetic operation. Arrays indexed by `int` are total functions.
-/

namespace Revolve

/-! ## Machine integers -/

/-- Reduction of an integer to the range of a 32-bit signed `int`. -/
def wrap (x : Int) : Int := (x + 2147483648) % 4294967296 - 2147483648

/-- The `int` addition `a + b`. -/
def iadd (a b : Int) : Int := wrap (a + b)

/-- The `int` subtraction `a - b`. -/
def isub (a b : Int) : Int := wrap (a - b)

/-- The `int` multiplication `a * b`. -/
def imul (a b : Int) : Int := wrap (a * b)

/-- The `int` division `a / b`, which truncates towards zero. -/
def idiv (a b : Int) : Int := wrap (Int.tdiv a b)

/-- `#define checkup 64` -/
def checkup : Int := 64

/-- `#define repsup 64` -/
def repsup : Int := 64

/-- `#define MAXINT 2147483647` -/
def MAXINT : Int := 2147483647

/-- `enum action { advance, takeshot, restore, firsturn, youturn, terminate, error }` -/
inductive Action where
  | advance | takeshot | restore | firsturn | youturn | terminate | error
  deriving DecidableEq

/-! ## `numforw` -/

/-- The loop
`while (range < steps) { reps += 1; range = range*(reps + snaps)/reps; }`
shared by `numforw`, `Revolve::get_r` and the advance branch of `revolve`; it yields the
final `(reps, range)`, or `none` when the loop has not ended after `fuel` tests. -/
def repsLoop : Nat → Int → Int → Int → Int → Option (Int × Int)
  | 0, _, _, _, _ => none
  | fuel + 1, steps, snaps, reps, range =>
    if range < steps then
      repsLoop fuel steps snaps (iadd reps 1)
        (idiv (imul range (iadd (iadd reps 1) snaps)) (iadd reps 1))
    else some (reps, range)

/-- The function `int numforw(int steps, int snaps)`. -/
def numforw (steps snaps : Int) : Option Int :=
  if snaps < 1 then some (-1)
  else if snaps > checkup then some (-1)
  else
    match repsLoop (steps.toNat + 1) steps snaps 0 1 with
    | none => none
    | some (reps, range) =>
      if reps > repsup then some (-1)
      else some (isub (imul reps steps) (idiv (imul range reps) (iadd snaps 1)))

/-- The method `int Revolve::get_r(int steps, int snaps)`. -/
def get_r (steps snaps : Int) : Option Int :=
  if snaps < 1 then some (-1)
  else if snaps > checkup then some (-1)
  else
    match repsLoop (steps.toNat + 1) steps snaps 0 1 with
    | none => none
    | some (reps, _) => if reps > repsup then some (-1) else some reps

/-! ## The checkpoint store and the offline scheduler -/

/-- The class `Checkpoint`: the slot table and the counters. -/
structure Checkpoint where
  ch : Int → Int
  ord_ch : Int → Int
  number_of_writes : Int → Int
  number_of_reads : Int → Int
  advances : Int
  takeshots : Int
  commands : Int

/-- The class `Offline` (with the members inherited from `Schedule`). -/
structure Offline where
  snaps : Int
  checkpoint : Checkpoint
  steps : Int
  check : Int
  capo : Int
  fine : Int
  info : Int
  turn : Int
  oldfine : Int
  oldsnaps : Int
  online : Bool
  num_ch : Int → Int

/-- The constructor `Schedule::Schedule(int sn, Checkpoint *c)` followed by
`Offline::Offline(int st, int sn, Checkpoint *c)`. The members `turn`, `oldfine`,
`oldsnaps` and `num_ch` are not assigned by the constructor; their values are inputs. -/
def Offline.new (st sn : Int) (c : Checkpoint) (turn oldfine oldsnaps : Int)
    (num_ch : Int → Int) : Offline :=
  { snaps := sn
    checkpoint := { c with ch := Function.update c.ch 0 0 }
    steps := st
    check := -1
    capo := 0
    fine := st
    info := 3
    turn := turn
    oldfine := oldfine
    oldsnaps := oldsnaps
    online := false
    num_ch := num_ch }

/-- The search loop of the restore branch in online-origin mode:
`ind = 0; for (i = 0; i < snaps; i++) if (ch[i] > ch[ind] && ch[i] < capo) ind = i;` -/
def restoreInd (ch : Int → Int) (capo snaps : Int) : Int :=
  (List.range snaps.toNat).foldl
    (fun ind i => if ch i > ch ind ∧ ch i < capo then (i : Int) else ind) 0

/-- The `case 0` branch of `Offline::revolve`. -/
def Offline.case0 (o : Offline) : Option (Action × Offline) :=
  if o.check = -1 ∨ o.capo = o.checkpoint.ch 0 then some (Action.terminate, o)
  else
    let check := if o.online then restoreInd o.checkpoint.ch o.capo o.snaps else o.check
    some (Action.restore,
      { o with
        check := check
        capo := o.checkpoint.ch check
        oldfine := o.fine
        checkpoint := { o.checkpoint with
          number_of_reads := Function.update o.checkpoint.number_of_reads check
            (iadd (o.checkpoint.number_of_reads check) 1) } })

/-- The `case 1` branch of `Offline::revolve`. -/
def Offline.case1 (o : Offline) : Option (Action × Offline) :=
  let fine := isub o.fine 1
  let check := if o.check ≥ 0 ∧ o.checkpoint.ch o.check = o.capo then isub o.check 1 else o.check
  if o.turn = 0 then
    some (Action.firsturn, { o with fine := fine, check := check, turn := 1, oldfine := fine })
  else
    some (Action.youturn, { o with fine := fine, check := check, oldfine := fine })

/-- The first takeshot (`check == -1`) of the `default` branch of `Offline::revolve`. -/
def Offline.initshot (o : Offline) : Option (Action × Offline) :=
  let o1 : Offline := { o with
    checkpoint := { o.checkpoint with ch := Function.update o.checkpoint.ch 0 0 }
    check := 0
    oldsnaps := o.snaps }
  if o1.snaps > checkup then some (Action.error, { o1 with info := 14 })
  else
    let fin (o2 : Offline) : Option (Action × Offline) :=
      some (Action.takeshot,
        { o2 with
          oldfine := o2.fine
          checkpoint := { o2.checkpoint with
            number_of_writes := Function.update o2.checkpoint.number_of_writes o2.check
              (iadd (o2.checkpoint.number_of_writes o2.check) 1)
            takeshots := iadd o2.checkpoint.takeshots 1 } })
    if o1.info > 0 then
      match numforw (isub o1.fine o1.capo) o1.snaps with
      | none => none
      | some num => if num = -1 then some (Action.error, { o1 with info := 12 }) else fin o1
    else fin o1

/-- The takeshot (`ch[check] != capo`) of the `default` branch of `Offline::revolve`. -/
def Offline.shot (o : Offline) : Option (Action × Offline) :=
  let check :=
    if o.online then o.checkpoint.ord_ch (iadd (o.num_ch o.check) 1) else iadd o.check 1
  let o1 : Offline := { o with check := check }
  if check ≥ checkup then some (Action.error, { o1 with info := 10 })
  else if iadd check 1 > o.snaps then some (Action.error, { o1 with info := 11 })
  else
    some (Action.takeshot,
      { o1 with
        oldfine := o1.fine
        checkpoint := { o1.checkpoint with
          ch := Function.update o1.checkpoint.ch check o1.capo
          takeshots := iadd o1.checkpoint.takeshots 1
          number_of_writes := Function.update o1.checkpoint.number_of_writes check
            (iadd (o1.checkpoint.number_of_writes check) 1) } })

/-- The five terms `bino1 .. bino5` of the advance branch, from `range`, `reps`, `ds`. -/
def binos (range reps ds : Int) : Int × Int × Int × Int × Int :=
  let bino1 := idiv (imul range reps) (iadd ds reps)
  let bino2 := if ds > 1 then idiv (imul bino1 ds) (isub (iadd ds reps) 1) else 1
  let bino3 :=
    if ds = 1 then 0
    else if ds > 2 then idiv (imul bino2 (isub ds 1)) (isub (iadd ds reps) 2) else 1
  let bino4 := idiv (imul bino2 (isub reps 1)) ds
  let bino5 :=
    if ds < 3 then 0
    else if ds > 3 then idiv (imul bino3 (isub ds 2)) reps else 1
  (bino1, bino2, bino3, bino4, bino5)

/-- The new `capo` chosen by the advance branch once `range` and `reps` are known. -/
def advanceTarget (capo fine range reps ds : Int) : Int :=
  match binos range reps ds with
  | (bino1, bino2, bino3, bino4, bino5) =>
    let capo1 :=
      if isub fine capo ≤ iadd bino1 bino3 then iadd capo bino4
      else if isub fine capo ≥ isub range bino5 then iadd capo bino1
      else isub (isub fine bino2) bino3
    if capo1 = capo then iadd capo 1 else capo1

/-- The advance (`ch[check] == capo`) of the `default` branch of `Offline::revolve`. -/
def Offline.adv (o : Offline) : Option (Action × Offline) :=
  if o.oldfine < o.fine ∧ o.snaps = iadd o.check 1 then some (Action.error, { o with info := 13 })
  else
    let ds := if o.online then isub o.snaps (o.num_ch o.check) else isub o.snaps o.check
    if ds < 1 then some (Action.error, { o with info := 11 })
    else
      match repsLoop ((isub o.fine o.capo).toNat + 1) (isub o.fine o.capo) ds 0 1 with
      | none => none
      | some (reps, range) =>
        if reps > repsup then some (Action.error, { o with info := 15 })
        else if o.snaps ≠ o.oldsnaps ∧ o.snaps > checkup then
          some (Action.error, { o with info := 14 })
        else
          let capo := advanceTarget o.capo o.fine range reps ds
          some (Action.advance,
            { o with
              capo := capo
              oldfine := o.fine
              checkpoint := { o.checkpoint with
                advances := iadd o.checkpoint.advances (isub capo o.capo) } })

/-- The method `ACTION::action Offline::revolve()`: the action returned and the state
left behind (`none` when an inner loop does not end). -/
def Offline.revolve (o : Offline) : Option (Action × Offline) :=
  let o : Offline :=
    { o with checkpoint := { o.checkpoint with commands := iadd o.checkpoint.commands 1 } }
  if o.check < -1 ∨ o.capo > o.fine then some (Action.error, o)
  else
    let o : Offline :=
      if o.check = -1 ∧ o.capo < o.fine then
        { o with
          turn := 0
          checkpoint := { o.checkpoint with
            ch := Function.update o.checkpoint.ch 0 (isub o.capo 1) } }
      else o
    if isub o.fine o.capo = 0 then o.case0
    else if isub o.fine o.capo = 1 then o.case1
    else if o.check = -1 then o.initshot
    else if o.checkpoint.ch o.check ≠ o.capo then o.shot
    else o.adv

/-! ## Binomial coefficients -/


/-- The binomial coefficient `(d + r)! / (d! r!)`, read as `0` when `d` or `r` is negative. -/
def bz (d r : Int) : Int :=
  if d < 0 ∨ r < 0 then 0 else (((d + r).toNat.choose r.toNat : Nat) : Int)

theorem bz_nat (d r : Nat) : bz d r = ((d + r).choose r : Nat) := by
  unfold bz
  have h : ¬ ((d : Int) < 0 ∨ (r : Int) < 0) := by omega
  rw [if_neg h]
  have : ((d : Int) + r).toNat = d + r := by omega
  rw [this, Int.toNat_natCast]

theorem bz_neg_left {d : Int} (r : Int) (h : d < 0) : bz d r = 0 := by
  unfold bz; rw [if_pos (Or.inl h)]

theorem bz_neg_right (d : Int) {r : Int} (h : r < 0) : bz d r = 0 := by
  unfold bz; rw [if_pos (Or.inr h)]

theorem bz_nonneg (d r : Int) : 0 ≤ bz d r := by
  unfold bz; split
  · exact le_refl 0
  · exact Int.natCast_nonneg _

theorem bz_pos {d r : Int} (hd : 0 ≤ d) (hr : 0 ≤ r) : 1 ≤ bz d r := by
  obtain ⟨d, rfl⟩ := Int.eq_ofNat_of_zero_le hd
  obtain ⟨r, rfl⟩ := Int.eq_ofNat_of_zero_le hr
  rw [bz_nat]
  have : 0 < (d + r).choose r := Nat.choose_pos (Nat.le_add_left r d)
  omega

theorem bz_zero_right {d : Int} (hd : 0 ≤ d) : bz d 0 = 1 := by
  obtain ⟨d, rfl⟩ := Int.eq_ofNat_of_zero_le hd
  have := bz_nat d 0
  simpa using this

theorem bz_zero_left {r : Int} (hr : 0 ≤ r) : bz 0 r = 1 := by
  obtain ⟨r, rfl⟩ := Int.eq_ofNat_of_zero_le hr
  have := bz_nat 0 r
  simpa using this

/-- Pascal's rule, valid everywhere except at the origin. -/
theorem bz_pascal (d r : Int) (h : d ≠ 0 ∨ r ≠ 0) : bz d r = bz d (r - 1) + bz (d - 1) r := by
  by_cases hd : d < 0
  · rw [bz_neg_left _ hd, bz_neg_left _ hd, bz_neg_left _ (by omega)]; rfl
  by_cases hr : r < 0
  · rw [bz_neg_right _ hr, bz_neg_right _ (by omega), bz_neg_right _ hr]; rfl
  obtain ⟨d, rfl⟩ := Int.eq_ofNat_of_zero_le (not_lt.mp hd)
  obtain ⟨r, rfl⟩ := Int.eq_ofNat_of_zero_le (not_lt.mp hr)
  cases d with
  | zero =>
    cases r with
    | zero => simp at h
    | succ r =>
      have h1 : ((Nat.succ r : Nat) : Int) - 1 = (r : Nat) := by push_cast; ring
      rw [h1, bz_neg_left _ (by simp : ((0 : Nat) : Int) - 1 < 0)]
      rw [bz_nat, bz_nat]; simp
  | succ d =>
    cases r with
    | zero =>
      have h1 : ((Nat.succ d : Nat) : Int) - 1 = (d : Nat) := by push_cast; ring
      rw [h1, bz_neg_right _ (by simp : ((0 : Nat) : Int) - 1 < 0)]
      rw [bz_nat, bz_nat]; simp
    | succ r =>
      have h1 : ((Nat.succ d : Nat) : Int) - 1 = (d : Nat) := by push_cast; ring
      have h2 : ((Nat.succ r : Nat) : Int) - 1 = (r : Nat) := by push_cast; ring
      rw [h1, h2, bz_nat, bz_nat, bz_nat]
      have e1 : d.succ + r.succ = (d + r + 1).succ := by omega
      have e2 : d.succ + r = d + r + 1 := by omega
      have e3 : d + r.succ = d + r + 1 := by omega
      rw [e1, e2, e3, Nat.choose_succ_succ]
      push_cast; ring

/-- The identity `C(d+r, r) * r = C(d+r-1, r-1) * (d + r)`. -/
theorem bz_mul_right (d r : Int) (hd : 0 ≤ d) : bz d r * r = bz d (r - 1) * (d + r) := by
  by_cases hr : r < 0
  · rw [bz_neg_right _ hr, bz_neg_right _ (by omega)]; simp
  obtain ⟨d, rfl⟩ := Int.eq_ofNat_of_zero_le hd
  obtain ⟨r, rfl⟩ := Int.eq_ofNat_of_zero_le (not_lt.mp hr)
  cases r with
  | zero => rw [bz_neg_right _ (by simp : ((0 : Nat) : Int) - 1 < 0)]; simp
  | succ r =>
    have h2 : ((Nat.succ r : Nat) : Int) - 1 = (r : Nat) := by push_cast; ring
    rw [h2, bz_nat, bz_nat]
    have e1 : d + r.succ = (d + r).succ := by omega
    have := Nat.succ_mul_choose_eq (d + r) r
    rw [e1]
    have h3 : (((d + r).succ.choose r.succ * r.succ : Nat) : Int)
        = (((d + r).succ * (d + r).choose r : Nat) : Int) := by rw [this]
    push_cast at h3 ⊢
    linarith

theorem bz_symm (d r : Int) : bz d r = bz r d := by
  by_cases hd : d < 0
  · rw [bz_neg_left _ hd, bz_neg_right _ hd]
  by_cases hr : r < 0
  · rw [bz_neg_right _ hr, bz_neg_left _ hr]
  obtain ⟨d, rfl⟩ := Int.eq_ofNat_of_zero_le (not_lt.mp hd)
  obtain ⟨r, rfl⟩ := Int.eq_ofNat_of_zero_le (not_lt.mp hr)
  rw [bz_nat, bz_nat, Nat.add_comm r d, Nat.choose_symm_add]

/-- The identity `C(d+r, r) * d = C(d+r-1, r) * (d + r)`. -/
theorem bz_mul_left (d r : Int) (hr : 0 ≤ r) : bz d r * d = bz (d - 1) r * (d + r) := by
  rw [bz_symm d r, bz_symm (d - 1) r, bz_mul_right r d hr]; ring

/-- The identity `C(d+r, r+1) * (r+1) = C(d+r, r) * d`. -/
theorem bz_mul_cross (d r : Int) (hd : 0 ≤ d) (hr : 0 ≤ r) :
    bz (d - 1) (r + 1) * (r + 1) = bz d r * d := by
  have h1 := bz_mul_right (d - 1) (r + 1)
  have h2 := bz_mul_left d r hr
  by_cases h0 : d = 0
  · subst h0; rw [bz_neg_left _ (by omega)]; simp
  have h1' := h1 (by omega)
  have e : r + 1 - 1 = r := by ring
  rw [e] at h1'
  rw [h1', h2]; ring

theorem bz_mono_right (d r : Int) : bz d r ≤ bz d (r + 1) := by
  by_cases h : d = 0 ∧ r + 1 = 0
  · obtain ⟨h1, h2⟩ := h
    have : r < 0 := by omega
    rw [bz_neg_right _ this]; exact bz_nonneg _ _
  have := bz_pascal d (r + 1) (by omega)
  have e : r + 1 - 1 = r := by ring
  rw [e] at this
  have := bz_nonneg (d - 1) (r + 1)
  omega

theorem bz_mono_left (d r : Int) : bz d r ≤ bz (d + 1) r := by
  rw [bz_symm d r, bz_symm (d + 1) r]; exact bz_mono_right r d

theorem bz_lt_right {d r : Int} (hd : 1 ≤ d) (hr : 0 ≤ r) : bz d r < bz d (r + 1) := by
  have := bz_pascal d (r + 1) (by omega)
  have e : r + 1 - 1 = r := by ring
  rw [e] at this
  have := bz_pos (show 0 ≤ d - 1 by omega) (show 0 ≤ r + 1 by omega)
  omega

theorem bz_mono_right_le (d : Int) {r s : Int} (h : r ≤ s) : bz d r ≤ bz d s := by
  obtain ⟨k, rfl⟩ : ∃ k : Nat, s = r + k := ⟨(s - r).toNat, by omega⟩
  induction k with
  | zero => simp
  | succ k ih =>
    have := bz_mono_right d (r + k)
    have e : r + ((k + 1 : Nat) : Int) = r + k + 1 := by push_cast; ring
    rw [e]
    exact le_trans (ih (by omega)) this

theorem bz_ge_succ {d r : Int} (hd : 1 ≤ d) (hr : 0 ≤ r) : r + 1 ≤ bz d r := by
  obtain ⟨k, rfl⟩ := Int.eq_ofNat_of_zero_le hr
  induction k with
  | zero => have := bz_zero_right (show 0 ≤ d by omega); simp; omega
  | succ k ih =>
    have := bz_lt_right hd (show (0 : Int) ≤ (k : Nat) by omega)
    have := ih (by omega)
    push_cast at *
    omega

/-! ## Arithmetic without overflow -/

theorem wrap_eq {x : Int} (h1 : -2147483648 ≤ x) (h2 : x < 2147483648) : wrap x = x := by
  unfold wrap; omega

theorem mul_small {x y : Int} (hx0 : 0 ≤ x) (hx : x < 16777216) (hy0 : 0 ≤ y) (hy : y ≤ 128) :
    0 ≤ x * y ∧ x * y < 2147483648 := by
  constructor
  · exact mul_nonneg hx0 hy0
  · nlinarith

theorem iadd_eq {a b : Int} (h1 : -2147483648 ≤ a + b) (h2 : a + b < 2147483648) :
    iadd a b = a + b := wrap_eq h1 h2

theorem isub_eq {a b : Int} (h1 : -2147483648 ≤ a - b) (h2 : a - b < 2147483648) :
    isub a b = a - b := wrap_eq h1 h2

theorem imul_eq {a b : Int} (h1 : -2147483648 ≤ a * b) (h2 : a * b < 2147483648) :
    imul a b = a * b := wrap_eq h1 h2

/-- An exact division of a product that fits in an `int`. -/
theorem idiv_exact {p q c : Int} (hq : 0 < q) (hc : 0 ≤ c) (h : p = c * q)
    (hp : p < 2147483648) : idiv p q = c := by
  unfold idiv
  have hp0 : 0 ≤ p := by rw [h]; exact mul_nonneg hc (le_of_lt hq)
  rw [Int.tdiv_eq_ediv hp0 (le_of_lt hq), Int.ediv_eq_of_eq_mul_left (ne_of_gt hq) h]
  apply wrap_eq
  · omega
  · have : c ≤ c * q := by nlinarith
    omega

/-- The loop of `numforw` and of the advance branch stops at the least `r` with
`steps ≤ C(r + snaps, r)`, holding that binomial coefficient in `range`. -/
theorem repsLoop_spec (l ds ρ : Int) (hds1 : 1 ≤ ds) (hds : ds ≤ 64) (hl : l ≤ 16777216)
    (hρ : ρ ≤ 64) (hlρ : l ≤ bz ds ρ) :
    ∀ (fuel : Nat) (k : Int), 0 ≤ k → k ≤ ρ → (∀ j, 0 ≤ j → j < k → bz ds j < l) →
      1 ≤ fuel → l + 1 ≤ fuel + bz ds k →
      ∃ r, k ≤ r ∧ r ≤ ρ ∧ l ≤ bz ds r ∧ (∀ j, 0 ≤ j → j < r → bz ds j < l) ∧
        repsLoop fuel l ds k (bz ds k) = some (r, bz ds r) := by
  intro fuel
  induction fuel with
  | zero => intro k _ _ _ h; omega
  | succ fuel ih =>
    intro k hk0 hkρ hlow _ hfuel
    unfold repsLoop
    by_cases hlt : bz ds k < l
    · rw [if_pos hlt]
      have hkρ' : k < ρ := by
        rcases lt_or_eq_of_le hkρ with h | h
        · exact h
        · subst h; omega
      have e1 : iadd k 1 = k + 1 := iadd_eq (by omega) (by omega)
      have e2 : iadd (k + 1) ds = k + 1 + ds := iadd_eq (by omega) (by omega)
      have hb := bz_nonneg ds k
      have hm := mul_small hb (by omega : bz ds k < 16777216)
        (by omega : 0 ≤ k + 1 + ds) (by omega : k + 1 + ds ≤ 128)
      have e3 : imul (bz ds k) (k + 1 + ds) = bz ds k * (k + 1 + ds) :=
        imul_eq (by omega) hm.2
      have hid := bz_mul_right ds (k + 1) (by omega)
      have ek : k + 1 - 1 = k := by ring
      rw [ek] at hid
      have e4 : idiv (bz ds k * (k + 1 + ds)) (k + 1) = bz ds (k + 1) :=
        idiv_exact (by omega) (bz_nonneg _ _) (by rw [hid]; ring) hm.2
      rw [e1, e2, e3, e4]
      have hstep := bz_lt_right hds1 hk0
      have hlow' : ∀ j, 0 ≤ j → j < k + 1 → bz ds j < l := by
        intro j hj0 hj
        rcases lt_or_eq_of_le (show j ≤ k by omega) with h | h
        · exact hlow j hj0 h
        · rw [h]; exact hlt
      obtain ⟨r, h1, h2, h3, h4, h5⟩ :=
        ih (k + 1) (by omega) (by omega) hlow' (by push_cast at hfuel; omega)
          (by push_cast at hfuel; omega)
      exact ⟨r, by omega, h2, h3, h4, h5⟩
    · rw [if_neg hlt]
      exact ⟨k, le_refl k, hkρ, not_lt.mp hlt, hlow, rfl⟩

/-- The loop started with `reps = 0`, `range = 1` and the fuel given by the callers. -/
theorem repsLoop_start (l ds ρ : Int) (hds1 : 1 ≤ ds) (hds : ds ≤ 64) (hl : l ≤ 16777216)
    (hρ0 : 0 ≤ ρ) (hρ : ρ ≤ 64) (hlρ : l ≤ bz ds ρ) :
    ∃ r, 0 ≤ r ∧ r ≤ ρ ∧ l ≤ bz ds r ∧ (∀ j, 0 ≤ j → j < r → bz ds j < l) ∧
      repsLoop (l.toNat + 1) l ds 0 1 = some (r, bz ds r) := by
  have h0 := bz_zero_right (show 0 ≤ ds by omega)
  have := repsLoop_spec l ds ρ hds1 hds hl hρ hlρ (l.toNat + 1) 0 (le_refl 0) hρ0
    (by intro j h1 h2; omega) (by omega) (by rw [h0]; push_cast; omega)
  rw [h0] at this
  exact this

/-- The five terms of the advance branch are binomial coefficients and every division
is exact. -/
theorem binos_spec (l ds r : Int) (hds1 : 1 ≤ ds) (hds : ds ≤ 64) (hl : l ≤ 16777216)
    (hr1 : 1 ≤ r) (hr : r ≤ 64) (hlow : bz ds (r - 1) < l) :
    binos (bz ds r) r ds
      = (bz ds (r - 1), bz (ds - 1) (r - 1), bz (ds - 2) (r - 1), bz ds (r - 2),
          bz (ds - 3) r) := by
  have hb1 := bz_nonneg ds (r - 1)
  have hb2 : bz (ds - 1) (r - 1) ≤ bz ds (r - 1) := by
    have := bz_mono_left (ds - 1) (r - 1)
    have e : ds - 1 + 1 = ds := by ring
    rwa [e] at this
  have hb2' := bz_nonneg (ds - 1) (r - 1)
  have hb3 : bz (ds - 2) (r - 1) ≤ bz (ds - 1) (r - 1) := by
    have := bz_mono_left (ds - 2) (r - 1)
    have e : ds - 2 + 1 = ds - 1 := by ring
    rwa [e] at this
  have hb3' := bz_nonneg (ds - 2) (r - 1)
  -- bino1
  have hm1 := mul_small hb1 (by omega : bz ds (r - 1) < 16777216)
    (by omega : 0 ≤ ds + r) (by omega : ds + r ≤ 128)
  have hid1 := bz_mul_right ds r (by omega)
  have e1 : idiv (imul (bz ds r) r) (iadd ds r) = bz ds (r - 1) := by
    rw [iadd_eq (by omega) (by omega), imul_eq (by rw [hid1]; omega) (by rw [hid1]; omega)]
    exact idiv_exact (by omega) hb1 hid1 (by rw [hid1]; omega)
  -- bino2
  have e2 : (if ds > 1 then idiv (imul (bz ds (r - 1)) ds) (isub (iadd ds r) 1) else 1)
      = bz (ds - 1) (r - 1) := by
    split
    · have hm := mul_small hb1 (by omega : bz ds (r - 1) < 16777216)
        (by omega : 0 ≤ ds) (by omega : ds ≤ 128)
      have hid := bz_mul_left ds (r - 1) (by omega)
      rw [iadd_eq (by omega) (by omega), isub_eq (by omega) (by omega),
        imul_eq (by omega) hm.2]
      exact idiv_exact (by omega) hb2' (by rw [hid]; ring) hm.2
    · have : ds - 1 = 0 := by omega
      rw [this, bz_zero_left (by omega)]
  -- bino3
  have e3 : (if ds = 1 then 0
      else if ds > 2 then
        idiv (imul (bz (ds - 1) (r - 1)) (isub ds 1)) (isub (iadd ds r) 2) else 1)
      = bz (ds - 2) (r - 1) := by
    split
    · rw [bz_neg_left _ (by omega)]
    · split
      · have hm := mul_small hb2' (by omega : bz (ds - 1) (r - 1) < 16777216)
          (by omega : 0 ≤ ds - 1) (by omega : ds - 1 ≤ 128)
        have hid := bz_mul_left (ds - 1) (r - 1) (by omega)
        have e : ds - 1 - 1 = ds - 2 := by ring
        rw [e] at hid
        rw [iadd_eq (by omega) (by omega), isub_eq (by omega) (by omega),
          isub_eq (by omega) (by omega), imul_eq (by omega) hm.2]
        exact idiv_exact (by omega) hb3' (by rw [hid]; ring) hm.2
      · have : ds - 2 = 0 := by omega
        rw [this, bz_zero_left (by omega)]
  -- bino4
  have e4 : idiv (imul (bz (ds - 1) (r - 1)) (isub r 1)) ds = bz ds (r - 2) := by
    have hm := mul_small hb2' (by omega : bz (ds - 1) (r - 1) < 16777216)
      (by omega : 0 ≤ r - 1) (by omega : r - 1 ≤ 128)
    rw [isub_eq (by omega) (by omega), imul_eq (by omega) hm.2]
    by_cases h1 : r = 1
    · have hz : r - 1 = 0 := by omega
      rw [bz_neg_right _ (by omega : r - 2 < 0), hz, mul_zero]
      exact idiv_exact (by omega) (le_refl 0) (by ring) (by omega)
    · have hid := bz_mul_cross ds (r - 2) (by omega) (by omega)
      have e : r - 2 + 1 = r - 1 := by ring
      rw [e] at hid
      exact idiv_exact (by omega) (bz_nonneg _ _) hid hm.2
  -- bino5
  have e5 : (if ds < 3 then 0
      else if ds > 3 then idiv (imul (bz (ds - 2) (r - 1)) (isub ds 2)) r else 1)
      = bz (ds - 3) r := by
    split
    · rw [bz_neg_left _ (by omega)]
    · split
      · have hm := mul_small hb3' (by omega : bz (ds - 2) (r - 1) < 16777216)
          (by omega : 0 ≤ ds - 2) (by omega : ds - 2 ≤ 128)
        have hid := bz_mul_cross (ds - 2) (r - 1) (by omega) (by omega)
        have e : r - 1 + 1 = r := by ring
        have e' : ds - 2 - 1 = ds - 3 := by ring
        rw [e, e'] at hid
        rw [isub_eq (by omega) (by omega), imul_eq (by omega) hm.2]
        exact idiv_exact (by omega) (bz_nonneg _ _) hid.symm hm.2
      · have : ds - 3 = 0 := by omega
        rw [this, bz_zero_left (by omega)]
  unfold binos
  simp only [e1, e2, e3, e4, e5]

/-- The number of steps the advance branch moves `capo` forward, for a sub-range of length
`l` with `ds` free slots and repetition number `r`. -/
def amount (l ds r : Int) : Int :=
  if l ≤ bz ds (r - 1) + bz (ds - 2) (r - 1) then
    (if bz ds (r - 2) = 0 then 1 else bz ds (r - 2))
  else if l ≥ bz ds r - bz (ds - 3) r then bz ds (r - 1)
  else l - bz (ds - 1) (r - 1) - bz (ds - 2) (r - 1)

/-- The advance target is `capo + amount`. -/
theorem advanceTarget_eq (a l ds r : Int) (ha : 0 ≤ a) (hal : a + l ≤ 16777216)
    (hds1 : 1 ≤ ds) (hds : ds ≤ 64) (hr1 : 1 ≤ r) (hr : r ≤ 64)
    (hlow : bz ds (r - 1) < l) :
    advanceTarget a (a + l) (bz ds r) r ds = a + amount l ds r := by
  have hl : l ≤ 16777216 := by omega
  have hP2 := bz_pascal ds (r - 1) (by omega)
  have e12 : r - 1 - 1 = r - 2 := by ring
  rw [e12] at hP2
  have hb1 := bz_pos (show 0 ≤ ds by omega) (show 0 ≤ r - 1 by omega)
  have hb2 := bz_pos (show 0 ≤ ds - 1 by omega) (show 0 ≤ r - 1 by omega)
  have hb2' : bz (ds - 1) (r - 1) ≤ bz ds (r - 1) := by
    have := bz_mono_left (ds - 1) (r - 1)
    have e : ds - 1 + 1 = ds := by ring
    rwa [e] at this
  have hb3 := bz_nonneg (ds - 2) (r - 1)
  have hb3' : bz (ds - 2) (r - 1) ≤ bz (ds - 1) (r - 1) := by
    have := bz_mono_left (ds - 2) (r - 1)
    have e : ds - 2 + 1 = ds - 1 := by ring
    rwa [e] at this
  have hb4 := bz_nonneg ds (r - 2)
  have hb5 := bz_nonneg (ds - 3) r
  have hb5' : bz (ds - 3) r ≤ bz ds r := by
    have h1 := bz_mono_left (ds - 3) r
    have h2 := bz_mono_left (ds - 2) r
    have h3 := bz_mono_left (ds - 1) r
    have e1 : ds - 3 + 1 = ds - 2 := by ring
    have e2 : ds - 2 + 1 = ds - 1 := by ring
    have e3 : ds - 1 + 1 = ds := by ring
    rw [e1] at h1; rw [e2] at h2; rw [e3] at h3
    omega
  have hm1 := mul_small (by omega) (by omega : bz ds (r - 1) < 16777216)
    (by omega : 0 ≤ ds + r) (by omega : ds + r ≤ 128)
  have hid1 := bz_mul_right ds r (by omega)
  have hR : bz ds r < 2147483648 := by
    have h0 := bz_nonneg ds r
    have : bz ds r ≤ bz ds r * r := by nlinarith
    omega
  have e0 : isub (a + l) a = l := by rw [isub_eq (by omega) (by omega)]; omega
  have es : iadd (bz ds (r - 1)) (bz (ds - 2) (r - 1))
      = bz ds (r - 1) + bz (ds - 2) (r - 1) := iadd_eq (by omega) (by omega)
  have ec1 : iadd a (bz ds (r - 2)) = a + bz ds (r - 2) := iadd_eq (by omega) (by omega)
  have erb : isub (bz ds r) (bz (ds - 3) r) = bz ds r - bz (ds - 3) r :=
    isub_eq (by omega) (by omega)
  have ec2 : iadd a (bz ds (r - 1)) = a + bz ds (r - 1) := iadd_eq (by omega) (by omega)
  have ec3a : isub (a + l) (bz (ds - 1) (r - 1)) = a + l - bz (ds - 1) (r - 1) :=
    isub_eq (by omega) (by omega)
  have ec3 : isub (a + l - bz (ds - 1) (r - 1)) (bz (ds - 2) (r - 1))
      = a + l - bz (ds - 1) (r - 1) - bz (ds - 2) (r - 1) := isub_eq (by omega) (by omega)
  have etb : iadd a 1 = a + 1 := iadd_eq (by omega) (by omega)
  unfold advanceTarget amount
  rw [binos_spec l ds r hds1 hds hl hr1 hr hlow]
  simp only [e0, es, ec1, erb, ec2, ec3a, ec3, etb]
  by_cases c1 : l ≤ bz ds (r - 1) + bz (ds - 2) (r - 1)
  · rw [if_pos c1, if_pos c1]
    by_cases t : bz ds (r - 2) = 0
    · rw [if_pos t, if_pos (by omega)]
    · rw [if_neg t, if_neg (by omega)]
  · rw [if_neg c1, if_neg c1]
    by_cases c2 : l ≥ bz ds r - bz (ds - 3) r
    · rw [if_pos c2, if_pos c2, if_neg (by omega)]
    · rw [if_neg c2, if_neg c2, if_neg (by omega)]
      ring

/-- The amount advanced lies strictly inside the sub-range, and both parts of the
sub-range fit the binomial bounds of the slots left for them. -/
theorem amount_spec (l ds r : Int) (hds1 : 1 ≤ ds) (hr1 : 1 ≤ r)
    (hlow : bz ds (r - 1) < l) (hup : l ≤ bz ds r) :
    1 ≤ amount l ds r ∧ amount l ds r ≤ l - 1 ∧
      bz ds (r - 2) ≤ amount l ds r ∧ amount l ds r ≤ bz ds (r - 1) ∧
      bz (ds - 1) (r - 1) ≤ l - amount l ds r ∧ l - amount l ds r ≤ bz (ds - 1) r ∧
      (ds = 1 → amount l ds r = l - 1) := by
  have hP1 := bz_pascal ds r (by omega)
  have hP2 := bz_pascal ds (r - 1) (by omega)
  have hP3 := bz_pascal (ds - 1) r (by omega)
  have hP4 := bz_pascal (ds - 2) r (by omega)
  have e12 : r - 1 - 1 = r - 2 := by ring
  have e21 : ds - 1 - 1 = ds - 2 := by ring
  have e31 : ds - 2 - 1 = ds - 3 := by ring
  rw [e12] at hP2
  rw [e21] at hP3
  rw [e31] at hP4
  have hb1 := bz_pos (show 0 ≤ ds by omega) (show 0 ≤ r - 1 by omega)
  have hb2 := bz_pos (show 0 ≤ ds - 1 by omega) (show 0 ≤ r - 1 by omega)
  have hb3 := bz_nonneg (ds - 2) (r - 1)
  have hb4 := bz_nonneg ds (r - 2)
  have hb5 := bz_nonneg (ds - 3) r
  have hY := bz_nonneg (ds - 2) r
  have hX1 : ds = 1 → bz (ds - 1) r = 1 := by
    intro h; rw [h]; exact bz_zero_left (by omega)
  have hX2 : ds = 1 → bz (ds - 1) (r - 1) = 1 := by
    intro h; rw [h]; exact bz_zero_left (by omega)
  have hX3 : ds = 1 → bz (ds - 2) (r - 1) = 0 := by
    intro h; rw [h]; exact bz_neg_left _ (by omega)
  unfold amount
  by_cases c1 : l ≤ bz ds (r - 1) + bz (ds - 2) (r - 1)
  · rw [if_pos c1]
    by_cases t : bz ds (r - 2) = 0
    · rw [if_pos t]
      refine ⟨by omega, by omega, by omega, by omega, by omega, by omega, ?_⟩
      intro h; have := hX3 h; omega
    · rw [if_neg t]
      refine ⟨by omega, by omega, by omega, by omega, by omega, by omega, ?_⟩
      intro h; have := hX3 h; omega
  · rw [if_neg c1]
    by_cases c2 : l ≥ bz ds r - bz (ds - 3) r
    · rw [if_pos c2]
      refine ⟨by omega, by omega, by omega, by omega, by omega, by omega, ?_⟩
      intro h; have := hX1 h; omega
    · rw [if_neg c2]
      refine ⟨by omega, by omega, by omega, by omega, by omega, by omega, ?_⟩
      intro h; have := hX3 h; have := hX2 h; omega

/-! ## The scheduler driven by a host -/

/-- The host program: the step its current state is at, the step each slot holds since
its last takeshot, one entry per `firsturn`/`youturn` (the action, the step reversed and
the step the host was at), whether every restore so far read a slot holding exactly the
step `capo` was set to, and the actions returned so far. -/
structure Host where
  cur : Int
  slots : Int → Option Int
  turns : List (Action × Int × Int)
  restoresOk : Bool
  acts : List Action

/-- The host before the first call: it holds the state of step 0 and no slot is written. -/
def Host.start : Host :=
  { cur := 0, slots := fun _ => none, turns := [], restoresOk := true, acts := [] }

/-- What the host does with the action `a` returned by a call that left the scheduler in
the state `o`. -/
def Host.react (h : Host) (a : Action) (o : Offline) : Host :=
  match a with
  | Action.advance => { h with cur := o.capo, acts := h.acts ++ [a] }
  | Action.takeshot =>
    { h with slots := Function.update h.slots o.check (some h.cur), acts := h.acts ++ [a] }
  | Action.restore =>
    { h with
      cur := o.capo
      restoresOk := h.restoresOk && decide (h.slots o.check = some o.capo)
      acts := h.acts ++ [a] }
  | Action.firsturn => { h with turns := h.turns ++ [(a, o.fine, h.cur)], acts := h.acts ++ [a] }
  | Action.youturn => { h with turns := h.turns ++ [(a, o.fine, h.cur)], acts := h.acts ++ [a] }
  | Action.terminate => { h with acts := h.acts ++ [a] }
  | Action.error => { h with acts := h.acts ++ [a] }

/-- The scheduler together with its host. -/
structure Sys where
  o : Offline
  h : Host

/-- One call of `Offline::revolve` followed by the host's reaction. -/
def Sys.step (s : Sys) : Option Sys :=
  match s.o.revolve with
  | none => none
  | some (a, o) => some { o := o, h := s.h.react a o }

/-- The system after `n` calls. -/
def Sys.run : Nat → Sys → Option Sys
  | 0, s => some s
  | n + 1, s =>
    match s.step with
    | none => none
    | some t => Sys.run n t

/-- The offline façade constructor `Revolve::Revolve(int st, int sn)`: it builds the
scheduler with `Offline::Offline(st, sn, checkpoint)` and clears the three counters. The
contents `c` of the fresh `Checkpoint` and the members the constructors leave unassigned
are inputs. -/
def Offline.construct (st sn : Int) (c : Checkpoint) (turn oldfine oldsnaps : Int)
    (num_ch : Int → Int) : Offline :=
  let o := Offline.new st sn c turn oldfine oldsnaps num_ch
  { o with checkpoint := { o.checkpoint with advances := 0, takeshots := 0, commands := 0 } }

/-- The system right after construction. -/
def Sys.init (st sn : Int) (c : Checkpoint) (turn oldfine oldsnaps : Int)
    (num_ch : Int → Int) : Sys :=
  { o := Offline.construct st sn c turn oldfine oldsnaps num_ch, h := Host.start }

/-- A checkpoint store with every entry zero, for concrete runs. -/
def Checkpoint.zero : Checkpoint :=
  { ch := fun _ => 0, ord_ch := fun _ => 0, number_of_writes := fun _ => 0,
    number_of_reads := fun _ => 0, advances := 0, takeshots := 0, commands := 0 }

/-! ## Runs and the states they pass through -/

/-- `Run P s n t`: `n` calls lead from `s` to `t`, and `P` holds of every state passed,
both ends included. -/
def Run (P : Sys → Prop) (s : Sys) (n : Nat) (t : Sys) : Prop :=
  Sys.run n s = some t ∧ ∀ i u, i ≤ n → Sys.run i s = some u → P u

theorem run_succ_of_step {s t : Sys} (h : s.step = some t) (n : Nat) :
    Sys.run (n + 1) s = Sys.run n t := by
  simp only [Sys.run, h]

theorem run_add (m n : Nat) (s t : Sys) (h : Sys.run m s = some t) :
    Sys.run (m + n) s = Sys.run n t := by
  induction m generalizing s with
  | zero =>
    simp only [Sys.run] at h
    cases h
    simp
  | succ m ih =>
    have e : m + 1 + n = (m + n) + 1 := by omega
    rw [e]
    cases hs : s.step with
    | none => simp [Sys.run, hs] at h
    | some u =>
      rw [run_succ_of_step hs] at h ⊢
      exact ih u h

/-- Every shorter run from the same state exists as well. -/
theorem run_prefix (n : Nat) (s t : Sys) (h : Sys.run n s = some t) (i : Nat) (hi : i ≤ n) :
    ∃ u, Sys.run i s = some u := by
  induction i generalizing s n with
  | zero => exact ⟨s, rfl⟩
  | succ i ih =>
    cases n with
    | zero => omega
    | succ n =>
      cases hs : s.step with
      | none => simp [Sys.run, hs] at h
      | some u =>
        rw [run_succ_of_step hs] at h ⊢
        exact ih n u h (by omega)

theorem Run.refl {P : Sys → Prop} {s : Sys} (h : P s) : Run P s 0 s := by
  refine ⟨rfl, ?_⟩
  intro i u hi hu
  have : i = 0 := by omega
  subst this
  simp only [Sys.run] at hu
  cases hu
  exact h

theorem Run.trans {P : Sys → Prop} {s t u : Sys} {m n : Nat} (h1 : Run P s m t)
    (h2 : Run P t n u) : Run P s (m + n) u := by
  refine ⟨by rw [run_add m n s t h1.1]; exact h2.1, ?_⟩
  intro i v hi hv
  by_cases him : i ≤ m
  · exact h1.2 i v him hv
  · obtain ⟨j, rfl⟩ : ∃ j, i = m + j := ⟨i - m, by omega⟩
    rw [run_add m j s t h1.1] at hv
    exact h2.2 j v (by omega) hv

theorem Run.one {P : Sys → Prop} {s t : Sys} (h : s.step = some t) (hs : P s) (ht : P t) :
    Run P s 1 t := by
  refine ⟨by rw [run_succ_of_step h]; rfl, ?_⟩
  intro i u hi hu
  rcases Nat.le_one_iff_eq_zero_or_eq_one.mp hi with h0 | h1
  · subst h0
    simp only [Sys.run] at hu
    cases hu
    exact hs
  · subst h1
    rw [run_succ_of_step h] at hu
    simp only [Sys.run] at hu
    cases hu
    exact ht

theorem Run.mono {P Q : Sys → Prop} {s t : Sys} {n : Nat} (h : Run P s n t)
    (hPQ : ∀ u, P u → Q u) : Run Q s n t :=
  ⟨h.1, fun i u hi hu => hPQ u (h.2 i u hi hu)⟩

/-! ## Single calls of `Offline::revolve` -/

/-- The action of a combined forward/reverse step. -/
def turnAction (t : Int) : Action := if t = 0 then Action.firsturn else Action.youturn

/-- The turn flag after a reversal. -/
def turned (t : Int) : Int := if t = 0 then 1 else t

/-- The state with the command counter bumped, as every call leaves it. -/
def Offline.counted (o : Offline) : Offline :=
  { o with checkpoint := { o.checkpoint with commands := iadd o.checkpoint.commands 1 } }

/-- A combined forward/reverse step (`fine - capo = 1`) with a live slot. -/
theorem revolve_turn (o : Offline) (k a : Int) (hck : o.check = k) (hca : o.capo = a)
    (hf : o.fine = a + 1) (ha0 : 0 ≤ a) (ha : a < 16777216) (hk0 : 0 ≤ k) (hkk : k ≤ 64) :
    o.revolve = some (turnAction o.turn,
      { o.counted with
        fine := a
        check := if o.checkpoint.ch k = a then k - 1 else k
        turn := turned o.turn
        oldfine := a }) := by
  have e1 : isub (a + 1) a = 1 := by rw [isub_eq (by omega) (by omega)]; omega
  have e2 : isub (a + 1) 1 = a := by rw [isub_eq (by omega) (by omega)]; omega
  have e3 : isub k 1 = k - 1 := isub_eq (by omega) (by omega)
  have n1 : ¬ (k < -1 ∨ a > a + 1) := by omega
  have n2 : ¬ (k = -1 ∧ a < a + 1) := by omega
  unfold Offline.revolve Offline.case1 Offline.counted turnAction turned
  simp only [hck, hca, hf, n1, n2, e1, e2, e3, if_false, if_true, hk0, true_and]
  by_cases ht : o.turn = 0
  · simp [ht]
  · simp [ht]

/-- A restore (`fine = capo` with a live slot other than the sentinel test). -/
theorem revolve_restore (o : Offline) (k a : Int) (hon : o.online = false)
    (hck : o.check = k) (hca : o.capo = a) (hf : o.fine = a) (hk0 : 0 ≤ k)
    (h0 : o.checkpoint.ch 0 ≠ a) :
    o.revolve = some (Action.restore,
      { o with
        capo := o.checkpoint.ch k
        oldfine := a
        checkpoint := { o.checkpoint with
          commands := iadd o.checkpoint.commands 1
          number_of_reads := Function.update o.checkpoint.number_of_reads k
            (iadd (o.checkpoint.number_of_reads k) 1) } }) := by
  have e1 : isub a a = 0 := by rw [isub_eq (by omega) (by omega)]; omega
  have n1 : ¬ (k < -1 ∨ a > a) := by omega
  have n2 : ¬ (k = -1 ∧ a < a) := by omega
  have n3 : ¬ (k = -1 ∨ a = o.checkpoint.ch 0) := by
    intro h; rcases h with h | h
    · omega
    · exact h0 h.symm
  unfold Offline.revolve Offline.case0
  simp only [hck, hca, hf, hon, n1, n2, n3, e1, if_false, if_true]
  simp [hck]

/-- A takeshot into the next slot. -/
theorem revolve_shot (o : Offline) (k a l : Int) (hon : o.online = false)
    (hck : o.check = k) (hca : o.capo = a) (hf : o.fine = a + l) (ha0 : 0 ≤ a)
    (hal : a + l ≤ 16777216) (hl : 2 ≤ l) (hk0 : 0 ≤ k) (hks : k + 1 < o.snaps)
    (hs : o.snaps ≤ 64) (hne : o.checkpoint.ch k ≠ a) :
    o.revolve = some (Action.takeshot,
      { o with
        check := k + 1
        oldfine := a + l
        checkpoint := { o.checkpoint with
          commands := iadd o.checkpoint.commands 1
          ch := Function.update o.checkpoint.ch (k + 1) a
          takeshots := iadd o.checkpoint.takeshots 1
          number_of_writes := Function.update o.checkpoint.number_of_writes (k + 1)
            (iadd (o.checkpoint.number_of_writes (k + 1)) 1) } }) := by
  have e1 : isub (a + l) a = l := by rw [isub_eq (by omega) (by omega)]; omega
  have e2 : iadd k 1 = k + 1 := iadd_eq (by omega) (by omega)
  have e3 : iadd (k + 1) 1 = k + 1 + 1 := iadd_eq (by omega) (by omega)
  have n1 : ¬ (k < -1 ∨ a > a + l) := by omega
  have n2 : ¬ (k = -1 ∧ a < a + l) := by omega
  have n3 : ¬ l = 0 := by omega
  have n4 : ¬ l = 1 := by omega
  have n5 : ¬ k = -1 := by omega
  have n6 : ¬ (k + 1 ≥ checkup) := by unfold checkup; omega
  have n7 : ¬ (k + 1 + 1 > o.snaps) := by omega
  unfold Offline.revolve Offline.shot
  simp [hck, hca, hf, hon, n1, n2, n3, n4, n5, n6, n7, e1, e2, e3, hne]
  omega

/-- A repeated call once the run is over (`check = -1`, `fine = capo`). -/
theorem revolve_terminate (o : Offline) (hck : o.check = -1) (hf : o.fine = o.capo) :
    o.revolve = some (Action.terminate, o.counted) := by
  have e1 : isub o.capo o.capo = 0 := by rw [isub_eq (by omega) (by omega)]; omega
  have n1 : ¬ ((-1 : Int) < -1 ∨ o.capo > o.capo) := by omega
  have n2 : ¬ ((-1 : Int) = -1 ∧ o.capo < o.capo) := by omega
  unfold Offline.revolve Offline.case0 Offline.counted
  simp [hck, hf, e1]

/-- The hockey-stick bound `C(d+1+j, j) ≤ (j+1) * C(d+j, j)`. -/
theorem bz_succ_le (d : Int) (hd : 0 ≤ d) (j : Nat) :
    bz (d + 1) (j : Int) ≤ ((j : Int) + 1) * bz d (j : Int) := by
  induction j with
  | zero =>
    rw [Nat.cast_zero, bz_zero_right (by omega), bz_zero_right hd]; norm_num
  | succ j ih =>
    have hP := bz_pascal (d + 1) ((j + 1 : Nat) : Int) (by omega)
    have e1 : ((j + 1 : Nat) : Int) - 1 = (j : Int) := by push_cast; ring
    have e2 : d + 1 - 1 = d := by ring
    rw [e1, e2] at hP
    have hm := bz_mono_right d (j : Int)
    have e3 : (j : Int) + 1 = ((j + 1 : Nat) : Int) := by push_cast; ring
    rw [e3] at hm
    have h0 := bz_nonneg d (j : Int)
    have hj : (0 : Int) ≤ (j : Int) + 1 := by omega
    have : ((j : Int) + 1) * bz d (j : Int) ≤ ((j : Int) + 1) * bz d ((j + 1 : Nat) : Int) :=
      mul_le_mul_of_nonneg_left hm hj
    rw [hP]
    push_cast at *
    nlinarith

/-- The value of `numforw`: `r * steps - C(r + snaps, r - 1)` for the least `r` with
`steps ≤ C(r + snaps, r)`, which is never negative. -/
theorem numforw_spec (L C ρ : Int) (hC1 : 1 ≤ C) (hC : C ≤ 64) (hL : L ≤ 16777216)
    (hρ0 : 0 ≤ ρ) (hρ : ρ ≤ 64) (hLρ : L ≤ bz C ρ) :
    ∃ r, 0 ≤ r ∧ r ≤ ρ ∧ L ≤ bz C r ∧ (∀ j, 0 ≤ j → j < r → bz C j < L) ∧
      numforw L C = some (r * L - bz (C + 1) (r - 1)) ∧ 0 ≤ r * L - bz (C + 1) (r - 1) := by
  obtain ⟨r, hr0, hrρ, hup, hlow, hloop⟩ := repsLoop_start L C ρ hC1 hC hL hρ0 hρ hLρ
  refine ⟨r, hr0, hrρ, hup, hlow, ?_⟩
  have n1 : ¬ C < 1 := by omega
  have n2 : ¬ C > checkup := by unfold checkup; omega
  have n3 : ¬ r > repsup := by unfold repsup; omega
  unfold numforw
  rw [if_neg n1, if_neg n2, hloop]
  simp only [if_neg n3]
  by_cases h0 : r = 0
  · subst h0
    have e1 : imul 0 L = 0 := by unfold imul; rw [zero_mul]; rfl
    have e2 : imul (bz C 0) 0 = 0 := by unfold imul; rw [mul_zero]; rfl
    have e3 : idiv 0 (iadd C 1) = 0 := by unfold idiv; rw [Int.zero_tdiv]; rfl
    have e4 : isub 0 0 = 0 := by rfl
    rw [e1, e2, e3, e4, bz_neg_right _ (by omega)]
    simp
  · have hr1 : 1 ≤ r := by omega
    have hlow1 := hlow (r - 1) (by omega) (by omega)
    have hb1 := bz_pos (show 0 ≤ C by omega) (show 0 ≤ r - 1 by omega)
    have hm1 := mul_small (by omega) (by omega : bz C (r - 1) < 16777216)
      (by omega : 0 ≤ C + r) (by omega : C + r ≤ 128)
    have hid1 := bz_mul_right C r (by omega)
    have hid2 := bz_mul_cross (C + 1) (r - 1) (by omega) (by omega)
    have e1 : C + 1 - 1 = C := by ring
    have e2 : r - 1 + 1 = r := by ring
    rw [e1, e2] at hid2
    have hB := bz_nonneg (C + 1) (r - 1)
    have hsum : bz (C + 1) (r - 1) ≤ r * bz C (r - 1) := by
      have := bz_succ_le C (by omega) (r - 1).toNat
      have e : (((r - 1).toNat : Nat) : Int) = r - 1 := Int.toNat_of_nonneg (by omega)
      rw [e, e2] at this
      exact this
    have hrL : r * bz C (r - 1) < r * L := by nlinarith
    have hrL2 : r * L ≤ 64 * 16777216 := by nlinarith
    have e3 : imul r L = r * L := imul_eq (by nlinarith) (by omega)
    have e4 : imul (bz C r) r = bz C r * r := imul_eq (by rw [hid1]; omega) (by rw [hid1]; omega)
    have e5 : iadd C 1 = C + 1 := iadd_eq (by omega) (by omega)
    have e6 : idiv (bz C r * r) (C + 1) = bz (C + 1) (r - 1) :=
      idiv_exact (by omega) hB hid2 (by rw [hid1]; omega)
    rw [e3, e4, e5, e6, isub_eq (by omega) (by omega)]
    exact ⟨rfl, by omega⟩

/-- The value of `Revolve::get_r`: when `steps ≤ C(snaps + 64, 64)` it returns the least `r`
with `steps ≤ C(r + snaps, r)`, the repetition number, which is then at most `repsup`. -/
theorem get_r_spec (L C : Int) (hC1 : 1 ≤ C) (hC : C ≤ 64) (hL : L ≤ 16777216)
    (hr : L ≤ bz C 64) :
    ∃ r, get_r L C = some r ∧ 0 ≤ r ∧ r ≤ 64 ∧ L ≤ bz C r ∧
      ∀ j, 0 ≤ j → j < r → bz C j < L := by
  obtain ⟨r, hr0, hr64, hup, hlow, hloop⟩ :=
    repsLoop_start L C 64 hC1 hC hL (by omega) (le_refl _) hr
  refine ⟨r, ?_, hr0, hr64, hup, hlow⟩
  have n1 : ¬ C < 1 := by omega
  have n2 : ¬ C > checkup := by unfold checkup; omega
  have n3 : ¬ r > repsup := by unfold repsup; omega
  unfold get_r
  rw [if_neg n1, if_neg n2, hloop]
  simp only [if_neg n3]

/-- An advance from a slot that holds the current `capo`. -/
theorem revolve_adv (o : Offline) (k a l ds r : Int) (hon : o.online = false)
    (hck : o.check = k) (hca : o.capo = a) (hf : o.fine = a + l)
    (hof : o.oldfine = a + l) (hsn : o.snaps = k + ds) (hs : o.snaps ≤ 64)
    (hch : o.checkpoint.ch k = a) (hk0 : 0 ≤ k) (ha : 0 ≤ a) (hal : a + l ≤ 16777216)
    (hl2 : 2 ≤ l) (hds1 : 1 ≤ ds) (hr1 : 1 ≤ r) (hr : r ≤ 64)
    (hlow : bz ds (r - 1) < l) (hup : l ≤ bz ds r)
    (hloop : repsLoop (l.toNat + 1) l ds 0 1 = some (r, bz ds r))
    (hadv0 : 0 ≤ o.checkpoint.advances) (hadv : o.checkpoint.advances + l < 2147483648) :
    o.revolve = some (Action.advance,
      { o with
        capo := a + amount l ds r
        oldfine := a + l
        checkpoint := { o.checkpoint with
          commands := iadd o.checkpoint.commands 1
          advances := o.checkpoint.advances + amount l ds r } }) := by
  obtain ⟨hm1, hm2, -⟩ := amount_spec l ds r hds1 hr1 hlow hup
  have htgt := advanceTarget_eq a l ds r ha hal hds1 (by omega) hr1 hr hlow
  have e1 : isub (a + l) a = l := by rw [isub_eq (by omega) (by omega)]; omega
  have e2 : isub (k + ds) k = ds := by rw [isub_eq (by omega) (by omega)]; omega
  have e3 : isub (a + amount l ds r) a = amount l ds r := by
    rw [isub_eq (by omega) (by omega)]; omega
  have e4 : iadd o.checkpoint.advances (amount l ds r)
      = o.checkpoint.advances + amount l ds r := iadd_eq (by omega) (by omega)
  have n1 : ¬ (k < -1 ∨ a > a + l) := by omega
  have n2 : ¬ (k = -1 ∧ a < a + l) := by omega
  have n3 : ¬ l = 0 := by omega
  have n4 : ¬ l = 1 := by omega
  have n5 : ¬ k = -1 := by omega
  have n6 : ¬ ds < 1 := by omega
  have n7 : ¬ r > repsup := by unfold repsup; omega
  have n8 : ¬ k + ds > checkup := by unfold checkup; omega
  unfold Offline.revolve Offline.adv
  simp [hck, hca, hf, hof, hsn, hon, hch, n1, n2, n3, n4, n5, n6, n7, n8, e1, e2, e3, e4,
    hloop, htgt]
  omega

/-- The first takeshot of a run over at least two steps. -/
theorem revolve_initshot (o : Offline) (L ρ : Int) (hck : o.check = -1) (hca : o.capo = 0)
    (hf : o.fine = L) (hL2 : 2 ≤ L) (hL : L ≤ 16777216) (hs1 : 1 ≤ o.snaps)
    (hs : o.snaps ≤ 64) (hρ0 : 0 ≤ ρ) (hρ : ρ ≤ 64) (hLρ : L ≤ bz o.snaps ρ) :
    o.revolve = some (Action.takeshot,
      { o with
        turn := 0
        check := 0
        oldsnaps := o.snaps
        oldfine := L
        checkpoint := { o.checkpoint with
          commands := iadd o.checkpoint.commands 1
          ch := Function.update o.checkpoint.ch 0 0
          number_of_writes := Function.update o.checkpoint.number_of_writes 0
            (iadd (o.checkpoint.number_of_writes 0) 1)
          takeshots := iadd o.checkpoint.takeshots 1 } }) := by
  obtain ⟨r, -, -, -, -, hnum, hnn⟩ := numforw_spec L o.snaps ρ hs1 hs hL hρ0 hρ hLρ
  have e1 : isub L 0 = L := by rw [isub_eq (by omega) (by omega)]; omega
  have n1 : ¬ ((-1 : Int) < -1 ∨ (0 : Int) > L) := by omega
  have n3 : ¬ L = 0 := by omega
  have n4 : ¬ L = 1 := by omega
  have n5 : ¬ o.snaps > checkup := by unfold checkup; omega
  have n6 : ¬ (r * L - bz (o.snaps + 1) (r - 1) = -1) := by omega
  have p2 : (0 : Int) < L := by omega
  unfold Offline.revolve Offline.initshot
  simp [hck, hca, hf, n1, n3, n4, n5, n6, e1, p2, hnum]
  omega

/-- The single call of a run over no step at all. -/
theorem revolve_first_zero (o : Offline) (hck : o.check = -1) (hca : o.capo = 0)
    (hf : o.fine = 0) : o.revolve = some (Action.terminate, o.counted) :=
  revolve_terminate o hck (by rw [hf, hca])

/-- The first call of a run over exactly one step. -/
theorem revolve_first_one (o : Offline) (hck : o.check = -1) (hca : o.capo = 0)
    (hf : o.fine = 1) :
    o.revolve = some (Action.firsturn,
      { o with
        fine := 0
        turn := 1
        oldfine := 0
        checkpoint := { o.checkpoint with
          commands := iadd o.checkpoint.commands 1
          ch := Function.update o.checkpoint.ch 0 (-1) } }) := by
  have e1 : isub 1 0 = 1 := by decide
  have e2 : isub 0 1 = -1 := by decide
  have e3 : isub 1 1 = 0 := by decide
  unfold Offline.revolve Offline.case1
  simp [hck, hca, hf, e1, e2, e3]

/-! ## Reversing a sub-range -/

theorem Sys.step_eq {s : Sys} {a : Action} {o : Offline} (h : s.o.revolve = some (a, o)) :
    s.step = some { o := o, h := s.h.react a o } := by
  unfold Sys.step; rw [h]

theorem turnAction_ne_terminate (t : Int) : turnAction t ≠ Action.terminate := by
  unfold turnAction; split <;> decide

theorem turnAction_ne_error (t : Int) : turnAction t ≠ Action.error := by
  unfold turnAction; split <;> decide

theorem react_turnAction (h : Host) (t : Int) (o : Offline) :
    h.react (turnAction t) o
      = { h with turns := h.turns ++ [(turnAction t, o.fine, h.cur)],
                 acts := h.acts ++ [turnAction t] } := by
  unfold turnAction; split <;> rfl

/-- The entries the host records while the steps `a + l - 1, ..., a` are reversed in this
order from a state it holds exactly, the first by `firsturn` when `turn` is still `0`. -/
def turnEvents (t a : Int) : Nat → List (Action × Int × Int)
  | 0 => []
  | l + 1 => (turnAction t, a + l, a + l) :: turnEvents 1 a l

theorem turnEvents_append_one (a : Int) (m k : Nat) :
    turnEvents 1 (a + m) k ++ turnEvents 1 a m = turnEvents 1 a (k + m) := by
  induction k with
  | zero => simp [turnEvents]
  | succ k ih =>
    have e : k + 1 + m = (k + m) + 1 := by omega
    rw [e]
    simp only [turnEvents, List.cons_append, ih]
    have : a + (m : Int) + (k : Int) = a + ((k + m : Nat) : Int) := by push_cast; ring
    rw [this]

theorem turnEvents_append (t a : Int) (m k : Nat) :
    turnEvents t (a + m) (k + 1) ++ turnEvents 1 a m = turnEvents t a (k + m + 1) := by
  simp only [turnEvents, List.cons_append, turnEvents_append_one]
  have : a + (m : Int) + (k : Int) = a + ((k + m : Nat) : Int) := by push_cast; ring
  rw [this]

theorem turned_ne_zero (t : Int) : turned t ≠ 0 := by
  unfold turned; split
  · decide
  · assumption

theorem turned_turned (t : Int) : turned (turned t) = turned t := by
  have h := turned_ne_zero t
  generalize turned t = x at h ⊢
  unfold turned
  rw [if_neg h]

theorem turnEvents_turned (t a : Int) (l : Nat) :
    turnEvents (turned t) a l = turnEvents 1 a l := by
  cases l with
  | zero => rfl
  | succ l =>
    simp only [turnEvents, turnAction, if_neg (turned_ne_zero t)]
    simp

/-- The part of the system the reversal argument follows: the control variables of the
scheduler, the slot table, the advance counter and the host. -/
structure View where
  online : Bool
  snaps : Int
  check : Int
  capo : Int
  fine : Int
  oldfine : Int
  turn : Int
  advances : Int
  ch : Int → Int
  cur : Int
  slots : Int → Option Int
  turns : List (Action × Int × Int)
  restoresOk : Bool
  acts : List Action

/-- The view of a system. -/
def Sys.view (s : Sys) : View :=
  { online := s.o.online
    snaps := s.o.snaps
    check := s.o.check
    capo := s.o.capo
    fine := s.o.fine
    oldfine := s.o.oldfine
    turn := s.o.turn
    advances := s.o.checkpoint.advances
    ch := s.o.checkpoint.ch
    cur := s.h.cur
    slots := s.h.slots
    turns := s.h.turns
    restoresOk := s.h.restoresOk
    acts := s.h.acts }

/-- The scheduler stands at the start of the sub-range `[a, f]`, whose first state is held
by the host and stored in slot `k`. -/
structure Ready (C : Int) (v : View) (k a f : Int) : Prop where
  online : v.online = false
  snaps : v.snaps = C
  check : v.check = k
  capo : v.capo = a
  fine : v.fine = f
  oldfine : v.oldfine = f
  chk : v.ch k = a
  ch0 : v.ch 0 ≤ a
  cur : v.cur = a
  slot : v.slots k = some a
  noterm : Action.terminate ∉ v.acts
  noerr : Action.error ∉ v.acts

/-- What holds of every state passed while the sub-range `[a, f]` is reversed with the
slots above `k`, starting from the view `v`. -/
structure Inside (C : Int) (v : View) (k a f : Int) (u : View) : Prop where
  online : u.online = false
  snaps : u.snaps = C
  check_ge : k - 1 ≤ u.check
  check_lt : u.check < C
  capo_ge : a ≤ u.capo
  capo_le : u.capo ≤ u.fine
  fine_le : u.fine ≤ f
  frame : ∀ j, j ≤ k → u.ch j = v.ch j
  sorted : ∀ j, k ≤ j → j < u.check → u.ch j < u.ch (j + 1)
  top : k ≤ u.check → u.ch u.check ≤ u.capo
  cur : u.cur = u.capo
  noterm : Action.terminate ∉ u.acts
  noerr : Action.error ∉ u.acts

/-- The state reached once the sub-range of length `l` starting at `a` is reversed, after
`cnt` steps of advancing, `l - 1` restores and at most `l - 2` takeshots. -/
structure Done (v : View) (k a : Int) (l : Nat) (cnt : Int) (u : View) : Prop where
  check : u.check = k - 1
  capo : u.capo = a
  fine : u.fine = a
  oldfine : u.oldfine = a
  turn : u.turn = turned v.turn
  advances : u.advances = v.advances + cnt
  slots : ∀ j, j ≤ k → u.slots j = v.slots j
  turns : u.turns = v.turns ++ turnEvents v.turn a l
  restoresOk : u.restoresOk = v.restoresOk
  takes : u.acts.count Action.takeshot ≤ v.acts.count Action.takeshot + (l - 2)
  restores : u.acts.count Action.restore = v.acts.count Action.restore + (l - 1)

/-- Counting an action in a record of actions that grew by one. -/
theorem count_append_one (x y : Action) (l : List Action) :
    (l ++ [y]).count x = l.count x + (if y = x then 1 else 0) := by
  rw [List.count_append, List.count_singleton]
  by_cases h : y = x <;> simp [h]

theorem count_append_turn (x : Action) (hx : x = Action.takeshot ∨ x = Action.restore)
    (t : Int) (l : List Action) : (l ++ [turnAction t]).count x = l.count x := by
  rw [count_append_one]
  unfold turnAction
  rcases hx with h | h <;> subst h <;> split <;> simp

theorem Ready.inside {C : Int} {v : View} {k a f : Int} (h : Ready C v k a f) (hk : k < C)
    (haf : a ≤ f) : Inside C v k a f v where
  online := h.online
  snaps := h.snaps
  check_ge := by rw [h.check]; omega
  check_lt := by rw [h.check]; exact hk
  capo_ge := by rw [h.capo]
  capo_le := by rw [h.capo, h.fine]; exact haf
  fine_le := by rw [h.fine]
  frame := fun _ _ => rfl
  sorted := by intro j h1 h2; rw [h.check] at h2; omega
  top := by intro _; rw [h.check, h.chk, h.capo]
  cur := by rw [h.cur, h.capo]
  noterm := h.noterm
  noerr := h.noerr

/-- States passed while the upper part `[a + m, f]` is reversed above slot `k + 1` are
states passed while `[a, f]` is reversed above slot `k`. -/
theorem Inside.lift_upper {C : Int} {v w u : View} {k a m f : Int}
    (h : Inside C w (k + 1) (a + m) f u) (hm : 1 ≤ m) (hw : ∀ j, j ≤ k → w.ch j = v.ch j)
    (hvk : v.ch k = a) (hwk : w.ch (k + 1) = a + m) : Inside C v k a f u where
  online := h.online
  snaps := h.snaps
  check_ge := by have := h.check_ge; omega
  check_lt := h.check_lt
  capo_ge := by have := h.capo_ge; omega
  capo_le := h.capo_le
  fine_le := h.fine_le
  frame := by
    intro j hj
    rw [h.frame j (by omega), hw j hj]
  sorted := by
    intro j h1 h2
    rcases eq_or_lt_of_le h1 with e | e
    · subst e
      rw [h.frame k (by omega), h.frame (k + 1) (by omega), hw k (le_refl k), hvk, hwk]
      omega
    · exact h.sorted j (by omega) h2
  top := by
    intro hk
    rcases eq_or_lt_of_le hk with e | e
    · rw [← e, h.frame k (by omega), hw k (le_refl k), hvk]
      have := h.capo_ge; omega
    · exact h.top (by omega)
  cur := h.cur
  noterm := h.noterm
  noerr := h.noerr

/-- States passed while the lower part `[a, a + m]` is reversed are states passed while
`[a, f]` is reversed. -/
theorem Inside.lift_lower {C : Int} {v w u : View} {k a g f : Int}
    (h : Inside C w k a g u) (hg : g ≤ f) (hw : ∀ j, j ≤ k → w.ch j = v.ch j) :
    Inside C v k a f u where
  online := h.online
  snaps := h.snaps
  check_ge := h.check_ge
  check_lt := h.check_lt
  capo_ge := h.capo_ge
  capo_le := h.capo_le
  fine_le := le_trans h.fine_le hg
  frame := by
    intro j hj
    rw [h.frame j hj, hw j hj]
  sorted := h.sorted
  top := h.top
  cur := h.cur
  noterm := h.noterm
  noerr := h.noerr

/-! ### Single calls, seen through the view -/

theorem view_turn (s : Sys) (k a : Int) (hck : s.view.check = k) (hca : s.view.capo = a)
    (hf : s.view.fine = a + 1) (ha0 : 0 ≤ a) (ha : a < 16777216) (hk0 : 0 ≤ k)
    (hkk : k ≤ 64) :
    ∃ t, s.step = some t ∧ t.view =
      { s.view with
        fine := a
        check := if s.view.ch k = a then k - 1 else k
        turn := turned s.view.turn
        oldfine := a
        turns := s.view.turns ++ [(turnAction s.view.turn, a, s.view.cur)]
        acts := s.view.acts ++ [turnAction s.view.turn] } := by
  refine ⟨_, Sys.step_eq (revolve_turn s.o k a hck hca hf ha0 ha hk0 hkk), ?_⟩
  simp [Sys.view, react_turnAction, Offline.counted]

theorem view_restore (s : Sys) (k a : Int) (hon : s.view.online = false)
    (hck : s.view.check = k) (hca : s.view.capo = a) (hf : s.view.fine = a) (hk0 : 0 ≤ k)
    (h0 : s.view.ch 0 ≠ a) :
    ∃ t, s.step = some t ∧ t.view =
      { s.view with
        capo := s.view.ch k
        oldfine := a
        cur := s.view.ch k
        restoresOk := s.view.restoresOk && decide (s.view.slots k = some (s.view.ch k))
        acts := s.view.acts ++ [Action.restore] } := by
  refine ⟨_, Sys.step_eq (revolve_restore s.o k a hon hck hca hf hk0 h0), ?_⟩
  have : s.o.check = k := hck
  simp [Sys.view, Host.react, this]

theorem view_shot (s : Sys) (k a l : Int) (hon : s.view.online = false)
    (hck : s.view.check = k) (hca : s.view.capo = a) (hf : s.view.fine = a + l)
    (ha0 : 0 ≤ a) (hal : a + l ≤ 16777216) (hl : 2 ≤ l) (hk0 : 0 ≤ k)
    (hks : k + 1 < s.view.snaps) (hs : s.view.snaps ≤ 64) (hne : s.view.ch k ≠ a) :
    ∃ t, s.step = some t ∧ t.view =
      { s.view with
        check := k + 1
        oldfine := a + l
        ch := Function.update s.view.ch (k + 1) a
        slots := Function.update s.view.slots (k + 1) (some s.view.cur)
        acts := s.view.acts ++ [Action.takeshot] } := by
  refine ⟨_, Sys.step_eq (revolve_shot s.o k a l hon hck hca hf ha0 hal hl hk0 hks hs hne), ?_⟩
  simp [Sys.view, Host.react]

theorem view_adv (s : Sys) (k a l ds r : Int) (hon : s.view.online = false)
    (hck : s.view.check = k) (hca : s.view.capo = a) (hf : s.view.fine = a + l)
    (hof : s.view.oldfine = a + l) (hsn : s.view.snaps = k + ds) (hs : s.view.snaps ≤ 64)
    (hch : s.view.ch k = a) (hk0 : 0 ≤ k) (ha : 0 ≤ a) (hal : a + l ≤ 16777216)
    (hl2 : 2 ≤ l) (hds1 : 1 ≤ ds) (hr1 : 1 ≤ r) (hr : r ≤ 64)
    (hlow : bz ds (r - 1) < l) (hup : l ≤ bz ds r)
    (hloop : repsLoop (l.toNat + 1) l ds 0 1 = some (r, bz ds r))
    (hadv0 : 0 ≤ s.view.advances) (hadv : s.view.advances + l < 2147483648) :
    ∃ t, s.step = some t ∧ t.view =
      { s.view with
        capo := a + amount l ds r
        oldfine := a + l
        advances := s.view.advances + amount l ds r
        cur := a + amount l ds r
        acts := s.view.acts ++ [Action.advance] } := by
  refine ⟨_, Sys.step_eq (revolve_adv s.o k a l ds r hon hck hca hf hof hsn hs hch hk0 ha hal
    hl2 hds1 hr1 hr hlow hup hloop hadv0 hadv), ?_⟩
  simp [Sys.view, Host.react]

/-! ### Counting the steps advanced -/

theorem bz_one_left {r : Int} (hr : 0 ≤ r) : bz 1 r = r + 1 := by
  obtain ⟨r, rfl⟩ := Int.eq_ofNat_of_zero_le hr
  have := bz_nat 1 r
  rw [Nat.cast_one] at this
  rw [this, Nat.add_comm 1 r, Nat.choose_succ_self_right]
  push_cast; ring

/-- A sub-range of a single step fits `r` repetitions only when `C(d + r, r - 1) = r`. -/
theorem one_count (d r : Int) (hd : 0 ≤ d) (hr : 1 ≤ r) (h : bz d (r - 1) ≤ 1) :
    bz (d + 1) (r - 1) = r := by
  by_cases h0 : d = 0
  · subst h0
    rw [zero_add, bz_one_left (by omega)]; ring
  · have := bz_ge_succ (show 1 ≤ d by omega) (show 0 ≤ r - 1 by omega)
    have hr1 : r = 1 := by omega
    subst hr1
    exact bz_zero_right (by omega)

/-- The count `r * l - C(ds + r, r - 1)` does not depend on which admissible `r` is
taken when `l` sits on a boundary `C(ds + r, r)`. -/
theorem count_unique (l ds r r' : Int) (hds : 1 ≤ ds) (hr : 1 ≤ r) (hlow : bz ds (r - 1) < l)
    (hup : l ≤ bz ds r) (hr' : 1 ≤ r') (hlow' : bz ds (r' - 1) ≤ l) (hup' : l ≤ bz ds r') :
    r' * l - bz (ds + 1) (r' - 1) = r * l - bz (ds + 1) (r - 1) := by
  have h1 : r ≤ r' := by
    by_contra hc
    have := bz_mono_right_le ds (show r' ≤ r - 1 by omega)
    omega
  have h2 : r' ≤ r + 1 := by
    by_contra hc
    have h3 := bz_mono_right_le ds (show r + 1 ≤ r' - 1 by omega)
    have h4 := bz_lt_right hds (show 0 ≤ r by omega)
    omega
  rcases eq_or_lt_of_le h1 with e | e
  · rw [e]
  · have e' : r' = r + 1 := by omega
    subst e'
    have e1 : r + 1 - 1 = r := by ring
    rw [e1] at hlow' ⊢
    have hl : l = bz ds r := le_antisymm hup hlow'
    have hP := bz_pascal (ds + 1) r (by omega)
    have e2 : ds + 1 - 1 = ds := by ring
    rw [e2] at hP
    rw [hP, ← hl]; ring

theorem inside_flat {C : Int} {v u : View} {k a f : Int} (hon : u.online = false)
    (hsn : u.snaps = C) (hck : u.check = k) (hk : k < C) (h1 : a ≤ u.capo)
    (h2 : u.capo ≤ u.fine) (h3 : u.fine ≤ f) (hch : ∀ j, j ≤ k → u.ch j = v.ch j)
    (hvk : v.ch k = a) (hcur : u.cur = u.capo) (ht : Action.terminate ∉ u.acts)
    (he : Action.error ∉ u.acts) : Inside C v k a f u where
  online := hon
  snaps := hsn
  check_ge := by rw [hck]; omega
  check_lt := by rw [hck]; exact hk
  capo_ge := h1
  capo_le := h2
  fine_le := h3
  frame := hch
  sorted := by intro j h4 h5; rw [hck] at h5; omega
  top := by intro _; rw [hck, hch k (le_refl k), hvk]; exact h1
  cur := hcur
  noterm := ht
  noerr := he

theorem not_mem_append_one {x y : Action} {l : List Action} (h : x ∉ l) (hxy : x ≠ y) :
    x ∉ l ++ [y] := by
  intro hm
  rcases List.mem_append.mp hm with h1 | h1
  · exact h h1
  · exact hxy (List.mem_singleton.mp h1)

/-- Reversing a sub-range of a single step: one `firsturn`/`youturn`, which frees the slot. -/
theorem reverse_one (C : Int) (hC : C ≤ 64) (s : Sys) (k a : Int) (hk0 : 0 ≤ k) (hk : k < C)
    (hR : Ready C s.view k a (a + 1)) (ha0 : 0 ≤ a) (ha : a + 1 ≤ 16777216) :
    ∃ t, Run (fun u => Inside C s.view k a (a + 1) u.view) s 1 t ∧
      Done s.view k a 1 0 t.view := by
  obtain ⟨t, hst, hv⟩ := view_turn s k a hR.check hR.capo hR.fine ha0 (by omega) hk0 (by omega)
  rw [if_pos hR.chk] at hv
  refine ⟨t, Run.one hst (hR.inside hk (by omega)) ?_, ?_⟩
  · show Inside C s.view k a (a + 1) t.view
    rw [hv]
    exact
      { online := hR.online
        snaps := hR.snaps
        check_ge := le_refl _
        check_lt := by show k - 1 < C; omega
        capo_ge := by show a ≤ s.view.capo; rw [hR.capo]
        capo_le := by show s.view.capo ≤ a; rw [hR.capo]
        fine_le := by show a ≤ a + 1; omega
        frame := fun _ _ => rfl
        sorted := by intro j h1 h2; have : j < k - 1 := h2; omega
        top := by intro h; have : k ≤ k - 1 := h; omega
        cur := by show s.view.cur = s.view.capo; rw [hR.cur, hR.capo]
        noterm := not_mem_append_one hR.noterm (turnAction_ne_terminate _).symm
        noerr := not_mem_append_one hR.noerr (turnAction_ne_error _).symm }
  · rw [hv]
    exact
      { check := rfl
        capo := hR.capo
        fine := rfl
        oldfine := rfl
        turn := rfl
        advances := by show s.view.advances = s.view.advances + 0; omega
        slots := fun _ _ => rfl
        turns := by
          show s.view.turns ++ [(turnAction s.view.turn, a, s.view.cur)]
            = s.view.turns ++ turnEvents s.view.turn a 1
          rw [hR.cur]
          simp [turnEvents]
        restoresOk := rfl
        takes := by
          show (s.view.acts ++ [turnAction s.view.turn]).count Action.takeshot ≤ _
          rw [count_append_turn _ (Or.inl rfl)]
          omega
        restores := by
          show (s.view.acts ++ [turnAction s.view.turn]).count Action.restore = _
          rw [count_append_turn _ (Or.inr rfl)]
          omega }

/-- The shape of a reversal: what `n` calls do from any state that is `Ready` for a
sub-range of length `l` above slot `k`, with at most `ρ` repetitions. -/
def Reverses (C k : Int) (l : Nat) (ρ : Int) (n : Nat) (cnt : Int) : Prop :=
  ∀ (s : Sys) (a : Int), Ready C s.view k a (a + l) → 0 ≤ a → a + l ≤ 16777216 →
    0 ≤ s.view.advances → s.view.advances + ρ * l < 2147483648 →
    ∃ t, Run (fun u => Inside C s.view k a (a + l) u.view) s n t ∧
      Done s.view k a l cnt t.view

/-- A sub-range of at least two steps whose advance leaves at least two steps above the
target: advance, takeshot, reversal of the upper part, restore, reversal of the lower
part. -/
theorem reverse_split (C : Int) (hC : C ≤ 64) (k r : Int) (l l1 mN n1 n2 : Nat)
    (cnt1 cnt2 : Int) (hk0 : 0 ≤ k) (hk : k + 1 < C) (hl : l = l1 + mN) (hm1 : 1 ≤ mN)
    (hl1 : 2 ≤ l1) (hr1 : 1 ≤ r) (hr : r ≤ 64) (hlow : bz (C - k) (r - 1) < l)
    (hup : (l : Int) ≤ bz (C - k) r)
    (hloop : repsLoop ((l : Int).toNat + 1) l (C - k) 0 1 = some (r, bz (C - k) r))
    (hamount : amount l (C - k) r = mN) (hc1 : cnt1 ≤ r * l1) (hc10 : 0 ≤ cnt1)
    (run1 : Reverses C (k + 1) l1 r n1 cnt1) (run2 : Reverses C k mN (r - 1) n2 cnt2) :
    Reverses C k l r (1 + 1 + n1 + 1 + n2) (mN + cnt1 + cnt2) := by
  intro s a hR ha0 hal hadv0 hadv
  have hlI : (l : Int) = l1 + mN := by rw [hl]; push_cast; ring
  have hrm : (mN : Int) ≤ r * mN := by nlinarith
  have hrl : r * (l : Int) = r * l1 + r * mN := by rw [hlI]; ring
  have hrl1 : (0 : Int) ≤ r * l1 := by positivity
  have hrm1 : (r - 1) * (mN : Int) = r * mN - mN := by ring
  have hll : (l : Int) ≤ r * l := by nlinarith
  -- advance
  obtain ⟨s1, hs1, hv1⟩ := view_adv s k a l (C - k) r hR.online hR.check hR.capo hR.fine
    hR.oldfine (by rw [hR.snaps]; ring) (by rw [hR.snaps]; exact hC) hR.chk hk0 ha0 hal
    (by omega) (by omega) hr1 hr hlow hup hloop hadv0 (by omega)
  rw [hamount] at hv1
  have hI1 : Inside C s.view k a (a + l) s1.view := by
    rw [hv1]
    exact inside_flat hR.online hR.snaps hR.check (by omega) (by show a ≤ a + (mN : Int); omega)
      (by show a + (mN : Int) ≤ s.view.fine; rw [hR.fine]; omega)
      (by show s.view.fine ≤ a + l; rw [hR.fine]) (fun _ _ => rfl) hR.chk rfl
      (not_mem_append_one hR.noterm (by decide)) (not_mem_append_one hR.noerr (by decide))
  -- takeshot
  obtain ⟨s2, hs2, hv2⟩ := view_shot s1 k (a + mN) l1
    (by rw [hv1]; exact hR.online) (by rw [hv1]; exact hR.check) (by rw [hv1])
    (by rw [hv1]; show s.view.fine = _; rw [hR.fine]; omega) (by omega) (by omega) (by omega)
    hk0 (by rw [hv1]; show k + 1 < s.view.snaps; rw [hR.snaps]; exact hk)
    (by rw [hv1]; show s.view.snaps ≤ 64; rw [hR.snaps]; exact hC)
    (by rw [hv1]; show s.view.ch k ≠ _; rw [hR.chk]; omega)
  rw [hv1] at hv2
  have hR2 : Ready C s2.view (k + 1) (a + mN) (a + mN + l1) := by
    rw [hv2]
    exact
      { online := hR.online
        snaps := hR.snaps
        check := rfl
        capo := rfl
        fine := by show s.view.fine = _; rw [hR.fine]; omega
        oldfine := rfl
        chk := by show Function.update s.view.ch (k + 1) (a + mN) (k + 1) = _; simp
        ch0 := by
          show Function.update s.view.ch (k + 1) (a + mN) 0 ≤ _
          rw [Function.update_noteq (by omega)]
          have := hR.ch0; omega
        cur := rfl
        slot := by
          show Function.update s.view.slots (k + 1) (some (a + (mN : Int))) (k + 1) = _
          simp
        noterm := not_mem_append_one (not_mem_append_one hR.noterm (by decide)) (by decide)
        noerr := not_mem_append_one (not_mem_append_one hR.noerr (by decide)) (by decide) }
  have h2ch : ∀ j, j ≤ k → s2.view.ch j = s.view.ch j := by
    intro j hj
    rw [hv2]
    show Function.update s.view.ch (k + 1) (a + mN) j = _
    rw [Function.update_noteq (by omega)]
  have h2k1 : s2.view.ch (k + 1) = a + mN := hR2.chk
  have h2adv : s2.view.advances = s.view.advances + mN := by rw [hv2]
  have h2turn : s2.view.turn = s.view.turn := by rw [hv2]
  have h2turns : s2.view.turns = s.view.turns := by rw [hv2]
  have h2ok : s2.view.restoresOk = s.view.restoresOk := by rw [hv2]
  have h2slots : ∀ j, j ≤ k → s2.view.slots j = s.view.slots j := by
    intro j hj
    rw [hv2]
    show Function.update s.view.slots (k + 1) (some (a + (mN : Int))) j = _
    rw [Function.update_noteq (by omega)]
  have hI2 : Inside C s.view k a (a + l) s2.view := by
    have := (hR2.inside (by omega) (by omega)).lift_upper (v := s.view) (by omega) h2ch
      hR.chk h2k1
    have e : a + (mN : Int) + l1 = a + l := by omega
    rwa [e] at this
  -- the upper part
  obtain ⟨s3, hrun1, hD1⟩ := run1 s2 (a + mN) hR2 (by omega) (by omega)
    (by rw [h2adv]; omega) (by rw [h2adv]; omega)
  have hI3 := hrun1.2 n1 s3 (le_refl _) hrun1.1
  have h3chk : s3.view.ch k = a := by rw [hI3.frame k (by omega), h2ch k (le_refl k), hR.chk]
  have h3ch0 : s3.view.ch 0 ≤ a := by
    rw [hI3.frame 0 (by omega), h2ch 0 hk0]; exact hR.ch0
  have h3slot : s3.view.slots k = some a := by
    rw [hD1.slots k (by omega), h2slots k (le_refl k)]; exact hR.slot
  -- restore
  obtain ⟨s4, hs4, hv4⟩ := view_restore s3 k (a + mN) hI3.online
    (by rw [hD1.check]; ring) hD1.capo hD1.fine hk0 (by omega)
  rw [h3chk, h3slot] at hv4
  have hR4 : Ready C s4.view k a (a + mN) := by
    rw [hv4]
    exact
      { online := hI3.online
        snaps := hI3.snaps
        check := by show s3.view.check = k; rw [hD1.check]; ring
        capo := rfl
        fine := hD1.fine
        oldfine := rfl
        chk := h3chk
        ch0 := h3ch0
        cur := rfl
        slot := h3slot
        noterm := not_mem_append_one hI3.noterm (by decide)
        noerr := not_mem_append_one hI3.noerr (by decide) }
  have h4ch : ∀ j, j ≤ k → s4.view.ch j = s.view.ch j := by
    intro j hj
    rw [hv4]
    show s3.view.ch j = _
    rw [hI3.frame j (by omega), h2ch j hj]
  have h4adv : s4.view.advances = s.view.advances + mN + cnt1 := by
    rw [hv4]; show s3.view.advances = _; rw [hD1.advances, h2adv]
  have h4turn : s4.view.turn = turned s.view.turn := by
    rw [hv4]; show s3.view.turn = _; rw [hD1.turn, h2turn]
  -- the lower part
  obtain ⟨s5, hrun2, hD2⟩ := run2 s4 a hR4 ha0 (by omega) (by rw [h4adv]; omega)
    (by rw [h4adv]; omega)
  refine ⟨s5, ?_, ?_⟩
  · have r1 : Run (fun u => Inside C s.view k a (a + l) u.view) s 1 s1 :=
      Run.one hs1 (hR.inside (by omega) (by omega)) hI1
    have r2 : Run (fun u => Inside C s.view k a (a + l) u.view) s1 1 s2 := Run.one hs2 hI1 hI2
    have r3 : Run (fun u => Inside C s.view k a (a + l) u.view) s2 n1 s3 := by
      refine Run.mono hrun1 ?_
      intro u hu
      have := hu.lift_upper (v := s.view) (by omega) h2ch hR.chk h2k1
      have e : a + (mN : Int) + l1 = a + l := by omega
      rwa [e] at this
    have r4 : Run (fun u => Inside C s.view k a (a + l) u.view) s3 1 s4 :=
      Run.one hs4 (r3.2 n1 s3 (le_refl _) r3.1)
        ((hR4.inside (by omega) (by omega)).lift_lower (by omega) h4ch)
    have r5 : Run (fun u => Inside C s.view k a (a + l) u.view) s4 n2 s5 :=
      Run.mono hrun2 (fun u hu => hu.lift_lower (by omega) h4ch)
    exact (((r1.trans r2).trans r3).trans r4).trans r5
  · exact
      { check := hD2.check
        capo := hD2.capo
        fine := hD2.fine
        oldfine := hD2.oldfine
        turn := by rw [hD2.turn, h4turn, turned_turned]
        advances := by rw [hD2.advances, h4adv]; ring
        slots := by
          intro j hj
          rw [hD2.slots j hj, hv4]
          show s3.view.slots j = _
          rw [hD1.slots j (by omega), h2slots j hj]
        turns := by
          rw [hD2.turns, h4turn, turnEvents_turned, hv4]
          show s3.view.turns ++ _ = _
          rw [hD1.turns, h2turns, h2turn, List.append_assoc]
          obtain ⟨j, rfl⟩ : ∃ j, l1 = j + 1 := ⟨l1 - 1, by omega⟩
          rw [turnEvents_append, hl]
          have : j + mN + 1 = j + 1 + mN := by omega
          rw [this]
        restoresOk := by
          rw [hD2.restoresOk, hv4]
          show (s3.view.restoresOk && decide (some a = some a)) = _
          rw [hD1.restoresOk, h2ok]
          simp
        takes := by
          have e2 : s2.view.acts = (s.view.acts ++ [Action.advance]) ++ [Action.takeshot] := by
            rw [hv2]
          have e4 : s4.view.acts = s3.view.acts ++ [Action.restore] := by rw [hv4]
          have h1 := hD1.takes
          have h2 := hD2.takes
          rw [e4, count_append_one] at h2
          rw [e2, count_append_one, count_append_one] at h1
          simp at h1 h2
          omega
        restores := by
          have e2 : s2.view.acts = (s.view.acts ++ [Action.advance]) ++ [Action.takeshot] := by
            rw [hv2]
          have e4 : s4.view.acts = s3.view.acts ++ [Action.restore] := by rw [hv4]
          have h1 := hD1.restores
          have h2 := hD2.restores
          rw [e4, count_append_one] at h2
          rw [e2, count_append_one, count_append_one] at h1
          simp at h1 h2
          omega }

/-- A sub-range of at least two steps whose advance stops one step below `fine`: advance,
`firsturn`/`youturn`, restore, reversal of the lower part. -/
theorem reverse_tail (C : Int) (hC : C ≤ 64) (k r : Int) (l mN n2 : Nat) (cnt2 : Int)
    (hk0 : 0 ≤ k) (hk : k < C) (hl : l = mN + 1) (hm1 : 1 ≤ mN) (hr1 : 1 ≤ r) (hr : r ≤ 64)
    (hlow : bz (C - k) (r - 1) < l) (hup : (l : Int) ≤ bz (C - k) r)
    (hloop : repsLoop ((l : Int).toNat + 1) l (C - k) 0 1 = some (r, bz (C - k) r))
    (hamount : amount l (C - k) r = mN) (run2 : Reverses C k mN (r - 1) n2 cnt2) :
    Reverses C k l r (1 + 1 + 1 + n2) (mN + cnt2) := by
  intro s a hR ha0 hal hadv0 hadv
  have hlI : (l : Int) = mN + 1 := by rw [hl]; push_cast; ring
  have hrm : (mN : Int) ≤ r * mN := by nlinarith
  have hrl : r * (l : Int) = r * mN + r := by rw [hlI]; ring
  have hrm1 : (r - 1) * (mN : Int) = r * mN - mN := by ring
  have hll : (l : Int) ≤ r * l := by nlinarith
  -- advance
  obtain ⟨s1, hs1, hv1⟩ := view_adv s k a l (C - k) r hR.online hR.check hR.capo hR.fine
    hR.oldfine (by rw [hR.snaps]; ring) (by rw [hR.snaps]; exact hC) hR.chk hk0 ha0 hal
    (by omega) (by omega) hr1 hr hlow hup hloop hadv0 (by omega)
  rw [hamount] at hv1
  have hI1 : Inside C s.view k a (a + l) s1.view := by
    rw [hv1]
    exact inside_flat hR.online hR.snaps hR.check (by omega) (by show a ≤ a + (mN : Int); omega)
      (by show a + (mN : Int) ≤ s.view.fine; rw [hR.fine]; omega)
      (by show s.view.fine ≤ a + l; rw [hR.fine]) (fun _ _ => rfl) hR.chk rfl
      (not_mem_append_one hR.noterm (by decide)) (not_mem_append_one hR.noerr (by decide))
  -- the combined step
  obtain ⟨s2, hs2, hv2⟩ := view_turn s1 k (a + mN)
    (by rw [hv1]; exact hR.check) (by rw [hv1])
    (by rw [hv1]; show s.view.fine = _; rw [hR.fine]; omega) (by omega) (by omega) hk0
    (by omega)
  rw [hv1] at hv2
  have hne : ¬ s.view.ch k = a + mN := by rw [hR.chk]; omega
  simp only [hne, if_false] at hv2
  have hI2 : Inside C s.view k a (a + l) s2.view := by
    rw [hv2]
    exact inside_flat hR.online hR.snaps rfl (by omega) (by show a ≤ a + (mN : Int); omega)
      (le_refl _) (by show a + (mN : Int) ≤ a + l; omega) (fun _ _ => rfl) hR.chk rfl
      (not_mem_append_one (not_mem_append_one hR.noterm (by decide))
        (turnAction_ne_terminate _).symm)
      (not_mem_append_one (not_mem_append_one hR.noerr (by decide))
        (turnAction_ne_error _).symm)
  -- restore
  obtain ⟨s3, hs3, hv3⟩ := view_restore s2 k (a + mN)
    (by rw [hv2]; exact hR.online) (by rw [hv2]) (by rw [hv2]) (by rw [hv2])
    hk0 (by rw [hv2]; show s.view.ch 0 ≠ _; have := hR.ch0; omega)
  rw [hv2] at hv3
  simp only [hR.chk, hR.slot] at hv3
  have hR3 : Ready C s3.view k a (a + mN) := by
    rw [hv3]
    exact
      { online := hR.online
        snaps := hR.snaps
        check := rfl
        capo := rfl
        fine := rfl
        oldfine := rfl
        chk := hR.chk
        ch0 := hR.ch0
        cur := rfl
        slot := hR.slot
        noterm := not_mem_append_one (not_mem_append_one (not_mem_append_one hR.noterm
          (by decide)) (turnAction_ne_terminate _).symm) (by decide)
        noerr := not_mem_append_one (not_mem_append_one (not_mem_append_one hR.noerr
          (by decide)) (turnAction_ne_error _).symm) (by decide) }
  have h3ch : ∀ j, j ≤ k → s3.view.ch j = s.view.ch j := by
    intro j _; rw [hv3]
  have h3adv : s3.view.advances = s.view.advances + mN := by rw [hv3]
  have h3turn : s3.view.turn = turned s.view.turn := by rw [hv3]
  obtain ⟨s4, hrun2, hD2⟩ := run2 s3 a hR3 ha0 (by omega) (by rw [h3adv]; omega)
    (by rw [h3adv]; omega)
  refine ⟨s4, ?_, ?_⟩
  · have r1 : Run (fun u => Inside C s.view k a (a + l) u.view) s 1 s1 :=
      Run.one hs1 (hR.inside (by omega) (by omega)) hI1
    have r2 : Run (fun u => Inside C s.view k a (a + l) u.view) s1 1 s2 := Run.one hs2 hI1 hI2
    have r3 : Run (fun u => Inside C s.view k a (a + l) u.view) s2 1 s3 :=
      Run.one hs3 hI2 ((hR3.inside (by omega) (by omega)).lift_lower (by omega) h3ch)
    have r4 : Run (fun u => Inside C s.view k a (a + l) u.view) s3 n2 s4 :=
      Run.mono hrun2 (fun u hu => hu.lift_lower (by omega) h3ch)
    exact ((r1.trans r2).trans r3).trans r4
  · exact
      { check := hD2.check
        capo := hD2.capo
        fine := hD2.fine
        oldfine := hD2.oldfine
        turn := by rw [hD2.turn, h3turn, turned_turned]
        advances := by rw [hD2.advances, h3adv]; ring
        slots := by
          intro j hj
          rw [hD2.slots j hj, hv3]
        turns := by
          rw [hD2.turns, h3turn, turnEvents_turned, hv3, hl]
          show (s.view.turns ++ [(turnAction s.view.turn, a + (mN : Int), a + (mN : Int))])
            ++ _ = _
          simp [turnEvents]
        restoresOk := by
          rw [hD2.restoresOk, hv3]
          show (s.view.restoresOk && decide True) = _
          simp
        takes := by
          have e3 : s3.view.acts = ((s.view.acts ++ [Action.advance])
              ++ [turnAction s.view.turn]) ++ [Action.restore] := by rw [hv3]
          have h2 := hD2.takes
          rw [e3, count_append_one, count_append_turn _ (Or.inl rfl), count_append_one] at h2
          simp at h2
          omega
        restores := by
          have e3 : s3.view.acts = ((s.view.acts ++ [Action.advance])
              ++ [turnAction s.view.turn]) ++ [Action.restore] := by rw [hv3]
          have h2 := hD2.restores
          rw [e3, count_append_one, count_append_turn _ (Or.inr rfl), count_append_one] at h2
          simp at h2
          omega }

theorem Reverses.weaken {C k : Int} {l : Nat} {r ρ : Int} {n : Nat} {cnt : Int}
    (h : Reverses C k l r n cnt) (hr : r ≤ ρ) : Reverses C k l ρ n cnt := by
  intro s a hR ha0 hal hadv0 hadv
  have : r * (l : Int) ≤ ρ * l := by nlinarith
  exact h s a hR ha0 hal hadv0 (by omega)

/-- Every sub-range that fits `ρ ≤ 64` repetitions of the slots above `k` is reversed in a
number of calls and with a number of steps advanced that depend on its length and on the
number of free slots only; the steps advanced are `r * l - C(C - k + r, r - 1)`. -/
theorem reverse_run (C : Int) (hC : C ≤ 64) :
    ∀ (l : Nat) (k ρ : Int), 1 ≤ l → (l : Int) ≤ 16777216 → 0 ≤ k → k < C → 0 ≤ ρ →
      ρ ≤ 64 → (l : Int) ≤ bz (C - k) ρ →
      ∃ (n : Nat) (cnt : Int), 0 ≤ cnt ∧ cnt ≤ ρ * l ∧
        (∀ r, 1 ≤ r → bz (C - k) (r - 1) ≤ l → (l : Int) ≤ bz (C - k) r →
          cnt = r * l - bz (C - k + 1) (r - 1)) ∧
        Reverses C k l ρ n cnt := by
  intro l
  induction l using Nat.strong_induction_on with
  | _ l ih =>
    intro k ρ hl1 hlB hk0 hk hρ0 hρ hlρ
    by_cases hone : l = 1
    · subst hone
      refine ⟨1, 0, le_refl 0, by positivity, ?_, ?_⟩
      · intro r hr1 hlow _
        have := one_count (C - k) r (by omega) hr1 (by simpa using hlow)
        rw [this]; push_cast; ring
      · intro s a hR ha0 hal _ _
        exact reverse_one C hC s k a hk0 hk hR ha0 hal
    · have hl2 : 2 ≤ l := by omega
      obtain ⟨r, hr0, hrρ, hup, hlowall, hloop⟩ :=
        repsLoop_start (l : Int) (C - k) ρ (by omega) (by omega) hlB hρ0 hρ hlρ
      have hr1 : 1 ≤ r := by
        by_contra hc
        have : r = 0 := by omega
        rw [this, bz_zero_right (by omega)] at hup
        omega
      have hlow := hlowall (r - 1) (by omega) (by omega)
      obtain ⟨hm1, hm2, hm3, hm4, hm5, hm6, hm7⟩ :=
        amount_spec (l : Int) (C - k) r (by omega) hr1 hlow hup
      obtain ⟨mN, hmN⟩ := Int.eq_ofNat_of_zero_le (show 0 ≤ amount (l : Int) (C - k) r by omega)
      rw [hmN] at hm1 hm2 hm3 hm4 hm5 hm6 hm7
      have hmN1 : 1 ≤ mN := by omega
      have hmNl : mN < l := by omega
      -- the lower part
      obtain ⟨n2, cnt2, hc20, hc2le, hc2eq, run2⟩ :=
        ih mN hmNl k (r - 1) hmN1 (by omega) hk0 hk (by omega) (by omega) hm4
      have hcnt2 : cnt2 = (r - 1) * mN - bz (C - k + 1) (r - 2) := by
        by_cases hr2 : r = 1
        · subst hr2
          rw [bz_neg_right _ (by omega)]
          have : ((1 : Int) - 1) * mN = 0 := by ring
          rw [this] at hc2le ⊢
          omega
        · have := hc2eq (r - 1) (by omega) (by
            have e : r - 1 - 1 = r - 2 := by ring
            rw [e]; exact hm3) hm4
          have e : r - 1 - 1 = r - 2 := by ring
          rw [e] at this
          exact this
      have hP := bz_pascal (C - k + 1) (r - 1) (by omega)
      have e1 : r - 1 - 1 = r - 2 := by ring
      have e2 : C - k + 1 - 1 = C - k := by ring
      rw [e1, e2] at hP
      have hB2 := bz_nonneg (C - k + 1) (r - 1)
      have hrl : r * (l : Int) ≤ ρ * l := by nlinarith
      have huniq : ∀ (cnt : Int), cnt = r * l - bz (C - k + 1) (r - 1) →
          ∀ r', 1 ≤ r' → bz (C - k) (r' - 1) ≤ l → (l : Int) ≤ bz (C - k) r' →
            cnt = r' * l - bz (C - k + 1) (r' - 1) := by
        intro cnt hcnt r' h1 h2 h3
        rw [hcnt]
        exact (count_unique (l : Int) (C - k) r r' (by omega) hr1 hlow hup h1 h2 h3).symm
      by_cases htail : l = mN + 1
      · -- the advance stops one step below `fine`
        have hone' : bz (C - k) (r - 1) = r := by
          have := one_count (C - k - 1) r (by omega) hr1 (by
            have : (l : Int) - mN = 1 := by omega
            rw [this] at hm5; exact hm5)
          have e : C - k - 1 + 1 = C - k := by ring
          rwa [e] at this
        have hcnt : (mN : Int) + cnt2 = r * l - bz (C - k + 1) (r - 1) := by
          have hlI : (l : Int) = mN + 1 := by omega
          rw [hcnt2, hP, hone', hlI]; ring
        refine ⟨1 + 1 + 1 + n2, mN + cnt2, by omega, by omega, huniq _ hcnt, ?_⟩
        exact (reverse_tail C hC k r l mN n2 cnt2 hk0 hk htail hmN1 hr1 (by omega) hlow hup
          hloop hmN run2).weaken hrρ
      · -- the advance leaves a sub-range that needs a further slot
        have hds : C - k ≠ 1 := by
          intro h; have := hm7 h; omega
        obtain ⟨l1, hl1def⟩ : ∃ l1 : Nat, l = l1 + mN := ⟨l - mN, by omega⟩
        have hl1I : (l : Int) - mN = l1 := by omega
        rw [hl1I] at hm5 hm6
        have e3 : C - (k + 1) = C - k - 1 := by ring
        obtain ⟨n1, cnt1, hc10, hc1le, hc1eq, run1⟩ :=
          ih l1 (by omega) (k + 1) r (by omega) (by omega) (by omega) (by omega) (by omega)
            (by omega) (by rw [e3]; exact hm6)
        have hcnt1 : cnt1 = r * l1 - bz (C - k) (r - 1) := by
          have := hc1eq r hr1 (by rw [e3]; exact hm5) (by rw [e3]; exact hm6)
          have e4 : C - (k + 1) + 1 = C - k := by ring
          rw [e4] at this
          exact this
        have hcnt : (mN : Int) + cnt1 + cnt2 = r * l - bz (C - k + 1) (r - 1) := by
          have hlI : (l : Int) = l1 + mN := by omega
          rw [hcnt1, hcnt2, hP, hlI]; ring
        refine ⟨1 + 1 + n1 + 1 + n2, mN + cnt1 + cnt2, by omega, by omega, huniq _ hcnt, ?_⟩
        exact (reverse_split C hC k r l l1 mN n1 n2 cnt1 cnt2 hk0 (by omega) hl1def hmN1
          (by omega) hr1 (by omega) hlow hup hloop hmN hc1le hc10 run1 run2).weaken hrρ

/-! ## Complete runs from construction -/

theorem view_initshot (s : Sys) (L ρ : Int) (hck : s.view.check = -1) (hca : s.view.capo = 0)
    (hf : s.view.fine = L) (hL2 : 2 ≤ L) (hL : L ≤ 16777216) (hs1 : 1 ≤ s.view.snaps)
    (hs : s.view.snaps ≤ 64) (hρ0 : 0 ≤ ρ) (hρ : ρ ≤ 64) (hLρ : L ≤ bz s.view.snaps ρ) :
    ∃ t, s.step = some t ∧ t.view =
      { s.view with
        turn := 0
        check := 0
        oldfine := L
        ch := Function.update s.view.ch 0 0
        slots := Function.update s.view.slots 0 (some s.view.cur)
        acts := s.view.acts ++ [Action.takeshot] } := by
  refine ⟨_, Sys.step_eq (revolve_initshot s.o L ρ hck hca hf hL2 hL hs1 hs hρ0 hρ hLρ), ?_⟩
  simp [Sys.view, Host.react]

theorem view_first_one (s : Sys) (hck : s.view.check = -1) (hca : s.view.capo = 0)
    (hf : s.view.fine = 1) :
    ∃ t, s.step = some t ∧ t.view =
      { s.view with
        fine := 0
        turn := 1
        oldfine := 0
        ch := Function.update s.view.ch 0 (-1)
        turns := s.view.turns ++ [(Action.firsturn, 0, s.view.cur)]
        acts := s.view.acts ++ [Action.firsturn] } := by
  refine ⟨_, Sys.step_eq (revolve_first_one s.o hck hca hf), ?_⟩
  simp [Sys.view, Host.react]

theorem view_terminate (s : Sys) (hck : s.view.check = -1) (hf : s.view.fine = s.view.capo) :
    ∃ t, s.step = some t ∧ t.view =
      { s.view with acts := s.view.acts ++ [Action.terminate] } := by
  refine ⟨_, Sys.step_eq (revolve_terminate s.o hck hf), ?_⟩
  simp [Sys.view, Host.react, Offline.counted]

/-- The view right after construction. -/
theorem view_init (L C : Int) (c : Checkpoint) (turn oldfine oldsnaps : Int)
    (num_ch : Int → Int) :
    (Sys.init L C c turn oldfine oldsnaps num_ch).view =
      { online := false
        snaps := C
        check := -1
        capo := 0
        fine := L
        oldfine := oldfine
        turn := turn
        advances := 0
        ch := Function.update c.ch 0 0
        cur := 0
        slots := fun _ => none
        turns := []
        restoresOk := true
        acts := [] } := rfl

/-- What holds of every state of a run before `terminate` is returned. -/
structure Before (L C : Int) (u : View) : Prop where
  check_ge : -1 ≤ u.check
  check_lt : u.check < C
  capo_ge : 0 ≤ u.capo
  capo_le : u.capo ≤ u.fine
  fine_le : u.fine ≤ L
  sorted : ∀ j, 0 ≤ j → j < u.check → u.ch j < u.ch (j + 1)
  bottom : 0 ≤ u.check → u.ch 0 = 0
  top : 0 ≤ u.check → u.ch u.check ≤ u.capo
  cur : u.cur = u.capo
  noterm : Action.terminate ∉ u.acts
  noerr : Action.error ∉ u.acts

theorem Inside.before {C L : Int} {v u : View} (h : Inside C v 0 0 L u) (hv : v.ch 0 = 0) :
    Before L C u where
  check_ge := by have := h.check_ge; omega
  check_lt := h.check_lt
  capo_ge := h.capo_ge
  capo_le := h.capo_le
  fine_le := h.fine_le
  sorted := h.sorted
  bottom := by intro _; rw [h.frame 0 (le_refl 0), hv]
  top := h.top
  cur := h.cur
  noterm := h.noterm
  noerr := h.noerr

/-- The state in which the run is over: the next call returns `terminate`. -/
structure Finished (L : Int) (adv : Int) (u : View) : Prop where
  check : u.check = -1
  capo : u.capo = 0
  fine : u.fine = 0
  advances : u.advances = adv
  turns : u.turns = turnEvents 0 0 L.toNat
  restoresOk : u.restoresOk = true
  takes : u.acts.count Action.takeshot ≤ L.toNat - 1
  restores : u.acts.count Action.restore = L.toNat - 1

theorem before_init (L C : Int) (hL0 : 0 ≤ L) (hC1 : 1 ≤ C) (c : Checkpoint)
    (turn oldfine oldsnaps : Int) (num_ch : Int → Int) :
    Before L C (Sys.init L C c turn oldfine oldsnaps num_ch).view := by
  rw [view_init]
  exact
    { check_ge := le_refl _
      check_lt := by show (-1 : Int) < C; omega
      capo_ge := le_refl _
      capo_le := hL0
      fine_le := le_refl _
      sorted := by intro j h1 h2; have : j < (-1 : Int) := h2; omega
      bottom := by intro h; have : (0 : Int) ≤ -1 := h; omega
      top := by intro h; have : (0 : Int) ≤ -1 := h; omega
      cur := rfl
      noterm := by simp
      noerr := by simp }

/-- A run from construction with valid parameters: after `N` calls, a number that depends
on `L` and `C` only, the run is over, `numforw L C` steps have been advanced, the steps
`L - 1, ..., 0` have been reversed in this order by one `firsturn` and then `youturn`s,
each from the state the host held, and every restore read the step it was to restore. -/
theorem offline_run (L C : Int) (hL0 : 0 ≤ L) (hL : L ≤ 16777216) (hC1 : 1 ≤ C)
    (hC : C ≤ 64) (hr : L ≤ bz C 64) :
    ∃ (N : Nat) (adv : Int), numforw L C = some adv ∧
      ∀ (c : Checkpoint) (turn oldfine oldsnaps : Int) (num_ch : Int → Int),
        ∃ t, Run (fun u => Before L C u.view)
            (Sys.init L C c turn oldfine oldsnaps num_ch) N t ∧
          Finished L adv t.view := by
  obtain ⟨r, hr0, hr64, hup, hlowall, hnum, -⟩ :=
    numforw_spec L C 64 hC1 hC hL (by omega) (le_refl _) hr
  by_cases hsmall : L ≤ 1
  · -- no advance at all
    have hr00 : r = 0 := by
      by_contra hc
      have := hlowall 0 (le_refl 0) (by omega)
      rw [bz_zero_right (by omega)] at this
      omega
    subst hr00
    have hadv : (0 : Int) * L - bz (C + 1) (0 - 1) = 0 := by
      rw [bz_neg_right _ (by omega)]; ring
    rw [hadv] at hnum
    by_cases hz : L = 0
    · subst hz
      refine ⟨0, 0, hnum, ?_⟩
      intro c turn oldfine oldsnaps num_ch
      refine ⟨_, Run.refl (before_init 0 C hL0 hC1 c turn oldfine oldsnaps num_ch), ?_⟩
      rw [view_init]
      exact
        { check := rfl, capo := rfl, fine := rfl, advances := rfl, turns := rfl,
          restoresOk := rfl, takes := le_refl 0, restores := rfl }
    · have h1 : L = 1 := by omega
      subst h1
      refine ⟨1, 0, hnum, ?_⟩
      intro c turn oldfine oldsnaps num_ch
      obtain ⟨t, hst, hv⟩ := view_first_one (Sys.init 1 C c turn oldfine oldsnaps num_ch)
        rfl rfl rfl
      rw [view_init] at hv
      refine ⟨t, Run.one hst (before_init 1 C hL0 hC1 c turn oldfine oldsnaps num_ch) ?_, ?_⟩
      · show Before 1 C t.view
        rw [hv]
        exact
          { check_ge := le_refl _
            check_lt := by show (-1 : Int) < C; omega
            capo_ge := le_refl _
            capo_le := le_refl _
            fine_le := by show (0 : Int) ≤ 1; omega
            sorted := by intro j h1 h2; have : j < (-1 : Int) := h2; omega
            bottom := by intro h; have : (0 : Int) ≤ -1 := h; omega
            top := by intro h; have : (0 : Int) ≤ -1 := h; omega
            cur := rfl
            noterm := by simp
            noerr := by simp }
      · rw [hv]
        exact
          { check := rfl, capo := rfl, fine := rfl, advances := rfl
            turns := by simp [turnEvents, turnAction]
            restoresOk := rfl
            takes := le_refl 0
            restores := rfl }
  · have hL2 : 2 ≤ L := by omega
    have hr1 : 1 ≤ r := by
      by_contra hc
      have : r = 0 := by omega
      rw [this, bz_zero_right (by omega)] at hup
      omega
    have hlow := hlowall (r - 1) (by omega) (by omega)
    obtain ⟨lN, hlN⟩ := Int.eq_ofNat_of_zero_le hL0
    have hlN' : L.toNat = lN := by rw [hlN]; exact Int.toNat_natCast lN
    have hC0 : C - 0 = C := sub_zero C
    obtain ⟨n, cnt, -, -, hcnt, hrev⟩ := reverse_run C hC lN 0 64 (by omega) (by omega)
      (le_refl 0) (by omega) (by omega) (le_refl _) (by rw [hC0, ← hlN]; exact hr)
    have hcnt' : cnt = r * L - bz (C + 1) (r - 1) := by
      have := hcnt r hr1 (by rw [hC0, ← hlN]; exact le_of_lt hlow) (by rw [hC0, ← hlN]; exact hup)
      rw [hC0, ← hlN] at this
      exact this
    refine ⟨1 + n, r * L - bz (C + 1) (r - 1), hnum, ?_⟩
    intro c turn oldfine oldsnaps num_ch
    obtain ⟨s1, hs1, hv1⟩ := view_initshot (Sys.init L C c turn oldfine oldsnaps num_ch) L 64
      rfl rfl rfl hL2 hL hC1 hC (by omega) (le_refl _) hr
    rw [view_init] at hv1
    have hR : Ready C s1.view 0 0 (0 + lN) := by
      rw [hv1]
      exact
        { online := rfl
          snaps := rfl
          check := rfl
          capo := rfl
          fine := by show L = 0 + (lN : Int); omega
          oldfine := by show L = 0 + (lN : Int); omega
          chk := by show Function.update (Function.update c.ch 0 0) 0 0 0 = 0; simp
          ch0 := by
            show Function.update (Function.update c.ch 0 0) 0 0 0 ≤ 0
            simp
          cur := rfl
          slot := by
            show Function.update (fun _ => (none : Option Int)) 0 (some 0) 0 = some 0
            simp
          noterm := by simp
          noerr := by simp }
    have h1adv : s1.view.advances = 0 := by rw [hv1]
    have h1ch0 : s1.view.ch 0 = 0 := hR.chk
    obtain ⟨t, hrun, hD⟩ := hrev s1 0 hR (le_refl 0) (by omega) (by rw [h1adv])
      (by rw [h1adv]; omega)
    have e0 : (0 : Int) + lN = L := by omega
    rw [e0] at hrun
    refine ⟨t, ?_, ?_⟩
    · have r1 : Run (fun u => Before L C u.view) (Sys.init L C c turn oldfine oldsnaps num_ch)
          1 s1 :=
        Run.one hs1 (before_init L C hL0 hC1 c turn oldfine oldsnaps num_ch)
          ((hrun.2 0 s1 (Nat.zero_le _) rfl).before h1ch0)
      exact r1.trans (Run.mono hrun (fun u hu => hu.before h1ch0))
    · exact
        { check := by rw [hD.check]; ring
          capo := hD.capo
          fine := hD.fine
          advances := by rw [hD.advances, h1adv, hcnt']; ring
          turns := by
            rw [hD.turns, hlN', hv1]
            show [] ++ turnEvents 0 0 lN = _
            simp
          restoresOk := by rw [hD.restoresOk, hv1]
          takes := by
            have e1 : s1.view.acts = [] ++ [Action.takeshot] := by rw [hv1]
            have h1 := hD.takes
            rw [e1] at h1
            rw [hlN']
            simp at h1
            omega
          restores := by
            have e1 : s1.view.acts = [] ++ [Action.takeshot] := by rw [hv1]
            have h1 := hD.restores
            rw [e1] at h1
            rw [hlN']
            simp at h1
            omega }

/-! ## Consequences for every state of a run -/

/-- Whether an action is a combined forward/reverse step. -/
def Action.isTurn : Action → Bool
  | Action.firsturn => true
  | Action.youturn => true
  | _ => false

theorem react_acts (h : Host) (a : Action) (o : Offline) :
    (h.react a o).acts = h.acts ++ [a] := by
  cases a <;> rfl

theorem react_turns_fst (h : Host) (a : Action) (o : Offline)
    (hh : h.turns.map Prod.fst = h.acts.filter Action.isTurn) :
    (h.react a o).turns.map Prod.fst = (h.react a o).acts.filter Action.isTurn := by
  cases a <;> simp [Host.react, Action.isTurn, hh]

theorem step_react {s t : Sys} (h : s.step = some t) :
    ∃ a, t.h = s.h.react a t.o := by
  unfold Sys.step at h
  split at h
  · cases h
  · rename_i a o _
    cases h
    exact ⟨a, rfl⟩

/-- The host has recorded one action per call. -/
theorem run_acts_length (n : Nat) (s t : Sys) (h : Sys.run n s = some t) :
    t.h.acts.length = s.h.acts.length + n := by
  induction n generalizing s with
  | zero =>
    simp only [Sys.run] at h
    cases h
    rfl
  | succ n ih =>
    cases hs : s.step with
    | none => simp [Sys.run, hs] at h
    | some u =>
      rw [run_succ_of_step hs] at h
      obtain ⟨a, ha⟩ := step_react hs
      rw [ih u h, ha, react_acts, List.length_append, List.length_singleton]
      omega

/-- The host's record of reversals lists the `firsturn`/`youturn` actions returned. -/
theorem run_turns_fst (n : Nat) (s t : Sys) (h : Sys.run n s = some t)
    (hs : s.h.turns.map Prod.fst = s.h.acts.filter Action.isTurn) :
    t.h.turns.map Prod.fst = t.h.acts.filter Action.isTurn := by
  induction n generalizing s with
  | zero =>
    simp only [Sys.run] at h
    cases h
    exact hs
  | succ n ih =>
    cases hst : s.step with
    | none => simp [Sys.run, hst] at h
    | some u =>
      rw [run_succ_of_step hst] at h
      obtain ⟨a, ha⟩ := step_react hst
      exact ih u h (by rw [ha]; exact react_turns_fst s.h a u.o hs)

theorem turnEvents_fst_one (a : Int) (l : Nat) :
    (turnEvents 1 a l).map Prod.fst = List.replicate l Action.youturn := by
  induction l with
  | zero => rfl
  | succ l ih =>
    simp only [turnEvents, List.map_cons, ih, List.replicate_succ]
    rfl

theorem turnEvents_fst_zero (a : Int) (l : Nat) :
    (turnEvents 0 a (l + 1)).map Prod.fst
      = Action.firsturn :: List.replicate l Action.youturn := by
  simp only [turnEvents, List.map_cons, turnEvents_fst_one]
  rfl

theorem turnEvents_snd (t a : Int) (l : Nat) :
    (turnEvents t a l).map Prod.snd
      = (List.range l).reverse.map (fun (i : Nat) => (a + (i : Int), a + (i : Int))) := by
  induction l generalizing t with
  | zero => rfl
  | succ l ih =>
    simp only [turnEvents, List.map_cons, ih, List.range_succ, List.reverse_append,
      List.reverse_singleton, List.singleton_append]

/-- Once the run is over every further call returns `terminate` and changes nothing the
view shows but the record of actions. -/
theorem run_finished (j : Nat) (s : Sys) (hck : s.view.check = -1)
    (hf : s.view.fine = s.view.capo) :
    ∃ t, Sys.run j s = some t ∧
      t.view = { s.view with acts := s.view.acts ++ List.replicate j Action.terminate } := by
  induction j generalizing s with
  | zero => exact ⟨s, rfl, by simp⟩
  | succ j ih =>
    obtain ⟨u, hu, hv⟩ := view_terminate s hck hf
    obtain ⟨t, ht, htv⟩ := ih u (by rw [hv]; exact hck) (by rw [hv]; exact hf)
    refine ⟨t, by rw [run_succ_of_step hu]; exact ht, ?_⟩
    rw [htv, hv]
    simp [List.replicate_succ]

/-- What holds of every state of a run with valid parameters, the states after the final
`terminate` included. -/
structure Safe (L C : Int) (u : View) : Prop where
  check_ge : -1 ≤ u.check
  check_lt : u.check < C
  capo_ge : 0 ≤ u.capo
  capo_le : u.capo ≤ u.fine
  fine_le : u.fine ≤ L
  sorted : ∀ j, 0 ≤ j → j < u.check → u.ch j < u.ch (j + 1)
  bottom : 0 ≤ u.check → u.ch 0 = 0
  top : 0 ≤ u.check → u.ch u.check ≤ u.capo
  noerr : Action.error ∉ u.acts
  term : Action.terminate ∈ u.acts → u.check = -1 ∧ u.capo = u.fine

theorem Before.safe {L C : Int} {u : View} (h : Before L C u) : Safe L C u where
  check_ge := h.check_ge
  check_lt := h.check_lt
  capo_ge := h.capo_ge
  capo_le := h.capo_le
  fine_le := h.fine_le
  sorted := h.sorted
  bottom := h.bottom
  top := h.top
  noerr := h.noerr
  term := fun hm => absurd hm h.noterm

/-- With valid parameters the `N + 1`-th call is the first to return `terminate`. -/
theorem offline_terminates (L C : Int) (hL0 : 0 ≤ L) (hL : L ≤ 16777216) (hC1 : 1 ≤ C)
    (hC : C ≤ 64) (hr : L ≤ bz C 64) :
    ∃ (N : Nat) (adv : Int), numforw L C = some adv ∧
      ∀ (c : Checkpoint) (turn oldfine oldsnaps : Int) (num_ch : Int → Int),
        ∃ t, Sys.run (N + 1) (Sys.init L C c turn oldfine oldsnaps num_ch) = some t ∧
          t.view.acts.getLast? = some Action.terminate ∧
          (∀ i u, i ≤ N → Sys.run i (Sys.init L C c turn oldfine oldsnaps num_ch) = some u →
            Action.terminate ∉ u.view.acts) ∧
          Finished L adv t.view := by
  obtain ⟨N, adv, hnum, hall⟩ := offline_run L C hL0 hL hC1 hC hr
  refine ⟨N, adv, hnum, ?_⟩
  intro c turn oldfine oldsnaps num_ch
  obtain ⟨t0, hrun, hfin⟩ := hall c turn oldfine oldsnaps num_ch
  obtain ⟨t, hst, hv⟩ := view_terminate t0 hfin.check (by rw [hfin.fine, hfin.capo])
  refine ⟨t, ?_, ?_, ?_, ?_⟩
  · rw [run_add N 1 _ t0 hrun.1, run_succ_of_step hst]; rfl
  · rw [hv]; simp
  · intro i u hi hu
    exact (hrun.2 i u hi hu).noterm
  · rw [hv]
    exact
      { check := hfin.check, capo := hfin.capo, fine := hfin.fine, advances := hfin.advances
        turns := hfin.turns, restoresOk := hfin.restoresOk
        takes := by
          show (t0.view.acts ++ [Action.terminate]).count Action.takeshot ≤ _
          rw [count_append_one]
          simpa using hfin.takes
        restores := by
          show (t0.view.acts ++ [Action.terminate]).count Action.restore = _
          rw [count_append_one]
          simpa using hfin.restores }

/-- With valid parameters the run never gets stuck and every state it passes is safe. -/
theorem offline_states (L C : Int) (hL0 : 0 ≤ L) (hL : L ≤ 16777216) (hC1 : 1 ≤ C)
    (hC : C ≤ 64) (hr : L ≤ bz C 64) (c : Checkpoint) (turn oldfine oldsnaps : Int)
    (num_ch : Int → Int) (n : Nat) :
    ∃ t, Sys.run n (Sys.init L C c turn oldfine oldsnaps num_ch) = some t ∧
      Safe L C t.view := by
  obtain ⟨N, adv, -, hall⟩ := offline_run L C hL0 hL hC1 hC hr
  obtain ⟨t0, hrun, hfin⟩ := hall c turn oldfine oldsnaps num_ch
  by_cases hn : n ≤ N
  · obtain ⟨u, hu⟩ := run_prefix N _ t0 hrun.1 n hn
    exact ⟨u, hu, (hrun.2 n u hn hu).safe⟩
  · obtain ⟨j, rfl⟩ : ∃ j, n = N + j := ⟨n - N, by omega⟩
    obtain ⟨t, ht, hv⟩ := run_finished j t0 hfin.check (by rw [hfin.fine, hfin.capo])
    have hB := hrun.2 N t0 (le_refl _) hrun.1
    refine ⟨t, by rw [run_add N j _ t0 hrun.1]; exact ht, ?_⟩
    rw [hv]
    exact
      { check_ge := hB.check_ge
        check_lt := hB.check_lt
        capo_ge := hB.capo_ge
        capo_le := hB.capo_le
        fine_le := hB.fine_le
        sorted := hB.sorted
        bottom := hB.bottom
        top := hB.top
        noerr := by
          show Action.error ∉ t0.view.acts ++ List.replicate j Action.terminate
          intro hm
          rcases List.mem_append.mp hm with h1 | h1
          · exact hB.noerr h1
          · have := List.eq_of_mem_replicate h1
            cases this
        term := fun _ => ⟨hfin.check, by show t0.view.capo = t0.view.fine; rw [hfin.capo, hfin.fine]⟩ }

/-! ## Runs that never end: more than `repsup` repetitions -/

/-- The first call when `numforw` fails: `info = 12` and `error`, with slot 0 claimed. -/
theorem revolve_err12 (o : Offline) (F : Int) (hck : o.check = -1) (hca : o.capo = 0)
    (hf : o.fine = F) (hF2 : 2 ≤ F) (hF : F < 2147483648) (hs : o.snaps ≤ 64)
    (hinfo : 0 < o.info) (hnum : numforw F o.snaps = some (-1)) :
    o.revolve = some (Action.error,
      { o with
        turn := 0
        check := 0
        oldsnaps := o.snaps
        info := 12
        checkpoint := { o.checkpoint with
          commands := iadd o.checkpoint.commands 1
          ch := Function.update o.checkpoint.ch 0 0 } }) := by
  have e1 : isub F 0 = F := by rw [isub_eq (by omega) (by omega)]; omega
  have n3 : ¬ F = 0 := by omega
  have n4 : ¬ F = 1 := by omega
  have n5 : ¬ o.snaps > checkup := by unfold checkup; omega
  have p2 : (0 : Int) < F := by omega
  unfold Offline.revolve Offline.initshot
  simp [hck, hca, hf, n3, n4, n5, e1, p2, hnum, hinfo]
  omega

/-- A call with the single slot in use after `fine` seems to have grown: `info = 13` and
`error`, nothing else changes. -/
theorem revolve_err13 (o : Offline) (F : Int) (hon : o.online = false) (hck : o.check = 0)
    (hca : o.capo = 0) (hf : o.fine = F) (hF2 : 2 ≤ F) (hF : F < 2147483648)
    (hch : o.checkpoint.ch 0 = 0) (hof : o.oldfine < F) (hs : o.snaps = 1) :
    o.revolve = some (Action.error, { o.counted with info := 13 }) := by
  have e1 : isub F 0 = F := by rw [isub_eq (by omega) (by omega)]; omega
  have e2 : iadd 0 1 = 1 := by decide
  have n3 : ¬ F = 0 := by omega
  have n4 : ¬ F = 1 := by omega
  have p2 : (0 : Int) ≤ F := by omega
  unfold Offline.revolve Offline.adv Offline.counted
  simp [hck, hca, hf, hon, hch, hof, hs, n3, n4, e1, e2, p2]

/-- The state a run with a single slot is stuck in once `numforw` has failed. -/
structure Stuck (F : Int) (s : Sys) : Prop where
  online : s.o.online = false
  check : s.o.check = 0
  capo : s.o.capo = 0
  fine : s.o.fine = F
  ch0 : s.o.checkpoint.ch 0 = 0
  oldfine : s.o.oldfine < F
  snaps : s.o.snaps = 1
  advances : s.o.checkpoint.advances = 0
  noterm : Action.terminate ∉ s.h.acts

theorem Stuck.step {F : Int} {s : Sys} (h : Stuck F s) (hF2 : 2 ≤ F) (hF : F < 2147483648) :
    ∃ t, s.step = some t ∧ Stuck F t := by
  refine ⟨_, Sys.step_eq (revolve_err13 s.o F h.online h.check h.capo h.fine hF2 hF h.ch0
    h.oldfine h.snaps), ?_⟩
  exact
    { online := h.online
      check := h.check
      capo := h.capo
      fine := h.fine
      ch0 := h.ch0
      oldfine := h.oldfine
      snaps := h.snaps
      advances := h.advances
      noterm := by
        show Action.terminate ∉ s.h.acts ++ [Action.error]
        exact not_mem_append_one h.noterm (by decide) }

theorem Stuck.run {F : Int} (hF2 : 2 ≤ F) (hF : F < 2147483648) (n : Nat) :
    ∀ s, Stuck F s → ∃ t, Sys.run n s = some t ∧ Stuck F t := by
  induction n with
  | zero => intro s h; exact ⟨s, rfl, h⟩
  | succ n ih =>
    intro s h
    obtain ⟨u, hu, hS⟩ := h.step hF2 hF
    obtain ⟨t, ht, hT⟩ := ih u hS
    exact ⟨t, by rw [run_succ_of_step hu]; exact ht, hT⟩

/-- With a single slot and `numforw` failing, no call ever returns `terminate` and nothing
is ever advanced. -/
theorem never_terminates (F : Int) (hF2 : 2 ≤ F) (hF : F < 2147483648)
    (hnum : numforw F 1 = some (-1)) (n : Nat) :
    ∃ t, Sys.run n (Sys.init F 1 Checkpoint.zero 0 0 0 (fun _ => 0)) = some t ∧
      Action.terminate ∉ t.h.acts ∧ t.o.checkpoint.advances = 0 := by
  cases n with
  | zero => exact ⟨_, rfl, by simp [Sys.init, Host.start], rfl⟩
  | succ n =>
    have h1 := Sys.step_eq (revolve_err12 (Sys.init F 1 Checkpoint.zero 0 0 0 (fun _ => 0)).o F
      rfl rfl rfl hF2 hF (by show (1 : Int) ≤ 64; decide) (by show (0 : Int) < 3; decide) hnum)
    obtain ⟨s1, hs1, hS1⟩ : ∃ s1, (Sys.init F 1 Checkpoint.zero 0 0 0 (fun _ => 0)).step
        = some s1 ∧ Stuck F s1 := by
      refine ⟨_, h1, ?_⟩
      exact
        { online := rfl
          check := rfl
          capo := rfl
          fine := rfl
          ch0 := by
            show Function.update (Function.update (fun _ => (0 : Int)) 0 0) 0 0 0 = 0
            simp
          oldfine := by show (0 : Int) < F; omega
          snaps := rfl
          advances := rfl
          noterm := by
            show Action.terminate ∉ ([] : List Action) ++ [Action.error]
            simp }
    obtain ⟨t, ht, hT⟩ := Stuck.run hF2 hF n s1 hS1
    exact ⟨t, by rw [run_succ_of_step hs1]; exact ht, hT.noterm, hT.advances⟩

/-! ## The offline scheduler: claims C1 to C8

In the statements below `L ≤ bz C 64` says that the repetition number of `(L, C)`, the
least `r` with `L ≤ C(r + C, r)`, is at most `repsup = 64`, and `L ≤ 16777216` keeps every
product the scheduler forms below `2^31`. -/

theorem sorted_chain (f : Int → Int) (k : Int)
    (h : ∀ j, 0 ≤ j → j < k → f j < f (j + 1)) :
    ∀ (d : Nat) (i : Int), 0 ≤ i → i + d + 1 ≤ k → f i < f (i + d + 1) := by
  intro d
  induction d with
  | zero =>
    intro i hi hk
    have := h i hi (by push_cast at hk; omega)
    simpa using this
  | succ d ih =>
    intro i hi hk
    have h1 := ih i hi (by push_cast at hk ⊢; omega)
    have h2 := h (i + d + 1) (by omega) (by push_cast at hk; omega)
    have e : i + ((d + 1 : Nat) : Int) + 1 = i + d + 1 + 1 := by push_cast; ring
    rw [e]
    exact lt_trans h1 h2

/-- C1: for `1 ≤ L ≤ 2^24`, `1 ≤ C ≤ 64` and repetition number at most 64, the run from
construction returns `terminate` for the first time at some call `n + 1`; by then the host
has been asked to reverse exactly the steps `L - 1, L - 2, ..., 0`, in this order, each
time holding the state of the very step to reverse, and every restore has read a slot
whose last takeshot stored exactly the step `capo` was set to. -/
theorem offline_reverses_every_step (L C : Int) (hL1 : 1 ≤ L) (hL : L ≤ 16777216)
    (hC1 : 1 ≤ C) (hC : C ≤ 64) (hr : L ≤ bz C 64) (c : Checkpoint)
    (turn oldfine oldsnaps : Int) (num_ch : Int → Int) :
    ∃ (n : Nat) (t : Sys),
      Sys.run (n + 1) (Sys.init L C c turn oldfine oldsnaps num_ch) = some t ∧
      t.h.acts.getLast? = some Action.terminate ∧
      (∀ i u, i ≤ n → Sys.run i (Sys.init L C c turn oldfine oldsnaps num_ch) = some u →
        Action.terminate ∉ u.h.acts) ∧
      t.h.turns.map Prod.snd
        = (List.range L.toNat).reverse.map (fun (i : Nat) => ((i : Int), (i : Int))) ∧
      t.h.turns.length = L.toNat ∧
      t.h.restoresOk = true := by
  obtain ⟨N, adv, -, hall⟩ := offline_terminates L C (by omega) hL hC1 hC hr
  obtain ⟨t, hrun, hlast, hbefore, hfin⟩ := hall c turn oldfine oldsnaps num_ch
  have hturns : t.h.turns = turnEvents 0 0 L.toNat := hfin.turns
  have hsnd : t.h.turns.map Prod.snd
      = (List.range L.toNat).reverse.map (fun (i : Nat) => ((i : Int), (i : Int))) := by
    rw [hturns, turnEvents_snd]
    simp
  refine ⟨N, t, hrun, hlast, hbefore, hsnd, ?_, hfin.restoresOk⟩
  have := congrArg List.length hsnd
  simpa using this

/-- Witness for C1 at `L = 3`, `C = 2`. -/
theorem offline_reverses_every_step_witness :
    ∃ (n : Nat) (t : Sys),
      Sys.run (n + 1) (Sys.init 3 2 Checkpoint.zero 0 0 0 (fun _ => 0)) = some t ∧
      t.h.acts.getLast? = some Action.terminate ∧
      (∀ i u, i ≤ n → Sys.run i (Sys.init 3 2 Checkpoint.zero 0 0 0 (fun _ => 0)) = some u →
        Action.terminate ∉ u.h.acts) ∧
      t.h.turns.map Prod.snd
        = (List.range (3 : Int).toNat).reverse.map (fun (i : Nat) => ((i : Int), (i : Int))) ∧
      t.h.turns.length = (3 : Int).toNat ∧
      t.h.restoresOk = true :=
  offline_reverses_every_step 3 2 (by decide) (by decide) (by decide) (by decide) (by decide)
    Checkpoint.zero 0 0 0 (fun _ => 0)

/-- C2, as amended: for `0 ≤ L ≤ 2^24`, `1 ≤ C ≤ 64` and repetition number at most 64,
`numforw L C` returns a value `adv`, the run from construction returns `terminate` for the
first time at some call `n + 1` that depends on `L` and `C` only, and the `advances`
counter of the store, the sum of `capo - oldcapo` over all advances, then equals `adv`. -/
theorem offline_advances_eq_numforw (L C : Int) (hL0 : 0 ≤ L) (hL : L ≤ 16777216)
    (hC1 : 1 ≤ C) (hC : C ≤ 64) (hr : L ≤ bz C 64) :
    ∃ (n : Nat) (adv : Int), numforw L C = some adv ∧
      ∀ (c : Checkpoint) (turn oldfine oldsnaps : Int) (num_ch : Int → Int),
        ∃ t, Sys.run (n + 1) (Sys.init L C c turn oldfine oldsnaps num_ch) = some t ∧
          t.h.acts.getLast? = some Action.terminate ∧
          (∀ i u, i ≤ n →
            Sys.run i (Sys.init L C c turn oldfine oldsnaps num_ch) = some u →
            Action.terminate ∉ u.h.acts) ∧
          t.o.checkpoint.advances = adv := by
  obtain ⟨N, adv, hnum, hall⟩ := offline_terminates L C hL0 hL hC1 hC hr
  refine ⟨N, adv, hnum, ?_⟩
  intro c turn oldfine oldsnaps num_ch
  obtain ⟨t, hrun, hlast, hbefore, hfin⟩ := hall c turn oldfine oldsnaps num_ch
  exact ⟨t, hrun, hlast, hbefore, hfin.advances⟩

/-- Witness for C2 (amended) at `L = 10`, `C = 3`. -/
theorem offline_advances_eq_numforw_witness :
    ∃ (n : Nat) (adv : Int), numforw 10 3 = some adv ∧
      ∀ (c : Checkpoint) (turn oldfine oldsnaps : Int) (num_ch : Int → Int),
        ∃ t, Sys.run (n + 1) (Sys.init 10 3 c turn oldfine oldsnaps num_ch) = some t ∧
          t.h.acts.getLast? = some Action.terminate ∧
          (∀ i u, i ≤ n →
            Sys.run i (Sys.init 10 3 c turn oldfine oldsnaps num_ch) = some u →
            Action.terminate ∉ u.h.acts) ∧
          t.o.checkpoint.advances = adv :=
  offline_advances_eq_numforw 10 3 (by decide) (by decide) (by decide) (by decide) (by decide)

/-- C2 as stated fails at `L = 66`, `C = 1` (66 repetitions would be needed): `numforw`
returns `-1`, no call of the run from construction ever returns `terminate`, and the
`advances` counter stays `0`. -/
theorem offline_advances_counterexample :
    numforw 66 1 = some (-1) ∧
      ∀ n : Nat, ∃ t, Sys.run n (Sys.init 66 1 Checkpoint.zero 0 0 0 (fun _ => 0)) = some t ∧
        Action.terminate ∉ t.h.acts ∧ t.o.checkpoint.advances = 0 :=
  ⟨by decide, never_terminates 66 (by decide) (by decide) (by decide)⟩

/-- C3, as amended: for `0 ≤ L ≤ 2^24`, `1 ≤ C ≤ 64` and repetition number at most 64,
there is a number `n`, depending on `L` and `C` only, such that call `n + 1` of the run
from construction returns `terminate` and no earlier call does. -/
theorem offline_terminates_after (L C : Int) (hL0 : 0 ≤ L) (hL : L ≤ 16777216)
    (hC1 : 1 ≤ C) (hC : C ≤ 64) (hr : L ≤ bz C 64) :
    ∃ n : Nat, ∀ (c : Checkpoint) (turn oldfine oldsnaps : Int) (num_ch : Int → Int),
      ∃ t, Sys.run (n + 1) (Sys.init L C c turn oldfine oldsnaps num_ch) = some t ∧
        t.h.acts.getLast? = some Action.terminate ∧
        t.h.acts.length = n + 1 ∧
        ∀ i u, i ≤ n → Sys.run i (Sys.init L C c turn oldfine oldsnaps num_ch) = some u →
          Action.terminate ∉ u.h.acts := by
  obtain ⟨N, adv, -, hall⟩ := offline_terminates L C hL0 hL hC1 hC hr
  refine ⟨N, ?_⟩
  intro c turn oldfine oldsnaps num_ch
  obtain ⟨t, hrun, hlast, hbefore, -⟩ := hall c turn oldfine oldsnaps num_ch
  refine ⟨t, hrun, hlast, ?_, hbefore⟩
  have := run_acts_length (N + 1) _ t hrun
  simpa [Sys.init, Host.start] using this

/-- Witness for C3 (amended) at `L = 5`, `C = 2`. -/
theorem offline_terminates_after_witness :
    ∃ n : Nat, ∀ (c : Checkpoint) (turn oldfine oldsnaps : Int) (num_ch : Int → Int),
      ∃ t, Sys.run (n + 1) (Sys.init 5 2 c turn oldfine oldsnaps num_ch) = some t ∧
        t.h.acts.getLast? = some Action.terminate ∧
        t.h.acts.length = n + 1 ∧
        ∀ i u, i ≤ n → Sys.run i (Sys.init 5 2 c turn oldfine oldsnaps num_ch) = some u →
          Action.terminate ∉ u.h.acts :=
  offline_terminates_after 5 2 (by decide) (by decide) (by decide) (by decide) (by decide)

/-- C3 as stated fails at `L = 67`, `C = 1`: every call of the run from construction
returns, and none ever returns `terminate`. -/
theorem offline_terminates_counterexample :
    ¬ ∃ (n : Nat) (t : Sys),
      Sys.run n (Sys.init 67 1 Checkpoint.zero 0 0 0 (fun _ => 0)) = some t ∧
        Action.terminate ∈ t.h.acts := by
  rintro ⟨n, t, ht, hmem⟩
  obtain ⟨u, hu, hno, -⟩ := never_terminates 67 (by decide) (by decide) (by decide) n
  rw [ht] at hu
  cases hu
  exact hno hmem

/-- C4: for `0 ≤ L ≤ 2^24`, `1 ≤ C ≤ 64` and repetition number at most 64, every call of
the run from construction returns, and after every call `-1 ≤ check < C` and no `error`
has been returned: no takeshot is asked for with all `C` slots live, so the branches that
set `info` to 10 or 11 are never taken. -/
theorem offline_check_in_range (L C : Int) (hL0 : 0 ≤ L) (hL : L ≤ 16777216) (hC1 : 1 ≤ C)
    (hC : C ≤ 64) (hr : L ≤ bz C 64) (c : Checkpoint) (turn oldfine oldsnaps : Int)
    (num_ch : Int → Int) (n : Nat) :
    ∃ t, Sys.run n (Sys.init L C c turn oldfine oldsnaps num_ch) = some t ∧
      -1 ≤ t.o.check ∧ t.o.check < C ∧ Action.error ∉ t.h.acts := by
  obtain ⟨t, ht, hS⟩ := offline_states L C hL0 hL hC1 hC hr c turn oldfine oldsnaps num_ch n
  exact ⟨t, ht, hS.check_ge, hS.check_lt, hS.noerr⟩

/-- Witness for C4 at `L = 6`, `C = 2`, after 9 calls. -/
theorem offline_check_in_range_witness :
    ∃ t, Sys.run 9 (Sys.init 6 2 Checkpoint.zero 0 0 0 (fun _ => 0)) = some t ∧
      -1 ≤ t.o.check ∧ t.o.check < 2 ∧ Action.error ∉ t.h.acts :=
  offline_check_in_range 6 2 (by decide) (by decide) (by decide) (by decide) (by decide)
    Checkpoint.zero 0 0 0 (fun _ => 0) 9

/-- C5: for `0 ≤ L ≤ 2^24`, `1 ≤ C ≤ 64` and repetition number at most 64, every call of
the run from construction returns, and after every call, the calls after `terminate`
included, `0 ≤ capo ≤ fine ≤ L`. -/
theorem offline_capo_fine_in_range (L C : Int) (hL0 : 0 ≤ L) (hL : L ≤ 16777216)
    (hC1 : 1 ≤ C) (hC : C ≤ 64) (hr : L ≤ bz C 64) (c : Checkpoint)
    (turn oldfine oldsnaps : Int) (num_ch : Int → Int) (n : Nat) :
    ∃ t, Sys.run n (Sys.init L C c turn oldfine oldsnaps num_ch) = some t ∧
      0 ≤ t.o.capo ∧ t.o.capo ≤ t.o.fine ∧ t.o.fine ≤ L := by
  obtain ⟨t, ht, hS⟩ := offline_states L C hL0 hL hC1 hC hr c turn oldfine oldsnaps num_ch n
  exact ⟨t, ht, hS.capo_ge, hS.capo_le, hS.fine_le⟩

/-- Witness for C5 at `L = 7`, `C = 3`, after 11 calls. -/
theorem offline_capo_fine_in_range_witness :
    ∃ t, Sys.run 11 (Sys.init 7 3 Checkpoint.zero 0 0 0 (fun _ => 0)) = some t ∧
      0 ≤ t.o.capo ∧ t.o.capo ≤ t.o.fine ∧ t.o.fine ≤ 7 :=
  offline_capo_fine_in_range 7 3 (by decide) (by decide) (by decide) (by decide) (by decide)
    Checkpoint.zero 0 0 0 (fun _ => 0) 11

/-- C6: for `0 ≤ L ≤ 2^24`, `1 ≤ C ≤ 64` and repetition number at most 64, after every
call of the run from construction the stored steps `ch[0], ..., ch[check]` are strictly
increasing and every one of them lies in `[0, capo]`. -/
theorem offline_slots_increasing (L C : Int) (hL0 : 0 ≤ L) (hL : L ≤ 16777216)
    (hC1 : 1 ≤ C) (hC : C ≤ 64) (hr : L ≤ bz C 64) (c : Checkpoint)
    (turn oldfine oldsnaps : Int) (num_ch : Int → Int) (n : Nat) :
    ∃ t, Sys.run n (Sys.init L C c turn oldfine oldsnaps num_ch) = some t ∧
      (∀ i j, 0 ≤ i → i < j → j ≤ t.o.check →
        t.o.checkpoint.ch i < t.o.checkpoint.ch j) ∧
      (∀ j, 0 ≤ j → j ≤ t.o.check →
        0 ≤ t.o.checkpoint.ch j ∧ t.o.checkpoint.ch j ≤ t.o.capo) := by
  obtain ⟨t, ht, hS⟩ := offline_states L C hL0 hL hC1 hC hr c turn oldfine oldsnaps num_ch n
  have hchain : ∀ i j, 0 ≤ i → i < j → j ≤ t.o.check →
      t.o.checkpoint.ch i < t.o.checkpoint.ch j := by
    intro i j hi hij hj
    have := sorted_chain t.o.checkpoint.ch t.o.check hS.sorted (j - i - 1).toNat i hi
      (by rw [Int.toNat_of_nonneg (by omega)]; omega)
    rw [Int.toNat_of_nonneg (by omega)] at this
    have e : i + (j - i - 1) + 1 = j := by ring
    rwa [e] at this
  refine ⟨t, ht, hchain, ?_⟩
  intro j hj0 hj
  have hck : (0 : Int) ≤ t.o.check := by omega
  have h0 : t.o.checkpoint.ch 0 = 0 := hS.bottom hck
  have htop : t.o.checkpoint.ch t.o.check ≤ t.o.capo := hS.top hck
  constructor
  · rcases eq_or_lt_of_le hj0 with e | e
    · rw [← e, h0]
    · have := hchain 0 j (le_refl 0) e hj
      omega
  · rcases eq_or_lt_of_le hj with e | e
    · rw [e]; exact htop
    · have := hchain j t.o.check hj0 e (le_refl _)
      omega

/-- Witness for C6 at `L = 10`, `C = 3`, after 5 calls. -/
theorem offline_slots_increasing_witness :
    ∃ t, Sys.run 5 (Sys.init 10 3 Checkpoint.zero 0 0 0 (fun _ => 0)) = some t ∧
      (∀ i j, 0 ≤ i → i < j → j ≤ t.o.check →
        t.o.checkpoint.ch i < t.o.checkpoint.ch j) ∧
      (∀ j, 0 ≤ j → j ≤ t.o.check →
        0 ≤ t.o.checkpoint.ch j ∧ t.o.checkpoint.ch j ≤ t.o.capo) :=
  offline_slots_increasing 10 3 (by decide) (by decide) (by decide) (by decide) (by decide)
    Checkpoint.zero 0 0 0 (fun _ => 0) 5

/-- C7: for `1 ≤ L ≤ 2^24`, `1 ≤ C ≤ 64` and repetition number at most 64, the run from
construction (`check = -1`, `capo = 0 < fine = L`) reaches its first `terminate`, and the
combined forward/reverse actions returned up to there are one `firsturn` followed by
`L - 1` times `youturn`. -/
theorem offline_firsturn_once (L C : Int) (hL1 : 1 ≤ L) (hL : L ≤ 16777216) (hC1 : 1 ≤ C)
    (hC : C ≤ 64) (hr : L ≤ bz C 64) (c : Checkpoint) (turn oldfine oldsnaps : Int)
    (num_ch : Int → Int) :
    ∃ (n : Nat) (t : Sys),
      Sys.run (n + 1) (Sys.init L C c turn oldfine oldsnaps num_ch) = some t ∧
      t.h.acts.getLast? = some Action.terminate ∧
      (∀ i u, i ≤ n → Sys.run i (Sys.init L C c turn oldfine oldsnaps num_ch) = some u →
        Action.terminate ∉ u.h.acts) ∧
      t.h.acts.filter Action.isTurn
        = Action.firsturn :: List.replicate (L.toNat - 1) Action.youturn := by
  obtain ⟨N, adv, -, hall⟩ := offline_terminates L C (by omega) hL hC1 hC hr
  obtain ⟨t, hrun, hlast, hbefore, hfin⟩ := hall c turn oldfine oldsnaps num_ch
  refine ⟨N, t, hrun, hlast, hbefore, ?_⟩
  have h1 := run_turns_fst (N + 1) _ t hrun (by simp [Sys.init, Host.start])
  have hturns : t.h.turns = turnEvents 0 0 L.toNat := hfin.turns
  obtain ⟨l, hl⟩ : ∃ l, L.toNat = l + 1 := ⟨L.toNat - 1, by omega⟩
  rw [← h1, hturns, hl, turnEvents_fst_zero]
  simp

/-- Witness for C7 at `L = 4`, `C = 2`. -/
theorem offline_firsturn_once_witness :
    ∃ (n : Nat) (t : Sys),
      Sys.run (n + 1) (Sys.init 4 2 Checkpoint.zero 0 0 0 (fun _ => 0)) = some t ∧
      t.h.acts.getLast? = some Action.terminate ∧
      (∀ i u, i ≤ n → Sys.run i (Sys.init 4 2 Checkpoint.zero 0 0 0 (fun _ => 0)) = some u →
        Action.terminate ∉ u.h.acts) ∧
      t.h.acts.filter Action.isTurn
        = Action.firsturn :: List.replicate ((4 : Int).toNat - 1) Action.youturn :=
  offline_firsturn_once 4 2 (by decide) (by decide) (by decide) (by decide) (by decide)
    Checkpoint.zero 0 0 0 (fun _ => 0)

/-- C8: for `0 ≤ L ≤ 2^24`, `1 ≤ C ≤ 64` and repetition number at most 64, whenever a
call of the run from construction returns `terminate`, it leaves `check = -1` and
`capo = fine`. -/
theorem offline_terminate_state (L C : Int) (hL0 : 0 ≤ L) (hL : L ≤ 16777216) (hC1 : 1 ≤ C)
    (hC : C ≤ 64) (hr : L ≤ bz C 64) (c : Checkpoint) (turn oldfine oldsnaps : Int)
    (num_ch : Int → Int) (n : Nat) :
    ∃ t, Sys.run (n + 1) (Sys.init L C c turn oldfine oldsnaps num_ch) = some t ∧
      (t.h.acts.getLast? = some Action.terminate → t.o.check = -1 ∧ t.o.capo = t.o.fine) := by
  obtain ⟨t, ht, hS⟩ :=
    offline_states L C hL0 hL hC1 hC hr c turn oldfine oldsnaps num_ch (n + 1)
  refine ⟨t, ht, ?_⟩
  intro hlast
  exact hS.term (List.mem_of_getLast?_eq_some hlast)

/-- Witness for C8 at `L = 2`, `C = 1`, at the sixth call. -/
theorem offline_terminate_state_witness :
    ∃ t, Sys.run (5 + 1) (Sys.init 2 1 Checkpoint.zero 0 0 0 (fun _ => 0)) = some t ∧
      (t.h.acts.getLast? = some Action.terminate → t.o.check = -1 ∧ t.o.capo = t.o.fine) :=
  offline_terminate_state 2 1 (by decide) (by decide) (by decide) (by decide) (by decide)
    Checkpoint.zero 0 0 0 (fun _ => 0) 5

/-! ## `maxrange`

A `double` is a rational number; every multiplication and division is rounded to the
nearest binary64 value, ties to even. The values that occur stay far from the subnormal
and the infinite range, which the rounding below therefore leaves out. -/

/-- Rounding of a rational to the nearest integer, ties to the even one. -/
def roundEven (x : ℚ) : ℤ :=
  let f := ⌊x⌋
  let d := x - f
  if d < 1 / 2 then f else if 1 / 2 < d then f + 1 else if f % 2 = 0 then f else f + 1

/-- Rounding of a rational to binary64: 53 significant bits, nearest, ties to even. -/
def round64 (q : ℚ) : ℚ :=
  if q = 0 then 0
  else
    let u : ℚ := (2 : ℚ) ^ (Int.log 2 |q| - 52)
    (roundEven (q / u) : ℚ) * u

/-- The `double` product `a * b`. -/
def fmul (a b : ℚ) : ℚ := round64 (a * b)

/-- The `double` quotient `a / b`. -/
def fdiv (a b : ℚ) : ℚ := round64 (a / b)

/-- The conversion `(int) res` of a `double`: truncation towards zero, undefined (`none`)
when the truncated value is no `int`. -/
def toInt (x : ℚ) : Option Int :=
  let z : Int := if 0 ≤ x then ⌊x⌋ else ⌈x⌉
  if -2147483648 ≤ z ∧ z ≤ 2147483647 then some z else none

/-- The loop `for (i = 1; i <= tt; i++)` of `maxrange` with the conversion that follows
it; `none` when the loop has not ended after `fuel` tests. -/
def maxrangeLoop (ss tt : Int) : Nat → Int → ℚ → Option Int
  | 0, _, _ => none
  | fuel + 1, i, res =>
    if i ≤ tt then
      let res1 := fmul res ((iadd ss i : Int) : ℚ)
      let res2 := fdiv res1 ((i : Int) : ℚ)
      if res2 > ((MAXINT : Int) : ℚ) then some MAXINT
      else maxrangeLoop ss tt fuel (iadd i 1) res2
    else toInt res

/-- The function `int maxrange(int ss, int tt)`. -/
def maxrange (ss tt : Int) : Option Int :=
  if tt < 0 ∨ ss < 0 then some (-1)
  else maxrangeLoop ss tt (tt.toNat + 1) 1 1

theorem roundEven_intCast (m : ℤ) : roundEven (m : ℚ) = m := by
  unfold roundEven
  simp

/-- An integer of fewer than 54 bits is a `double`: rounding leaves it alone. -/
theorem round64_intCast (n : ℤ) (h : |n| < 9007199254740992) : round64 (n : ℚ) = n := by
  unfold round64
  by_cases h0 : (n : ℚ) = 0
  · rw [if_pos h0, h0]
  · rw [if_neg h0]
    have hn0 : n ≠ 0 := by
      intro hn; apply h0; rw [hn]; rfl
    have habs : (0 : ℚ) < |(n : ℚ)| := abs_pos.mpr h0
    have h1 : (1 : ℚ) ≤ |(n : ℚ)| := by
      have : (1 : ℤ) ≤ |n| := Int.one_le_abs hn0
      have := (Int.cast_le (R := ℚ)).mpr this
      simpa using this
    have hlt : |(n : ℚ)| < (2 : ℚ) ^ (53 : ℤ) := by
      have := (Int.cast_lt (R := ℚ)).mpr h
      simp only [Int.cast_abs] at this
      refine lt_of_lt_of_le this ?_
      norm_num
    have he0 : 0 ≤ Int.log 2 |(n : ℚ)| := by
      rw [Int.log_of_one_le_right 2 h1]; exact Int.natCast_nonneg _
    have he : Int.log 2 |(n : ℚ)| < 53 := by
      apply (Int.lt_zpow_iff_log_lt (by norm_num) habs).mp
      have h2 : ((2 : ℕ) : ℚ) = 2 := by norm_num
      rw [h2]
      exact hlt
    obtain ⟨k, hk⟩ : ∃ k : ℕ, Int.log 2 |(n : ℚ)| - 52 = -(k : ℤ) :=
      ⟨(52 - Int.log 2 |(n : ℚ)|).toNat, by rw [Int.toNat_of_nonneg (by omega)]; ring⟩
    simp only [hk]
    have hu : (2 : ℚ) ^ (-(k : ℤ)) = ((2 : ℚ) ^ k)⁻¹ := by
      rw [zpow_neg, zpow_natCast]
    rw [hu]
    have hpos : (0 : ℚ) < (2 : ℚ) ^ k := by positivity
    have hq : (n : ℚ) / ((2 : ℚ) ^ k)⁻¹ = ((n * 2 ^ k : ℤ) : ℚ) := by
      rw [div_inv_eq_mul]; push_cast; ring
    rw [hq, roundEven_intCast]
    push_cast
    field_simp

theorem toInt_intCast (n : ℤ) (h1 : -2147483648 ≤ n) (h2 : n ≤ 2147483647) :
    toInt (n : ℚ) = some n := by
  unfold toInt
  simp only [Int.floor_intCast, Int.ceil_intCast, ite_self]
  rw [if_pos ⟨h1, h2⟩]

/-- At `ss = 2147483647`, `tt = 1` the `int` sum `ss + i` overflows and `maxrange` returns
`-2147483648`. -/
theorem maxrange_maxint_one : maxrange 2147483647 1 = some (-2147483648) := by
  have e1 : iadd 2147483647 1 = -2147483648 := by decide
  have e2 : iadd 1 1 = 2 := by decide
  have r1 : fmul 1 ((-2147483648 : ℤ) : ℚ) = ((-2147483648 : ℤ) : ℚ) := by
    unfold fmul
    rw [one_mul]
    exact round64_intCast _ (by decide)
  have r2 : fdiv ((-2147483648 : ℤ) : ℚ) ((1 : ℤ) : ℚ) = ((-2147483648 : ℤ) : ℚ) := by
    unfold fdiv
    rw [Int.cast_one, div_one]
    exact round64_intCast _ (by decide)
  have c1 : ¬ ((-2147483648 : ℤ) : ℚ) > ((MAXINT : ℤ) : ℚ) := by
    unfold MAXINT; norm_num
  have n0 : ¬ ((1 : ℤ) < 0 ∨ (2147483647 : ℤ) < 0) := by decide
  have f2 : (1 : ℤ).toNat + 1 = 2 := by decide
  unfold maxrange
  rw [if_neg n0, f2]
  unfold maxrangeLoop
  rw [if_pos (by decide : (1 : ℤ) ≤ 1)]
  simp only [e1, r1, r2, e2, if_neg c1]
  unfold maxrangeLoop
  rw [if_neg (by decide : ¬ (2 : ℤ) ≤ 1)]
  exact toInt_intCast _ (by decide) (by decide)

/-- C9 fails on the code at `ss = 2147483647`, `tt = 1`: the binomial coefficient
`C(2147483648, 1)` exceeds `2^31 - 1`, yet `maxrange` does not return `2^31 - 1`. -/
theorem maxrange_not_saturated : maxrange 2147483647 1 ≠ some MAXINT := by
  rw [maxrange_maxint_one]
  decide

/-- C10 fails on the code at `ss = 2147483647`, `tt = 1`: both arguments are non-negative
and the value returned is below `1`. -/
theorem maxrange_below_one :
    ∃ v, maxrange 2147483647 1 = some v ∧ v < 1 ∧ (0 : Int) ≤ 2147483647 ∧ (0 : Int) ≤ 1 :=
  ⟨-2147483648, maxrange_maxint_one, by decide, by decide, by decide⟩

set_option maxRecDepth 1000000 in
/-- Outside the accepted parameters: with `C = 65` slots, more than `checkup`, the first
call is refused (`info = 14`); a host that goes on calling for `L = 66` has the 65th
takeshot refused at call 129 (`info = 10`), with `check = 64` left on a slot that was never
written. -/
theorem run_checkup_exceeded :
    (Sys.run 129 (Sys.init 66 65 Checkpoint.zero 0 0 0 (fun _ => 0))).map
        (fun t => (t.o.check, t.o.capo, t.o.checkpoint.ch 63, t.o.checkpoint.ch 64,
          t.h.acts.getLast?))
      = some (64, 64, 63, 0, some Action.error) := by
  rfl

/-- While `ss + tt ≤ 2^22` every product and quotient formed by `maxrange` is an integer
below `2^53`, hence exact: the loop carries the binomial coefficients `C(ss + i, i)`. -/
theorem maxrangeLoop_spec (s t : Int) (hs : 0 ≤ s) (hst : s + t ≤ 4194304) :
    ∀ (fuel : Nat) (i : Int), 1 ≤ i → i ≤ t + 1 → (fuel : Int) = t - i + 2 →
      bz s (i - 1) ≤ 2147483647 →
      maxrangeLoop s t fuel i ((bz s (i - 1) : ℤ) : ℚ) = some (min (bz s t) 2147483647) := by
  intro fuel
  induction fuel with
  | zero => intro i h1 h2 h3 _; push_cast at h3; omega
  | succ fuel ih =>
    intro i hi1 hit hfuel hle
    unfold maxrangeLoop
    by_cases hlt : i ≤ t
    · rw [if_pos hlt]
      have hb0 := bz_nonneg s (i - 1)
      have e1 : iadd s i = s + i := iadd_eq (by omega) (by omega)
      have e2 : iadd i 1 = i + 1 := iadd_eq (by omega) (by omega)
      have hid := bz_mul_right s i hs
      have hprod0 : 0 ≤ bz s (i - 1) * (s + i) := mul_nonneg hb0 (by omega)
      have hprod : bz s (i - 1) * (s + i) < 9007199254740992 := by nlinarith
      have hbi0 := bz_nonneg s i
      have hbi : bz s i ≤ bz s (i - 1) * (s + i) := by
        rw [← hid]; nlinarith
      have r1 : fmul ((bz s (i - 1) : ℤ) : ℚ) ((iadd s i : ℤ) : ℚ)
          = ((bz s (i - 1) * (s + i) : ℤ) : ℚ) := by
        unfold fmul
        rw [e1, ← Int.cast_mul]
        exact round64_intCast _ (by rw [abs_of_nonneg hprod0]; exact hprod)
      have r2 : fdiv ((bz s (i - 1) * (s + i) : ℤ) : ℚ) ((i : ℤ) : ℚ) = ((bz s i : ℤ) : ℚ) := by
        unfold fdiv
        have hi0 : ((i : ℤ) : ℚ) ≠ 0 := by
          have : i ≠ 0 := by omega
          exact_mod_cast this
        have : ((bz s (i - 1) * (s + i) : ℤ) : ℚ) / ((i : ℤ) : ℚ) = ((bz s i : ℤ) : ℚ) := by
          rw [← hid, Int.cast_mul, mul_div_assoc, div_self hi0, mul_one]
        rw [this]
        exact round64_intCast _ (by rw [abs_of_nonneg hbi0]; omega)
      simp only [r1, r2, e2]
      by_cases hsat : bz s i ≤ 2147483647
      · have c : ¬ ((bz s i : ℤ) : ℚ) > ((MAXINT : ℤ) : ℚ) := by
          unfold MAXINT
          have := (Int.cast_le (R := ℚ)).mpr hsat
          exact not_lt.mpr this
        rw [if_neg c]
        have e3 : i + 1 - 1 = i := by ring
        have := ih (i + 1) (by omega) (by omega) (by push_cast at hfuel ⊢; omega)
          (by rw [e3]; exact hsat)
        rw [e3] at this
        exact this
      · have c : ((bz s i : ℤ) : ℚ) > ((MAXINT : ℤ) : ℚ) := by
          unfold MAXINT
          have : (2147483647 : ℤ) < bz s i := by omega
          exact (Int.cast_lt (R := ℚ)).mpr this
        rw [if_pos c]
        have hmono := bz_mono_right_le s hlt
        have : min (bz s t) 2147483647 = 2147483647 := min_eq_right (by omega)
        rw [this]
        rfl
    · rw [if_neg hlt]
      have hit' : i - 1 = t := by omega
      rw [hit'] at hle ⊢
      rw [min_eq_left hle]
      exact toInt_intCast _ (by have := bz_nonneg s t; omega) hle

/-- For non-negative `ss`, `tt` with `ss + tt ≤ 2^22`, `maxrange` returns the binomial
coefficient `C(ss + tt, tt)`, or `2^31 - 1` when the coefficient is larger. -/
theorem maxrange_small (s t : Int) (hs : 0 ≤ s) (ht : 0 ≤ t) (hst : s + t ≤ 4194304) :
    maxrange s t = some (min (bz s t) 2147483647) := by
  unfold maxrange
  rw [if_neg (by omega)]
  have h0 : bz s (1 - 1) = 1 := by
    have : (1 : Int) - 1 = 0 := by ring
    rw [this]; exact bz_zero_right hs
  have := maxrangeLoop_spec s t hs hst (t.toNat + 1) 1 (le_refl 1) (by omega)
    (by push_cast; rw [Int.toNat_of_nonneg ht]; ring) (by rw [h0]; decide)
  rw [h0] at this
  simpa using this

/-! ## The loop of `numforw` on exactly the inputs that do not overflow -/

/-- The loop of `numforw` when `C(r + snaps, r) * r`, the largest product formed, fits in an
`int`: it stops at the repetition number `r` with `range = C(r + snaps, r)`. -/
theorem repsLoop_exact (L C r : Int) (hC1 : 1 ≤ C) (hC : C ≤ 1073741824) (hup : L ≤ bz C r)
    (hlow : ∀ j, 0 ≤ j → j < r → bz C j < L) (hov : bz C r * r ≤ 2147483647) :
    ∀ (fuel : Nat) (k : Int), 0 ≤ k → k ≤ r → r - k + 1 ≤ fuel →
      repsLoop fuel L C k (bz C k) = some (r, bz C r) := by
  intro fuel
  induction fuel with
  | zero => intro k _ _ h; omega
  | succ fuel ih =>
    intro k hk0 hkr hfuel
    unfold repsLoop
    rcases lt_or_eq_of_le hkr with hlt | heq
    · rw [if_pos (hlow k hk0 hlt)]
      have hrr : r + 1 ≤ bz C r := bz_ge_succ hC1 (by omega)
      have hr46 : r < 46341 := by nlinarith
      have e1 : iadd k 1 = k + 1 := iadd_eq (by omega) (by omega)
      have e2 : iadd (k + 1) C = k + 1 + C := iadd_eq (by omega) (by omega)
      have hid := bz_mul_right C (k + 1) (by omega)
      have ek : k + 1 - 1 = k := by ring
      rw [ek] at hid
      have hmono : bz C (k + 1) ≤ bz C r := bz_mono_right_le C (by omega)
      have hb0 := bz_nonneg C (k + 1)
      have hprod : bz C (k + 1) * (k + 1) ≤ bz C r * r := by
        have h1 : bz C (k + 1) * (k + 1) ≤ bz C r * (k + 1) :=
          mul_le_mul_of_nonneg_right hmono (by omega)
        have h2 : bz C r * (k + 1) ≤ bz C r * r :=
          mul_le_mul_of_nonneg_left (by omega) (bz_nonneg C r)
        omega
      have hp0 : 0 ≤ bz C (k + 1) * (k + 1) := mul_nonneg hb0 (by omega)
      have e3 : imul (bz C k) (k + 1 + C) = bz C k * (k + 1 + C) :=
        imul_eq (by rw [show k + 1 + C = C + (k + 1) by ring, ← hid]; omega)
          (by rw [show k + 1 + C = C + (k + 1) by ring, ← hid]; omega)
      have e4 : idiv (bz C k * (k + 1 + C)) (k + 1) = bz C (k + 1) :=
        idiv_exact (by omega) hb0 (by rw [hid]; ring)
          (by rw [show k + 1 + C = C + (k + 1) by ring, ← hid]; omega)
      rw [e1, e2, e3, e4]
      exact ih (k + 1) (by omega) (by omega) (by push_cast at hfuel; omega)
    · subst heq
      rw [if_neg (not_lt.mpr hup)]

/-- The loop as `numforw` and `get_r` start it. -/
theorem repsLoop_exact_start (L C r : Int) (hC1 : 1 ≤ C) (hC : C ≤ 1073741824) (hr0 : 0 ≤ r)
    (hup : L ≤ bz C r) (hlow : ∀ j, 0 ≤ j → j < r → bz C j < L)
    (hov : bz C r * r ≤ 2147483647) :
    repsLoop (L.toNat + 1) L C 0 1 = some (r, bz C r) := by
  have h0 := bz_zero_right (show 0 ≤ C by omega)
  have hfuel : r - 0 + 1 ≤ ((L.toNat + 1 : Nat) : Int) := by
    rcases eq_or_lt_of_le hr0 with h | h
    · subst h; push_cast; omega
    · have h1 := hlow (r - 1) (by omega) (by omega)
      have h2 : r - 1 + 1 ≤ bz C (r - 1) := bz_ge_succ hC1 (by omega)
      push_cast
      omega
  have := repsLoop_exact L C r hC1 hC hup hlow hov (L.toNat + 1) 0 (le_refl 0) hr0 hfuel
  rw [h0] at this
  exact this
/-- Truncating division of a non-negative `int` by a positive one stays in range. -/
theorem idiv_nonneg {x q : Int} (hx0 : 0 ≤ x) (hx : x ≤ 2147483647) (hq : 0 < q) :
    idiv x q = Int.tdiv x q ∧ 0 ≤ Int.tdiv x q ∧ Int.tdiv x q * q ≤ x := by
  have e : Int.tdiv x q = x / q := Int.tdiv_eq_ediv hx0 (le_of_lt hq)
  have h0 : 0 ≤ x / q := Int.ediv_nonneg hx0 (le_of_lt hq)
  have h1 : x / q * q ≤ x := Int.ediv_mul_le x (ne_of_gt hq)
  have h2 : x / q ≤ x := by nlinarith
  refine ⟨?_, by rw [e]; exact h0, by rw [e]; exact h1⟩
  unfold idiv
  rw [e]
  exact wrap_eq (by omega) (by omega)

/-- C12: for `1 ≤ C ≤ 64`, if `r ≤ 64` is the least `r ≥ 0` with `L ≤ C(r + C, r)` and the
largest product formed, `C(r + C, r) * r`, fits in an `int` (no 32-bit overflow), then the
loop of `numforw` ends with `reps = r` and `range = C(r + C, r)`, `numforw(L, C)` is
`r * L - (C(r + C, r) * r) div (C + 1)` with truncating division, and `get_r(L, C)` is `r`.
-/
theorem numforw_closed_form (L C r : Int) (hC1 : 1 ≤ C) (hC : C ≤ 64) (hr0 : 0 ≤ r)
    (hr : r ≤ 64) (hup : L ≤ bz C r) (hlow : ∀ j, 0 ≤ j → j < r → bz C j < L)
    (hov : bz C r * r ≤ 2147483647) :
    repsLoop (L.toNat + 1) L C 0 1 = some (r, bz C r) ∧
      numforw L C = some (r * L - Int.tdiv (bz C r * r) (C + 1)) ∧
      get_r L C = some r := by
  have hloop := repsLoop_exact_start L C r hC1 (by omega) hr0 hup hlow hov
  have n1 : ¬ C < 1 := by omega
  have n2 : ¬ C > checkup := by unfold checkup; omega
  have n3 : ¬ r > repsup := by unfold repsup; omega
  refine ⟨hloop, ?_, ?_⟩
  · unfold numforw
    rw [if_neg n1, if_neg n2, hloop]
    simp only [if_neg n3]
    have hb := bz_nonneg C r
    have hx0 : 0 ≤ bz C r * r := mul_nonneg hb hr0
    have e5 : iadd C 1 = C + 1 := iadd_eq (by omega) (by omega)
    obtain ⟨e6, ht0, ht⟩ := idiv_nonneg hx0 hov (show 0 < C + 1 by omega)
    have ht1 : Int.tdiv (bz C r * r) (C + 1) ≤ bz C r * r := by nlinarith
    have e4 : imul (bz C r) r = bz C r * r := imul_eq (by omega) (by omega)
    rcases eq_or_lt_of_le hr0 with h | h
    · subst h
      have e1 : imul 0 L = 0 := by unfold imul; rw [zero_mul]; rfl
      rw [e1, e4, e5, e6, zero_mul, isub_eq (by omega) (by omega)]
    · have hL1 : 1 ≤ L := by
        have h1 := hlow 0 (le_refl 0) h
        rw [bz_zero_right (by omega)] at h1
        omega
      have hrL : r * L ≤ bz C r * r := by nlinarith
      have hrL0 : 0 ≤ r * L := by nlinarith
      have e3 : imul r L = r * L := imul_eq (by omega) (by omega)
      rw [e3, e4, e5, e6, isub_eq (by omega) (by omega)]
  · unfold get_r
    rw [if_neg n1, if_neg n2, hloop]
    simp only [if_neg n3]

/-- Witness for C12 at `L = 10`, `C = 3`, where `r = 2` and `C(5, 2) = 10`. -/
theorem numforw_closed_form_witness :
    repsLoop ((10 : Int).toNat + 1) 10 3 0 1 = some (2, bz 3 2) ∧
      numforw 10 3 = some (2 * 10 - Int.tdiv (bz 3 2 * 2) (3 + 1)) ∧
      get_r 10 3 = some 2 :=
  numforw_closed_form 10 3 2 (by decide) (by decide) (by decide) (by decide) (by decide)
    (by intro j h0 h2; interval_cases j <;> decide) (by decide)
/-! ## The loop of `numforw` with wrapping arithmetic -/

/-- The loop never lowers `reps` (within the fuel its callers give it). -/
theorem repsLoop_reps_ge (L C : Int) :
    ∀ (fuel : Nat) (k g reps range : Int), 0 ≤ k → k + fuel ≤ 2147483648 →
      repsLoop fuel L C k g = some (reps, range) → k ≤ reps := by
  intro fuel
  induction fuel with
  | zero => intro k g reps range _ _ h; simp [repsLoop] at h
  | succ fuel ih =>
    intro k g reps range hk0 hf h
    unfold repsLoop at h
    by_cases hlt : g < L
    · rw [if_pos hlt] at h
      cases fuel with
      | zero => simp [repsLoop] at h
      | succ fuel =>
        have e1 : iadd k 1 = k + 1 := iadd_eq (by omega) (by push_cast at hf; omega)
        rw [e1] at h
        have := ih (k + 1) _ reps range (by omega) (by push_cast at hf ⊢; omega) h
        omega
    · rw [if_neg hlt] at h
      simp only [Option.some.injEq, Prod.mk.injEq] at h
      omega

/-- C14, as amended: `numforw(10, 3) = 15`. The loop ends with `reps = 2` and `range = 10`,
and `2 * 10 - 10 * 2 / (3 + 1) = 15`. -/
theorem numforw_ten_three :
    repsLoop ((10 : Int).toNat + 1) 10 3 0 1 = some (2, 10) ∧ numforw 10 3 = some 15 := by
  decide

/-- C14 as stated fails: `numforw(10, 3)` is not 14. -/
theorem numforw_ten_three_counterexample : numforw 10 3 ≠ some 14 := by decide

/-! ## `adjust` -/

/-- The loop `while (maxrange(snaps+s, reps+s) > steps) s--;` of `adjust`: the final `s`,
or `none` when the loop has not ended after `fuel` tests. -/
def adjustDown (steps snaps reps : Int) : Nat → Int → Option Int
  | 0, _ => none
  | fuel + 1, s =>
    match maxrange (iadd snaps s) (iadd reps s) with
    | none => none
    | some v => if v > steps then adjustDown steps snaps reps fuel (isub s 1) else some s

/-- The loop `while (maxrange(snaps+s, reps+s) < steps) s++;` of `adjust`. -/
def adjustUp (steps snaps reps : Int) : Nat → Int → Option Int
  | 0, _ => none
  | fuel + 1, s =>
    match maxrange (iadd snaps s) (iadd reps s) with
    | none => none
    | some v => if v < steps then adjustUp steps snaps reps fuel (iadd s 1) else some s

/-- The loop
`while (maxrange(snaps,reps) >= steps) { if (snaps > reps) { snaps -= 1; s = 0; }
else { reps -= 1; s = 1; } }` of `adjust`: the final `(snaps, reps, s)`. -/
def adjustBack (steps : Int) : Nat → Int → Int → Int → Option (Int × Int × Int)
  | 0, _, _, _ => none
  | fuel + 1, snaps, reps, s =>
    match maxrange snaps reps with
    | none => none
    | some v =>
      if v ≥ steps then
        if snaps > reps then adjustBack steps fuel (isub snaps 1) reps 0
        else adjustBack steps fuel snaps (isub reps 1) 1
      else some (snaps, reps, s)

/-- The function `int adjust(int steps)`; each of its loops is given `steps + 3` tests. -/
def adjust (steps : Int) : Option Int :=
  let fuel := steps.toNat + 3
  match adjustDown steps 1 1 fuel 0 with
  | none => none
  | some s =>
    match adjustUp steps 1 1 fuel s with
    | none => none
    | some s =>
      match adjustBack steps fuel (iadd 1 s) (iadd 1 s) (-1) with
      | none => none
      | some (snaps, reps, s) =>
        let snaps := if s = 0 then iadd snaps 1 else snaps
        let _reps := if s = 1 then iadd reps 1 else reps
        some snaps

/-- The first loop of `adjust` for `steps ≥ 1`: it lowers `s` once exactly when
`steps = 1`. -/
theorem adjustDown_spec (L : Int) (hL1 : 1 ≤ L) (fuel : Nat) (hf : 2 ≤ fuel) :
    adjustDown L 1 1 fuel 0 = some (if L = 1 then -1 else 0) := by
  obtain ⟨f, rfl⟩ : ∃ f, fuel = f + 1 + 1 := ⟨fuel - 2, by omega⟩
  have e0 : iadd 1 0 = 1 := by rfl
  have e1 : iadd 1 (-1) = 0 := by rfl
  have e2 : isub 0 1 = -1 := by rfl
  have m1 : maxrange 1 1 = some 2 := by
    rw [maxrange_small 1 1 (by omega) (by omega) (by omega)]; decide
  have m0 : maxrange 0 0 = some 1 := by
    rw [maxrange_small 0 0 (by omega) (by omega) (by omega)]; decide
  unfold adjustDown
  rw [e0, m1]
  by_cases h : L = 1
  · subst h
    simp only [show (2 : Int) > 1 by omega, if_true]
    unfold adjustDown
    rw [e2, e1, m0]
    simp
  · simp only [if_neg h]
    rw [if_neg (by omega)]

/-- The second loop of `adjust` climbs to the least `m` with `steps ≤ maxrange(m, m)`. -/
theorem adjustUp_spec (L m : Int) (hm : m ≤ 17)
    (hup : L ≤ min (bz m m) 2147483647)
    (hlow : ∀ j, 0 ≤ j → j < m → min (bz j j) 2147483647 < L) :
    ∀ (fuel : Nat) (s : Int), -1 ≤ s → s + 1 ≤ m → m - s ≤ fuel →
      adjustUp L 1 1 fuel s = some (m - 1) := by
  intro fuel
  induction fuel with
  | zero => intro s _ _ h; omega
  | succ fuel ih =>
    intro s hs1 hsm hf
    have e0 : iadd 1 s = 1 + s := iadd_eq (by omega) (by omega)
    unfold adjustUp
    rw [e0, maxrange_small (1 + s) (1 + s) (by omega) (by omega) (by omega)]
    simp only
    rcases lt_or_eq_of_le hsm with h | h
    · rw [if_pos (hlow (1 + s) (by omega) (by omega))]
      rw [iadd_eq (by omega) (by omega)]
      exact ih (s + 1) (by omega) (by omega) (by push_cast at hf; omega)
    · have e : 1 + s = m := by omega
      rw [e, if_neg (not_lt.mpr hup)]
      congr 1
      omega

/-- The third loop of `adjust`, started at `snaps = reps = m`, and the correction that
follows it give `snaps = m` again. -/
theorem adjustBack_spec (L m : Int) (hL1 : 1 ≤ L) (hm0 : 0 ≤ m) (hm : m ≤ 17)
    (hup : L ≤ min (bz m m) 2147483647)
    (hlow : ∀ j, 0 ≤ j → j < m → min (bz j j) 2147483647 < L) (fuel : Nat) (hf : 3 ≤ fuel) :
    ∃ sn rp s, adjustBack L fuel m m (-1) = some (sn, rp, s) ∧
      (if s = 0 then iadd sn 1 else sn) = m := by
  obtain ⟨f, rfl⟩ : ∃ f, fuel = f + 1 + 1 + 1 := ⟨fuel - 3, by omega⟩
  have e1 : isub m 1 = m - 1 := isub_eq (by omega) (by omega)
  unfold adjustBack
  rw [maxrange_small m m hm0 hm0 (by omega)]
  simp only
  rw [if_pos (ge_iff_le.mpr hup), if_neg (by omega), e1]
  unfold adjustBack
  rcases eq_or_lt_of_le hm0 with h0 | h0
  · subst h0
    have mneg : maxrange 0 (0 - 1) = some (-1) := by
      unfold maxrange
      rw [if_pos (by left; omega)]
    rw [mneg]
    simp only
    rw [if_neg (by omega)]
    exact ⟨0, 0 - 1, 1, rfl, by simp⟩
  · rw [maxrange_small m (m - 1) hm0 (by omega) (by omega)]
    simp only
    by_cases hv : min (bz m (m - 1)) 2147483647 ≥ L
    · rw [if_pos hv, if_pos (by omega), e1]
      unfold adjustBack
      rw [maxrange_small (m - 1) (m - 1) (by omega) (by omega) (by omega)]
      simp only
      rw [if_neg (not_le.mpr (hlow (m - 1) (by omega) (by omega)))]
      refine ⟨m - 1, m - 1, 0, rfl, ?_⟩
      rw [if_pos rfl, iadd_eq (by omega) (by omega)]
      ring
    · rw [if_neg hv]
      exact ⟨m, m - 1, 1, rfl, by simp⟩

/-- The value of `adjust`: the least `m` with `steps ≤ maxrange(m, m)`. -/
theorem adjust_eq (L m : Int) (hL1 : 1 ≤ L) (hm0 : 0 ≤ m) (hm : m ≤ 17)
    (hup : L ≤ min (bz m m) 2147483647)
    (hlow : ∀ j, 0 ≤ j → j < m → min (bz j j) 2147483647 < L) : adjust L = some m := by
  have hb0 : min (bz 0 0) 2147483647 = 1 := by decide
  have hcase : (L = 1 ∧ m = 0) ∨ (2 ≤ L ∧ 1 ≤ m) := by
    rcases eq_or_lt_of_le hL1 with h | h
    · left
      refine ⟨h.symm, ?_⟩
      by_contra hne
      have := hlow 0 (le_refl 0) (by omega)
      omega
    · right
      refine ⟨by omega, ?_⟩
      by_contra hne
      have hm00 : m = 0 := by omega
      subst hm00
      omega
  have hfuel : 1 ≤ L.toNat := by omega
  obtain ⟨sn, rp, s, hback, hres⟩ :=
    adjustBack_spec L m hL1 hm0 hm hup hlow (L.toNat + 3) (by omega)
  unfold adjust
  simp only
  rw [adjustDown_spec L hL1 (L.toNat + 3) (by omega)]
  simp only
  have hupL : adjustUp L 1 1 (L.toNat + 3) (if L = 1 then -1 else 0) = some (m - 1) := by
    rcases hcase with ⟨h1, h2⟩ | ⟨h1, h2⟩
    · rw [if_pos h1]
      exact adjustUp_spec L m hm hup hlow _ _ (by omega) (by omega) (by push_cast; omega)
    · rw [if_neg (by omega)]
      have hmL : m ≤ L := by
        have := hlow (m - 1) (by omega) (by omega)
        have h3 : m - 1 + 1 ≤ bz (m - 1) (m - 1) := by
          rcases eq_or_lt_of_le h2 with h | h
          · rw [← h]; decide
          · exact bz_ge_succ (by omega) (by omega)
        have h4 := min_le_left (bz (m - 1) (m - 1)) 2147483647
        rcases min_choice (bz (m - 1) (m - 1)) 2147483647 with hc | hc
        · omega
        · omega
      exact adjustUp_spec L m hm hup hlow _ _ (by omega) (by omega) (by push_cast; omega)
  rw [hupL]
  simp only
  rw [iadd_eq (by omega) (by omega), show 1 + (m - 1) = m by ring, hback]
  simp only
  rw [hres]
/-- C11: for every `int` `L ≥ 1`, `adjust(L)` returns, and what it returns is the least
`m ≥ 0` with `maxrange(m, m) ≥ L`. -/
theorem adjust_least (L : Int) (hL1 : 1 ≤ L) (hL : L ≤ 2147483647) :
    ∃ m, adjust L = some m ∧ 0 ≤ m ∧ (∃ v, maxrange m m = some v ∧ L ≤ v) ∧
      ∀ j, 0 ≤ j → j < m → ∃ w, maxrange j j = some w ∧ w < L := by
  have h17 : bz 17 17 = 2333606220 := by
    rw [show (17 : Int) = ((17 : Nat) : Int) by rfl, bz_nat]
    norm_num [Nat.choose]
  have hex : ∃ k : Nat, L ≤ min (bz k k) 2147483647 := by
    refine ⟨17, ?_⟩
    rw [show ((17 : Nat) : Int) = 17 by rfl, h17]
    omega
  have hspec := Nat.find_spec hex
  have hle : Nat.find hex ≤ 17 := Nat.find_min' hex (by
    rw [show ((17 : Nat) : Int) = 17 by rfl, h17]
    omega)
  have hlow : ∀ j : Int, 0 ≤ j → j < (Nat.find hex : Int) →
      min (bz j j) 2147483647 < L := by
    intro j hj0 hj
    have hlt : j.toNat < Nat.find hex := by omega
    have := Nat.find_min hex hlt
    rw [Int.toNat_of_nonneg hj0] at this
    exact not_le.mp this
  refine ⟨(Nat.find hex : Int), ?_, by omega, ?_, ?_⟩
  · exact adjust_eq L _ hL1 (by omega) (by omega) hspec hlow
  · exact ⟨_, maxrange_small _ _ (by omega) (by omega) (by omega), hspec⟩
  · intro j hj0 hj
    exact ⟨_, maxrange_small _ _ hj0 hj0 (by omega), hlow j hj0 hj⟩

/-- Witness for C11 at `L = 100`. -/
theorem adjust_least_witness :
    ∃ m, adjust 100 = some m ∧ 0 ≤ m ∧ (∃ v, maxrange m m = some v ∧ 100 ≤ v) ∧
      ∀ j, 0 ≤ j → j < m → ∃ w, maxrange j j = some w ∧ w < 100 :=
  adjust_least 100 (by decide) (by decide)

/-- The value of `adjust(100)`, with the two values of `maxrange` that decide it. -/
theorem adjust_hundred :
    adjust 100 = some 5 ∧ maxrange 4 4 = some 70 ∧ maxrange 5 5 = some 252 := by
  refine ⟨?_, ?_, ?_⟩
  · refine adjust_eq 100 5 (by decide) (by decide) (by decide) (by decide) ?_
    intro j h0 h5
    interval_cases j <;> decide
  · rw [maxrange_small 4 4 (by decide) (by decide) (by decide)]; decide
  · rw [maxrange_small 5 5 (by decide) (by decide) (by decide)]; decide

/-- C15, as amended: `adjust(100) = 5`, since `maxrange(4, 4) = 70 < 100 ≤ 252 =
maxrange(5, 5)`. -/
theorem adjust_hundred_eq :
    adjust 100 = some 5 ∧ maxrange 4 4 = some 70 ∧ maxrange 5 5 = some 252 :=
  adjust_hundred

/-- C15 as stated fails: `adjust(100)` is not 4. -/
theorem adjust_hundred_counterexample : adjust 100 ≠ some 4 := by
  rw [adjust_hundred.1]
  decide

/-! ## Short runs: claims C16 to C18 -/

/-- The two advances of the run with `L = 4`, `C = 2`. -/
theorem amount_four_three : amount 4 2 2 = 1 ∧ amount 3 1 2 = 2 := by decide

/-- C16, as amended: with `L = 4`, `C = 2` the first six calls return, in this order,
takeshot (slot 0 holds step 0), advance to `capo = 1`, takeshot (slot 1 holds step 1),
advance to `capo = 3`, firsturn (`fine` goes from 4 to 3) and restore of slot 1, which
sets `capo = 1`. -/
theorem offline_four_two (c : Checkpoint) (turn oldfine oldsnaps : Int) (num_ch : Int → Int) :
    ∃ t1 t2 t3 t4 t5 t6 : Sys,
      (Sys.init 4 2 c turn oldfine oldsnaps num_ch).step = some t1 ∧ t1.step = some t2 ∧
      t2.step = some t3 ∧ t3.step = some t4 ∧ t4.step = some t5 ∧ t5.step = some t6 ∧
      t6.view.acts = [Action.takeshot, Action.advance, Action.takeshot, Action.advance,
        Action.firsturn, Action.restore] ∧
      (t1.view.check = 0 ∧ t1.view.ch 0 = 0 ∧ t1.view.slots 0 = some 0 ∧ t1.view.capo = 0) ∧
      t2.view.capo = 1 ∧
      (t3.view.check = 1 ∧ t3.view.ch 1 = 1 ∧ t3.view.slots 1 = some 1 ∧ t3.view.capo = 1) ∧
      t4.view.capo = 3 ∧
      (t4.view.fine = 4 ∧ t5.view.fine = 3 ∧ t5.view.capo = 3) ∧
      (t6.view.check = 1 ∧ t6.view.ch 1 = 1 ∧ t6.view.capo = 1 ∧ t6.view.fine = 3) := by
  obtain ⟨t1, h1, v1⟩ := view_initshot (Sys.init 4 2 c turn oldfine oldsnaps num_ch) 4 2
    rfl rfl rfl (by decide) (by decide) (by show (1 : Int) ≤ 2; decide)
    (by show (2 : Int) ≤ 64; decide) (by decide) (by decide)
    (by show (4 : Int) ≤ bz 2 2; decide)
  rw [view_init] at v1
  obtain ⟨t2, h2, v2⟩ := view_adv t1 0 0 4 2 2 (by simp [v1]) (by simp [v1]) (by simp [v1])
    (by simp [v1]) (by simp [v1]) (by simp [v1]) (by simp [v1]) (by simp [v1]) (by decide)
    (by decide) (by decide) (by decide) (by decide) (by decide) (by decide) (by decide)
    (by decide) (by decide) (by simp [v1]) (by simp [v1])
  rw [v1, amount_four_three.1] at v2
  obtain ⟨t3, h3, v3⟩ := view_shot t2 0 1 3 (by simp [v2]) (by simp [v2]) (by simp [v2])
    (by simp [v2]) (by decide) (by decide) (by decide) (by decide) (by simp [v2])
    (by simp [v2]) (by simp [v2])
  rw [v2] at v3
  obtain ⟨t4, h4, v4⟩ := view_adv t3 1 1 3 1 2 (by simp [v3]) (by simp [v3]) (by simp [v3])
    (by simp [v3]) (by simp [v3]) (by simp [v3]) (by simp [v3]) (by simp [v3]) (by decide)
    (by decide) (by decide) (by decide) (by decide) (by decide) (by decide) (by decide)
    (by decide) (by decide) (by simp [v3]) (by simp [v3])
  rw [v3, amount_four_three.2] at v4
  obtain ⟨t5, h5, v5⟩ := view_turn t4 1 3 (by simp [v4]) (by simp [v4]) (by simp [v4])
    (by decide) (by decide) (by decide) (by decide)
  rw [v4] at v5
  obtain ⟨t6, h6, v6⟩ := view_restore t5 1 3 (by simp [v5]) (by simp [v5]) (by simp [v5])
    (by simp [v5]) (by decide) (by simp [v5])
  rw [v5] at v6
  refine ⟨t1, t2, t3, t4, t5, t6, h1, h2, h3, h4, h5, h6, ?_, ?_, ?_, ?_, ?_, ?_, ?_⟩
  · simp [v6, turnAction]
  · simp [v1]
  · simp [v2]
  · simp [v3]
  · simp [v4]
  · simp [v4, v5]
  · simp [v6]
/-- C16 as stated fails at the second call: the first advance of the run with `L = 4`,
`C = 2` stops at `capo = 1`, not at 2. -/
theorem offline_four_two_counterexample :
    ∃ t, Sys.run 2 (Sys.init 4 2 Checkpoint.zero 0 0 0 (fun _ => 0)) = some t ∧
      t.h.acts = [Action.takeshot, Action.advance] ∧ t.o.capo = 1 ∧ t.o.capo ≠ 2 :=
  ⟨_, rfl, rfl, rfl, by decide⟩
/-- C17: for `L = 1` and any number of slots, the first call returns `firsturn` and takes
`fine` to 0, the second returns `terminate`; no takeshot, advance or restore is returned,
no slot is handed to the host, and the run ends with `check = -1`, `capo = fine = 0`. -/
theorem offline_single_step (C : Int) (c : Checkpoint) (turn oldfine oldsnaps : Int)
    (num_ch : Int → Int) :
    ∃ t1 t2 : Sys,
      (Sys.init 1 C c turn oldfine oldsnaps num_ch).step = some t1 ∧ t1.step = some t2 ∧
      Sys.run 2 (Sys.init 1 C c turn oldfine oldsnaps num_ch) = some t2 ∧
      t1.h.acts = [Action.firsturn] ∧ t1.o.fine = 0 ∧
      t2.h.acts = [Action.firsturn, Action.terminate] ∧
      t2.o.check = -1 ∧ t2.o.capo = 0 ∧ t2.o.fine = 0 ∧
      t2.h.turns = [(Action.firsturn, 0, 0)] ∧ t2.h.slots = (fun _ => none) ∧
      t2.o.checkpoint.takeshots = 0 ∧ t2.o.checkpoint.advances = 0 := by
  obtain ⟨t1, h1, a1, a2, a3, a4, a5, a6, a7, a8⟩ : ∃ t1 : Sys,
      (Sys.init 1 C c turn oldfine oldsnaps num_ch).step = some t1 ∧
      t1.h.acts = [Action.firsturn] ∧ t1.o.check = -1 ∧ t1.o.capo = 0 ∧ t1.o.fine = 0 ∧
      t1.h.turns = [(Action.firsturn, 0, 0)] ∧ t1.h.slots = (fun _ => none) ∧
      t1.o.checkpoint.takeshots = 0 ∧ t1.o.checkpoint.advances = 0 :=
    ⟨_, Sys.step_eq (revolve_first_one _ rfl rfl rfl), rfl, rfl, rfl, rfl, rfl, rfl, rfl, rfl⟩
  have h2 := Sys.step_eq (revolve_terminate t1.o a2 (by rw [a3, a4]))
  refine ⟨t1, _, h1, h2, ?_, a1, a4, ?_, a2, a3, a4, a5, a6, a7, a8⟩
  · exact run_add 1 1 _ _ (by rw [run_succ_of_step h1]; rfl) |>.trans
      (by rw [run_succ_of_step h2]; rfl)
  · show t1.h.acts ++ [Action.terminate] = _
    rw [a1]
    rfl
/-- C18: for `L = 0` and any number of slots, the very first call returns `terminate` and
leaves `check = -1`, `capo = 0`, `fine = 0`; the slot table and the write counters are as
the constructor left them and the host has been handed no slot. -/
theorem offline_no_step (C : Int) (c : Checkpoint) (turn oldfine oldsnaps : Int)
    (num_ch : Int → Int) :
    ∃ t : Sys,
      (Sys.init 0 C c turn oldfine oldsnaps num_ch).step = some t ∧
      t.h.acts = [Action.terminate] ∧
      t.o.check = -1 ∧ t.o.capo = 0 ∧ t.o.fine = 0 ∧
      t.o.checkpoint.ch = (Sys.init 0 C c turn oldfine oldsnaps num_ch).o.checkpoint.ch ∧
      t.o.checkpoint.number_of_writes = c.number_of_writes ∧
      t.o.checkpoint.takeshots = 0 ∧ t.h.slots = (fun _ => none) :=
  ⟨_, Sys.step_eq (revolve_first_zero _ rfl rfl rfl), rfl, rfl, rfl, rfl, rfl, rfl, rfl, rfl⟩
/-! ## The entry test of `Offline::revolve` and the error codes -/

theorem case0_ne_error (o o' : Offline) : o.case0 ≠ some (Action.error, o') := by
  unfold Offline.case0
  split <;> simp

theorem case1_ne_error (o o' : Offline) : o.case1 ≠ some (Action.error, o') := by
  unfold Offline.case1
  simp only []
  split <;> simp

theorem initshot_error_info (o o' : Offline) (h : o.initshot = some (Action.error, o')) :
    o'.info = 12 ∨ o'.info = 14 := by
  unfold Offline.initshot at h
  simp only [] at h
  repeat' split at h
  all_goals first
    | (exfalso; simp at h; done)
    | (simp only [Option.some.injEq, Prod.mk.injEq, true_and] at h; subst h; simp)

theorem shot_error_info (o o' : Offline) (h : o.shot = some (Action.error, o')) :
    o'.info = 10 ∨ o'.info = 11 := by
  unfold Offline.shot at h
  simp only [] at h
  repeat' split at h
  all_goals first
    | (exfalso; simp at h; done)
    | (simp only [Option.some.injEq, Prod.mk.injEq, true_and] at h; subst h; simp)

theorem adv_error_info (o o' : Offline) (h : o.adv = some (Action.error, o')) :
    o'.info = 11 ∨ o'.info = 13 ∨ o'.info = 14 ∨ o'.info = 15 := by
  unfold Offline.adv at h
  simp only [] at h
  repeat' split at h
  all_goals first
    | (exfalso; simp at h; done)
    | (simp only [Option.some.injEq, Prod.mk.injEq, true_and] at h; subst h; simp)

/-- The dispatch of `Offline::revolve` on `fine - capo`, `check` and `ch[check]`. -/
theorem revolve_dispatch (x : Offline) (P : Option (Action × Offline) → Prop)
    (h0 : ∀ x : Offline, P x.case0) (h1 : ∀ x : Offline, P x.case1)
    (h2 : ∀ x : Offline, P x.initshot) (h3 : ∀ x : Offline, P x.shot)
    (h4 : ∀ x : Offline, P x.adv) :
    P (if isub x.fine x.capo = 0 then x.case0
      else if isub x.fine x.capo = 1 then x.case1
      else if x.check = -1 then x.initshot
      else if x.checkpoint.ch x.check ≠ x.capo then x.shot
      else x.adv) := by
  split
  · exact h0 _
  · split
    · exact h1 _
    · split
      · exact h2 _
      · split
        · exact h3 _
        · exact h4 _

/-- Past its entry test, `Offline::revolve` is one of its five branches. -/
theorem revolve_branch (o : Offline) (hn : ¬ (o.check < -1 ∨ o.capo > o.fine))
    (P : Option (Action × Offline) → Prop) (h0 : ∀ x : Offline, P x.case0)
    (h1 : ∀ x : Offline, P x.case1) (h2 : ∀ x : Offline, P x.initshot)
    (h3 : ∀ x : Offline, P x.shot) (h4 : ∀ x : Offline, P x.adv) : P o.revolve := by
  unfold Offline.revolve
  simp only []
  rw [if_neg hn]
  exact revolve_dispatch _ P h0 h1 h2 h3 h4

/-- Every `error` that is not returned by the entry test of `Offline::revolve` comes with
`info` set to one of the codes 10 to 15. -/
theorem revolve_error_info (o : Offline) (hn : ¬ (o.check < -1 ∨ o.capo > o.fine)) :
    ∀ o', o.revolve = some (Action.error, o') →
      o'.info = 10 ∨ o'.info = 11 ∨ o'.info = 12 ∨ o'.info = 13 ∨ o'.info = 14 ∨
        o'.info = 15 := by
  refine revolve_branch o hn
    (fun res => ∀ o', res = some (Action.error, o') →
      o'.info = 10 ∨ o'.info = 11 ∨ o'.info = 12 ∨ o'.info = 13 ∨ o'.info = 14 ∨
        o'.info = 15) ?_ ?_ ?_ ?_ ?_
  · intro x o' h; exact absurd h (case0_ne_error x o')
  · intro x o' h; exact absurd h (case1_ne_error x o')
  · intro x o' h
    rcases initshot_error_info x o' h with h1 | h1 <;> simp [h1]
  · intro x o' h
    rcases shot_error_info x o' h with h1 | h1 <;> simp [h1]
  · intro x o' h
    rcases adv_error_info x o' h with h1 | h1 | h1 | h1 <;> simp [h1]

/-- The entry test of `Offline::revolve`: only the command counter changes. -/
theorem revolve_gate (o : Offline) (hg : o.check < -1 ∨ o.capo > o.fine) :
    o.revolve = some (Action.error, o.counted) := by
  unfold Offline.revolve Offline.counted
  simp only []
  rw [if_pos hg]

/-- C19: in every state with `check < -1` or `capo > fine` the call returns `error` and
leaves `check`, `capo`, `fine`, `turn`, `info` and every slot `ch[i]` as they were (the
state is the old one with `commands` increased by one); every `error` returned in another
state comes with `info` set to one of the codes 10 to 15. -/
theorem revolve_error_gate (o : Offline) :
    ((o.check < -1 ∨ o.capo > o.fine) →
      ∃ o', o.revolve = some (Action.error, o') ∧ o' = o.counted ∧ o'.check = o.check ∧
        o'.capo = o.capo ∧ o'.fine = o.fine ∧ o'.turn = o.turn ∧ o'.info = o.info ∧
        o'.checkpoint.ch = o.checkpoint.ch) ∧
      (¬ (o.check < -1 ∨ o.capo > o.fine) → ∀ o', o.revolve = some (Action.error, o') →
        o'.info = 10 ∨ o'.info = 11 ∨ o'.info = 12 ∨ o'.info = 13 ∨ o'.info = 14 ∨
          o'.info = 15) :=
  ⟨fun hg => ⟨_, revolve_gate o hg, rfl, rfl, rfl, rfl, rfl, rfl, rfl⟩,
    revolve_error_info o⟩

/-- Witness for C19: a scheduler with `capo = 5 > fine = 4`, and the one right after
construction with `L = 66`, `C = 1`, whose first call returns `error` with `info = 12`. -/
theorem revolve_error_gate_witness :
    (∃ o', ({ Offline.construct 4 2 Checkpoint.zero 0 0 0 (fun _ => 0) with
        capo := 5 } : Offline).revolve = some (Action.error, o') ∧
      o'.capo = 5 ∧ o'.fine = 4 ∧ o'.info = 3) ∧
      (∃ o', (Offline.construct 66 1 Checkpoint.zero 0 0 0 (fun _ => 0)).revolve
        = some (Action.error, o') ∧ (o'.info = 10 ∨ o'.info = 11 ∨ o'.info = 12 ∨
          o'.info = 13 ∨ o'.info = 14 ∨ o'.info = 15)) := by
  constructor
  · obtain ⟨o', h1, h2, -⟩ := (revolve_error_gate
      ({ Offline.construct 4 2 Checkpoint.zero 0 0 0 (fun _ => 0) with capo := 5 })).1
      (by right; decide)
    exact ⟨o', h1, by rw [h2]; rfl, by rw [h2]; rfl, by rw [h2]; rfl⟩
  · exact ⟨_, rfl, (revolve_error_gate
      (Offline.construct 66 1 Checkpoint.zero 0 0 0 (fun _ => 0))).2 (by decide) _ rfl⟩

/-! ## Takeshots and restores: claim C20 -/

theorem turnEvents_length (t a : Int) (l : Nat) : (turnEvents t a l).length = l := by
  induction l generalizing t with
  | zero => rfl
  | succ l ih => simp [turnEvents, ih]

/-- C20, as amended: for `0 ≤ L ≤ 2^24`, `1 ≤ C ≤ 64` and repetition number at most 64, the
run from construction reaches its first `terminate`; up to there the number of restores is
`L - 1` (`0` when `L = 0`), one less than the `L` combined forward/reverse steps, and the
number of takeshots is at most the number of restores, never one more. -/
theorem offline_takeshots_le_restores (L C : Int) (hL0 : 0 ≤ L) (hL : L ≤ 16777216)
    (hC1 : 1 ≤ C) (hC : C ≤ 64) (hr : L ≤ bz C 64) (c : Checkpoint)
    (turn oldfine oldsnaps : Int) (num_ch : Int → Int) :
    ∃ (n : Nat) (t : Sys),
      Sys.run (n + 1) (Sys.init L C c turn oldfine oldsnaps num_ch) = some t ∧
      t.h.acts.getLast? = some Action.terminate ∧
      (∀ i u, i ≤ n → Sys.run i (Sys.init L C c turn oldfine oldsnaps num_ch) = some u →
        Action.terminate ∉ u.h.acts) ∧
      t.h.acts.count Action.restore = L.toNat - 1 ∧
      (t.h.acts.filter Action.isTurn).length = L.toNat ∧
      t.h.acts.count Action.takeshot ≤ t.h.acts.count Action.restore := by
  obtain ⟨N, adv, -, hall⟩ := offline_terminates L C hL0 hL hC1 hC hr
  obtain ⟨t, hrun, hlast, hbefore, hfin⟩ := hall c turn oldfine oldsnaps num_ch
  have h1 := run_turns_fst (N + 1) _ t hrun (by simp [Sys.init, Host.start])
  have hturns : t.h.turns = turnEvents 0 0 L.toNat := hfin.turns
  have hres : t.h.acts.count Action.restore = L.toNat - 1 := hfin.restores
  have htak : t.h.acts.count Action.takeshot ≤ L.toNat - 1 := hfin.takes
  refine ⟨N, t, hrun, hlast, hbefore, hres, ?_, by omega⟩
  rw [← h1, hturns, List.length_map, turnEvents_length]

/-- Witness for C20 (amended) at `L = 4`, `C = 2`. -/
theorem offline_takeshots_le_restores_witness :
    ∃ (n : Nat) (t : Sys),
      Sys.run (n + 1) (Sys.init 4 2 Checkpoint.zero 0 0 0 (fun _ => 0)) = some t ∧
      t.h.acts.getLast? = some Action.terminate ∧
      (∀ i u, i ≤ n → Sys.run i (Sys.init 4 2 Checkpoint.zero 0 0 0 (fun _ => 0)) = some u →
        Action.terminate ∉ u.h.acts) ∧
      t.h.acts.count Action.restore = (4 : Int).toNat - 1 ∧
      (t.h.acts.filter Action.isTurn).length = (4 : Int).toNat ∧
      t.h.acts.count Action.takeshot ≤ t.h.acts.count Action.restore :=
  offline_takeshots_le_restores 4 2 (by decide) (by decide) (by decide) (by decide) (by decide)
    Checkpoint.zero 0 0 0 (fun _ => 0)

/-- C20 as stated fails at `L = 4`, `C = 2`: the run returns `terminate` at its 13th call,
after 2 takeshots and 3 restores. -/
theorem offline_takeshots_counterexample :
    ∃ t, Sys.run 13 (Sys.init 4 2 Checkpoint.zero 0 0 0 (fun _ => 0)) = some t ∧
      t.h.acts = [Action.takeshot, Action.advance, Action.takeshot, Action.advance,
        Action.firsturn, Action.restore, Action.advance, Action.youturn, Action.restore,
        Action.youturn, Action.restore, Action.youturn, Action.terminate] ∧
      t.h.acts.count Action.takeshot = 2 ∧ t.h.acts.count Action.restore = 3 ∧
      t.h.acts.count Action.takeshot ≠ t.h.acts.count Action.restore + 1 :=
  ⟨_, rfl, rfl, rfl, rfl, by decide⟩

/-! ## Single calls in an arbitrary state -/

/-- The state in which `Offline::revolve` reaches its `switch`: `commands` is counted and,
when `check == -1` and `capo < fine`, `turn` is cleared and `ch[0]` set to `capo - 1`. -/
def Offline.entered (o : Offline) : Offline :=
  let o : Offline :=
    { o with checkpoint := { o.checkpoint with commands := iadd o.checkpoint.commands 1 } }
  if o.check = -1 ∧ o.capo < o.fine then
    { o with
      turn := 0
      checkpoint := { o.checkpoint with
        ch := Function.update o.checkpoint.ch 0 (isub o.capo 1) } }
  else o

/-- Past its entry test, `Offline::revolve` is the `switch` taken in the entered state. -/
theorem revolve_entered (o : Offline) (hn : ¬ (o.check < -1 ∨ o.capo > o.fine)) :
    o.revolve =
      (if isub o.entered.fine o.entered.capo = 0 then o.entered.case0
      else if isub o.entered.fine o.entered.capo = 1 then o.entered.case1
      else if o.entered.check = -1 then o.entered.initshot
      else if o.entered.checkpoint.ch o.entered.check ≠ o.entered.capo then o.entered.shot
      else o.entered.adv) := by
  unfold Offline.revolve Offline.entered
  simp only []
  rw [if_neg hn]

theorem entered_check (o : Offline) : o.entered.check = o.check := by
  unfold Offline.entered; simp only []; split <;> rfl

theorem entered_capo (o : Offline) : o.entered.capo = o.capo := by
  unfold Offline.entered; simp only []; split <;> rfl

theorem entered_fine (o : Offline) : o.entered.fine = o.fine := by
  unfold Offline.entered; simp only []; split <;> rfl

theorem entered_snaps (o : Offline) : o.entered.snaps = o.snaps := by
  unfold Offline.entered; simp only []; split <;> rfl

theorem entered_online (o : Offline) : o.entered.online = o.online := by
  unfold Offline.entered; simp only []; split <;> rfl

theorem entered_num_ch (o : Offline) : o.entered.num_ch = o.num_ch := by
  unfold Offline.entered; simp only []; split <;> rfl

theorem entered_info (o : Offline) : o.entered.info = o.info := by
  unfold Offline.entered; simp only []; split <;> rfl

theorem entered_ord_ch (o : Offline) : o.entered.checkpoint.ord_ch = o.checkpoint.ord_ch := by
  unfold Offline.entered; simp only []; split <;> rfl

/-- The slot table is touched on entry only when `check == -1`. -/
theorem entered_ch (o : Offline) (h : o.check ≠ -1) :
    o.entered.checkpoint.ch = o.checkpoint.ch := by
  unfold Offline.entered
  simp only []
  rw [if_neg (by intro hc; exact h hc.1)]

theorem case0_action (o o' : Offline) (a : Action) (h : o.case0 = some (a, o')) :
    a = Action.terminate ∨ a = Action.restore := by
  unfold Offline.case0 at h
  split at h <;> simp only [Option.some.injEq, Prod.mk.injEq] at h
  · exact Or.inl h.1.symm
  · exact Or.inr h.1.symm

theorem case1_action (o o' : Offline) (a : Action) (h : o.case1 = some (a, o')) :
    a = Action.firsturn ∨ a = Action.youturn := by
  unfold Offline.case1 at h
  simp only [] at h
  split at h <;> simp only [Option.some.injEq, Prod.mk.injEq] at h
  · exact Or.inl h.1.symm
  · exact Or.inr h.1.symm

theorem initshot_action (o o' : Offline) (a : Action) (h : o.initshot = some (a, o')) :
    a = Action.takeshot ∨ a = Action.error := by
  unfold Offline.initshot at h
  simp only [] at h
  repeat' split at h
  all_goals first
    | (exfalso; simp at h; done)
    | (simp only [Option.some.injEq, Prod.mk.injEq] at h; simp [← h.1])

theorem shot_action (o o' : Offline) (a : Action) (h : o.shot = some (a, o')) :
    a = Action.takeshot ∨ a = Action.error := by
  unfold Offline.shot at h
  simp only [] at h
  repeat' split at h
  all_goals first
    | (exfalso; simp at h; done)
    | (simp only [Option.some.injEq, Prod.mk.injEq] at h; simp [← h.1])

theorem adv_action (o o' : Offline) (a : Action) (h : o.adv = some (a, o')) :
    a = Action.advance ∨ a = Action.error := by
  unfold Offline.adv at h
  simp only [] at h
  repeat' split at h
  all_goals first
    | (exfalso; simp at h; done)
    | (simp only [Option.some.injEq, Prod.mk.injEq] at h; simp [← h.1])

/-- A call that returns `advance` went through the advance branch. -/
theorem revolve_advance (o o' : Offline) (h : o.revolve = some (Action.advance, o')) :
    ¬ (o.check < -1 ∨ o.capo > o.fine) ∧ isub o.fine o.capo ≠ 0 ∧ isub o.fine o.capo ≠ 1 ∧
      o.check ≠ -1 ∧ o.checkpoint.ch o.check = o.capo ∧
      o.entered.adv = some (Action.advance, o') := by
  by_cases hn : o.check < -1 ∨ o.capo > o.fine
  · rw [revolve_gate o hn] at h
    simp at h
  · rw [revolve_entered o hn, entered_fine, entered_capo, entered_check] at h
    refine ⟨hn, ?_⟩
    split at h
    · rcases case0_action _ _ _ h with h1 | h1 <;> cases h1
    · split at h
      · rcases case1_action _ _ _ h with h1 | h1 <;> cases h1
      · split at h
        · rcases initshot_action _ _ _ h with h1 | h1 <;> cases h1
        · rename_i h0 h1 h2
          rw [entered_ch o h2] at h
          split at h
          · rcases shot_action _ _ _ h with h1 | h1 <;> cases h1
          · rename_i h3
            exact ⟨h0, h1, h2, not_not.mp h3, h⟩

/-- What the loop returns, when it returns at most `repsup` repetitions: the repetition
number of the range, with its binomial coefficient. -/
theorem repsLoop_sound (l ds : Int) (hds1 : 1 ≤ ds) (hds : ds ≤ 64) (hl : l ≤ 16777216) :
    ∀ (fuel : Nat) (k : Int), 0 ≤ k → k ≤ 64 → (fuel : Int) ≤ 16777217 →
      (∀ j, 0 ≤ j → j < k → bz ds j < l) →
      ∀ r g, repsLoop fuel l ds k (bz ds k) = some (r, g) → r ≤ 64 →
        k ≤ r ∧ g = bz ds r ∧ l ≤ bz ds r ∧ (∀ j, 0 ≤ j → j < r → bz ds j < l) := by
  intro fuel
  induction fuel with
  | zero => intro k _ _ _ _ r g h; simp [repsLoop] at h
  | succ fuel ih =>
    intro k hk0 hk hfuel hlow r g h hr
    unfold repsLoop at h
    by_cases hlt : bz ds k < l
    · rw [if_pos hlt] at h
      have e1 : iadd k 1 = k + 1 := iadd_eq (by omega) (by omega)
      rw [e1] at h
      have hge := repsLoop_reps_ge l ds fuel (k + 1) _ r g (by omega)
        (by push_cast at hfuel; omega) h
      have hk63 : k ≤ 63 := by omega
      have e2 : iadd (k + 1) ds = k + 1 + ds := iadd_eq (by omega) (by omega)
      have hb := bz_nonneg ds k
      have hm := mul_small hb (by omega : bz ds k < 16777216)
        (by omega : 0 ≤ k + 1 + ds) (by omega : k + 1 + ds ≤ 128)
      have e3 : imul (bz ds k) (k + 1 + ds) = bz ds k * (k + 1 + ds) :=
        imul_eq (by omega) hm.2
      have hid := bz_mul_right ds (k + 1) (by omega)
      have ek : k + 1 - 1 = k := by ring
      rw [ek] at hid
      have e4 : idiv (bz ds k * (k + 1 + ds)) (k + 1) = bz ds (k + 1) :=
        idiv_exact (by omega) (bz_nonneg _ _) (by rw [hid]; ring) hm.2
      rw [e2, e3, e4] at h
      have hlow' : ∀ j, 0 ≤ j → j < k + 1 → bz ds j < l := by
        intro j hj0 hj
        rcases lt_or_eq_of_le (show j ≤ k by omega) with h' | h'
        · exact hlow j hj0 h'
        · rw [h']; exact hlt
      obtain ⟨h1, h2, h3, h4⟩ :=
        ih (k + 1) (by omega) (by omega) (by push_cast at hfuel; omega) hlow' r g h hr
      exact ⟨by omega, h2, h3, h4⟩
    · rw [if_neg hlt] at h
      simp only [Option.some.injEq, Prod.mk.injEq] at h
      obtain ⟨rfl, rfl⟩ := h
      exact ⟨le_refl _, rfl, not_lt.mp hlt, hlow⟩

/-- The advance branch moves `capo` forward and keeps it below `fine`. -/
theorem adv_increases (x x' : Offline) (kk : Int) (hc : 0 ≤ x.capo)
    (hf : x.fine ≤ 16777216) (hl2 : 2 ≤ x.fine - x.capo) (hs1 : 1 ≤ x.snaps)
    (hs : x.snaps ≤ 64) (hkk : kk = if x.online then x.num_ch x.check else x.check)
    (hk0 : 0 ≤ kk) (hk : kk ≤ 2147483647) (h : x.adv = some (Action.advance, x')) :
    x.capo < x'.capo ∧ x'.capo < x.fine ∧ x'.fine = x.fine := by
  have hds : (if x.online then isub x.snaps (x.num_ch x.check) else isub x.snaps x.check)
      = x.snaps - kk := by
    subst hkk
    cases hon : x.online
    · rw [hon] at hk0 hk
      simp only [Bool.false_eq_true, if_false] at hk0 hk ⊢
      exact isub_eq (by omega) (by omega)
    · rw [hon] at hk0 hk
      simp only [if_true] at hk0 hk ⊢
      exact isub_eq (by omega) (by omega)
  have hl : isub x.fine x.capo = x.fine - x.capo := isub_eq (by omega) (by omega)
  unfold Offline.adv at h
  simp only [hds, hl] at h
  split at h
  · simp at h
  · split at h
    · simp at h
    · rename_i h13 hds1
      split at h
      · simp at h
      · rename_i reps range hloop
        split at h
        · simp at h
        · rename_i hreps
          split at h
          · simp at h
          · simp only [Option.some.injEq, Prod.mk.injEq, true_and] at h
            subst h
            show x.capo < advanceTarget x.capo x.fine range reps (x.snaps - kk) ∧
              advanceTarget x.capo x.fine range reps (x.snaps - kk) < x.fine ∧ x.fine = x.fine
            have hr64 : reps ≤ 64 := by
              have : ¬ reps > 64 := hreps
              omega
            have h0 := bz_zero_right (show 0 ≤ x.snaps - kk by omega)
            rw [← h0] at hloop
            obtain ⟨hr0, hg, hup, hlow⟩ := repsLoop_sound (x.fine - x.capo) (x.snaps - kk)
              (by omega) (by omega) (by omega) _ 0 (le_refl 0) (by omega)
              (by
                have : ((x.fine - x.capo).toNat : Int) = x.fine - x.capo :=
                  Int.toNat_of_nonneg (by omega)
                push_cast
                omega)
              (by intro j h1 h2; omega) reps range hloop hr64
            have hr1 : 1 ≤ reps := by
              rcases lt_or_eq_of_le hr0 with h' | h'
              · omega
              · rw [← h', h0] at hup
                omega
            have hlow1 : bz (x.snaps - kk) (reps - 1) < x.fine - x.capo :=
              hlow (reps - 1) (by omega) (by omega)
            have key := advanceTarget_eq x.capo (x.fine - x.capo) (x.snaps - kk) reps hc
              (by omega) (by omega) (by omega) hr1 hr64 hlow1
            have e : x.capo + (x.fine - x.capo) = x.fine := by ring
            rw [e] at key
            rw [hg, key]
            obtain ⟨a1, a2, -⟩ := amount_spec (x.fine - x.capo) (x.snaps - kk) reps
              (by omega) hr1 hlow1 hup
            exact ⟨by omega, by omega, rfl⟩

/-- C21: a call of the offline scheduler that returns `advance` leaves `capo` strictly
greater than before, and still below `fine`. The state is any one with `0 ≤ capo`,
`fine ≤ 2^24` and `1 ≤ snaps ≤ 64`, as every state of a run with valid parameters is; in
online-origin mode the rank `num_ch[check]` is to be a non-negative `int`. This covers
the three advance-target branches and the tie-break. -/
theorem offline_advance_increases (o o' : Offline) (hcapo : 0 ≤ o.capo)
    (hfine : o.fine ≤ 16777216) (hs1 : 1 ≤ o.snaps) (hs : o.snaps ≤ 64)
    (hck : o.check ≤ 2147483647)
    (hnum : o.online = true → 0 ≤ o.num_ch o.check ∧ o.num_ch o.check ≤ 2147483647)
    (h : o.revolve = some (Action.advance, o')) :
    o.capo < o'.capo ∧ o'.capo < o.fine ∧ o'.fine = o.fine := by
  obtain ⟨hn, h0, h1, h2, -, ha⟩ := revolve_advance o o' h
  have hl : isub o.fine o.capo = o.fine - o.capo :=
    isub_eq (by omega) (by omega)
  rw [hl] at h0 h1
  have hcf : o.capo ≤ o.fine := by
    by_contra hc
    exact hn (Or.inr (by omega))
  have hck0 : 0 ≤ o.check := by
    by_contra hc
    exact hn (Or.inl (by omega))
  have key := adv_increases o.entered o'
    (if o.online then o.num_ch o.check else o.check)
    (by rw [entered_capo]; exact hcapo) (by rw [entered_fine]; exact hfine)
    (by rw [entered_fine, entered_capo]; omega) (by rw [entered_snaps]; exact hs1)
    (by rw [entered_snaps]; exact hs)
    (by rw [entered_online, entered_num_ch, entered_check])
    (by
      split
      · rename_i hon; exact (hnum hon).1
      · exact hck0)
    (by
      split
      · rename_i hon; exact (hnum hon).2
      · exact hck)
    ha
  rw [entered_capo, entered_fine] at key
  exact key

/-- Witness for C21: the first advance of the run for `L = 4`, `C = 2`, from `capo = 0`
to `capo = 1`. -/
theorem offline_advance_increases_witness :
    ∃ o o' : Offline, o.revolve = some (Action.advance, o') ∧ o.capo = 0 ∧ o'.capo = 1 ∧
      o.capo < o'.capo ∧ o'.capo < o.fine ∧ o'.fine = o.fine :=
  ⟨{ Offline.construct 4 2 Checkpoint.zero 0 4 2 (fun _ => 0) with check := 0 }, _, rfl, rfl, rfl,
    offline_advance_increases
      { Offline.construct 4 2 Checkpoint.zero 0 4 2 (fun _ => 0) with check := 0 } _
      (by decide) (by decide) (by decide) (by decide) (by decide) (by intro h; cases h) rfl⟩

/-! ## The restore of online-origin mode: claim C27 -/

/-- A call that returns `restore` went through `case 0`, with the slot table untouched. -/
theorem revolve_restore_case0 (o o' : Offline) (h : o.revolve = some (Action.restore, o')) :
    o.check ≠ -1 ∧ o.entered.checkpoint.ch = o.checkpoint.ch ∧
      o.entered.case0 = some (Action.restore, o') := by
  by_cases hn : o.check < -1 ∨ o.capo > o.fine
  · rw [revolve_gate o hn] at h
    simp at h
  · rw [revolve_entered o hn] at h
    have hck : o.check ≠ -1 := by
      intro hc
      have he := entered_check o
      rw [hc] at he
      split at h
      · unfold Offline.case0 at h
        rw [if_pos (Or.inl he)] at h
        simp at h
      · split at h
        · rcases case1_action _ _ _ h with h1 | h1 <;> cases h1
        · rcases initshot_action _ _ _ h with h1 | h1 <;> cases h1
    refine ⟨hck, entered_ch o hck, ?_⟩
    split at h
    · exact h
    · split at h
      · rcases case1_action _ _ _ h with h1 | h1 <;> cases h1
      · split at h
        · rcases initshot_action _ _ _ h with h1 | h1 <;> cases h1
        · split at h
          · rcases shot_action _ _ _ h with h1 | h1 <;> cases h1
          · rcases adv_action _ _ _ h with h1 | h1 <;> cases h1

/-- The search loop over the first `n` slots: its result is slot 0 or one of the slots
tested, holds a step below `capo`, and no tested slot holds a greater step below `capo`. -/
theorem restoreLoop_spec (ch : Int → Int) (capo : Int) (h0 : ch 0 < capo) (n : Nat) :
    0 ≤ restoreInd ch capo n ∧ (restoreInd ch capo n = 0 ∨ restoreInd ch capo n < n) ∧
      ch (restoreInd ch capo n) < capo ∧
      ∀ j : Nat, j < n → ch j < capo → ch j ≤ ch (restoreInd ch capo n) := by
  induction n with
  | zero =>
    refine ⟨by simp [restoreInd], by simp [restoreInd], by simpa [restoreInd] using h0, ?_⟩
    intro j hj
    omega
  | succ n ih =>
    obtain ⟨i1, i2, i3, i4⟩ := ih
    have e : restoreInd ch capo ((n + 1 : Nat) : Int) =
        (if ch n > ch (restoreInd ch capo n) ∧ ch n < capo then (n : Int)
          else restoreInd ch capo n) := by
      unfold restoreInd
      simp only [Int.toNat_ofNat, List.range_succ, List.bind_eq_flatMap, List.pure_def,
        List.flatMap_append, List.flatMap_cons, List.flatMap_nil, List.append_nil,
        List.foldl_append, List.foldl_cons, List.foldl_nil, List.singleton_append]
    rw [e]
    generalize restoreInd ch capo n = r at *
    by_cases hc : ch n > ch r ∧ ch n < capo
    · rw [if_pos hc]
      refine ⟨by omega, Or.inr (by push_cast; omega), hc.2, ?_⟩
      intro j hj hjc
      rcases Nat.lt_succ_iff_lt_or_eq.mp hj with h' | h'
      · have := i4 j h' hjc
        omega
      · subst h'
        exact le_refl _
    · rw [if_neg hc]
      refine ⟨i1, ?_, i3, ?_⟩
      · rcases i2 with h' | h'
        · exact Or.inl h'
        · exact Or.inr (by push_cast; omega)
      · intro j hj hjc
        rcases Nat.lt_succ_iff_lt_or_eq.mp hj with h' | h'
        · exact i4 j h' hjc
        · subst h'
          by_contra hlt
          exact hc ⟨by omega, hjc⟩

/-- The slot chosen by the search loop when slot 0 holds a step below `capo`. -/
theorem restoreInd_spec (ch : Int → Int) (capo snaps : Int) (hs : 1 ≤ snaps)
    (h0 : ch 0 < capo) :
    0 ≤ restoreInd ch capo snaps ∧ restoreInd ch capo snaps < snaps ∧
      ch (restoreInd ch capo snaps) < capo ∧
      ∀ j, 0 ≤ j → j < snaps → ch j < capo → ch j ≤ ch (restoreInd ch capo snaps) := by
  obtain ⟨i1, i2, i3, i4⟩ := restoreLoop_spec ch capo h0 snaps.toNat
  have hn : ((snaps.toNat : Nat) : Int) = snaps := Int.toNat_of_nonneg (by omega)
  rw [hn] at i1 i2 i3 i4
  refine ⟨i1, by omega, i3, ?_⟩
  intro j hj0 hj hjc
  have := i4 j.toNat (by omega) (by rw [Int.toNat_of_nonneg hj0]; exact hjc)
  rw [Int.toNat_of_nonneg hj0] at this
  exact this

/-- C27: in online-origin mode a call that returns `restore` when `ch[0] < capo` sets
`check` to a slot `0 ≤ i < snaps` whose step is below the old `capo` and is the greatest
such step among all slots, and sets `capo` to that step, strictly below the old `capo`;
the slot table is not changed. -/
theorem online_restore_picks_max (o o' : Offline) (hon : o.online = true)
    (hs : 1 ≤ o.snaps) (h0 : o.checkpoint.ch 0 < o.capo)
    (h : o.revolve = some (Action.restore, o')) :
    0 ≤ o'.check ∧ o'.check < o.snaps ∧ o.checkpoint.ch o'.check < o.capo ∧
      (∀ j, 0 ≤ j → j < o.snaps → o.checkpoint.ch j < o.capo →
        o.checkpoint.ch j ≤ o.checkpoint.ch o'.check) ∧
      o'.capo = o.checkpoint.ch o'.check ∧ o'.capo < o.capo ∧
      o'.checkpoint.ch = o.checkpoint.ch := by
  obtain ⟨-, hch, hc⟩ := revolve_restore_case0 o o' h
  unfold Offline.case0 at hc
  split at hc
  · simp at hc
  · simp only [entered_online, hon, if_true, Option.some.injEq, Prod.mk.injEq, true_and,
      hch, entered_capo, entered_snaps] at hc
    subst hc
    obtain ⟨i1, i2, i3, i4⟩ := restoreInd_spec o.checkpoint.ch o.capo o.snaps hs h0
    exact ⟨i1, i2, i3, i4, rfl, i3, rfl⟩

/-- Witness for C27: three slots holding the steps 0, 7 and 4, with `capo = fine = 9`;
the restore picks slot 1 and sets `capo = 7`. -/
theorem online_restore_picks_max_witness :
    ∃ o o' : Offline, o.revolve = some (Action.restore, o') ∧ o'.check = 1 ∧ o'.capo = 7 ∧
      0 ≤ o'.check ∧ o'.check < o.snaps ∧ o.checkpoint.ch o'.check < o.capo ∧
      (∀ j, 0 ≤ j → j < o.snaps → o.checkpoint.ch j < o.capo →
        o.checkpoint.ch j ≤ o.checkpoint.ch o'.check) ∧
      o'.capo = o.checkpoint.ch o'.check ∧ o'.capo < o.capo ∧
      o'.checkpoint.ch = o.checkpoint.ch :=
  ⟨{ Offline.construct 9 3
        { Checkpoint.zero with ch := fun i => if i = 1 then 7 else if i = 2 then 4 else 0 }
        1 9 3 (fun _ => 0) with check := 2, capo := 9, online := true },
    _, rfl, rfl, rfl,
    online_restore_picks_max
      { Offline.construct 9 3
        { Checkpoint.zero with ch := fun i => if i = 1 then 7 else if i = 2 then 4 else 0 }
        1 9 3 (fun _ => 0) with check := 2, capo := 9, online := true } _
      rfl (by decide) (by decide) rfl⟩

/-! ## The function `revolve` of `src.c` -/

/-- The variables of the C function `revolve`: the arguments `check`, `capo`, `fine`,
`snaps`, `info`, the statics `turn`, `oldsnaps`, `oldfine`, `ch` and the counters of the
global `numbers`. (The statics `reps` and `range` are assigned before each use.) -/
structure CState where
  check : Int
  capo : Int
  fine : Int
  snaps : Int
  info : Int
  turn : Int
  oldsnaps : Int
  oldfine : Int
  ch : Int → Int
  advances : Int
  takeshots : Int
  commands : Int

/-- The takeshot branch of `revolve` in `src.c`, first takeshot included. -/
def CState.shot (s : CState) : Option (Action × CState) :=
  let s1 : CState := { s with check := iadd s.check 1 }
  if s1.check ≥ checkup then some (Action.error, { s1 with info := 10 })
  else if iadd s1.check 1 > s1.snaps then some (Action.error, { s1 with info := 11 })
  else
    let s2 : CState := { s1 with ch := Function.update s1.ch s1.check s1.capo }
    let fin (s3 : CState) : Option (Action × CState) :=
      some (Action.takeshot, { s3 with takeshots := iadd s3.takeshots 1, oldfine := s3.fine })
    if s2.check = 0 then
      let s3 : CState :=
        { s2 with advances := 0, takeshots := 0, commands := 1, oldsnaps := s2.snaps }
      if s3.snaps > checkup then some (Action.error, { s3 with info := 14 })
      else if s3.info > 0 then
        match numforw (isub s3.fine s3.capo) s3.snaps with
        | none => none
        | some num => if num = -1 then some (Action.error, { s3 with info := 12 }) else fin s3
      else fin s3
    else fin s2

/-- The advance branch of `revolve` in `src.c`. -/
def CState.adv (s : CState) : Option (Action × CState) :=
  if s.oldfine < s.fine ∧ s.snaps = iadd s.check 1 then some (Action.error, { s with info := 13 })
  else
    let ds := isub s.snaps s.check
    if ds < 1 then some (Action.error, { s with info := 11 })
    else
      match repsLoop ((isub s.fine s.capo).toNat + 1) (isub s.fine s.capo) ds 0 1 with
      | none => none
      | some (reps, range) =>
        if reps > repsup then some (Action.error, { s with info := 15 })
        else if s.snaps ≠ s.oldsnaps ∧ s.snaps > checkup then
          some (Action.error, { s with info := 14 })
        else
          let capo := advanceTarget s.capo s.fine range reps ds
          some (Action.advance,
            { s with
              capo := capo
              oldfine := s.fine
              advances := isub (iadd s.advances capo) s.capo })

/-- The function `enum action revolve(int* check, int* capo, int* fine, int snaps,
int* info)` of `src.c`. -/
def CState.revolve (s : CState) : Option (Action × CState) :=
  let s : CState := { s with commands := iadd s.commands 1 }
  if s.check < -1 ∨ s.capo > s.fine then some (Action.error, s)
  else
    let s : CState :=
      if s.check = -1 ∧ s.capo < s.fine then
        { s with turn := 0, ch := Function.update s.ch 0 (isub s.capo 1) }
      else s
    if isub s.fine s.capo = 0 then
      if s.check = -1 ∨ s.capo = s.ch 0 then
        some (Action.terminate, { s with check := isub s.check 1 })
      else some (Action.restore, { s with capo := s.ch s.check, oldfine := s.fine })
    else if isub s.fine s.capo = 1 then
      let fine := isub s.fine 1
      let check := if s.check ≥ 0 ∧ s.ch s.check = s.capo then isub s.check 1 else s.check
      if s.turn = 0 then
        some (Action.firsturn, { s with fine := fine, check := check, turn := 1, oldfine := fine })
      else some (Action.youturn, { s with fine := fine, check := check, oldfine := fine })
    else if s.check = -1 ∨ s.ch s.check ≠ s.capo then s.shot
    else s.adv

/-! ## A takeshot with no slot left: claim C23 -/

/-- In `src.c` a takeshot that finds `check + 1 > snaps` after the increment (and
`check < checkup`) returns `error` with `info = 11`; the first takeshot is treated alike.
No slot receives `capo`: the slot table is as on entry, up to `ch[0] = capo - 1` set on
entry when `check = -1`. -/
theorem crevolve_no_slot (s : CState) (hn : ¬ (s.check < -1 ∨ s.capo > s.fine))
    (h0 : isub s.fine s.capo ≠ 0) (h1 : isub s.fine s.capo ≠ 1)
    (hs : s.check = -1 ∨ s.ch s.check ≠ s.capo) (h10 : iadd s.check 1 < checkup)
    (h11 : iadd (iadd s.check 1) 1 > s.snaps) :
    ∃ s', s.revolve = some (Action.error, s') ∧ s'.info = 11 ∧ s'.check = iadd s.check 1 ∧
      s'.takeshots = s.takeshots ∧ ∀ i, i ≠ 0 ∨ s.check ≠ -1 → s'.ch i = s.ch i := by
  unfold CState.revolve
  simp only []
  rw [if_neg hn]
  by_cases hc : s.check = -1 ∧ s.capo < s.fine
  · rw [if_pos hc]
    simp only []
    rw [if_neg h0, if_neg h1, if_pos (Or.inl hc.1)]
    unfold CState.shot
    simp only []
    rw [if_neg (not_le.mpr h10), if_pos h11]
    refine ⟨_, rfl, rfl, rfl, rfl, ?_⟩
    intro i hi
    rcases hi with hi | hi
    · exact Function.update_noteq hi _ _
    · exact absurd hc.1 hi
  · rw [if_neg hc]
    rw [if_neg h0, if_neg h1, if_pos hs]
    unfold CState.shot
    simp only []
    rw [if_neg (not_le.mpr h10), if_pos h11]
    exact ⟨_, rfl, rfl, rfl, rfl, fun _ _ => rfl⟩

/-- In `Offline::revolve` a later takeshot (`check ≥ 0`) that finds `check + 1 > snaps`
after `check` is moved on (and `check < checkup`) returns `error` with `info = 11` and
leaves the slot table and the takeshot counter as they were. -/
theorem revolve_no_slot (o : Offline) (hn : ¬ (o.check < -1 ∨ o.capo > o.fine))
    (h0 : isub o.fine o.capo ≠ 0) (h1 : isub o.fine o.capo ≠ 1) (hck : o.check ≠ -1)
    (hne : o.checkpoint.ch o.check ≠ o.capo) (k : Int)
    (hk : k = if o.online then o.checkpoint.ord_ch (iadd (o.num_ch o.check) 1)
      else iadd o.check 1)
    (h10 : k < checkup) (h11 : iadd k 1 > o.snaps) :
    ∃ o', o.revolve = some (Action.error, o') ∧ o'.info = 11 ∧ o'.check = k ∧
      o'.checkpoint.ch = o.checkpoint.ch ∧
      o'.checkpoint.takeshots = o.checkpoint.takeshots := by
  rw [revolve_entered o hn, entered_fine, entered_capo, entered_check, entered_ch o hck,
    if_neg h0, if_neg h1, if_neg hck, if_pos hne]
  unfold Offline.shot
  simp only [entered_online, entered_num_ch, entered_check, entered_ord_ch, entered_snaps]
  rw [← hk, if_neg (not_le.mpr h10), if_pos h11]
  refine ⟨_, rfl, rfl, rfl, ?_, ?_⟩
  · exact entered_ch o hck
  · unfold Offline.entered
    simp only []
    split <;> rfl

/-- In `Offline::revolve` the first takeshot (`check = -1`) has no test of `check + 1`
against `snaps`: with `snaps < 1` and `info > 0` (the constructor sets `info = 3`) the call
returns `error` with `info = 12`, after `ch[0] = 0` and `check = 0` are set. -/
theorem revolve_first_no_slot (o : Offline) (hck : o.check = -1) (hcf : o.capo ≤ o.fine)
    (h0 : isub o.fine o.capo ≠ 0) (h1 : isub o.fine o.capo ≠ 1) (hs : o.snaps < 1)
    (hinfo : 0 < o.info) :
    ∃ o', o.revolve = some (Action.error, o') ∧ o'.info = 12 ∧ o'.check = 0 ∧
      o'.checkpoint.ch 0 = 0 := by
  have hn : ¬ (o.check < -1 ∨ o.capo > o.fine) := by
    rw [hck]
    intro h
    rcases h with h | h
    · omega
    · omega
  rw [revolve_entered o hn, entered_fine, entered_capo, entered_check,
    if_neg h0, if_neg h1, if_pos hck]
  unfold Offline.initshot
  simp only [entered_snaps, entered_info, entered_fine, entered_capo]
  have hnum : numforw (isub o.fine o.capo) o.snaps = some (-1) := by
    unfold numforw
    rw [if_pos hs]
  have hs64 : ¬ o.snaps > checkup := by
    unfold checkup
    omega
  rw [if_neg hs64, if_pos hinfo, hnum]
  simp only [if_true]
  exact ⟨_, rfl, rfl, rfl, by simp⟩

/-- C23: a takeshot that finds no slot left. In `src.c`, and in `Offline::revolve` for
every takeshot but the first, the call returns `error` with `info = 11` and stores `capo`
nowhere, provided the new `check` is below `checkup` (else `info = 10` comes first). The
first takeshot of `Offline::revolve` differs: with `snaps < 1` it returns `error` with
`info = 12`, having set `ch[0] = 0`. -/
theorem takeshot_without_free_slot :
    (∀ s : CState, ¬ (s.check < -1 ∨ s.capo > s.fine) → isub s.fine s.capo ≠ 0 →
      isub s.fine s.capo ≠ 1 → (s.check = -1 ∨ s.ch s.check ≠ s.capo) →
      iadd s.check 1 < checkup → iadd (iadd s.check 1) 1 > s.snaps →
      ∃ s', s.revolve = some (Action.error, s') ∧ s'.info = 11 ∧
        s'.check = iadd s.check 1 ∧ s'.takeshots = s.takeshots ∧
        ∀ i, i ≠ 0 ∨ s.check ≠ -1 → s'.ch i = s.ch i) ∧
    (∀ o : Offline, ¬ (o.check < -1 ∨ o.capo > o.fine) → isub o.fine o.capo ≠ 0 →
      isub o.fine o.capo ≠ 1 → o.check ≠ -1 → o.checkpoint.ch o.check ≠ o.capo →
      ∀ k, k = (if o.online then o.checkpoint.ord_ch (iadd (o.num_ch o.check) 1)
        else iadd o.check 1) → k < checkup → iadd k 1 > o.snaps →
      ∃ o', o.revolve = some (Action.error, o') ∧ o'.info = 11 ∧ o'.check = k ∧
        o'.checkpoint.ch = o.checkpoint.ch ∧
        o'.checkpoint.takeshots = o.checkpoint.takeshots) ∧
    (∀ o : Offline, o.check = -1 → o.capo ≤ o.fine → isub o.fine o.capo ≠ 0 →
      isub o.fine o.capo ≠ 1 → o.snaps < 1 → 0 < o.info →
      ∃ o', o.revolve = some (Action.error, o') ∧ o'.info = 12 ∧ o'.check = 0 ∧
        o'.checkpoint.ch 0 = 0) :=
  ⟨crevolve_no_slot, fun o hn h0 h1 hck hne k hk => revolve_no_slot o hn h0 h1 hck hne k hk,
    revolve_first_no_slot⟩

/-- Witness for C23: with `fine = 4`, `capo = 0`, `check = -1`, `snaps = 0`, `info = 3`
the first call of `revolve` in `src.c` returns `error` with `info = 11`, while the first
call of `Offline::revolve` after `Offline(4, 0, c)` returns `error` with `info = 12` and
`ch[0] = 0`; a later takeshot with `check = 1`, `snaps = 2` returns `info = 11`. -/
theorem takeshot_without_free_slot_witness :
    (∃ s', CState.revolve
        { check := -1, capo := 0, fine := 4, snaps := 0, info := 3, turn := 0,
          oldsnaps := 0, oldfine := 0, ch := fun _ => 0, advances := 0, takeshots := 0,
          commands := 0 } = some (Action.error, s') ∧ s'.info = 11) ∧
    (∃ o', Offline.revolve
        { Offline.construct 4 2 Checkpoint.zero 0 4 2 (fun _ => 0) with
          check := 1, capo := 1 } = some (Action.error, o') ∧
      o'.info = 11 ∧ o'.check = 2) ∧
    (∃ o', (Offline.construct 4 0 Checkpoint.zero 0 0 0 (fun _ => 0)).revolve
        = some (Action.error, o') ∧ o'.info = 12 ∧ o'.check = 0 ∧
      o'.checkpoint.ch 0 = 0) := by
  refine ⟨?_, ?_, ?_⟩
  · obtain ⟨s', h1, h2, -⟩ := takeshot_without_free_slot.1
      { check := -1, capo := 0, fine := 4, snaps := 0, info := 3, turn := 0,
        oldsnaps := 0, oldfine := 0, ch := fun _ => 0, advances := 0, takeshots := 0,
        commands := 0 } (by decide) (by decide) (by decide) (Or.inl rfl) (by decide)
      (by decide)
    exact ⟨s', h1, h2⟩
  · obtain ⟨o', h1, h2, h3, -⟩ := takeshot_without_free_slot.2.1
      { Offline.construct 4 2 Checkpoint.zero 0 4 2 (fun _ => 0) with check := 1, capo := 1 }
      (by decide) (by decide) (by decide) (by decide) (by decide) 2 (by decide) (by decide)
      (by decide)
    exact ⟨o', h1, h2, h3⟩
  · exact takeshot_without_free_slot.2.2
      (Offline.construct 4 0 Checkpoint.zero 0 0 0 (fun _ => 0))
      rfl (by decide) (by decide) (by decide) (by decide) (by decide)

/-! ## The constructor `Offline::Offline(int sn, Checkpoint *c, Online *o, int f)` -/

/-- The inner loop `for (j = 0; j < snaps; j++) if (ch[j] < ch[i]) num_ch[i]++;`, started
with `num_ch[i] = 0`. -/
def countBelow (ch : Int → Int) (snaps i : Int) : Int :=
  (List.range snaps.toNat).foldl
    (fun (acc : Int) (j : Nat) => if ch (j : Int) < ch i then iadd acc 1 else acc) 0

/-- The first loop nest of the constructor, which fills `num_ch[0 .. snaps-1]`. -/
def fillNumCh (ch : Int → Int) (snaps : Int) (num_ch : Int → Int) : Int → Int :=
  (List.range snaps.toNat).foldl
    (fun (num : Int → Int) (i : Nat) =>
      Function.update num (i : Int) (countBelow ch snaps (i : Int))) num_ch

/-- The loop `for (j = 0; j < snaps; j++) if (num_ch[j] == i) ord_ch[i] = j;`. -/
def fillOrdAt (num_ch : Int → Int) (snaps i : Int) (ord_ch : Int → Int) : Int → Int :=
  (List.range snaps.toNat).foldl
    (fun (ord : Int → Int) (j : Nat) =>
      if num_ch (j : Int) = i then Function.update ord i (j : Int) else ord) ord_ch

/-- The second loop nest of the constructor, which rebuilds `ord_ch[0 .. snaps-1]`. -/
def fillOrdCh (num_ch : Int → Int) (snaps : Int) (ord_ch : Int → Int) : Int → Int :=
  (List.range snaps.toNat).foldl
    (fun (ord : Int → Int) (i : Nat) => fillOrdAt num_ch snaps (i : Int) ord) ord_ch

/-- The constructors `Schedule::Schedule(sn, c)` and
`Offline::Offline(int sn, Checkpoint *c, Online *o, int f)`. Of the online scheduler `o`
only `check`, `capo` and `info` are read. The members `steps`, `fine`, `oldfine` and the
entries of `num_ch` outside `0 .. sn-1` are not assigned; their values are inputs. -/
def Offline.fromOnline (sn : Int) (c : Checkpoint) (ocheck ocapo oinfo f : Int)
    (steps fine oldfine : Int) (num_ch : Int → Int) : Offline :=
  { snaps := sn
    checkpoint := { c with
      ch := Function.update c.ch 0 0
      ord_ch := fillOrdCh (fillNumCh (Function.update c.ch 0 0) sn num_ch) sn c.ord_ch
      advances := isub f 1 }
    steps := steps
    check := ocheck
    capo := ocapo
    fine := fine
    info := oinfo
    turn := 0
    oldfine := oldfine
    oldsnaps := sn
    online := true
    num_ch := fillNumCh (Function.update c.ch 0 0) sn num_ch }

/-- The slots among the first `n` whose step is below `x`. -/
def slotsBelow (ch : Int → Int) (n : Nat) (x : Int) : Finset Nat :=
  (Finset.range n).filter (fun (j : Nat) => ch (j : Int) < x)

theorem slotsBelow_succ (ch : Int → Int) (n : Nat) (x : Int) :
    (slotsBelow ch (n + 1) x).card
      = (slotsBelow ch n x).card + (if ch (n : Int) < x then 1 else 0) := by
  unfold slotsBelow
  rw [Finset.range_succ, Finset.filter_insert]
  split
  · rw [Finset.card_insert_of_not_mem (by simp)]
  · simp

theorem slotsBelow_card_le (ch : Int → Int) (n : Nat) (x : Int) :
    (slotsBelow ch n x).card ≤ n := by
  unfold slotsBelow
  calc ((Finset.range n).filter (fun (j : Nat) => ch (j : Int) < x)).card
      ≤ (Finset.range n).card := Finset.card_filter_le _ _
    _ = n := Finset.card_range n

/-- The counting loop over the first `m` slots counts the slots below `x`. -/
theorem countLoop_eq (ch : Int → Int) (x : Int) (m : Nat) (hm : (m : Int) ≤ 2147483647) :
    (List.range m).foldl
      (fun (acc : Int) (j : Nat) => if ch (j : Int) < x then iadd acc 1 else acc) 0
      = ((slotsBelow ch m x).card : Int) := by
  induction m with
  | zero => simp [slotsBelow]
  | succ m ih =>
    rw [List.range_succ, List.foldl_append, ih (by push_cast at hm; omega), slotsBelow_succ]
    simp only [List.foldl_cons, List.foldl_nil]
    have := slotsBelow_card_le ch m x
    split
    · rw [iadd_eq (by omega) (by push_cast at hm; omega)]
      push_cast
      ring
    · simp

theorem countBelow_eq (ch : Int → Int) (snaps i : Int) (hs : snaps ≤ 2147483647) :
    countBelow ch snaps i = ((slotsBelow ch snaps.toNat (ch i)).card : Int) := by
  unfold countBelow
  exact countLoop_eq ch (ch i) snaps.toNat (by omega)

/-- A loop that assigns `g[i] = F i` for `i = 0 .. m-1`. -/
theorem fillLoop_eq (F : Int → Int) (g : Int → Int) (m : Nat) (k : Int) :
    (List.range m).foldl (fun (num : Int → Int) (i : Nat) =>
      Function.update num (i : Int) (F (i : Int))) g k
      = if 0 ≤ k ∧ k < m then F k else g k := by
  induction m with
  | zero =>
    simp only [List.range_zero, List.foldl_nil]
    rw [if_neg (by push_cast; omega)]
  | succ m ih =>
    rw [List.range_succ, List.foldl_append]
    simp only [List.foldl_cons, List.foldl_nil]
    by_cases hk : k = (m : Int)
    · subst hk
      rw [Function.update_same, if_pos (by push_cast; omega)]
    · rw [Function.update_noteq hk, ih]
      by_cases h1 : 0 ≤ k ∧ k < m
      · rw [if_pos h1, if_pos (by push_cast; omega)]
      · rw [if_neg h1, if_neg (by push_cast; omega)]

theorem fillNumCh_eq (ch : Int → Int) (snaps : Int) (num_ch : Int → Int) (k : Int) :
    fillNumCh ch snaps num_ch k
      = if 0 ≤ k ∧ k < snaps then countBelow ch snaps k else num_ch k := by
  unfold fillNumCh
  rw [fillLoop_eq (countBelow ch snaps) num_ch snaps.toNat k]
  by_cases h1 : 0 ≤ k ∧ k < snaps
  · rw [if_pos h1, if_pos (by omega)]
  · rw [if_neg h1, if_neg (by omega)]

/-- The rank of a slot is below the number of slots. -/
theorem rank_lt (ch : Int → Int) (n i : Nat) (hi : i < n) :
    (slotsBelow ch n (ch (i : Int))).card < n := by
  have hss : slotsBelow ch n (ch (i : Int)) ⊂ Finset.range n := by
    refine Finset.ssubset_iff_subset_ne.mpr ⟨Finset.filter_subset _ _, ?_⟩
    intro he
    have : i ∈ slotsBelow ch n (ch (i : Int)) := by
      rw [he]
      exact Finset.mem_range.mpr hi
    have := (Finset.mem_filter.mp this).2
    omega
  have := Finset.card_lt_card hss
  rwa [Finset.card_range] at this

/-- A slot with a smaller step has a smaller rank. -/
theorem rank_lt_rank (ch : Int → Int) (n a b : Nat) (ha : a < n)
    (hab : ch (a : Int) < ch (b : Int)) :
    (slotsBelow ch n (ch (a : Int))).card < (slotsBelow ch n (ch (b : Int))).card := by
  apply Finset.card_lt_card
  refine Finset.ssubset_iff_subset_ne.mpr ⟨?_, ?_⟩
  · intro j hj
    have hj' := Finset.mem_filter.mp hj
    exact Finset.mem_filter.mpr ⟨hj'.1, by omega⟩
  · intro he
    have : a ∈ slotsBelow ch n (ch (a : Int)) := by
      rw [he]
      exact Finset.mem_filter.mpr ⟨Finset.mem_range.mpr ha, hab⟩
    have := (Finset.mem_filter.mp this).2
    omega

/-- With pairwise distinct steps, equal ranks mean the same slot. -/
theorem rank_inj (ch : Int → Int) (n : Nat)
    (hd : ∀ a b : Nat, a < n → b < n → ch (a : Int) = ch (b : Int) → a = b)
    (a b : Nat) (ha : a < n) (hb : b < n)
    (h : (slotsBelow ch n (ch (a : Int))).card = (slotsBelow ch n (ch (b : Int))).card) :
    a = b := by
  by_contra hne
  have hc : ch (a : Int) ≠ ch (b : Int) := fun he => hne (hd a b ha hb he)
  rcases lt_or_gt_of_ne hc with h1 | h1
  · have := rank_lt_rank ch n a b ha h1
    omega
  · have := rank_lt_rank ch n b a hb h1
    omega

/-- With pairwise distinct steps, every rank below the number of slots is taken. -/
theorem rank_surj (ch : Int → Int) (n : Nat)
    (hd : ∀ a b : Nat, a < n → b < n → ch (a : Int) = ch (b : Int) → a = b)
    (k : Nat) (hk : k < n) :
    ∃ j, j < n ∧ (slotsBelow ch n (ch (j : Int))).card = k := by
  have himg : (Finset.range n).image (fun j : Nat => (slotsBelow ch n (ch (j : Int))).card)
      = Finset.range n := by
    apply Finset.eq_of_subset_of_card_le
    · intro x hx
      obtain ⟨j, hj, rfl⟩ := Finset.mem_image.mp hx
      exact Finset.mem_range.mpr (rank_lt ch n j (Finset.mem_range.mp hj))
    · rw [Finset.card_image_of_injOn]
      intro a ha b hb hab
      exact rank_inj ch n hd a b (Finset.mem_range.mp (by simpa using ha))
        (Finset.mem_range.mp (by simpa using hb)) hab
  have : k ∈ (Finset.range n).image
      (fun j : Nat => (slotsBelow ch n (ch (j : Int))).card) := by
    rw [himg]
    exact Finset.mem_range.mpr hk
  obtain ⟨j, hj, hjk⟩ := Finset.mem_image.mp this
  exact ⟨j, Finset.mem_range.mp hj, hjk⟩

/-- The loop for `ord_ch[i]` leaves the other entries alone. -/
theorem fillOrdLoop_other (num : Int → Int) (i : Int) (ord : Int → Int) (m : Nat) (k : Int)
    (hk : k ≠ i) :
    (List.range m).foldl (fun (ord : Int → Int) (j : Nat) =>
      if num (j : Int) = i then Function.update ord i (j : Int) else ord) ord k = ord k := by
  induction m with
  | zero => rfl
  | succ m ih =>
    rw [List.range_succ, List.foldl_append]
    simp only [List.foldl_cons, List.foldl_nil]
    split
    · rw [Function.update_noteq hk, ih]
    · exact ih

/-- The loop for `ord_ch[i]` stores the one slot of rank `i`. -/
theorem fillOrdLoop_at (num : Int → Int) (i : Int) (ord : Int → Int) (m : Nat) (j : Nat)
    (hj : j < m) (hji : num (j : Int) = i)
    (hu : ∀ j' : Nat, j' < m → num (j' : Int) = i → j' = j) :
    (List.range m).foldl (fun (ord : Int → Int) (j : Nat) =>
      if num (j : Int) = i then Function.update ord i (j : Int) else ord) ord i = j := by
  induction m with
  | zero => omega
  | succ m ih =>
    rw [List.range_succ, List.foldl_append]
    simp only [List.foldl_cons, List.foldl_nil]
    by_cases hm : num (m : Int) = i
    · rw [if_pos hm, Function.update_same]
      have := hu m (by omega) hm
      rw [this]
    · rw [if_neg hm]
      have hjm : j < m := by
        rcases Nat.lt_succ_iff_lt_or_eq.mp hj with h | h
        · exact h
        · subst h; exact absurd hji hm
      exact ih hjm (fun j' hj' h' => hu j' (by omega) h')

theorem fillOrdAt_other (num : Int → Int) (snaps i : Int) (ord : Int → Int) (k : Int)
    (hk : k ≠ i) : fillOrdAt num snaps i ord k = ord k :=
  fillOrdLoop_other num i ord snaps.toNat k hk

/-- The second loop nest: entries outside `0 .. m-1` are kept, and entry `i < m` holds the
one slot of rank `i`, if there is exactly one. -/
theorem fillOrdOuter (num : Int → Int) (snaps : Int) (ord : Int → Int) (m : Nat) :
    (∀ k : Int, (k < 0 ∨ (m : Int) ≤ k) →
      (List.range m).foldl (fun (ord : Int → Int) (i : Nat) =>
        fillOrdAt num snaps (i : Int) ord) ord k = ord k) ∧
    (∀ i j : Nat, i < m → j < snaps.toNat → num (j : Int) = (i : Int) →
      (∀ j' : Nat, j' < snaps.toNat → num (j' : Int) = (i : Int) → j' = j) →
      (List.range m).foldl (fun (ord : Int → Int) (i : Nat) =>
        fillOrdAt num snaps (i : Int) ord) ord (i : Int) = j) := by
  induction m with
  | zero =>
    refine ⟨fun k _ => rfl, ?_⟩
    intro i j hi
    omega
  | succ m ih =>
    obtain ⟨ih1, ih2⟩ := ih
    rw [List.range_succ, List.foldl_append]
    simp only [List.foldl_cons, List.foldl_nil]
    constructor
    · intro k hk
      rw [fillOrdAt_other num snaps m _ k (by push_cast at hk; omega)]
      exact ih1 k (by push_cast at hk; omega)
    · intro i j hi hj hji hu
      rcases Nat.lt_succ_iff_lt_or_eq.mp hi with h | h
      · rw [fillOrdAt_other num snaps m _ i (by omega)]
        exact ih2 i j h hj hji hu
      · subst h
        exact fillOrdLoop_at num i _ snaps.toNat j hj hji hu

/-- With pairwise distinct steps in the slots `0 .. sn-1`, entry `k` of the rebuilt
`ord_ch` is the slot of rank `k`. -/
theorem fromOnline_ord (ch : Int → Int) (sn : Int) (num_ch ord_ch : Int → Int)
    (hs : sn ≤ 2147483647)
    (hd : ∀ a b : Nat, a < sn.toNat → b < sn.toNat → ch (a : Int) = ch (b : Int) → a = b)
    (k : Nat) (hk : k < sn.toNat) :
    ∃ j : Nat, j < sn.toNat ∧
      fillOrdCh (fillNumCh ch sn num_ch) sn ord_ch (k : Int) = (j : Int) ∧
      (slotsBelow ch sn.toNat (ch (j : Int))).card = k ∧
      fillNumCh ch sn num_ch (j : Int) = (k : Int) := by
  have hnum : ∀ j : Nat, j < sn.toNat → fillNumCh ch sn num_ch (j : Int)
      = ((slotsBelow ch sn.toNat (ch (j : Int))).card : Int) := by
    intro j hj
    rw [fillNumCh_eq, if_pos (by omega), countBelow_eq ch sn _ hs]
  obtain ⟨j, hj, hjk⟩ := rank_surj ch sn.toNat hd k hk
  refine ⟨j, hj, ?_, hjk, by rw [hnum j hj, hjk]⟩
  unfold fillOrdCh
  refine (fillOrdOuter (fillNumCh ch sn num_ch) sn ord_ch sn.toNat).2 k j hk hj
    (by rw [hnum j hj, hjk]) ?_
  intro j' hj' h'
  rw [hnum j' hj'] at h'
  exact rank_inj ch sn.toNat hd j' j hj' hj (by rw [hjk]; exact_mod_cast h')

/-- C26: with the steps `ch[0 .. C-1]` pairwise distinct (as the constructor finds them
once `ch[0] = 0` is set), `Offline(sn, c, o, f)` leaves `num_ch[i]` equal to the number of
slots `j` with `ch[j] < ch[i]`, and `ord_ch` a permutation of `0 .. C-1` (each entry is a
slot, no slot occurs twice, every slot occurs) along which the steps increase strictly, so
that `num_ch[ord_ch[k]] = k`; it sets `advances = f - 1` and copies `check` and `capo`. -/
theorem fromOnline_sorts (sn : Int) (c : Checkpoint)
    (ocheck ocapo oinfo f steps fine oldfine : Int) (num_ch : Int → Int)
    (hs : sn ≤ 2147483647) (hf : -2147483647 ≤ f ∧ f ≤ 2147483647)
    (hd : ∀ i j : Int, 0 ≤ i → i < sn → 0 ≤ j → j < sn →
      Function.update c.ch 0 0 i = Function.update c.ch 0 0 j → i = j) :
    (∀ i, 0 ≤ i → i < sn →
      (Offline.fromOnline sn c ocheck ocapo oinfo f steps fine oldfine num_ch).num_ch i
        = ((slotsBelow (Function.update c.ch 0 0) sn.toNat
            (Function.update c.ch 0 0 i)).card : Int)) ∧
    (∀ k, 0 ≤ k → k < sn →
      0 ≤ (Offline.fromOnline sn c ocheck ocapo oinfo f steps fine oldfine
          num_ch).checkpoint.ord_ch k ∧
      (Offline.fromOnline sn c ocheck ocapo oinfo f steps fine oldfine
          num_ch).checkpoint.ord_ch k < sn) ∧
    (∀ k k', 0 ≤ k → k < sn → 0 ≤ k' → k' < sn →
      (Offline.fromOnline sn c ocheck ocapo oinfo f steps fine oldfine
          num_ch).checkpoint.ord_ch k
        = (Offline.fromOnline sn c ocheck ocapo oinfo f steps fine oldfine
          num_ch).checkpoint.ord_ch k' → k = k') ∧
    (∀ j, 0 ≤ j → j < sn → ∃ k, 0 ≤ k ∧ k < sn ∧
      (Offline.fromOnline sn c ocheck ocapo oinfo f steps fine oldfine
          num_ch).checkpoint.ord_ch k = j) ∧
    (∀ k, 0 ≤ k → k + 1 < sn →
      (Offline.fromOnline sn c ocheck ocapo oinfo f steps fine oldfine num_ch).checkpoint.ch
          ((Offline.fromOnline sn c ocheck ocapo oinfo f steps fine oldfine
            num_ch).checkpoint.ord_ch k)
        < (Offline.fromOnline sn c ocheck ocapo oinfo f steps fine oldfine
            num_ch).checkpoint.ch
          ((Offline.fromOnline sn c ocheck ocapo oinfo f steps fine oldfine
            num_ch).checkpoint.ord_ch (k + 1))) ∧
    (∀ k, 0 ≤ k → k < sn →
      (Offline.fromOnline sn c ocheck ocapo oinfo f steps fine oldfine num_ch).num_ch
        ((Offline.fromOnline sn c ocheck ocapo oinfo f steps fine oldfine
          num_ch).checkpoint.ord_ch k) = k) ∧
    (Offline.fromOnline sn c ocheck ocapo oinfo f steps fine oldfine
      num_ch).checkpoint.advances = f - 1 ∧
    (Offline.fromOnline sn c ocheck ocapo oinfo f steps fine oldfine num_ch).check = ocheck ∧
    (Offline.fromOnline sn c ocheck ocapo oinfo f steps fine oldfine num_ch).capo = ocapo := by
  have hd' : ∀ a b : Nat, a < sn.toNat → b < sn.toNat →
      Function.update c.ch 0 0 (a : Int) = Function.update c.ch 0 0 (b : Int) → a = b := by
    intro a b ha hb h
    have := hd a b (by omega) (by omega) (by omega) (by omega) h
    exact_mod_cast this
  have key := fromOnline_ord (Function.update c.ch 0 0) sn num_ch c.ord_ch hs hd'
  have keyZ : ∀ k : Int, 0 ≤ k → k < sn → ∃ j : Nat, j < sn.toNat ∧
      fillOrdCh (fillNumCh (Function.update c.ch 0 0) sn num_ch) sn c.ord_ch k = (j : Int) ∧
      ((slotsBelow (Function.update c.ch 0 0) sn.toNat
        (Function.update c.ch 0 0 (j : Int))).card : Int) = k ∧
      fillNumCh (Function.update c.ch 0 0) sn num_ch (j : Int) = k := by
    intro k hk0 hk
    obtain ⟨j, h1, h2, h3, h4⟩ := key k.toNat (by omega)
    rw [Int.toNat_of_nonneg hk0] at h2 h4
    refine ⟨j, h1, h2, ?_, h4⟩
    rw [h3]
    exact Int.toNat_of_nonneg hk0
  show (∀ i, 0 ≤ i → i < sn → fillNumCh (Function.update c.ch 0 0) sn num_ch i = _) ∧
    (∀ k, 0 ≤ k → k < sn →
      0 ≤ fillOrdCh (fillNumCh (Function.update c.ch 0 0) sn num_ch) sn c.ord_ch k ∧
      fillOrdCh (fillNumCh (Function.update c.ch 0 0) sn num_ch) sn c.ord_ch k < sn) ∧
    (∀ k k', 0 ≤ k → k < sn → 0 ≤ k' → k' < sn →
      fillOrdCh (fillNumCh (Function.update c.ch 0 0) sn num_ch) sn c.ord_ch k
        = fillOrdCh (fillNumCh (Function.update c.ch 0 0) sn num_ch) sn c.ord_ch k' →
      k = k') ∧
    (∀ j, 0 ≤ j → j < sn → ∃ k, 0 ≤ k ∧ k < sn ∧
      fillOrdCh (fillNumCh (Function.update c.ch 0 0) sn num_ch) sn c.ord_ch k = j) ∧
    (∀ k, 0 ≤ k → k + 1 < sn →
      Function.update c.ch 0 0
          (fillOrdCh (fillNumCh (Function.update c.ch 0 0) sn num_ch) sn c.ord_ch k)
        < Function.update c.ch 0 0
          (fillOrdCh (fillNumCh (Function.update c.ch 0 0) sn num_ch) sn c.ord_ch (k + 1))) ∧
    (∀ k, 0 ≤ k → k < sn →
      fillNumCh (Function.update c.ch 0 0) sn num_ch
        (fillOrdCh (fillNumCh (Function.update c.ch 0 0) sn num_ch) sn c.ord_ch k) = k) ∧
    isub f 1 = f - 1 ∧ ocheck = ocheck ∧ ocapo = ocapo
  refine ⟨?_, ?_, ?_, ?_, ?_, ?_, isub_eq (by omega) (by omega), rfl, rfl⟩
  · intro i hi0 hi
    rw [fillNumCh_eq, if_pos ⟨hi0, hi⟩, countBelow_eq _ sn _ hs]
  · intro k hk0 hk
    obtain ⟨j, h1, h2, -⟩ := keyZ k hk0 hk
    rw [h2]
    omega
  · intro k k' hk0 hk hk0' hk' h
    obtain ⟨j, h1, h2, -, h4⟩ := keyZ k hk0 hk
    obtain ⟨j', h1', h2', -, h4'⟩ := keyZ k' hk0' hk'
    rw [h2, h2'] at h
    rw [← h4, ← h4', h]
  · intro j hj0 hj
    have hr := rank_lt (Function.update c.ch 0 0) sn.toNat j.toNat (by omega)
    obtain ⟨j', h1, h2, h3, -⟩ := key _ hr
    have : j' = j.toNat := rank_inj _ sn.toNat hd' j' j.toNat h1 (by omega) h3
    refine ⟨((slotsBelow (Function.update c.ch 0 0) sn.toNat
      (Function.update c.ch 0 0 (j.toNat : Int))).card : Int), by omega, by omega, ?_⟩
    rw [h2, this]
    exact Int.toNat_of_nonneg hj0
  · intro k hk0 hk
    obtain ⟨j, h1, h2, h3, -⟩ := keyZ k hk0 (by omega)
    obtain ⟨j', h1', h2', h3', -⟩ := keyZ (k + 1) (by omega) hk
    rw [h2, h2']
    by_contra hge
    rcases lt_or_eq_of_le (not_lt.mp hge) with h | h
    · have := rank_lt_rank (Function.update c.ch 0 0) sn.toNat j' j h1' h
      omega
    · have := hd' j' j h1' h1 h
      subst this
      omega
  · intro k hk0 hk
    obtain ⟨j, -, h2, -, h4⟩ := keyZ k hk0 hk
    rw [h2, h4]

/-- Witness for C26: three slots holding the steps 0, 7 and 4. -/
theorem fromOnline_sorts_witness :
    (Offline.fromOnline 3
        { Checkpoint.zero with ch := fun i => if i = 1 then 7 else if i = 2 then 4 else 0 }
        2 9 0 10 0 0 0 (fun _ => 0)).checkpoint.ord_ch 1 = 2 ∧
      (∀ k, 0 ≤ k → k < 3 →
        (Offline.fromOnline 3
          { Checkpoint.zero with ch := fun i => if i = 1 then 7 else if i = 2 then 4 else 0 }
          2 9 0 10 0 0 0 (fun _ => 0)).num_ch
          ((Offline.fromOnline 3
            { Checkpoint.zero with
              ch := fun i => if i = 1 then 7 else if i = 2 then 4 else 0 }
            2 9 0 10 0 0 0 (fun _ => 0)).checkpoint.ord_ch k) = k) :=
  ⟨by decide,
    (fromOnline_sorts 3
      { Checkpoint.zero with ch := fun i => if i = 1 then 7 else if i = 2 then 4 else 0 }
      2 9 0 10 0 0 0 (fun _ => 0) (by decide) (by decide)
      (by
        intro i j hi0 hi hj0 hj
        have hi' : i = 0 ∨ i = 1 ∨ i = 2 := by omega
        have hj' : j = 0 ∨ j = 1 ∨ j = 2 := by omega
        rcases hi' with rfl | rfl | rfl <;> rcases hj' with rfl | rfl | rfl <;>
          simp [Checkpoint.zero, Function.update])).2.2.2.2.2.1⟩

/-! ## Multi-stage checkpointing: the predicted traffic and the choice of RAM slots -/

/-- The method `Revolve::get_number_of_writes_i(l, c, i)`: its three branches in `int`
arithmetic; the later branches compute in `double` and are the input `wrest`. -/
def get_number_of_writes_i (wrest : Int → Int → Int → Int) (l c i : Int) : Int :=
  if i = 0 then 1
  else if l ≤ iadd 1 i then 0
  else if l ≤ iadd (imul 2 c) i then 1
  else wrest l c i

/-- The method `Revolve::get_number_of_reads_i(l, c, i)`: its three branches in `int`
arithmetic; the later branches compute in `double` and are the input `rrest`. -/
def get_number_of_reads_i (rrest : Int → Int → Int → Int) (l c i : Int) : Int :=
  if l ≤ iadd i 1 then 0
  else if l ≤ isub (imul 2 c) i then 1
  else if l ≤ iadd (imul 2 c) 1 then 2
  else rrest l c i

/-- The method `Revolve::get_write_and_read_counts()`: entry `i` is the sum of the write
and read counts of slot `i`. -/
def get_write_and_read_counts (wrest rrest : Int → Int → Int → Int) (steps snaps : Int) :
    List Int :=
  (List.range snaps.toNat).map (fun (i : Nat) =>
    iadd (get_number_of_writes_i wrest steps snaps (i : Int))
      (get_number_of_reads_i rrest steps snaps (i : Int)))

/-- One pass of the loop `for (i = snaps-1; i >= 0; i--)` of the multi-stage constructor,
on the sorted vector `v`: the table `where` and the counter `num`. -/
def whereStep (v : List Int) (mid sn_ram : Int) (i : Nat) (st : (Int → Bool) × Int) :
    (Int → Bool) × Int :=
  if v.getD i 0 ≥ mid ∧ st.2 < sn_ram then (Function.update st.1 (i : Int) true, iadd st.2 1)
  else (Function.update st.1 (i : Int) false, st.2)

/-- The table `where` built by `Revolve::Revolve(int st, int sn, int sn_ram)`:
`v = get_write_and_read_counts(); sort(v.begin(), v.end()); mid = v[snaps - sn_ram];`
followed by the loop over `i = snaps-1, ..., 0`. The entries of `where` outside
`0 .. snaps-1` are not assigned; `where0` gives them. -/
def multiStageWhere (wrest rrest : Int → Int → Int → Int) (st sn sn_ram : Int)
    (where0 : Int → Bool) : Int → Bool :=
  let v := (get_write_and_read_counts wrest rrest st sn).insertionSort (fun a b => a ≤ b)
  let mid := v.getD (isub sn sn_ram).toNat 0
  ((List.range sn.toNat).foldr (whereStep v mid sn_ram) (where0, 0)).1

/-- The predicted traffic of slot `i`. -/
def traffic (wrest rrest : Int → Int → Int → Int) (l c i : Int) : Int :=
  iadd (get_number_of_writes_i wrest l c i) (get_number_of_reads_i rrest l c i)

/-- In a list sorted upwards a later entry is not smaller. -/
theorem sorted_getD_le (v : List Int) (hv : v.Sorted (fun a b => a ≤ b)) (a b : Nat)
    (hab : a ≤ b) (hb : b < v.length) : v.getD a 0 ≤ v.getD b 0 := by
  rw [List.getD_eq_getElem v 0 (lt_of_le_of_lt hab hb), List.getD_eq_getElem v 0 hb]
  rcases Nat.eq_or_lt_of_le hab with h | h
  · subst h
    exact le_refl _
  · exact hv.rel_get_of_lt (show (⟨a, lt_of_le_of_lt hab hb⟩ : Fin v.length) < ⟨b, hb⟩ from h)

/-- The loop over `i = s + m - 1, ..., s` of the multi-stage constructor, on a vector `v`
of length `s + m` sorted upwards: it marks exactly the indices from `s + m - sn_ram` on. -/
theorem whereLoop_spec (v : List Int) (hv : v.Sorted (fun a b => a ≤ b)) (sn_ram : Int)
    (where0 : Int → Bool) (h1 : 1 ≤ sn_ram) (hram : sn_ram ≤ v.length)
    (hlen : (v.length : Int) ≤ 2147483647) :
    ∀ (m s : Nat), s + m = v.length →
      ((List.range' s m).foldr (whereStep v (v.getD (v.length - sn_ram).toNat 0) sn_ram)
          (where0, 0)).2 = min (m : Int) sn_ram ∧
      ∀ i : Int, ((List.range' s m).foldr
          (whereStep v (v.getD (v.length - sn_ram).toNat 0) sn_ram) (where0, 0)).1 i
        = if (s : Int) ≤ i ∧ i < v.length then decide ((v.length : Int) - sn_ram ≤ i)
          else where0 i := by
  intro m
  induction m with
  | zero =>
    intro s hs
    refine ⟨by simp only [List.range'_zero, List.foldr_nil]; omega, ?_⟩
    intro i
    simp only [List.range'_zero, List.foldr_nil]
    rw [if_neg (by omega)]
  | succ m ih =>
    intro s hs
    obtain ⟨ih1, ih2⟩ := ih (s + 1) (by omega)
    rw [List.range'_succ, List.foldr_cons]
    generalize (List.range' (s + 1) m).foldr
      (whereStep v (v.getD (v.length - sn_ram).toNat 0) sn_ram) (where0, 0) = st at ih1 ih2 ⊢
    unfold whereStep
    by_cases hs' : (v.length : Int) - sn_ram ≤ s
    · have hmid : v.getD s 0 ≥ v.getD ((v.length : Int) - sn_ram).toNat 0 :=
        sorted_getD_le v hv _ s (by omega) (by omega)
      have hnum : st.2 < sn_ram := by rw [ih1]; omega
      rw [if_pos ⟨hmid, hnum⟩]
      refine ⟨?_, ?_⟩
      · show iadd st.2 1 = _
        rw [ih1, iadd_eq (by omega) (by omega)]
        push_cast
        omega
      · intro i
        show Function.update st.1 (s : Int) true i = _
        by_cases his : i = (s : Int)
        · subst his
          rw [Function.update_same, if_pos (by omega)]
          exact (decide_eq_true hs').symm
        · rw [Function.update_noteq his, ih2]
          by_cases hc : ((s + 1 : Nat) : Int) ≤ i ∧ i < v.length
          · rw [if_pos hc, if_pos (by push_cast at hc; omega)]
          · rw [if_neg hc, if_neg (by push_cast at hc; omega)]
    · have hnum : ¬ st.2 < sn_ram := by rw [ih1]; omega
      rw [if_neg (fun h => hnum h.2)]
      refine ⟨?_, ?_⟩
      · show st.2 = _
        rw [ih1]
        push_cast
        omega
      · intro i
        show Function.update st.1 (s : Int) false i = _
        by_cases his : i = (s : Int)
        · subst his
          rw [Function.update_same, if_pos (by omega)]
          exact (decide_eq_false hs').symm
        · rw [Function.update_noteq his, ih2]
          by_cases hc : ((s + 1 : Nat) : Int) ≤ i ∧ i < v.length
          · rw [if_pos hc, if_pos (by push_cast at hc; omega)]
          · rw [if_neg hc, if_neg (by push_cast at hc; omega)]

/-- The table `where` after multi-stage construction: slot `i` is marked RAM exactly when
`i ≥ C - C_ram`, whatever the predicted traffic of the slots is. -/
theorem multiStageWhere_eq (wrest rrest : Int → Int → Int → Int) (st sn sn_ram : Int)
    (where0 : Int → Bool) (h1 : 1 ≤ sn_ram) (hram : sn_ram ≤ sn) (hsn : sn ≤ 2147483647)
    (i : Int) (hi0 : 0 ≤ i) (hi : i < sn) :
    multiStageWhere wrest rrest st sn sn_ram where0 i = decide (sn - sn_ram ≤ i) := by
  unfold multiStageWhere
  have hlen : ((get_write_and_read_counts wrest rrest st sn).insertionSort
      (fun a b => a ≤ b)).length = sn.toNat := by
    rw [List.length_insertionSort]
    unfold get_write_and_read_counts
    simp
  have hlenZ : ((((get_write_and_read_counts wrest rrest st sn).insertionSort
      (fun a b => a ≤ b)).length : Nat) : Int) = sn := by
    rw [hlen]
    exact Int.toNat_of_nonneg (by omega)
  have hsub : isub sn sn_ram = sn - sn_ram := isub_eq (by omega) (by omega)
  have key := (whereLoop_spec _ (List.sorted_insertionSort (fun a b : Int => a ≤ b)
    (get_write_and_read_counts wrest rrest st sn)) sn_ram where0 h1 (by omega) (by omega)
    sn.toNat 0 (by omega)).2 i
  rw [hlenZ] at key
  rw [hsub, List.range_eq_range', key, if_pos (by push_cast; omega)]

/-- C28: the multi-stage constructor sorts the traffic values and compares the sorted
values, so it marks the last `C_ram` slots as RAM, not the slots with the highest traffic.
After `Revolve(2, 3, 1)` slot 2, with predicted traffic 0, is the RAM slot, and slot 0,
with predicted traffic 2 (one write, one read), is a ROM slot. -/
theorem multistage_ram_not_highest (wrest rrest : Int → Int → Int → Int)
    (where0 : Int → Bool) :
    get_write_and_read_counts wrest rrest 2 3 = [2, 0, 0] ∧
      multiStageWhere wrest rrest 2 3 1 where0 0 = false ∧
      multiStageWhere wrest rrest 2 3 1 where0 1 = false ∧
      multiStageWhere wrest rrest 2 3 1 where0 2 = true ∧
      traffic wrest rrest 2 3 0 = 2 ∧ traffic wrest rrest 2 3 2 = 0 ∧
      ¬ (traffic wrest rrest 2 3 2 ≥ traffic wrest rrest 2 3 0) :=
  ⟨rfl, rfl, rfl, rfl, rfl, rfl, fun h => absurd h (by decide : ¬ ((0 : Int) ≥ 2))⟩

/-! ## The online scheduler for `r = 2` -/

/-- The class `Online_r2` (with the members inherited from `Schedule` and `Online`). -/
structure Online_r2 where
  snaps : Int
  checkpoint : Checkpoint
  check : Int
  capo : Int
  fine : Int
  info : Int
  oldcapo_o : Int
  t : Int
  incr : Int
  iter : Int
  oldind : Int
  offset : Int
  ind : Int
  old_f : Int
  num_rep : Int → Int

/-- The constructors `Schedule::Schedule(sn, c)`, `Online::Online(sn, c, o)` and
`Online_r2::Online_r2(sn, c, o)`. The store `c` is taken as `Checkpoint::init_ord_ch()`
leaves it (that method is in the header); the members the constructors do not assign
keep the values they have in `m`. -/
def Online_r2.new (sn : Int) (c : Checkpoint) (m : Online_r2) : Online_r2 :=
  { m with
    snaps := sn
    checkpoint := { c with ch := Function.update c.ch 0 0 }
    check := -1
    capo := 0 }

/-- A loop `for (i = 0; i < snaps; i++) a[i] = v;`. -/
def fillConst (a : Int → Int) (snaps v : Int) : Int → Int :=
  (List.range snaps.toNat).foldl (fun (g : Int → Int) (i : Nat) => Function.update g (i : Int) v) a

/-- A loop `for (i = 0; i < snaps; i++) a[i] = i;`. -/
def fillIndex (a : Int → Int) (snaps : Int) : Int → Int :=
  (List.range snaps.toNat).foldl
    (fun (g : Int → Int) (i : Nat) => Function.update g (i : Int) (i : Int)) a

/-- The loop
`for (k = snaps-1; k > lo; k--) { ord_ch[k] = ord_ch[k-1]; ch[ord_ch[k]] = ch[ord_ch[k-1]]; }`
on the pair `(ord_ch, ch)`. -/
def shiftLoop (snaps lo : Int) (p : (Int → Int) × (Int → Int)) : (Int → Int) × (Int → Int) :=
  (List.range (isub snaps 1 - lo).toNat).foldl
    (fun (q : (Int → Int) × (Int → Int)) (j : Nat) =>
      let k : Int := isub snaps 1 - (j : Int)
      let ord := Function.update q.1 k (q.1 (k - 1))
      (ord, Function.update q.2 (ord k) (q.2 (ord (k - 1))))) p

/-- The loop `for (i = 0; i <= (t+1)/2; i++) { capo += incr; incr++; iter++; }` on the
triple `(capo, incr, iter)`. -/
def stepLoop (t : Int) (p : Int × Int × Int) : Int × Int × Int :=
  (List.range (idiv (iadd t 1) 2 + 1).toNat).foldl
    (fun (q : Int × Int × Int) (_ : Nat) => (iadd q.1 q.2.1, iadd q.2.1 1, iadd q.2.2 1)) p

/-- The takeshot of the `r = 1` phase of `Online_r2::revolve`. -/
def Online_r2.first (s : Online_r2) : Action × Online_r2 :=
  let s1 : Online_r2 :=
    { s with
      oldcapo_o := s.capo
      check := iadd s.check 1
      checkpoint := { s.checkpoint with
        ch := Function.update s.checkpoint.ch (iadd s.check 1) s.capo }
      t := 0 }
  let s2 : Online_r2 :=
    if s1.snaps < 4 then
      { s1 with
        num_rep := fillConst s1.num_rep s1.snaps 2
        incr := 2
        iter := 1
        oldind := isub s1.snaps 1 }
    else
      { s1 with
        iter := 1
        incr := 1
        oldind := 1
        num_rep := fillConst s1.num_rep s1.snaps 1
        checkpoint := { s1.checkpoint with ord_ch := fillIndex s1.checkpoint.ord_ch s1.snaps }
        offset := isub s1.snaps 1 }
  let s3 : Online_r2 := if s2.capo = isub s2.snaps 1 then { s2 with ind := 2, old_f := 1 } else s2
  (Action.takeshot,
    { s3 with checkpoint := { s3.checkpoint with takeshots := iadd s3.checkpoint.takeshots 1 } })

/-- The advance for `r = 2` of `Online_r2::revolve` (`switch (snaps)`). -/
def Online_r2.adv2 (s : Online_r2) : Action × Online_r2 :=
  if s.snaps = 1 then
    (Action.advance,
      { s with
        capo := isub MAXINT 1
        checkpoint := { s.checkpoint with advances := iadd s.checkpoint.advances 1 } })
  else if s.snaps = 2 then
    (Action.advance,
      { s with
        capo := iadd (s.checkpoint.ch 1) s.incr
        checkpoint := { s.checkpoint with advances := iadd s.checkpoint.advances 1 } })
  else if s.snaps = 3 then
    let s1 : Online_r2 :=
      { s with checkpoint := { s.checkpoint with
          advances := iadd s.checkpoint.advances s.incr } }
    if s1.iter = 0 then
      match stepLoop s1.t (s1.checkpoint.ch s1.oldind, s1.incr, s1.iter) with
      | (capo, incr, iter) => (Action.advance, { s1 with capo := capo, incr := incr, iter := iter })
    else
      (Action.advance,
        { s1 with
          capo := iadd (s1.checkpoint.ch s1.ind) s1.incr
          iter := iadd s1.iter 1
          incr := iadd s1.incr 1 })
  else if s.capo = isub s.snaps 1 then
    (Action.advance,
      { s with
        capo := iadd s.capo 2
        ind := isub s.snaps 1
        checkpoint := { s.checkpoint with advances := iadd s.checkpoint.advances 2 } })
  else if s.t = 0 then
    let s1 : Online_r2 :=
      if s.iter < s.offset then
        { s with
          capo := iadd s.capo 1
          checkpoint := { s.checkpoint with advances := iadd s.checkpoint.advances 1 } }
      else
        { s with
          capo := iadd s.capo 2
          checkpoint := { s.checkpoint with advances := iadd s.checkpoint.advances 2 } }
    (Action.advance, if s1.offset = 1 then { s1 with t := iadd s1.t 1 } else s1)
  else (Action.error, s)

/-- The takeshot for `r = 2` of `Online_r2::revolve` (`switch (snaps)`); where no case
returns, control reaches the final `return ACTION::terminate`. -/
def Online_r2.shot2 (s : Online_r2) : Action × Online_r2 :=
  let counted (x : Online_r2) : Online_r2 :=
    { x with checkpoint := { x.checkpoint with takeshots := iadd x.checkpoint.takeshots 1 } }
  if s.snaps = 2 then
    (Action.takeshot,
      counted { s with
        checkpoint := { s.checkpoint with ch := Function.update s.checkpoint.ch 1 s.capo }
        incr := iadd s.incr 1 })
  else if s.snaps = 3 then
    let s1 : Online_r2 :=
      { s with
        checkpoint := { s.checkpoint with ch := Function.update s.checkpoint.ch s.ind s.capo }
        check := s.ind }
    let s2 : Online_r2 :=
      if s1.iter = s1.num_rep 1 then
        let num_rep := Function.update s1.num_rep 1 (iadd (s1.num_rep 1) 1)
        { s1 with
          iter := 0
          t := iadd s1.t 1
          oldind := s1.ind
          num_rep := num_rep
          ind := isub 2 (Int.tmod (num_rep 1) 2)
          incr := 1 }
      else s1
    (Action.takeshot, counted s2)
  else if s.capo < iadd s.snaps 2 then
    let s1 : Online_r2 :=
      { s with
        checkpoint := { s.checkpoint with ch := Function.update s.checkpoint.ch s.ind s.capo }
        check := s.ind }
    let s2 : Online_r2 :=
      if s1.capo = iadd s1.snaps 1 then
        let oldind := s1.checkpoint.ord_ch (isub s1.snaps 1)
        let ind := s1.checkpoint.ch (s1.checkpoint.ord_ch (isub s1.snaps 1))
        match shiftLoop s1.snaps 1 (s1.checkpoint.ord_ch, s1.checkpoint.ch) with
        | (ord, ch) =>
          let ord1 := Function.update ord 1 oldind
          { s1 with
            oldind := oldind
            checkpoint := { s1.checkpoint with
              ord_ch := ord1
              ch := Function.update ch (ord1 1) ind }
            incr := 2
            ind := 2 }
      else s1
    (Action.takeshot, counted s2)
  else if s.t = 0 then
    if s.iter = s.offset then
      let slot := s.checkpoint.ord_ch (isub s.snaps 1)
      let ch1 := Function.update s.checkpoint.ch slot s.capo
      let ind := ch1 slot
      match shiftLoop s.snaps s.incr (s.checkpoint.ord_ch, ch1) with
      | (ord, ch) =>
        let ord1 := Function.update ord s.incr slot
        (Action.takeshot,
          counted { s with
            offset := isub s.offset 1
            iter := 1
            check := slot
            oldind := slot
            checkpoint := { s.checkpoint with
              ord_ch := ord1
              ch := Function.update ch (ord1 s.incr) ind }
            incr := iadd s.incr 1
            ind := iadd s.incr 1 })
    else
      (Action.takeshot,
        counted { s with
          checkpoint := { s.checkpoint with
            ch := Function.update s.checkpoint.ch (s.checkpoint.ord_ch s.ind) s.capo }
          check := s.checkpoint.ord_ch s.ind
          iter := iadd s.iter 1
          ind := iadd s.ind 1 })
  else (Action.terminate, s)

/-- The method `ACTION::action Online_r2::revolve()`. -/
def Online_r2.revolve (s : Online_r2) : Action × Online_r2 :=
  let s : Online_r2 :=
    { s with checkpoint := { s.checkpoint with commands := iadd s.checkpoint.commands 1 } }
  if s.check = -1 ∨ (s.checkpoint.ch s.check ≠ s.capo ∧ s.capo ≤ isub s.snaps 1) then s.first
  else if s.capo < isub s.snaps 1 then
    (Action.advance,
      { s with
        capo := iadd s.oldcapo_o 1
        checkpoint := { s.checkpoint with advances := iadd s.checkpoint.advances 1 } })
  else if s.checkpoint.ch s.check = s.capo then s.adv2
  else s.shot2

/-- The scheduler after `n` calls of `Online_r2::revolve`. -/
def Online_r2.run : Nat → Online_r2 → Online_r2
  | 0, s => s
  | n + 1, s => (Online_r2.run n s).revolve.2

/-- The action returned by call `n + 1`. -/
def Online_r2.act (n : Nat) (s : Online_r2) : Action := (Online_r2.run n s).revolve.1

/-- What holds after the takeshot of step `i` in the `r = 1` phase. -/
structure Placed (C : Int) (i : Int) (s : Online_r2) : Prop where
  snaps : s.snaps = C
  check : s.check = i
  capo : s.capo = i
  oldcapo : s.oldcapo_o = i
  slots : ∀ j, 0 ≤ j → j ≤ i → s.checkpoint.ch j = j

theorem first_check (s : Online_r2) : s.first.2.check = iadd s.check 1 := by
  unfold Online_r2.first
  simp only []
  split <;> split <;> rfl

theorem first_capo (s : Online_r2) : s.first.2.capo = s.capo := by
  unfold Online_r2.first
  simp only []
  split <;> split <;> rfl

theorem first_oldcapo (s : Online_r2) : s.first.2.oldcapo_o = s.capo := by
  unfold Online_r2.first
  simp only []
  split <;> split <;> rfl

theorem first_snaps (s : Online_r2) : s.first.2.snaps = s.snaps := by
  unfold Online_r2.first
  simp only []
  split <;> split <;> rfl

theorem first_ch (s : Online_r2) :
    s.first.2.checkpoint.ch = Function.update s.checkpoint.ch (iadd s.check 1) s.capo := by
  unfold Online_r2.first
  simp only []
  split <;> split <;> rfl

theorem first_action (s : Online_r2) : s.first.1 = Action.takeshot := rfl

/-- The scheduler with the call counted: `checkpoint->commands++`. -/
def Online_r2.counted (s : Online_r2) : Online_r2 :=
  { s with checkpoint := { s.checkpoint with commands := iadd s.checkpoint.commands 1 } }

/-- The branches of `Online_r2::revolve`, on the state at entry. -/
theorem r2_revolve_eq (s : Online_r2) :
    s.revolve =
      if s.check = -1 ∨ (s.checkpoint.ch s.check ≠ s.capo ∧ s.capo ≤ isub s.snaps 1) then
        s.counted.first
      else if s.capo < isub s.snaps 1 then
        (Action.advance,
          { s.counted with
            capo := iadd s.oldcapo_o 1
            checkpoint := { s.counted.checkpoint with
              advances := iadd s.checkpoint.advances 1 } })
      else if s.checkpoint.ch s.check = s.capo then s.counted.adv2
      else s.counted.shot2 := rfl

/-- The first call after construction: the takeshot of step 0 into slot 0. -/
theorem r2_first_call (C : Int) (c : Checkpoint) (m : Online_r2) :
    (Online_r2.new C c m).revolve.1 = Action.takeshot ∧
      Placed C 0 (Online_r2.new C c m).revolve.2 := by
  rw [r2_revolve_eq, if_pos (show (Online_r2.new C c m).check = -1 ∨ _ from Or.inl rfl)]
  refine ⟨rfl, ?_⟩
  exact
    { snaps := by rw [first_snaps]; rfl
      check := by rw [first_check]; rfl
      capo := by rw [first_capo]; rfl
      oldcapo := by rw [first_oldcapo]; rfl
      slots := by
        intro j hj0 hj
        have : j = 0 := by omega
        subst this
        rw [first_ch]
        show Function.update _ (iadd (-1) 1) 0 0 = 0
        rw [show iadd (-1) 1 = 0 by decide, Function.update_same] }

/-- From the takeshot of step `i` the next two calls advance by one step and store
step `i + 1` in slot `i + 1`, as long as a slot is left. -/
theorem r2_next_pair (C i : Int) (s : Online_r2) (h : Placed C i s) (hi0 : 0 ≤ i)
    (hi : i + 1 < C) (hC : C ≤ 2147483647) :
    s.revolve.1 = Action.advance ∧ s.revolve.2.capo = s.capo + 1 ∧
      s.revolve.2.check = s.check ∧ s.revolve.2.checkpoint.ch = s.checkpoint.ch ∧
      s.revolve.2.revolve.1 = Action.takeshot ∧ Placed C (i + 1) s.revolve.2.revolve.2 := by
  have hs1 : isub s.snaps 1 = C - 1 := by rw [h.snaps]; exact isub_eq (by omega) (by omega)
  have hch : s.checkpoint.ch s.check = s.capo := by
    rw [h.check, h.capo]; exact h.slots i hi0 (le_refl i)
  have e2 : iadd s.oldcapo_o 1 = i + 1 := by rw [h.oldcapo]; exact iadd_eq (by omega) (by omega)
  have e1 : s.revolve = (Action.advance,
      { s.counted with
        capo := i + 1
        checkpoint := { s.counted.checkpoint with
          advances := iadd s.checkpoint.advances 1 } }) := by
    rw [r2_revolve_eq, if_neg, if_pos, e2]
    · rw [hs1, h.capo]; omega
    · intro hc
      rcases hc with hc | hc
      · rw [h.check] at hc; omega
      · exact hc.1 hch
  rw [e1]
  refine ⟨rfl, by rw [h.capo], rfl, rfl, ?_⟩
  simp only []
  rw [r2_revolve_eq, if_pos]
  swap
  · right
    constructor
    · show s.checkpoint.ch s.check ≠ i + 1
      rw [hch, h.capo]; omega
    · show i + 1 ≤ isub s.snaps 1
      rw [hs1]; omega
  refine ⟨rfl, ?_⟩
  have e4 : iadd s.check 1 = i + 1 := by rw [h.check]; exact iadd_eq (by omega) (by omega)
  exact
    { snaps := by rw [first_snaps]; exact h.snaps
      check := by rw [first_check]; exact e4
      capo := by rw [first_capo]; rfl
      oldcapo := by rw [first_oldcapo]; rfl
      slots := by
        intro j hj0 hj
        rw [first_ch]
        show Function.update s.checkpoint.ch (iadd s.check 1) (i + 1) j = j
        rw [e4]
        by_cases hji : j = i + 1
        · subst hji; rw [Function.update_same]
        · rw [Function.update_noteq hji]; exact h.slots j hj0 (by omega) }

/-- The state after `2 i + 1` calls, for `i < C`: step `i` has just been stored. -/
theorem r2_placed (C : Int) (hC : C ≤ 2147483647) (c : Checkpoint) (m : Online_r2) :
    ∀ i : Nat, (i : Int) < C →
      Placed C i (Online_r2.run (2 * i + 1) (Online_r2.new C c m)) ∧
      Online_r2.act (2 * i) (Online_r2.new C c m) = Action.takeshot ∧
      (Online_r2.run (2 * i) (Online_r2.new C c m)).capo = i := by
  intro i
  induction i with
  | zero =>
    intro _
    obtain ⟨h1, h2⟩ := r2_first_call C c m
    exact ⟨h2, h1, rfl⟩
  | succ i ih =>
    intro hi
    obtain ⟨hP, -, -⟩ := ih (by push_cast at hi; omega)
    obtain ⟨-, h2, -, -, h5, h6⟩ := r2_next_pair C i _ hP (by omega)
      (by push_cast at hi; omega) hC
    refine ⟨?_, h5, ?_⟩
    · have : ((i + 1 : Nat) : Int) = (i : Int) + 1 := by push_cast; ring
      rw [this]
      exact h6
    · show (Online_r2.run (2 * i + 1) (Online_r2.new C c m)).revolve.2.capo = _
      rw [h2, hP.capo]
      push_cast
      ring

/-- C30: for `1 ≤ C` (implied by `i < C`) the first `2 C - 1` calls of a freshly constructed `Online_r2`
alternate strictly: call `2 i + 1` (for `i = 0 .. C-1`) returns `takeshot`, leaves `capo`
at `i` and sets `check = i`, `ch[i] = i` (the slots below keep their steps), and call
`2 i + 2` (for `i = 0 .. C-2`) returns `advance` and raises `capo` by exactly 1. -/
theorem online_r2_first_phase (C : Int) (hC : C ≤ 2147483647)
    (c : Checkpoint) (m : Online_r2) (i : Nat) (hi : (i : Int) < C) :
    Online_r2.act (2 * i) (Online_r2.new C c m) = Action.takeshot ∧
      (Online_r2.run (2 * i) (Online_r2.new C c m)).capo = i ∧
      (Online_r2.run (2 * i + 1) (Online_r2.new C c m)).capo = i ∧
      (Online_r2.run (2 * i + 1) (Online_r2.new C c m)).check = i ∧
      (Online_r2.run (2 * i + 1) (Online_r2.new C c m)).checkpoint.ch i = i ∧
      (∀ j, 0 ≤ j → j ≤ (i : Int) →
        (Online_r2.run (2 * i + 1) (Online_r2.new C c m)).checkpoint.ch j = j) ∧
      ((i : Int) + 1 < C →
        Online_r2.act (2 * i + 1) (Online_r2.new C c m) = Action.advance ∧
        (Online_r2.run (2 * i + 2) (Online_r2.new C c m)).capo
          = (Online_r2.run (2 * i + 1) (Online_r2.new C c m)).capo + 1) := by
  obtain ⟨hP, h2, h3⟩ := r2_placed C hC c m i hi
  refine ⟨h2, h3, hP.capo, hP.check, hP.slots i (by omega) (le_refl _), hP.slots, ?_⟩
  intro hi1
  obtain ⟨g1, g2, -⟩ := r2_next_pair C i _ hP (by omega) hi1 hC
  exact ⟨g1, g2⟩

/-- A scheduler with every member zero, for concrete runs. -/
def Online_r2.zero : Online_r2 :=
  { snaps := 0, checkpoint := Checkpoint.zero, check := 0, capo := 0, fine := 0, info := 0,
    oldcapo_o := 0, t := 0, incr := 0, iter := 0, oldind := 0, offset := 0, ind := 0,
    old_f := 0, num_rep := fun _ => 0 }

/-- Witness for C30 at `C = 3`, `i = 2`: the fifth call is the takeshot of step 2 into
slot 2. -/
theorem online_r2_first_phase_witness :
    Online_r2.act (2 * 2) (Online_r2.new 3 Checkpoint.zero Online_r2.zero) = Action.takeshot ∧
      (Online_r2.run (2 * 2 + 1) (Online_r2.new 3 Checkpoint.zero Online_r2.zero)).check
        = (2 : Nat) ∧
      (Online_r2.run (2 * 2 + 1)
        (Online_r2.new 3 Checkpoint.zero Online_r2.zero)).checkpoint.ch (2 : Nat) = (2 : Nat) := by
  obtain ⟨h1, -, -, h4, h5, -⟩ :=
    online_r2_first_phase 3 (by decide) Checkpoint.zero Online_r2.zero 2 (by decide)
  exact ⟨h1, h4, h5⟩

/-! ## The online scheduler for `r = 3` -/

/-- The class `Online_r3` (with the members inherited from `Schedule` and `Online`). -/
structure Online_r3 where
  snaps : Int
  checkpoint : Checkpoint
  check : Int
  capo : Int
  fine : Int
  info : Int
  forward : Int
  ind_now : Int
  cp : Int
  ch3 : Int → Int
  tdiff : Int → Int
  tdiff_end : Int → Int
  cp_fest : Int → Bool

/-- The loop `for (i = 1; i < snaps; i++) tdiff_end[i] = tdiff_end[i-1] + 3 + i;`. -/
def fillTdiffEnd (a : Int → Int) (snaps : Int) : Int → Int :=
  (List.range (snaps - 1).toNat).foldl
    (fun (g : Int → Int) (j : Nat) =>
      Function.update g ((j : Int) + 1) (iadd (iadd (g (j : Int)) 3) ((j : Int) + 1))) a

/-- The loop `for (i = 1; i < snaps; i++) ch3[i] = ch3[i-1] + tdiff_end[snaps-i-1];`. -/
def fillCh3 (a tdiff_end : Int → Int) (snaps : Int) : Int → Int :=
  (List.range (snaps - 1).toNat).foldl
    (fun (g : Int → Int) (j : Nat) =>
      Function.update g ((j : Int) + 1)
        (iadd (g (j : Int)) (tdiff_end (isub (isub snaps ((j : Int) + 1)) 1)))) a

/-- The constructors `Schedule::Schedule(sn, c)`, `Online::Online(sn, c)` and
`Online_r3::Online_r3(sn, c)`. The store `c` is taken as `Checkpoint::init_ord_ch()`
leaves it; the members the constructors do not assign keep the values they have in `m`. -/
def Online_r3.new (sn : Int) (c : Checkpoint) (m : Online_r3) : Online_r3 :=
  let tdiff_end := fillTdiffEnd (Function.update m.tdiff_end 0 6) sn
  { m with
    snaps := sn
    capo := isub (idiv (imul (iadd sn 2) (iadd sn 1)) 2) 1
    check := 1
    tdiff := (List.range sn.toNat).foldl
      (fun (g : Int → Int) (i : Nat) => Function.update g (i : Int) (iadd (i : Int) 3)) m.tdiff
    checkpoint := { c with
      ch := Function.update c.ch 0 0
      ord_ch := (List.range sn.toNat).foldl
        (fun (g : Int → Int) (i : Nat) => Function.update g (i : Int) (isub sn (i : Int)))
        c.ord_ch }
    cp_fest := (List.range sn.toNat).foldl
      (fun (g : Int → Bool) (i : Nat) => Function.update g (i : Int) false) m.cp_fest
    tdiff_end := tdiff_end
    ch3 := fillCh3 (Function.update m.ch3 0 0) tdiff_end sn }

/-- The loop of `Online_r3::choose_cp`:
`while (number > 0) { if (tdiff[i-1] + tdiff[i] <= tdiff_end[i]) number--; i++; }`,
followed by `return i-1`; `none` when it has not ended after `fuel` tests. -/
def chooseLoop (tdiff tdiff_end : Int → Int) : Nat → Int → Int → Option Int
  | 0, _, _ => none
  | fuel + 1, number, i =>
    if number > 0 then
      if iadd (tdiff (isub i 1)) (tdiff i) ≤ tdiff_end i then
        chooseLoop tdiff tdiff_end fuel (isub number 1) (iadd i 1)
      else chooseLoop tdiff tdiff_end fuel number (iadd i 1)
    else some (isub i 1)

/-- The method `int Online_r3::choose_cp(int number)`. -/
def Online_r3.choose_cp (fuel : Nat) (s : Online_r3) (number : Int) : Option Int :=
  if s.tdiff 0 = 3 ∧ number = 1 then some 0
  else if iadd (s.tdiff 0) (s.tdiff 1) ≤ 10 ∧ number ≤ 2 then some 1
  else chooseLoop s.tdiff s.tdiff_end fuel number 2

/-- The loop `while (cp_fest[ord_ch[snaps-1-cp]]) cp = choose_cp(++n);`: the final `cp`,
or `none` when a loop has not ended within `fuel`. -/
def festLoop (fuel : Nat) (s : Online_r3) : Nat → Int → Int → Option Int
  | 0, _, _ => none
  | k + 1, n, cp =>
    if s.cp_fest (s.checkpoint.ord_ch (isub (isub s.snaps 1) cp)) then
      match s.choose_cp fuel (iadd n 1) with
      | none => none
      | some cp1 => festLoop fuel s k (iadd n 1) cp1
    else some cp

/-- The method `void Online_r3::tdiff_akt()`, on the array `tdiff`. -/
def Online_r3.tdiff_akt (s : Online_r3) : Int → Int :=
  if s.cp = 0 then
    if s.forward = 3 then Function.update s.tdiff 0 6
    else Function.update s.tdiff 0 (iadd (s.tdiff 0) 1)
  else
    match (List.range (s.cp - 1).toNat).foldl
      (fun (q : Int × (Int → Int)) (j : Nat) =>
        let i : Int := s.cp - 1 - (j : Int)
        (iadd q.1 (isub (q.2 i) (q.2 (i - 1))), Function.update q.2 i (q.2 (i - 1))))
      (s.tdiff 0, s.tdiff) with
    | (sum, tdiff) =>
      Function.update (Function.update tdiff s.cp (iadd (tdiff s.cp) sum)) 0 3

/-- The method `void Online_r3::akt_cp()`, on the array `ord_ch`. -/
def Online_r3.akt_cp (s : Online_r3) : Int → Int :=
  if s.cp = 0 then s.checkpoint.ord_ch
  else
    Function.update
      ((List.range s.cp.toNat).foldl
        (fun (g : Int → Int) (j : Nat) =>
          let i : Int := s.cp - (j : Int)
          Function.update g (isub (isub s.snaps i) 1) (g (isub s.snaps i)))
        s.checkpoint.ord_ch)
      (isub s.snaps 1) (s.checkpoint.ord_ch (isub (isub s.snaps 1) s.cp))

/-- The takeshot branch of `Online_r3::revolve`, once `cp` is chosen. -/
def Online_r3.shot (s : Online_r3) (cp : Int) : Action × Online_r3 :=
  let s1 : Online_r3 :=
    { s with
      cp := cp
      checkpoint := { s.checkpoint with
        ch := Function.update s.checkpoint.ch
          (s.checkpoint.ord_ch (isub (isub s.snaps 1) cp)) s.capo } }
  let s2 : Online_r3 := { s1 with tdiff := s1.tdiff_akt }
  let s3 : Online_r3 := { s2 with checkpoint := { s2.checkpoint with ord_ch := s2.akt_cp } }
  let s4 : Online_r3 := { s3 with check := s3.checkpoint.ord_ch (isub s3.snaps 1) }
  let s5 : Online_r3 :=
    if s4.checkpoint.ch s4.check = s4.ch3 s4.ind_now then
      { s4 with
        cp_fest := Function.update s4.cp_fest s4.check true
        ind_now := iadd s4.ind_now 1 }
    else s4
  (Action.takeshot,
    { s5 with
      forward := 3
      checkpoint := { s5.checkpoint with takeshots := iadd s5.checkpoint.takeshots 1 } })

/-- The method `ACTION::action Online_r3::revolve()`; `none` when a loop of the choice of
`cp` has not ended within `fuel`. -/
def Online_r3.revolve (fuel : Nat) (s : Online_r3) : Option (Action × Online_r3) :=
  let s : Online_r3 :=
    { s with checkpoint := { s.checkpoint with commands := iadd s.checkpoint.commands 1 } }
  if s.capo = isub (idiv (imul (iadd s.snaps 2) (iadd s.snaps 1)) 2) 1 then
    some (Action.advance,
      { s with
        capo := iadd s.capo 1
        forward := 3
        ind_now := 1
        checkpoint := { s.checkpoint with advances := iadd s.checkpoint.advances 3 }
        cp := 0 })
  else if s.capo = s.checkpoint.ch s.check then
    let forward :=
      if s.ind_now = s.snaps then 1
      else if s.capo = isub (s.ch3 s.ind_now) 1 then 1 else s.forward
    some (Action.advance,
      { s with
        forward := forward
        capo := iadd s.capo forward
        checkpoint := { s.checkpoint with advances := iadd s.checkpoint.advances forward } })
  else if s.capo ≤ isub (idiv (imul (imul (iadd s.snaps 3) (iadd s.snaps 2)) (iadd s.snaps 1)) 6) 4
  then
    if s.cp = 0 ∧ s.forward = 1 then some (s.shot 0)
    else
      match s.choose_cp fuel 1 with
      | none => none
      | some cp0 =>
        match festLoop fuel s fuel 1 cp0 with
        | none => none
        | some cp => some (s.shot cp)
  else some (Action.terminate, s)

/-! ## The online scheduler `Moin` -/

/-- The class `Moin` (with the members inherited from `Schedule` and `Online`). -/
structure Moin where
  snaps : Int
  checkpoint : Checkpoint
  check : Int
  capo : Int
  fine : Int
  info : Int
  forward : Int
  index_old : Int
  lmin : Int
  start : Bool
  start1 : Bool
  is_d : Bool
  l : Int → Int
  d : Int → Bool

/-- The constructors `Schedule::Schedule(sn, c)`, `Online::Online(sn, c)` and
`Moin::Moin(sn, c)`. The store `c` is taken as `Checkpoint::init_ord_ch()` leaves it; the
members the constructors do not assign keep the values they have in `m`. -/
def Moin.new (sn : Int) (c : Checkpoint) (m : Moin) : Moin :=
  { m with
    snaps := sn
    checkpoint := { c with ch := Function.update c.ch 0 0 }
    capo := isub (idiv (imul (imul (iadd sn 3) (iadd sn 2)) (iadd sn 1)) 6) 1
    l := (List.range (sn - 1).toNat).foldl
      (fun (g : Int → Int) (j : Nat) => Function.update g ((j : Int) + 1) 2)
      (Function.update m.l 0 10000)
    d := (List.range (sn - 1).toNat).foldl
      (fun (g : Int → Bool) (j : Nat) => Function.update g ((j : Int) + 1) true)
      (Function.update m.d 0 false)
    start := true
    start1 := true
    is_d := false
    check := 0 }

/-- The method `bool Moin::is_dispensable(int *index)`: the value returned and the value
left in `*index`, which is `index0` when the method does not assign it. -/
def Moin.is_dispensable (s : Moin) (index0 : Int) : Bool × Int :=
  match (List.range (isub s.snaps 1).toNat).foldl
    (fun (q : Bool × Int × Int) (j : Nat) =>
      let i : Int := isub s.snaps 1 - (j : Int)
      if s.d i then
        if s.checkpoint.ch i > q.2.1 then (true, s.checkpoint.ch i, i) else (true, q.2.1, q.2.2)
      else q)
    (false, 0, index0) with
  | (dis, _, index) => (dis, index)

/-- The method `int Moin::get_lmin()`. -/
def Moin.get_lmin (s : Moin) : Int :=
  (List.range (s.snaps - 2).toNat).foldl
    (fun (lmin : Int) (j : Nat) => if s.l ((j : Int) + 2) < lmin then s.l ((j : Int) + 2) else lmin)
    (s.l 1)

/-- The method `void Moin::adjust_cp(int index)`, on the array `d`. -/
def Moin.adjust_cp (s : Moin) (index : Int) : Int → Bool :=
  (List.range (isub s.snaps 1).toNat).foldl
    (fun (g : Int → Bool) (j : Nat) =>
      let i : Int := isub s.snaps 1 - (j : Int)
      if i ≠ index ∧ s.l i < s.l index ∧ s.checkpoint.ch i < s.checkpoint.ch index then
        Function.update g i true
      else g)
    s.d

/-- The loop of the first takeshot of `Moin::revolve`:
`for (i = 1; i < snaps; i++) if (ord_ch[i] == snaps-1) { ch[i] = capo; check = i;
l[i] = 3; d[i] = false; }`. -/
def Moin.claim (s : Moin) : Moin :=
  (List.range (s.snaps - 1).toNat).foldl
    (fun (x : Moin) (j : Nat) =>
      let i : Int := (j : Int) + 1
      if x.checkpoint.ord_ch i = isub x.snaps 1 then
        { x with
          checkpoint := { x.checkpoint with ch := Function.update x.checkpoint.ch i x.capo }
          check := i
          l := Function.update x.l i 3
          d := Function.update x.d i false }
      else x)
    s

/-- The method `ACTION::action Moin::revolve()`; `index0` is the value of the local
`index`, which is not initialised. -/
def Moin.revolve (index0 : Int) (s : Moin) : Action × Moin :=
  let s : Moin :=
    { s with checkpoint := { s.checkpoint with commands := iadd s.checkpoint.commands 1 } }
  if s.start then
    (Action.advance,
      { s with
        capo := iadd s.capo 1
        start := false
        checkpoint := { s.checkpoint with advances := iadd s.checkpoint.advances 1 } })
  else if s.start1 then
    let s1 : Moin := Moin.claim { s with start1 := false }
    (Action.takeshot,
      { s1 with
        forward := 1
        checkpoint := { s1.checkpoint with takeshots := iadd s1.checkpoint.takeshots 1 } })
  else if s.forward > 0 then
    (Action.advance,
      { s with
        capo := iadd s.capo s.forward
        forward := 0
        checkpoint := { s.checkpoint with advances := iadd s.checkpoint.advances 1 } })
  else
    match s.is_dispensable index0 with
    | (dis, index) =>
      if dis then
        (Action.takeshot,
          { s with
            checkpoint := { s.checkpoint with
              ch := Function.update s.checkpoint.ch index s.capo
              takeshots := iadd s.checkpoint.takeshots 1 }
            l := Function.update s.l index 0
            d := Function.update s.d index false
            index_old := index
            forward := 1
            check := index })
      else if s.is_d then
        let s1 : Moin :=
          { s with
            checkpoint := { s.checkpoint with
              ch := Function.update s.checkpoint.ch s.index_old s.capo }
            check := s.index_old }
        let s2 : Moin := { s1 with lmin := s1.get_lmin }
        let s3 : Moin :=
          { s2 with
            l := Function.update s2.l s2.index_old (iadd s2.lmin 1)
            d := Function.update s2.d s2.index_old false }
        (Action.takeshot,
          { s3 with
            d := s3.adjust_cp s3.index_old
            is_d := false
            forward := 1
            checkpoint := { s3.checkpoint with takeshots := iadd s3.checkpoint.takeshots 1 } })
      else
        let lmin := s.get_lmin
        (Action.advance,
          { s with
            lmin := lmin
            capo := iadd s.capo (iadd lmin 1)
            is_d := true
            forward := 0
            checkpoint := { s.checkpoint with advances := iadd s.checkpoint.advances 1 } })

/-! ## The façade `Revolve` in online mode -/

/-- The scheduler the façade points to (`Schedule *f`). -/
inductive Schedule where
  | r2 (s : Online_r2)
  | r3 (s : Online_r3)
  | moin (s : Moin)
  | offline (s : Offline)

/-- The store of a scheduler (`checkpoint`). -/
def Schedule.checkpoint : Schedule → Checkpoint
  | Schedule.r2 s => s.checkpoint
  | Schedule.r3 s => s.checkpoint
  | Schedule.moin s => s.checkpoint
  | Schedule.offline s => s.checkpoint

/-- The accessor `get_check()`. -/
def Schedule.get_check : Schedule → Int
  | Schedule.r2 s => s.check
  | Schedule.r3 s => s.check
  | Schedule.moin s => s.check
  | Schedule.offline s => s.check

/-- The accessor `get_capo()`. -/
def Schedule.get_capo : Schedule → Int
  | Schedule.r2 s => s.capo
  | Schedule.r3 s => s.capo
  | Schedule.moin s => s.capo
  | Schedule.offline s => s.capo

/-- The accessor `get_fine()`. -/
def Schedule.get_fine : Schedule → Int
  | Schedule.r2 s => s.fine
  | Schedule.r3 s => s.fine
  | Schedule.moin s => s.fine
  | Schedule.offline s => s.fine

/-- The accessor `get_info()`. -/
def Schedule.get_info : Schedule → Int
  | Schedule.r2 s => s.info
  | Schedule.r3 s => s.info
  | Schedule.moin s => s.info
  | Schedule.offline s => s.info

/-- What the code leaves open: the effect of `Checkpoint::init_ord_ch()` on the store (the
method is in the header), the contents of freshly allocated objects, the value of the
uninitialised local `index` of `Moin::revolve`, the member `info` of the copy made by
`Online::Online(Online &)`, and the fuel given to the loops of `Online_r3::choose_cp`. -/
structure World where
  init_ord_ch : Checkpoint → Checkpoint
  raw3 : Online_r3
  rawMoin : Moin
  rawOffline : Offline
  index0 : Moin → Int
  copyInfo : Int
  fuel : Nat

/-- The virtual call `f->revolve()`. -/
def Schedule.revolve (w : World) : Schedule → Option (Action × Schedule)
  | Schedule.r2 s =>
    match s.revolve with
    | (a, t) => some (a, Schedule.r2 t)
  | Schedule.r3 s =>
    match s.revolve w.fuel with
    | none => none
    | some (a, t) => some (a, Schedule.r3 t)
  | Schedule.moin s =>
    match s.revolve (w.index0 s) with
    | (a, t) => some (a, Schedule.moin t)
  | Schedule.offline s =>
    match s.revolve with
    | none => none
    | some (a, t) => some (a, Schedule.offline t)

/-- The class `Revolve`, as far as the online constructor, `revolve()` and `turn()` use
it (the table `where` and `where_to_put` are left out). -/
structure Facade where
  f : Schedule
  online : Bool
  snaps : Int
  r : Int
  check : Int
  capo : Int
  fine : Int
  info : Int
  oldcapo : Int

/-- The constructor `Revolve::Revolve(int sn)`; `c` is the store as `Checkpoint(sn)` leaves
it, `raw2` the fresh `Online_r2` object and `m` the fresh `Revolve` object itself. -/
def Facade.new (w : World) (sn : Int) (c : Checkpoint) (raw2 : Online_r2) (m : Facade) :
    Facade :=
  let s := Online_r2.new sn (w.init_ord_ch c) raw2
  { m with
    f := Schedule.r2
      { s with checkpoint := { s.checkpoint with advances := 0, takeshots := 0, commands := 0 } }
    online := true
    snaps := sn
    check := -1
    info := 0
    r := 2 }

/-- The method `ACTION::action Revolve::revolve()`. -/
def Facade.revolve (w : World) (s : Facade) : Option (Action × Facade) :=
  let s : Facade := { s with oldcapo := s.capo }
  match s.f.revolve w with
  | none => none
  | some (a1, f1) =>
    let step2 : Option (Action × Schedule × Int) :=
      if s.online ∧ a1 = Action.terminate ∧ s.r = 2 then
        match (Schedule.r3
            (Online_r3.new s.snaps (w.init_ord_ch f1.checkpoint) w.raw3)).revolve w with
        | none => none
        | some (a2, f2) => some (a2, f2, iadd s.r 1)
      else some (a1, f1, s.r)
    match step2 with
    | none => none
    | some (a2, f2, r2) =>
      let step3 : Option (Action × Schedule × Int) :=
        if s.online ∧ a2 = Action.terminate ∧ r2 = 3 then
          match (Schedule.moin
              (Moin.new s.snaps (w.init_ord_ch f2.checkpoint) w.rawMoin)).revolve w with
          | none => none
          | some (a3, f3) => some (a3, f3, iadd r2 1)
        else some (a2, f2, r2)
      match step3 with
      | none => none
      | some (a3, f3, r3) =>
        some (a3,
          { s with
            f := f3
            r := r3
            check := f3.get_check
            capo := f3.get_capo
            fine := f3.get_fine
            info := f3.get_info })

/-- The method `void Revolve::turn(int final)`. -/
def Facade.turn (w : World) (s : Facade) (final : Int) : Facade :=
  if s.online then
    let o := Offline.fromOnline s.snaps s.f.checkpoint s.f.get_check s.f.get_capo w.copyInfo
      final w.rawOffline.steps w.rawOffline.fine w.rawOffline.oldfine w.rawOffline.num_ch
    { s with
      fine := final
      capo := isub final 1
      f := Schedule.offline { o with fine := final, capo := isub final 1 }
      online := false }
  else s

/-! ## The façade driven by a host -/

/-- What the host does with the action `a`, given the `check`, `capo` and `fine` that the
scheduler shows after the call. -/
def Host.see (h : Host) (a : Action) (check capo fine : Int) : Host :=
  match a with
  | Action.advance => { h with cur := capo, acts := h.acts ++ [a] }
  | Action.takeshot =>
    { h with slots := Function.update h.slots check (some h.cur), acts := h.acts ++ [a] }
  | Action.restore =>
    { h with
      cur := capo
      restoresOk := h.restoresOk && decide (h.slots check = some capo)
      acts := h.acts ++ [a] }
  | Action.firsturn => { h with turns := h.turns ++ [(a, fine, h.cur)], acts := h.acts ++ [a] }
  | Action.youturn => { h with turns := h.turns ++ [(a, fine, h.cur)], acts := h.acts ++ [a] }
  | Action.terminate => { h with acts := h.acts ++ [a] }
  | Action.error => { h with acts := h.acts ++ [a] }

/-- The façade together with its host. -/
structure Drive where
  r : Facade
  h : Host

/-- One call of `Revolve::revolve()` followed by the host's reaction. -/
def Drive.step (w : World) (s : Drive) : Option Drive :=
  match s.r.revolve w with
  | none => none
  | some (a, r) => some { r := r, h := s.h.see a r.check r.capo r.fine }

/-- The system after `n` calls. -/
def Drive.run (w : World) : Nat → Drive → Option Drive
  | 0, s => some s
  | n + 1, s =>
    match s.step w with
    | none => none
    | some t => Drive.run w n t

/-- The host calls `turn(capo + 1)` with the `capo` the façade shows. -/
def Drive.turn (w : World) (s : Drive) : Drive :=
  { s with r := s.r.turn w (iadd s.r.capo 1) }

/-- The host's scenario: `k` calls in online mode, `turn(capo + 1)`, then `n` more calls. -/
def Drive.sweep (w : World) (k n : Nat) (s : Drive) : Option Drive :=
  match Drive.run w k s with
  | none => none
  | some t => Drive.run w n (t.turn w)

/-- A scheduler `Online_r3` with every member zero, for concrete runs. -/
def Online_r3.zero : Online_r3 :=
  { snaps := 0, checkpoint := Checkpoint.zero, check := 0, capo := 0, fine := 0, info := 0,
    forward := 0, ind_now := 0, cp := 0, ch3 := fun _ => 0, tdiff := fun _ => 0,
    tdiff_end := fun _ => 0, cp_fest := fun _ => false }

/-- A scheduler `Moin` with every member zero, for concrete runs. -/
def Moin.zero : Moin :=
  { snaps := 0, checkpoint := Checkpoint.zero, check := 0, capo := 0, fine := 0, info := 0,
    forward := 0, index_old := 0, lmin := 0, start := false, start1 := false, is_d := false,
    l := fun _ => 0, d := fun _ => false }

/-- A world for concrete runs: `init_ord_ch()` leaves the store as it is, fresh objects
are zero. -/
def World.zero : World :=
  { init_ord_ch := fun c => c
    raw3 := Online_r3.zero
    rawMoin := Moin.zero
    rawOffline := Offline.new 0 0 Checkpoint.zero 0 0 0 (fun _ => 0)
    index0 := fun _ => 0
    copyInfo := 0
    fuel := 1000 }

/-- A façade object with every member zero, for concrete runs. -/
def Facade.zero : Facade :=
  { f := Schedule.r2 Online_r2.zero, online := false, snaps := 0, r := 0, check := 0,
    capo := 0, fine := 0, info := 0, oldcapo := 0 }

/-- The system right after `Revolve(sn)`, in the world `World.zero`. -/
def Drive.init (sn : Int) : Drive :=
  { r := Facade.new World.zero sn Checkpoint.zero Online_r2.zero Facade.zero, h := Host.start }

/-! ## Runs of the façade with its host -/

theorem drive_run_succ (w : World) (n : Nat) (s t : Drive) (h : Drive.run w n s = some t) :
    Drive.run w (n + 1) s = t.step w := by
  induction n generalizing s with
  | zero =>
    simp only [Drive.run] at h
    cases h
    simp only [Drive.run]
    cases hs : Drive.step w t <;> rfl
  | succ n ih =>
    simp only [Drive.run] at h ⊢
    cases hs : s.step w with
    | none => rw [hs] at h; simp at h
    | some u =>
      rw [hs] at h
      simp only [] at h ⊢
      exact ih u h

theorem drive_run_add (w : World) (m n : Nat) (s t : Drive) (h : Drive.run w m s = some t) :
    Drive.run w (m + n) s = Drive.run w n t := by
  induction m generalizing s with
  | zero =>
    simp only [Drive.run] at h
    cases h
    simp
  | succ m ih =>
    have e : m + 1 + n = (m + n) + 1 := by omega
    rw [e]
    simp only [Drive.run] at h ⊢
    cases hs : s.step w with
    | none => rw [hs] at h; simp at h
    | some u =>
      rw [hs] at h
      simp only [] at h ⊢
      exact ih u h

/-- A call of the façade while `Online_r2` is at work and does not return `terminate`. -/
theorem drive_step_r2 (w : World) (s : Drive) (x : Online_r2) (hf : s.r.f = Schedule.r2 x)
    (hne : x.revolve.1 ≠ Action.terminate) :
    s.step w = some
      { r := { s.r with
          oldcapo := s.r.capo
          f := Schedule.r2 x.revolve.2
          check := x.revolve.2.check
          capo := x.revolve.2.capo
          fine := x.revolve.2.fine
          info := x.revolve.2.info }
        h := s.h.see x.revolve.1 x.revolve.2.check x.revolve.2.capo x.revolve.2.fine } := by
  unfold Drive.step Facade.revolve
  simp only [hf, Schedule.revolve]
  have e1 : ¬ (s.r.online = true ∧ x.revolve.1 = Action.terminate ∧ s.r.r = 2) :=
    fun h => hne h.2.1
  rw [if_neg e1]
  simp only []
  have e2 : ¬ (s.r.online = true ∧ x.revolve.1 = Action.terminate ∧ s.r.r = 3) :=
    fun h => hne h.2.1
  rw [if_neg e2]
  rfl

/-- A call of the façade after `turn()`: the call of `Offline::revolve`. -/
theorem drive_step_offline (w : World) (s : Drive) (o o' : Offline) (a : Action)
    (hf : s.r.f = Schedule.offline o) (hon : s.r.online = false)
    (h : o.revolve = some (a, o')) :
    s.step w = some
      { r := { s.r with
          oldcapo := s.r.capo
          f := Schedule.offline o'
          check := o'.check
          capo := o'.capo
          fine := o'.fine
          info := o'.info }
        h := s.h.see a o'.check o'.capo o'.fine } := by
  unfold Drive.step Facade.revolve
  simp only [hf, Schedule.revolve, h, hon]
  simp
  exact ⟨⟨rfl, rfl, rfl, rfl⟩, rfl⟩

/-- The façade and its host during the `r = 1` phase: `Online_r2` is the state `x`, with
`check = i` and `capo = a`, the slots `0 .. i` hold the steps `0 .. i`, in the scheduler's
table and at the host, and the host is at step `a`. -/
structure OnlineAt (C i a : Int) (x : Online_r2) (s : Drive) : Prop where
  f : s.r.f = Schedule.r2 x
  online : s.r.online = true
  snaps : s.r.snaps = C
  rcapo : s.r.capo = a
  check : x.check = i
  capo : x.capo = a
  ch : ∀ j, 0 ≤ j → j ≤ i → x.checkpoint.ch j = j
  cur : s.h.cur = a
  slots : ∀ j, 0 ≤ j → j ≤ i → s.h.slots j = some j
  turns : s.h.turns = []
  restoresOk : s.h.restoresOk = true
  noterm : Action.terminate ∉ s.h.acts
  noerr : Action.error ∉ s.h.acts

/-- The system right after `Revolve(sn)`. -/
def Drive.start (w : World) (sn : Int) (c : Checkpoint) (raw2 : Online_r2) (m : Facade) :
    Drive :=
  { r := Facade.new w sn c raw2 m, h := Host.start }

theorem see_takeshot_slots (h : Host) (check capo fine : Int) :
    (h.see Action.takeshot check capo fine).slots
      = Function.update h.slots check (some h.cur) := rfl

theorem see_acts (h : Host) (a : Action) (check capo fine : Int) :
    (h.see a check capo fine).acts = h.acts ++ [a] := by
  cases a <;> rfl

/-- The scheduler the façade starts with is a freshly constructed `Online_r2` on the store
with its counters cleared. -/
theorem drive_start_f (w : World) (C : Int) (c : Checkpoint) (raw2 : Online_r2) (m : Facade) :
    (Drive.start w C c raw2 m).r.f = Schedule.r2 (Online_r2.new C
      { w.init_ord_ch c with advances := 0, takeshots := 0, commands := 0 } raw2) := rfl

/-- The parts of the system that a call changes while `Online_r2` is at work. -/
theorem drive_step_r2_view (w : World) (s : Drive) (x : Online_r2)
    (hf : s.r.f = Schedule.r2 x) (hne : x.revolve.1 ≠ Action.terminate) :
    ∃ t, s.step w = some t ∧ t.r.f = Schedule.r2 x.revolve.2 ∧ t.r.online = s.r.online ∧
      t.r.snaps = s.r.snaps ∧ t.r.capo = x.revolve.2.capo ∧ t.r.check = x.revolve.2.check ∧
      t.h = s.h.see x.revolve.1 x.revolve.2.check x.revolve.2.capo x.revolve.2.fine :=
  ⟨_, drive_step_r2 w s x hf hne, rfl, rfl, rfl, rfl, rfl, rfl⟩

/-- The first call of the façade: the takeshot of step 0 into slot 0. -/
theorem drive_first (w : World) (C : Int) (c : Checkpoint) (raw2 : Online_r2) (m : Facade) :
    ∃ s x, Drive.run w 1 (Drive.start w C c raw2 m) = some s ∧ OnlineAt C 0 0 x s ∧
      Placed C 0 x := by
  obtain ⟨hx1, hx2⟩ := r2_first_call C
    { w.init_ord_ch c with advances := 0, takeshots := 0, commands := 0 } raw2
  obtain ⟨t, ht, h1, h2, h3, h4, h5, h6⟩ := drive_step_r2_view w (Drive.start w C c raw2 m) _
    (drive_start_f w C c raw2 m) (by rw [hx1]; exact fun h => Action.noConfusion h)
  refine ⟨t, _, by rw [drive_run_succ w 0 _ _ rfl]; exact ht, ?_, hx2⟩
  rw [hx1, hx2.check, hx2.capo] at h6
  exact
    { f := h1
      online := by rw [h2]; rfl
      snaps := by rw [h3]; rfl
      rcapo := by rw [h4, hx2.capo]
      check := hx2.check
      capo := hx2.capo
      ch := hx2.slots
      cur := by rw [h6]; rfl
      slots := by
        intro j hj0 hj
        have : j = 0 := by omega
        subst this
        rw [h6, see_takeshot_slots, Function.update_same]
        rfl
      turns := by rw [h6]; rfl
      restoresOk := by rw [h6]; rfl
      noterm := by
        rw [h6]
        show Action.terminate ∉ ([] : List Action) ++ [Action.takeshot]
        simp
      noerr := by
        rw [h6]
        show Action.error ∉ ([] : List Action) ++ [Action.takeshot]
        simp }

/-- From the takeshot of step `i` the next two calls of the façade advance to step `i + 1`
and store it in slot `i + 1`, as long as a slot is left. -/
theorem drive_next_pair (w : World) (C i : Int) (s : Drive) (x : Online_r2)
    (h : OnlineAt C i i x s) (hP : Placed C i x) (hi0 : 0 ≤ i) (hi : i + 1 < C)
    (hC : C ≤ 2147483647) :
    ∃ s1 x1 s2 x2, s.step w = some s1 ∧ OnlineAt C i (i + 1) x1 s1 ∧
      s1.step w = some s2 ∧ OnlineAt C (i + 1) (i + 1) x2 s2 ∧ Placed C (i + 1) x2 := by
  obtain ⟨g1, g2, g3, g4, g5, g6⟩ := r2_next_pair C i x hP hi0 hi hC
  obtain ⟨t, ht, h1, h2, h3, h4, h5, h6⟩ := drive_step_r2_view w s x h.f
    (by rw [g1]; exact fun h => Action.noConfusion h)
  rw [hP.capo] at g2
  rw [hP.check] at g3
  rw [g1, g2, g3] at h6
  have A1 : OnlineAt C i (i + 1) x.revolve.2 t :=
    { f := h1
      online := by rw [h2]; exact h.online
      snaps := by rw [h3]; exact h.snaps
      rcapo := by rw [h4, g2]
      check := g3
      capo := g2
      ch := by rw [g4]; exact h.ch
      cur := by rw [h6]; rfl
      slots := by rw [h6]; exact h.slots
      turns := by rw [h6]; exact h.turns
      restoresOk := by rw [h6]; exact h.restoresOk
      noterm := by
        rw [h6]
        exact not_mem_append_one h.noterm (fun h => Action.noConfusion h)
      noerr := by
        rw [h6]
        exact not_mem_append_one h.noerr (fun h => Action.noConfusion h) }
  obtain ⟨t2, ht2, k1, k2, k3, k4, k5, k6⟩ := drive_step_r2_view w t x.revolve.2 h1
    (by rw [g5]; exact fun h => Action.noConfusion h)
  rw [g5, g6.check, g6.capo] at k6
  refine ⟨t, _, t2, _, ht, A1, ht2, ?_, g6⟩
  exact
    { f := k1
      online := by rw [k2]; exact A1.online
      snaps := by rw [k3]; exact A1.snaps
      rcapo := by rw [k4, g6.capo]
      check := g6.check
      capo := g6.capo
      ch := g6.slots
      cur := by rw [k6]; exact A1.cur
      slots := by
        intro j hj0 hj
        rw [k6, see_takeshot_slots]
        by_cases hji : j = i + 1
        · subst hji
          rw [Function.update_same, A1.cur]
        · rw [Function.update_noteq hji]
          exact A1.slots j hj0 (by omega)
      turns := by rw [k6]; exact A1.turns
      restoresOk := by rw [k6]; exact A1.restoresOk
      noterm := by
        rw [k6]
        exact not_mem_append_one A1.noterm (fun h => Action.noConfusion h)
      noerr := by
        rw [k6]
        exact not_mem_append_one A1.noerr (fun h => Action.noConfusion h) }

/-- The slot chosen by the search loop is the first one that holds its step: every slot
before it that holds a step below `capo` holds a smaller step. -/
theorem restoreLoop_first (ch : Int → Int) (capo : Int) (h0 : ch 0 < capo) (n : Nat) :
    ∀ j : Nat, (j : Int) < restoreInd ch capo n → ch j < capo →
      ch j < ch (restoreInd ch capo n) := by
  induction n with
  | zero =>
    intro j hj
    have : restoreInd ch capo ((0 : Nat) : Int) = 0 := by simp [restoreInd]
    rw [this] at hj
    omega
  | succ n ih =>
    obtain ⟨i1, i2, i3, i4⟩ := restoreLoop_spec ch capo h0 n
    have e : restoreInd ch capo ((n + 1 : Nat) : Int) =
        (if ch n > ch (restoreInd ch capo n) ∧ ch n < capo then (n : Int)
          else restoreInd ch capo n) := by
      unfold restoreInd
      simp only [Int.toNat_ofNat, List.range_succ, List.bind_eq_flatMap, List.pure_def,
        List.flatMap_append, List.flatMap_cons, List.flatMap_nil, List.append_nil,
        List.foldl_append, List.foldl_cons, List.foldl_nil, List.singleton_append]
    rw [e]
    generalize restoreInd ch capo n = r at *
    by_cases hc : ch n > ch r ∧ ch n < capo
    · rw [if_pos hc]
      intro j hj hjc
      have := i4 j (by omega) hjc
      omega
    · rw [if_neg hc]
      exact ih

/-- When the slots `0 .. m-1` hold the steps `0 .. m-1`, the search for the greatest step
below `m` ends in slot `m - 1`. -/
theorem restoreInd_ladder (ch : Int → Int) (m snaps : Int) (hm : 1 ≤ m) (hms : m ≤ snaps)
    (hch : ∀ j, 0 ≤ j → j < m → ch j = j) : restoreInd ch m snaps = m - 1 := by
  have h0 : ch 0 < m := by rw [hch 0 (le_refl 0) (by omega)]; omega
  obtain ⟨i1, i2, i3, i4⟩ := restoreInd_spec ch m snaps (by omega) h0
  have hfirst := restoreLoop_first ch m h0 snaps.toNat
  rw [Int.toNat_of_nonneg (by omega)] at hfirst
  have hmax := i4 (m - 1) (by omega) (by omega) (by rw [hch (m - 1) (by omega) (by omega)]; omega)
  rw [hch (m - 1) (by omega) (by omega)] at hmax
  by_contra hne
  rcases lt_or_gt_of_ne hne with hlt | hgt
  · have := hch (restoreInd ch m snaps) i1 (by omega)
    omega
  · have := hfirst (m - 1).toNat (by rw [Int.toNat_of_nonneg (by omega)]; exact hgt)
      (by rw [Int.toNat_of_nonneg (by omega), hch (m - 1) (by omega) (by omega)]; omega)
    rw [Int.toNat_of_nonneg (by omega), hch (m - 1) (by omega) (by omega)] at this
    omega

/-- A restore in online-origin mode when the slots `0 .. m-1` hold the steps `0 .. m-1`:
it goes back to slot `m - 1`. -/
theorem revolve_restore_ladder (o : Offline) (m : Int) (hon : o.online = true)
    (hca : o.capo = m) (hf : o.fine = m) (hck0 : 0 ≤ o.check) (hm : 1 ≤ m)
    (hms : m ≤ o.snaps) (hch : ∀ j, 0 ≤ j → j < m → o.checkpoint.ch j = j) :
    ∃ o', o.revolve = some (Action.restore, o') ∧ o'.check = m - 1 ∧ o'.capo = m - 1 ∧
      o'.fine = m ∧ o'.online = true ∧ o'.snaps = o.snaps ∧ o'.turn = o.turn ∧
      o'.checkpoint.ch = o.checkpoint.ch := by
  have hn : ¬ (o.check < -1 ∨ o.capo > o.fine) := by rw [hca, hf]; omega
  have hck : o.check ≠ -1 := by omega
  have e0 : isub o.fine o.capo = 0 := by
    rw [hca, hf, isub_eq (by omega) (by omega)]; omega
  have hch0 : o.checkpoint.ch 0 = 0 := hch 0 (le_refl 0) (by omega)
  have hE : o.entered = o.counted := by
    unfold Offline.entered Offline.counted
    simp only []
    rw [if_neg (fun h => hck h.1)]
  rw [revolve_entered o hn, entered_fine, entered_capo, e0, if_pos rfl, hE]
  unfold Offline.case0
  have n3 : ¬ (o.counted.check = -1 ∨ o.counted.capo = o.counted.checkpoint.ch 0) := by
    show ¬ (o.check = -1 ∨ o.capo = o.checkpoint.ch 0)
    rw [hca, hch0]
    omega
  rw [if_neg n3]
  have hon' : o.counted.online = true := hon
  have hind : restoreInd o.counted.checkpoint.ch o.counted.capo o.counted.snaps = m - 1 := by
    show restoreInd o.checkpoint.ch o.capo o.snaps = m - 1
    rw [hca]
    exact restoreInd_ladder _ m _ hm hms hch
  simp only [hon', if_true, hind]
  refine ⟨_, rfl, rfl, ?_, hf, rfl, rfl, rfl, rfl⟩
  show o.checkpoint.ch (m - 1) = m - 1
  exact hch (m - 1) (by omega) (by omega)

theorem see_turnAction (h : Host) (t check capo fine : Int) :
    h.see (turnAction t) check capo fine
      = { h with turns := h.turns ++ [(turnAction t, fine, h.cur)],
                 acts := h.acts ++ [turnAction t] } := by
  unfold turnAction
  split <;> rfl

/-- The façade and its host during the reverse sweep started in the `r = 1` phase: the
offline scheduler `o` stands at step `m` with `fine = m + 1`, `l` steps are reversed, the
slots `0 .. m-1` hold the steps `0 .. m-1`, and the host is at step `m`. -/
structure Sweeping (C : Int) (m l : Nat) (o : Offline) (s : Drive) : Prop where
  f : s.r.f = Schedule.offline o
  off : s.r.online = false
  online : o.online = true
  snaps : o.snaps = C
  capo : o.capo = m
  fine : o.fine = m + 1
  check : (o.check = m ∧ o.checkpoint.ch m = m) ∨ (o.check = (m : Int) - 1 ∧ 1 ≤ m)
  ch : ∀ j, 0 ≤ j → j < (m : Int) → o.checkpoint.ch j = j
  ch0 : o.checkpoint.ch 0 = 0
  cur : s.h.cur = m
  slots : ∀ j, 0 ≤ j → j < (m : Int) → s.h.slots j = some j
  turn : o.turn = if l = 0 then 0 else 1
  turns : s.h.turns = turnEvents 0 ((m : Int) + 1) l
  restoresOk : s.h.restoresOk = true
  noterm : Action.terminate ∉ s.h.acts
  noerr : Action.error ∉ s.h.acts

/-- The parts of the system that a call changes after `turn()`. -/
theorem drive_step_offline_view (w : World) (s : Drive) (o o' : Offline) (a : Action)
    (hf : s.r.f = Schedule.offline o) (hon : s.r.online = false)
    (h : o.revolve = some (a, o')) :
    ∃ t, s.step w = some t ∧ t.r.f = Schedule.offline o' ∧ t.r.online = false ∧
      t.h = s.h.see a o'.check o'.capo o'.fine :=
  ⟨_, drive_step_offline w s o o' a hf hon h, rfl, hon, rfl⟩

/-- The combined forward/reverse step at step `m` of the sweep. -/
theorem sweep_turn (w : World) (C : Int) (m l : Nat) (o : Offline) (s : Drive)
    (h : Sweeping C m l o s) (hmC : (m : Int) < C) (hC : C ≤ 64) :
    ∃ t o', s.step w = some t ∧ t.r.f = Schedule.offline o' ∧ t.r.online = false ∧
      o'.online = true ∧ o'.snaps = C ∧ o'.capo = m ∧ o'.fine = m ∧ o'.check = (m : Int) - 1 ∧
      o'.checkpoint.ch = o.checkpoint.ch ∧ o'.turn = 1 ∧ t.h.cur = m ∧
      t.h.slots = s.h.slots ∧ t.h.turns = turnEvents 0 (m : Int) (l + 1) ∧
      t.h.restoresOk = true ∧ Action.terminate ∉ t.h.acts ∧ Action.error ∉ t.h.acts := by
  have hk : ∃ k, o.check = k ∧ 0 ≤ k ∧ k ≤ 64 ∧
      (if o.checkpoint.ch k = (m : Int) then k - 1 else k) = (m : Int) - 1 := by
    rcases h.check with ⟨h1, h2⟩ | ⟨h1, h2⟩
    · exact ⟨m, h1, by omega, by omega, by rw [if_pos h2]⟩
    · refine ⟨(m : Int) - 1, h1, by omega, by omega, ?_⟩
      rw [if_neg]
      rw [h.ch ((m : Int) - 1) (by omega) (by omega)]
      omega
  obtain ⟨k, hk1, hk2, hk3, hk4⟩ := hk
  have hrev := revolve_turn o k m hk1 h.capo h.fine (by omega) (by omega) hk2 hk3
  rw [hk4] at hrev
  obtain ⟨t, ht, g1, g2, g3⟩ := drive_step_offline_view w s o _ _ h.f h.off hrev
  rw [see_turnAction] at g3
  refine ⟨t, _, ht, g1, g2, h.online, h.snaps, h.capo, rfl, rfl, rfl, ?_, ?_, ?_, ?_, ?_, ?_, ?_⟩
  · show turned o.turn = 1
    rw [h.turn]
    unfold turned
    split <;> simp
  · rw [g3]; exact h.cur
  · rw [g3]
  · rw [g3]
    show s.h.turns ++ [(turnAction o.turn, (m : Int), s.h.cur)] = _
    rw [h.turns, h.cur, h.turn]
    cases l with
    | zero => simp [turnEvents]
    | succ l =>
      have e := turnEvents_append 0 (m : Int) 1 l
      have e1 : turnEvents 1 (m : Int) 1 = [(turnAction 1, (m : Int), (m : Int))] := by
        simp [turnEvents]
      rw [e1] at e
      simp only [Nat.succ_ne_zero, if_false, Nat.cast_one] at e ⊢
      exact e
  · rw [g3]; exact h.restoresOk
  · rw [g3]
    exact not_mem_append_one h.noterm (turnAction_ne_terminate _).symm
  · rw [g3]
    exact not_mem_append_one h.noerr (turnAction_ne_error _).symm

/-- Two calls of the sweep at step `m + 1`: the step is reversed and slot `m` restored. -/
theorem sweep_down (w : World) (C : Int) (m l : Nat) (o : Offline) (s : Drive)
    (h : Sweeping C (m + 1) l o s) (hmC : ((m + 1 : Nat) : Int) < C) (hC : C ≤ 64) :
    ∃ t o', Drive.run w 2 s = some t ∧ Sweeping C m (l + 1) o' t := by
  obtain ⟨t1, o1, ht1, a1, a2, a3, a4, a5, a6, a7, a8, a9, a10, a11, a12, a13, a14, a15⟩ :=
    sweep_turn w C (m + 1) l o s h hmC hC
  have hm1 : (((m + 1 : Nat) : Int)) = (m : Int) + 1 := by push_cast; ring
  rw [hm1] at a5 a6 a7 a10 a12
  obtain ⟨o2, hrev, b1, b2, b3, b4, b5, b6, b7⟩ := revolve_restore_ladder o1 ((m : Int) + 1)
    a3 a5 a6 (by rw [a7]; omega) (by omega) (by rw [a4]; omega)
    (by
      intro j hj0 hj
      rw [a8]
      exact h.ch j hj0 (by rw [hm1]; exact hj))
  obtain ⟨t2, ht2, g1, g2, g3⟩ := drive_step_offline_view w t1 o1 o2 _ a1 a2 hrev
  have e1 : (m : Int) + 1 - 1 = m := by ring
  rw [e1] at b1 b2
  rw [b1, b2, b3] at g3
  refine ⟨t2, o2, ?_, ?_⟩
  · rw [drive_run_succ w 1 s t1 (by rw [drive_run_succ w 0 s s rfl]; exact ht1)]
    exact ht2
  · have hslot : t1.h.slots (m : Int) = some (m : Int) := by
      rw [a11]
      exact h.slots m (by omega) (by rw [hm1]; omega)
    exact
      { f := g1
        off := g2
        online := b4
        snaps := by rw [b5]; exact a4
        capo := b2
        fine := b3
        check := Or.inl ⟨b1, by rw [b7, a8]; exact h.ch m (by omega) (by rw [hm1]; omega)⟩
        ch := by
          intro j hj0 hj
          rw [b7, a8]
          exact h.ch j hj0 (by rw [hm1]; omega)
        ch0 := by rw [b7, a8]; exact h.ch0
        cur := by rw [g3]; rfl
        slots := by
          intro j hj0 hj
          rw [g3]
          show t1.h.slots j = some j
          rw [a11]
          exact h.slots j hj0 (by rw [hm1]; omega)
        turn := by rw [b6, a9]; simp
        turns := by rw [g3]; exact a12
        restoresOk := by
          rw [g3]
          show (t1.h.restoresOk && decide (t1.h.slots (m : Int) = some (m : Int))) = true
          rw [a13, hslot]
          simp
        noterm := by
          rw [g3]
          exact not_mem_append_one a14 (fun h => Action.noConfusion h)
        noerr := by
          rw [g3]
          exact not_mem_append_one a15 (fun h => Action.noConfusion h) }

/-- The last two calls of the sweep: step 0 is reversed and `terminate` returned. -/
theorem sweep_end (w : World) (C : Int) (l : Nat) (o : Offline) (s : Drive)
    (h : Sweeping C 0 l o s) (hC1 : 0 < C) (hC : C ≤ 64) :
    ∃ t1 t, s.step w = some t1 ∧ Action.terminate ∉ t1.h.acts ∧ t1.step w = some t ∧
      t.h.acts.getLast? = some Action.terminate ∧ Action.error ∉ t.h.acts ∧
      t.h.turns = turnEvents 0 0 (l + 1) ∧ t.h.restoresOk = true := by
  obtain ⟨t1, o1, ht1, a1, a2, a3, a4, a5, a6, a7, a8, a9, a10, a11, a12, a13, a14, a15⟩ :=
    sweep_turn w C 0 l o s h (by exact_mod_cast hC1) hC
  have hrev := revolve_terminate o1 (by rw [a7]; simp) (by rw [a6, a5])
  obtain ⟨t2, ht2, g1, g2, g3⟩ := drive_step_offline_view w t1 o1 _ _ a1 a2 hrev
  refine ⟨t1, t2, ht1, a14, ht2, ?_, ?_, ?_, ?_⟩
  · rw [g3, see_acts]
    simp
  · rw [g3, see_acts]
    exact not_mem_append_one a15 (fun h => Action.noConfusion h)
  · rw [g3]
    exact a12
  · rw [g3]
    exact a13

/-- The whole sweep from step `m`: after `2 m + 2` calls `terminate` is returned, for the
first time, and the steps `m, ..., 0` are reversed in this order. -/
theorem sweep_run (w : World) (C : Int) (hC : C ≤ 64) :
    ∀ (m l : Nat) (o : Offline) (s : Drive), Sweeping C m l o s → (m : Int) < C →
      ∃ t, Drive.run w (2 * m + 2) s = some t ∧
        t.h.acts.getLast? = some Action.terminate ∧ Action.error ∉ t.h.acts ∧
        t.h.turns = turnEvents 0 0 (l + m + 1) ∧ t.h.restoresOk = true ∧
        ∀ i u, i ≤ 2 * m + 1 → Drive.run w i s = some u → Action.terminate ∉ u.h.acts := by
  intro m
  induction m with
  | zero =>
    intro l o s h hm
    obtain ⟨t1, t, h1, h2, h3, h4, h5, h6, h7⟩ := sweep_end w C l o s h (by exact_mod_cast hm) hC
    have r1 : Drive.run w 1 s = some t1 := by rw [drive_run_succ w 0 s s rfl]; exact h1
    refine ⟨t, by rw [drive_run_succ w 1 s t1 r1]; exact h3, h4, h5, h6, h7, ?_⟩
    intro i u hi hu
    have hi' : i = 0 ∨ i = 1 := by omega
    rcases hi' with rfl | rfl
    · simp only [Drive.run] at hu
      cases hu
      exact h.noterm
    · rw [r1] at hu
      cases hu
      exact h2
  | succ m ih =>
    intro l o s h hm
    obtain ⟨t2, o2, hr2, hS⟩ := sweep_down w C m l o s h hm hC
    obtain ⟨t, hrun, g1, g2, g3, g4, g5⟩ := ih (l + 1) o2 t2 hS (by push_cast at hm ⊢; omega)
    have e : 2 * (m + 1) + 2 = 2 + (2 * m + 2) := by ring
    refine ⟨t, by rw [e, drive_run_add w 2 _ s t2 hr2]; exact hrun, g1, g2, ?_, g4, ?_⟩
    · rw [g3]
      congr 1
      omega
    · intro i u hi hu
      by_cases hi2 : 2 ≤ i
      · obtain ⟨j, rfl⟩ : ∃ j, i = 2 + j := ⟨i - 2, by omega⟩
        rw [drive_run_add w 2 j s t2 hr2] at hu
        exact g5 j u (by omega) hu
      · have hi' : i = 0 ∨ i = 1 := by omega
        rcases hi' with rfl | rfl
        · simp only [Drive.run] at hu
          cases hu
          exact h.noterm
        · obtain ⟨t1, o1, ht1, a⟩ := sweep_turn w C (m + 1) l o s h hm hC
          rw [drive_run_succ w 0 s s rfl, ht1] at hu
          cases hu
          exact a.2.2.2.2.2.2.2.2.2.2.2.2.2.1

/-- The states of the `r = 1` phase: after `2 i + 1` calls step `i` is stored in slot `i`,
and after `2 i + 2` calls the host is at step `i + 1`. -/
theorem drive_forward (w : World) (C : Int) (hC : C ≤ 2147483647) (c : Checkpoint)
    (raw2 : Online_r2) (m : Facade) :
    ∀ i : Nat, (i : Int) < C →
      (∃ s x, Drive.run w (2 * i + 1) (Drive.start w C c raw2 m) = some s ∧
        OnlineAt C i i x s ∧ Placed C i x) ∧
      ((i : Int) + 1 < C →
        ∃ s x, Drive.run w (2 * i + 2) (Drive.start w C c raw2 m) = some s ∧
          OnlineAt C i ((i : Int) + 1) x s) := by
  have key : ∀ i : Nat, (i : Int) < C →
      ∃ s x, Drive.run w (2 * i + 1) (Drive.start w C c raw2 m) = some s ∧
        OnlineAt C i i x s ∧ Placed C i x := by
    intro i
    induction i with
    | zero =>
      intro _
      exact drive_first w C c raw2 m
    | succ i ih =>
      intro hi
      obtain ⟨s, x, hrun, hA, hP⟩ := ih (by push_cast at hi; omega)
      obtain ⟨s1, x1, s2, x2, h1, -, h2, hA2, hP2⟩ := drive_next_pair w C i s x hA hP
        (by omega) (by push_cast at hi; omega) hC
      have e : 2 * (i + 1) + 1 = (2 * i + 1) + 1 + 1 := by ring
      have hc : ((i + 1 : Nat) : Int) = (i : Int) + 1 := by push_cast; ring
      refine ⟨s2, x2, ?_, by rw [hc]; exact hA2, by rw [hc]; exact hP2⟩
      rw [e, drive_run_succ w _ _ s1 (by rw [drive_run_succ w _ _ s hrun]; exact h1)]
      exact h2
  intro i hi
  refine ⟨key i hi, ?_⟩
  intro hi1
  obtain ⟨s, x, hrun, hA, hP⟩ := key i hi
  obtain ⟨s1, x1, s2, x2, h1, hA1, -⟩ := drive_next_pair w C i s x hA hP (by omega) hi1 hC
  exact ⟨s1, x1, by rw [drive_run_succ w _ _ s hrun]; exact h1, hA1⟩

/-- The call `turn(capo + 1)` in the `r = 1` phase: the reverse sweep starts at step `a`. -/
theorem drive_turn (w : World) (C : Int) (i a : Nat) (x : Online_r2) (s : Drive)
    (h : OnlineAt C i a x s) (hia : a = i ∨ a = i + 1) (ha : (a : Int) < 2147483647) :
    ∃ o, Sweeping C a 0 o (s.turn w) := by
  have e1 : iadd s.r.capo 1 = (a : Int) + 1 := by
    rw [h.rcapo]; exact iadd_eq (by omega) (by omega)
  have e2 : isub ((a : Int) + 1) 1 = a := by
    rw [isub_eq (by omega) (by omega)]; ring
  have hturn : (s.turn w).r =
      { s.r with
        fine := (a : Int) + 1
        capo := a
        f := Schedule.offline
          { Offline.fromOnline s.r.snaps x.checkpoint x.check x.capo w.copyInfo ((a : Int) + 1)
              w.rawOffline.steps w.rawOffline.fine w.rawOffline.oldfine w.rawOffline.num_ch with
            fine := (a : Int) + 1, capo := a }
        online := false } := by
    unfold Drive.turn Facade.turn
    simp only [h.online, if_true, e1, e2, h.f, Schedule.checkpoint, Schedule.get_check,
      Schedule.get_capo]
  have hch : ∀ j, 0 ≤ j → j ≤ (i : Int) → Function.update x.checkpoint.ch 0 0 j = j := by
    intro j hj0 hj
    by_cases hj : j = 0
    · subst hj; rw [Function.update_same]
    · rw [Function.update_noteq hj]; exact h.ch j hj0 (by omega)
  refine ⟨{ Offline.fromOnline s.r.snaps x.checkpoint x.check x.capo w.copyInfo ((a : Int) + 1)
              w.rawOffline.steps w.rawOffline.fine w.rawOffline.oldfine w.rawOffline.num_ch with
            fine := (a : Int) + 1, capo := a }, ?_⟩
  exact
    { f := by rw [hturn]
      off := by rw [hturn]
      online := rfl
      snaps := h.snaps
      capo := rfl
      fine := rfl
      check := by
        rcases hia with h1 | h1
        · left
          refine ⟨by show x.check = (a : Int); rw [h.check, h1], ?_⟩
          show Function.update x.checkpoint.ch 0 0 (a : Int) = a
          exact hch a (by omega) (by rw [h1])
        · right
          refine ⟨by show x.check = (a : Int) - 1; rw [h.check, h1]; push_cast; ring, by omega⟩
      ch := by
        intro j hj0 hj
        show Function.update x.checkpoint.ch 0 0 j = j
        exact hch j hj0 (by omega)
      ch0 := by
        show Function.update x.checkpoint.ch 0 0 0 = 0
        rw [Function.update_same]
      cur := h.cur
      slots := by
        intro j hj0 hj
        exact h.slots j hj0 (by omega)
      turn := rfl
      turns := h.turns
      restoresOk := h.restoresOk
      noterm := h.noterm
      noerr := h.noerr }

/-- The scenario after `k` online calls is the sweep from the state the run reached. -/
theorem drive_sweep_of_run (w : World) (k n : Nat) (s t : Drive)
    (h : Drive.run w k s = some t) : Drive.sweep w k n s = Drive.run w n (t.turn w) := by
  unfold Drive.sweep
  rw [h]

/-- The reverse sweep from the first phase of the online façade (`2 ≤ C ≤ 64` slots and
`1 ≤ k ≤ 2 C - 1` calls, so that the façade shows `capo = k / 2`): calling
`turn(capo + 1)` and then `step()` reaches `terminate` after exactly `2 (k / 2) + 2` further calls and not before, no call
returns `error`, the host sees `firsturn` for step `capo` and then `youturn` for the steps
`capo - 1, ..., 0` in this order, each from a state that is exactly that step, and every
`restore` loads a slot that holds the step `capo` is set to. -/
theorem facade_reverse_first_phase (w : World) (C : Int) (hC2 : 2 ≤ C) (hC : C ≤ 64)
    (c : Checkpoint) (raw2 : Online_r2) (m : Facade) (k : Nat) (hk1 : 1 ≤ k)
    (hk : (k : Int) ≤ 2 * C - 1) :
    (∃ u, Drive.run w k (Drive.start w C c raw2 m) = some u ∧ u.r.capo = ((k / 2 : Nat) : Int)) ∧
    ∃ t, Drive.sweep w k (2 * (k / 2) + 2) (Drive.start w C c raw2 m) = some t ∧
      t.h.acts.getLast? = some Action.terminate ∧ Action.error ∉ t.h.acts ∧
      t.h.turns = turnEvents 0 0 (k / 2 + 1) ∧ t.h.restoresOk = true ∧
      ∀ i u, i ≤ 2 * (k / 2) + 1 → Drive.sweep w k i (Drive.start w C c raw2 m) = some u →
        Action.terminate ∉ u.h.acts := by
  have main : ∃ (i : Nat) (x : Online_r2) (u : Drive),
      Drive.run w k (Drive.start w C c raw2 m) = some u ∧
      OnlineAt C i ((k / 2 : Nat) : Int) x u ∧ (k / 2 = i ∨ k / 2 = i + 1) := by
    rcases Nat.even_or_odd k with ⟨i, hi⟩ | ⟨i, hi⟩
    · have hi1 : 1 ≤ i := by omega
      obtain ⟨j, hj⟩ : ∃ j, i = j + 1 := ⟨i - 1, by omega⟩
      have hjC : (j : Int) + 1 < C := by omega
      obtain ⟨u, x, hrun, hA⟩ := (drive_forward w C (by omega) c raw2 m j (by omega)).2 hjC
      have ek : k = 2 * j + 2 := by omega
      have e2 : k / 2 = j + 1 := by omega
      refine ⟨j, x, u, by rw [ek]; exact hrun, ?_, Or.inr e2⟩
      rw [e2]
      push_cast
      exact hA
    · have hiC : (i : Int) < C := by omega
      obtain ⟨u, x, hrun, hA, -⟩ := (drive_forward w C (by omega) c raw2 m i hiC).1
      have e2 : k / 2 = i := by omega
      refine ⟨i, x, u, by rw [hi]; exact hrun, ?_, Or.inl e2⟩
      rw [e2]
      exact hA
  obtain ⟨i, x, u, hrun, hA, hia⟩ := main
  have haC : ((k / 2 : Nat) : Int) < C := by omega
  refine ⟨⟨u, hrun, hA.rcapo⟩, ?_⟩
  obtain ⟨o, hS⟩ := drive_turn w C i (k / 2) x u hA hia (by omega)
  obtain ⟨t, h1, h2, h3, h4, h5, h6⟩ := sweep_run w C hC (k / 2) 0 o (u.turn w) hS haC
  refine ⟨t, by rw [drive_sweep_of_run w k _ _ u hrun]; exact h1, h2, h3, ?_, h5, ?_⟩
  · rw [h4, Nat.zero_add]
  · intro n v hn hv
    rw [drive_sweep_of_run w k _ _ u hrun] at hv
    exact h6 n v hn hv

/-- An instance of `facade_reverse_first_phase`: with three slots and four online calls
the façade shows `capo = 2`; after `turn(3)` the sixth call returns `terminate`. -/
theorem facade_reverse_first_phase_witness :
    (2 : Int) ≤ 3 ∧ (3 : Int) ≤ 64 ∧ 1 ≤ 4 ∧ ((4 : Nat) : Int) ≤ 2 * 3 - 1 ∧
    (∃ u, Drive.run World.zero 4 (Drive.start World.zero 3 Checkpoint.zero Online_r2.zero
        Facade.zero) = some u ∧ u.r.capo = ((4 / 2 : Nat) : Int)) ∧
    ∃ t, Drive.sweep World.zero 4 (2 * (4 / 2) + 2) (Drive.start World.zero 3 Checkpoint.zero
        Online_r2.zero Facade.zero) = some t ∧
      t.h.acts.getLast? = some Action.terminate ∧ Action.error ∉ t.h.acts ∧
      t.h.turns = turnEvents 0 0 (4 / 2 + 1) ∧ t.h.restoresOk = true ∧
      ∀ i u, i ≤ 2 * (4 / 2) + 1 → Drive.sweep World.zero 4 i (Drive.start World.zero 3
        Checkpoint.zero Online_r2.zero Facade.zero) = some u → Action.terminate ∉ u.h.acts :=
  ⟨by decide, by decide, by decide, by decide,
    facade_reverse_first_phase World.zero 3 (by decide) (by decide) Checkpoint.zero
      Online_r2.zero Facade.zero 4 (by decide) (by decide)⟩

set_option maxRecDepth 10000000 in
/-- A reverse sweep that ends in an error: with `C = 2` slots and `k = 132` online calls
the façade shows `capo = 2211`; after `turn(2212)` the third call returns `error` with
`info = 15` (more than 64 repetitions would be needed), after one `firsturn` and one
`restore`. -/
theorem facade_reverse_error :
    (∃ u, Drive.run World.zero 132 (Drive.init 2) = some u ∧ u.r.capo = 2211 ∧
      u.r.online = true ∧ Action.error ∉ u.h.acts) ∧
    ∃ s, Drive.sweep World.zero 132 3 (Drive.init 2) = some s ∧
      s.h.acts.getLast? = some Action.error ∧ s.r.info = 15 ∧ s.r.capo = 2145 ∧
      s.r.fine = 2211 ∧ s.h.acts.count Action.firsturn = 1 ∧
      s.h.acts.count Action.restore = 1 ∧ Action.terminate ∉ s.h.acts := by
  decide!

/-- The loop that shifts `ord_ch` copies each `ch` entry onto itself. -/
theorem shiftLoop_snd (snaps lo : Int) (ord ch : Int → Int) :
    (shiftLoop snaps lo (ord, ch)).2 = ch := by
  unfold shiftLoop
  generalize (List.range (isub snaps 1 - lo).toNat) = l
  have key : ∀ (l : List Nat) (p : (Int → Int) × (Int → Int)),
      (l.foldl (fun (q : (Int → Int) × (Int → Int)) (j : Nat) =>
        let k : Int := isub snaps 1 - (j : Int)
        let ord := Function.update q.1 k (q.1 (k - 1))
        (ord, Function.update q.2 (ord k) (q.2 (ord (k - 1))))) p).2 = p.2 := by
    intro l
    induction l with
    | nil => intro p; rfl
    | cons j l ih =>
      intro p
      rw [List.foldl_cons, ih]
      simp only []
      rw [Function.update_same, Function.update_noteq (by omega), Function.update_eq_self]
  exact key l (ord, ch)

/-- The loop that shifts `ord_ch` from position `lo ≥ 0` on keeps the entries for the
slots `0 .. m` non-negative, when `m = snaps - 1`. -/
theorem shiftLoop_fst_nonneg (snaps lo m : Int) (hm : isub snaps 1 = m) (hlo : 0 ≤ lo)
    (ord ch : Int → Int) (h : ∀ k, 0 ≤ k → k ≤ m → 0 ≤ ord k) :
    ∀ k, 0 ≤ k → k ≤ m → 0 ≤ (shiftLoop snaps lo (ord, ch)).1 k := by
  unfold shiftLoop
  rw [hm]
  have key : ∀ (n : Nat), (n : Int) ≤ (m - lo).toNat → ∀ k, 0 ≤ k → k ≤ m →
      0 ≤ ((List.range n).foldl (fun (q : (Int → Int) × (Int → Int)) (j : Nat) =>
        let k : Int := m - (j : Int)
        let ord := Function.update q.1 k (q.1 (k - 1))
        (ord, Function.update q.2 (ord k) (q.2 (ord (k - 1))))) (ord, ch)).1 k := by
    intro n
    induction n with
    | zero => intro _ k hk0 hk; exact h k hk0 hk
    | succ n ih =>
      intro hn k hk0 hk
      rw [List.range_succ, List.foldl_append, List.foldl_cons, List.foldl_nil]
      simp only []
      have hn1 : (n : Int) ≤ (m - lo).toNat := by push_cast at hn; omega
      by_cases hkn : k = m - (n : Int)
      · subst hkn
        rw [Function.update_same]
        have : (n : Int) + 1 ≤ m - lo := by
          have := Int.toNat_of_nonneg (show 0 ≤ m - lo by
            by_contra hc
            rw [Int.toNat_of_nonpos (by omega)] at hn
            push_cast at hn
            omega)
          push_cast at hn
          omega
        exact ih hn1 _ (by omega) (by omega)
      · rw [Function.update_noteq hkn]
        exact ih hn1 k hk0 hk
  exact key _ (le_refl _)

/-- The loop `ord_ch[i] = i` leaves the entry `k` at each position `0 ≤ k < snaps`. -/
theorem fillIndex_get (a : Int → Int) (snaps k : Int) (hk0 : 0 ≤ k) (hk : k < snaps) :
    fillIndex a snaps k = k := by
  unfold fillIndex
  have key : ∀ (n : Nat), k < (n : Int) →
      (List.range n).foldl
        (fun (g : Int → Int) (i : Nat) => Function.update g (i : Int) (i : Int)) a k = k := by
    intro n
    induction n with
    | zero => intro hn; exact absurd hn (by push_cast; omega)
    | succ n ih =>
      intro hn
      rw [List.range_succ, List.foldl_append, List.foldl_cons, List.foldl_nil]
      by_cases hkn : k = (n : Int)
      · subst hkn; rw [Function.update_same]
      · rw [Function.update_noteq hkn]
        exact ih (by push_cast at hn; omega)
  exact key _ (by rw [Int.toNat_of_nonneg (by omega)]; exact hk)

/-- The entries of `ord_ch` for the slots `0 .. C-1` are not negative. -/
def OrdOk (C : Int) (x : Online_r2) : Prop :=
  ∀ k, 0 ≤ k → k ≤ C - 1 → 0 ≤ x.checkpoint.ord_ch k

/-- The takeshot of the `r = 1` phase with at least four slots. -/
theorem first_large (s : Online_r2) (h4 : ¬ s.snaps < 4) :
    s.first.2.t = 0 ∧ s.first.2.iter = 1 ∧ s.first.2.offset = isub s.snaps 1 ∧
      s.first.2.checkpoint.ord_ch = fillIndex s.checkpoint.ord_ch s.snaps := by
  unfold Online_r2.first
  simp only [h4, if_false]
  split <;> exact ⟨rfl, rfl, rfl, rfl⟩

/-- The advance from `capo = snaps - 1`, the end of the `r = 1` phase. -/
theorem adv2_jump (s : Online_r2) (h1 : s.snaps ≠ 1) (h2 : s.snaps ≠ 2) (h3 : s.snaps ≠ 3)
    (hc : s.capo = isub s.snaps 1) :
    s.adv2 = (Action.advance,
      { s with
        capo := iadd s.capo 2
        ind := isub s.snaps 1
        checkpoint := { s.checkpoint with advances := iadd s.checkpoint.advances 2 } }) := by
  unfold Online_r2.adv2
  rw [if_neg h1, if_neg h2, if_neg h3, if_pos hc]

/-- The advance inside the `r = 2` phase. -/
theorem adv2_cycle (s : Online_r2) (h1 : s.snaps ≠ 1) (h2 : s.snaps ≠ 2) (h3 : s.snaps ≠ 3)
    (hc : s.capo ≠ isub s.snaps 1) (ht : s.t = 0) :
    s.adv2.1 = Action.advance ∧ s.adv2.2.snaps = s.snaps ∧
      s.adv2.2.capo = (if s.iter < s.offset then iadd s.capo 1 else iadd s.capo 2) ∧
      s.adv2.2.t = (if s.offset = 1 then 1 else 0) ∧ s.adv2.2.check = s.check ∧
      s.adv2.2.checkpoint.ch = s.checkpoint.ch ∧
      s.adv2.2.checkpoint.ord_ch = s.checkpoint.ord_ch ∧ s.adv2.2.iter = s.iter ∧
      s.adv2.2.offset = s.offset ∧ s.adv2.2.incr = s.incr ∧ s.adv2.2.ind = s.ind := by
  unfold Online_r2.adv2
  rw [if_neg h1, if_neg h2, if_neg h3, if_neg hc, if_pos ht]
  simp only []
  by_cases hio : s.iter < s.offset
  · simp only [hio, if_true]
    by_cases ho : s.offset = 1
    · simp only [ho, if_true, ht]
      exact ⟨trivial, trivial, trivial, by decide, trivial, trivial, trivial, trivial, trivial,
        trivial, trivial⟩
    · simp only [ho, if_false, ht]
      exact ⟨trivial, trivial, trivial, trivial, trivial, trivial, trivial, trivial, trivial,
        trivial, trivial⟩
  · simp only [hio, if_false]
    by_cases ho : s.offset = 1
    · simp only [ho, if_true, ht]
      exact ⟨trivial, trivial, trivial, by decide, trivial, trivial, trivial, trivial, trivial,
        trivial, trivial⟩
    · simp only [ho, if_false, ht]
      exact ⟨trivial, trivial, trivial, trivial, trivial, trivial, trivial, trivial, trivial,
        trivial, trivial⟩

/-- The takeshot at `capo = snaps + 1`, the first of the `r = 2` phase. -/
theorem shot2_entry (s : Online_r2) (h2 : s.snaps ≠ 2) (h3 : s.snaps ≠ 3)
    (hc : s.capo < iadd s.snaps 2) (hc1 : s.capo = iadd s.snaps 1) :
    s.shot2.1 = Action.takeshot ∧ s.shot2.2.snaps = s.snaps ∧ s.shot2.2.capo = s.capo ∧
      s.shot2.2.check = s.ind ∧
      s.shot2.2.checkpoint.ch = Function.update s.checkpoint.ch s.ind s.capo ∧
      s.shot2.2.checkpoint.ord_ch =
        Function.update
          (shiftLoop s.snaps 1
            (s.checkpoint.ord_ch, Function.update s.checkpoint.ch s.ind s.capo)).1
          1 (s.checkpoint.ord_ch (isub s.snaps 1)) ∧
      s.shot2.2.t = s.t ∧ s.shot2.2.iter = s.iter ∧ s.shot2.2.offset = s.offset ∧
      s.shot2.2.incr = 2 ∧ s.shot2.2.ind = 2 := by
  unfold Online_r2.shot2
  rw [if_neg h2, if_neg h3, if_pos hc]
  simp only [hc1, if_true]
  refine ⟨trivial, trivial, trivial, trivial, ?_, trivial, trivial, trivial, trivial, trivial,
    trivial⟩
  show Function.update (shiftLoop _ _ _).2 _ _ = _
  rw [shiftLoop_snd, Function.update_same, Function.update_eq_self]

/-- The takeshot that ends a round of the `r = 2` phase (`iter = offset`). -/
theorem shot2_last (s : Online_r2) (h2 : s.snaps ≠ 2) (h3 : s.snaps ≠ 3)
    (hc : ¬ s.capo < iadd s.snaps 2) (ht : s.t = 0) (hio : s.iter = s.offset) :
    s.shot2.1 = Action.takeshot ∧ s.shot2.2.snaps = s.snaps ∧ s.shot2.2.capo = s.capo ∧
      s.shot2.2.check = s.checkpoint.ord_ch (isub s.snaps 1) ∧
      s.shot2.2.checkpoint.ch =
        Function.update s.checkpoint.ch (s.checkpoint.ord_ch (isub s.snaps 1)) s.capo ∧
      s.shot2.2.checkpoint.ord_ch =
        Function.update
          (shiftLoop s.snaps s.incr
            (s.checkpoint.ord_ch,
              Function.update s.checkpoint.ch (s.checkpoint.ord_ch (isub s.snaps 1)) s.capo)).1
          s.incr (s.checkpoint.ord_ch (isub s.snaps 1)) ∧
      s.shot2.2.t = s.t ∧ s.shot2.2.iter = 1 ∧ s.shot2.2.offset = isub s.offset 1 ∧
      s.shot2.2.incr = iadd s.incr 1 ∧ s.shot2.2.ind = iadd s.incr 1 := by
  unfold Online_r2.shot2
  rw [if_neg h2, if_neg h3, if_neg hc, if_pos ht, if_pos hio]
  refine ⟨rfl, rfl, rfl, rfl, ?_, rfl, rfl, rfl, rfl, rfl, rfl⟩
  show Function.update (shiftLoop _ _ _).2 _ _ = _
  rw [shiftLoop_snd, Function.update_same, Function.update_same, Function.update_idem]

/-- A takeshot inside a round of the `r = 2` phase (`iter ≠ offset`). -/
theorem shot2_next (s : Online_r2) (h2 : s.snaps ≠ 2) (h3 : s.snaps ≠ 3)
    (hc : ¬ s.capo < iadd s.snaps 2) (ht : s.t = 0) (hio : s.iter ≠ s.offset) :
    s.shot2 = (Action.takeshot,
      { s with
        checkpoint := { s.checkpoint with
          ch := Function.update s.checkpoint.ch (s.checkpoint.ord_ch s.ind) s.capo
          takeshots := iadd s.checkpoint.takeshots 1 }
        check := s.checkpoint.ord_ch s.ind
        iter := iadd s.iter 1
        ind := iadd s.ind 1 }) := by
  unfold Online_r2.shot2
  rw [if_neg h2, if_neg h3, if_neg hc, if_pos ht, if_neg hio]

/-- The end of the `r = 2` phase: `terminate` once `t` is set. -/
theorem shot2_end (s : Online_r2) (h2 : s.snaps ≠ 2) (h3 : s.snaps ≠ 3)
    (hc : ¬ s.capo < iadd s.snaps 2) (ht : s.t ≠ 0) :
    s.shot2 = (Action.terminate, s) := by
  unfold Online_r2.shot2
  rw [if_neg h2, if_neg h3, if_neg hc, if_neg ht]

/-- The states of `Online_r2` between two calls, for `C ≥ 4` slots, as long as it has not
returned `terminate`: `fresh` after construction, `stored` and `moved` in the `r = 1`
phase (after its takeshots and advances), `jumped` after the advance by 2 that ends it,
`shot` and `adv` after the takeshots and advances of the `r = 2` phase. -/
inductive Phase2 (C : Int) (x : Online_r2) : Prop
  | fresh (hck : x.check = -1) (hcapo : x.capo = 0)
  | stored (hck : x.check = x.capo) (hch : x.checkpoint.ch x.check = x.capo)
      (hold : x.oldcapo_o = x.capo) (h0 : 0 ≤ x.capo) (h1 : x.capo ≤ C - 1) (ht : x.t = 0)
      (hiter : x.iter = 1) (hoff : x.offset = C - 1) (hord : OrdOk C x)
  | moved (hck : x.check = x.capo - 1) (hch : x.checkpoint.ch x.check = x.capo - 1)
      (h0 : 1 ≤ x.capo) (h1 : x.capo ≤ C - 1)
  | jumped (hck : x.check = C - 1) (hch : x.checkpoint.ch x.check = C - 1)
      (hcapo : x.capo = C + 1) (ht : x.t = 0) (hiter : x.iter = 1) (hoff : x.offset = C - 1)
      (hind : x.ind = C - 1) (hord : OrdOk C x)
  | shot (hck : 0 ≤ x.check) (hch : x.checkpoint.ch x.check = x.capo) (ht : x.t = 0)
      (hi1 : 1 ≤ x.iter) (hio : x.iter ≤ x.offset) (hincr : 2 ≤ x.incr)
      (hsum : x.incr + x.offset = C + 1) (hind : x.ind = x.incr + x.iter - 1)
      (hord : OrdOk C x) (hlow : C + 1 ≤ x.capo)
      (hpot : x.capo + 2 * (x.offset - x.iter) + x.offset * (x.offset + 1)
        ≤ C * C + 2 * C - 3)
  | adv (hck : 0 ≤ x.check) (hch : x.checkpoint.ch x.check ≠ x.capo) (hlow : C + 2 ≤ x.capo)
      (hrest : x.t = 0 →
        2 ≤ x.offset ∧ 1 ≤ x.iter ∧ x.iter ≤ x.offset ∧ 2 ≤ x.incr ∧
        x.incr + x.offset = C + 1 ∧ x.ind = x.incr + x.iter - 1 ∧ OrdOk C x ∧
        (x.iter < x.offset →
          x.capo + 2 * (x.offset - x.iter - 1) + x.offset * (x.offset + 1)
            ≤ C * C + 2 * C - 3) ∧
        (x.iter = x.offset →
          x.capo + 2 * (x.offset - 2) + (x.offset - 1) * x.offset ≤ C * C + 2 * C - 3))

/-- What a call of `Online_r2::revolve` that is not the last gives. -/
def Continues (C : Int) (x : Online_r2) : Prop :=
  (x.revolve.1 = Action.advance ∨ x.revolve.1 = Action.takeshot) ∧
    x.revolve.2.snaps = C ∧ Phase2 C x.revolve.2

theorem square_le (C : Int) (hC4 : 4 ≤ C) (hC : C ≤ 46339) : C * C ≤ 2147302921 := by
  nlinarith

/-- The takeshot of the `r = 1` phase leads to the state `stored`. -/
theorem first_stored (C : Int) (hC4 : 4 ≤ C) (hC : C ≤ 46339) (x : Online_r2)
    (hs : x.snaps = C) (hck : iadd x.check 1 = x.capo) (h0 : 0 ≤ x.capo)
    (h1 : x.capo ≤ C - 1) :
    x.counted.first.2.snaps = C ∧ Phase2 C x.counted.first.2 := by
  have h4 : ¬ x.counted.snaps < 4 := by show ¬ x.snaps < 4; omega
  obtain ⟨g1, g2, g3, g4⟩ := first_large x.counted h4
  have e1 : x.counted.first.2.check = x.capo := by rw [first_check]; exact hck
  have e2 : x.counted.first.2.capo = x.capo := first_capo _
  have e3 : x.counted.first.2.checkpoint.ch = Function.update x.checkpoint.ch x.capo x.capo := by
    rw [first_ch]
    show Function.update x.checkpoint.ch (iadd x.check 1) x.capo = _
    rw [hck]
  refine ⟨by rw [first_snaps]; exact hs, ?_⟩
  refine Phase2.stored (by rw [e1, e2]) (by rw [e1, e2, e3, Function.update_same])
    (by rw [e2, first_oldcapo]; rfl) (by rw [e2]; exact h0) (by rw [e2]; exact h1) g1 g2 ?_ ?_
  · rw [g3]
    show isub x.snaps 1 = C - 1
    rw [hs]; exact isub_eq (by omega) (by omega)
  · intro k hk0 hk
    rw [g4]
    show 0 ≤ fillIndex x.checkpoint.ord_ch x.snaps k
    rw [fillIndex_get _ _ _ hk0 (by omega)]
    exact hk0

theorem step_fresh (C : Int) (hC4 : 4 ≤ C) (hC : C ≤ 46339) (x : Online_r2)
    (hs : x.snaps = C) (hck : x.check = -1) (hcapo : x.capo = 0) : Continues C x := by
  unfold Continues
  rw [r2_revolve_eq, if_pos (Or.inl hck)]
  refine ⟨Or.inr rfl, ?_⟩
  exact first_stored C hC4 hC x hs (by rw [hck, hcapo]; decide) (by omega) (by omega)

theorem step_moved (C : Int) (hC4 : 4 ≤ C) (hC : C ≤ 46339) (x : Online_r2)
    (hs : x.snaps = C) (hck : x.check = x.capo - 1)
    (hch : x.checkpoint.ch x.check = x.capo - 1) (h0 : 1 ≤ x.capo) (h1 : x.capo ≤ C - 1) :
    Continues C x := by
  unfold Continues
  have hs1 : isub x.snaps 1 = C - 1 := by rw [hs]; exact isub_eq (by omega) (by omega)
  rw [r2_revolve_eq, if_pos (Or.inr ⟨by rw [hch]; omega, by rw [hs1]; exact h1⟩)]
  refine ⟨Or.inr rfl, ?_⟩
  exact first_stored C hC4 hC x hs
    (by rw [hck, iadd_eq (by omega) (by omega)]; ring) (by omega) h1

theorem step_stored (C : Int) (hC4 : 4 ≤ C) (hC : C ≤ 46339) (x : Online_r2)
    (hs : x.snaps = C) (hck : x.check = x.capo) (hch : x.checkpoint.ch x.check = x.capo)
    (hold : x.oldcapo_o = x.capo) (h0 : 0 ≤ x.capo) (h1 : x.capo ≤ C - 1) (ht : x.t = 0)
    (hiter : x.iter = 1) (hoff : x.offset = C - 1) (hord : OrdOk C x) : Continues C x := by
  unfold Continues
  have hs1 : isub x.snaps 1 = C - 1 := by rw [hs]; exact isub_eq (by omega) (by omega)
  have hn : ¬ (x.check = -1 ∨ (x.checkpoint.ch x.check ≠ x.capo ∧ x.capo ≤ isub x.snaps 1)) := by
    intro hc
    rcases hc with hc | hc
    · omega
    · exact hc.1 hch
  rw [r2_revolve_eq, if_neg hn]
  by_cases hlt : x.capo < isub x.snaps 1
  · rw [if_pos hlt]
    rw [hs1] at hlt
    have e : iadd x.oldcapo_o 1 = x.capo + 1 := by
      rw [hold]; exact iadd_eq (by omega) (by omega)
    refine ⟨Or.inl rfl, hs, ?_⟩
    refine Phase2.moved ?_ ?_ ?_ ?_
    · show x.check = iadd x.oldcapo_o 1 - 1
      rw [e, hck]; ring
    · show x.checkpoint.ch x.check = iadd x.oldcapo_o 1 - 1
      rw [e, hch]; ring
    · show 1 ≤ iadd x.oldcapo_o 1
      rw [e]; omega
    · show iadd x.oldcapo_o 1 ≤ C - 1
      rw [e]; omega
  · rw [if_neg hlt, if_pos hch]
    rw [hs1] at hlt
    have hcapo : x.capo = C - 1 := by omega
    rw [adv2_jump x.counted (by show x.snaps ≠ 1; omega) (by show x.snaps ≠ 2; omega)
      (by show x.snaps ≠ 3; omega) (by show x.capo = isub x.snaps 1; rw [hs1, hcapo])]
    have e : iadd x.capo 2 = C + 1 := by
      rw [hcapo, iadd_eq (by omega) (by omega)]; ring
    refine ⟨Or.inl rfl, hs, ?_⟩
    refine Phase2.jumped ?_ ?_ ?_ ht hiter hoff hs1 hord
    · show x.check = C - 1
      rw [hck, hcapo]
    · show x.checkpoint.ch x.check = C - 1
      rw [hch, hcapo]
    · exact e

theorem step_jumped (C : Int) (hC4 : 4 ≤ C) (hC : C ≤ 46339) (x : Online_r2)
    (hs : x.snaps = C) (hck : x.check = C - 1) (hch : x.checkpoint.ch x.check = C - 1)
    (hcapo : x.capo = C + 1) (ht : x.t = 0) (hiter : x.iter = 1) (hoff : x.offset = C - 1)
    (hind : x.ind = C - 1) (hord : OrdOk C x) : Continues C x := by
  unfold Continues
  have hs1 : isub x.snaps 1 = C - 1 := by rw [hs]; exact isub_eq (by omega) (by omega)
  have hs2 : iadd x.snaps 2 = C + 2 := by rw [hs]; exact iadd_eq (by omega) (by omega)
  have hs3 : iadd x.snaps 1 = C + 1 := by rw [hs]; exact iadd_eq (by omega) (by omega)
  have hn : ¬ (x.check = -1 ∨ (x.checkpoint.ch x.check ≠ x.capo ∧ x.capo ≤ isub x.snaps 1)) := by
    intro hc
    rcases hc with hc | hc
    · omega
    · have := hc.2
      rw [hs1] at this
      omega
  rw [r2_revolve_eq, if_neg hn, if_neg (by rw [hs1]; omega), if_neg (by rw [hch]; omega)]
  obtain ⟨g1, g2, g3, g4, g5, g6, g7, g8, g9, g10, g11⟩ :=
    shot2_entry x.counted (by show x.snaps ≠ 2; omega) (by show x.snaps ≠ 3; omega)
      (by show x.capo < iadd x.snaps 2; rw [hs2]; omega)
      (by show x.capo = iadd x.snaps 1; rw [hs3]; exact hcapo)
  refine ⟨Or.inr g1, by rw [g2]; exact hs, ?_⟩
  refine Phase2.shot ?_ ?_ (by rw [g7]; exact ht) (by rw [g8]; show 1 ≤ x.iter; omega)
    (by rw [g8, g9]; show x.iter ≤ x.offset; omega) (by rw [g10]) ?_ ?_ ?_
    (by rw [g3]; show C + 1 ≤ x.capo; omega) ?_
  · rw [g4]; show 0 ≤ x.ind; omega
  · rw [g4, g5, g3]
    show Function.update x.checkpoint.ch x.ind x.capo x.ind = x.capo
    rw [Function.update_same]
  · rw [g10, g9]; show 2 + x.offset = C + 1; omega
  · rw [g11, g10, g8]; show 2 = 2 + x.iter - 1; omega
  · intro k hk0 hk
    rw [g6]
    by_cases hk1 : k = 1
    · subst hk1
      rw [Function.update_same]
      show 0 ≤ x.checkpoint.ord_ch (isub x.snaps 1)
      rw [hs1]
      exact hord _ (by omega) (le_refl _)
    · rw [Function.update_noteq hk1]
      exact shiftLoop_fst_nonneg _ 1 (C - 1) hs1 (by omega) _ _ hord k hk0 hk
  · rw [g3, g9, g8]
    show x.capo + 2 * (x.offset - x.iter) + x.offset * (x.offset + 1) ≤ C * C + 2 * C - 3
    rw [hcapo, hoff, hiter]
    have : (C - 1) * (C - 1 + 1) = C * C - C := by ring
    rw [this]
    omega

theorem step_shot (C : Int) (hC4 : 4 ≤ C) (hC : C ≤ 46339) (x : Online_r2)
    (hs : x.snaps = C) (hck : 0 ≤ x.check) (hch : x.checkpoint.ch x.check = x.capo)
    (ht : x.t = 0) (hi1 : 1 ≤ x.iter) (hio : x.iter ≤ x.offset) (hincr : 2 ≤ x.incr)
    (hsum : x.incr + x.offset = C + 1) (hind : x.ind = x.incr + x.iter - 1)
    (hord : OrdOk C x) (hlow : C + 1 ≤ x.capo)
    (hpot : x.capo + 2 * (x.offset - x.iter) + x.offset * (x.offset + 1)
      ≤ C * C + 2 * C - 3) : Continues C x := by
  unfold Continues
  have hs1 : isub x.snaps 1 = C - 1 := by rw [hs]; exact isub_eq (by omega) (by omega)
  have hsq := square_le C hC4 hC
  have hoo : 0 ≤ x.offset * (x.offset + 1) := mul_nonneg (by omega) (by omega)
  have hn : ¬ (x.check = -1 ∨ (x.checkpoint.ch x.check ≠ x.capo ∧ x.capo ≤ isub x.snaps 1)) := by
    intro hc
    rcases hc with hc | hc
    · omega
    · exact hc.1 hch
  rw [r2_revolve_eq, if_neg hn, if_neg (by rw [hs1]; omega), if_pos hch]
  obtain ⟨g1, g2, g3, g4, g5, g6, g7, g8, g9, g10, g11⟩ :=
    adv2_cycle x.counted (by show x.snaps ≠ 1; omega) (by show x.snaps ≠ 2; omega)
      (by show x.snaps ≠ 3; omega) (by show x.capo ≠ isub x.snaps 1; rw [hs1]; omega) ht
  have e1 : iadd x.capo 1 = x.capo + 1 := iadd_eq (by omega) (by omega)
  have e2 : iadd x.capo 2 = x.capo + 2 := iadd_eq (by omega) (by omega)
  have hcapo : x.counted.adv2.2.capo = if x.iter < x.offset then x.capo + 1 else x.capo + 2 := by
    rw [g3]
    show (if x.iter < x.offset then iadd x.capo 1 else iadd x.capo 2) = _
    rw [e1, e2]
  refine ⟨Or.inl g1, by rw [g2]; exact hs, ?_⟩
  refine Phase2.adv (by rw [g5]; exact hck) ?_ ?_ ?_
  · rw [g5, g6, hcapo]
    show x.checkpoint.ch x.check ≠ _
    rw [hch]
    split <;> omega
  · rw [hcapo]
    split <;> omega
  · intro ht1
    rw [g4] at ht1
    have ho1 : x.offset ≠ 1 := by
      intro h1
      have : x.counted.offset = 1 := h1
      rw [if_pos this] at ht1
      exact absurd ht1 (by decide)
    rw [g9, g8, g10, g11, hcapo]
    refine ⟨by show 2 ≤ x.offset; omega, hi1, hio, hincr, hsum, hind, ?_, ?_, ?_⟩
    · intro k hk0 hk
      rw [g7]
      exact hord k hk0 hk
    · intro hlt
      have hlt1 : x.iter < x.offset := hlt
      rw [if_pos hlt1]
      show x.capo + 1 + 2 * (x.offset - x.iter - 1) + x.offset * (x.offset + 1) ≤ _
      omega
    · intro heq
      have heq1 : x.iter = x.offset := heq
      rw [if_neg (by omega)]
      show x.capo + 2 + 2 * (x.offset - 2) + (x.offset - 1) * x.offset ≤ _
      have : (x.offset - 1) * x.offset = x.offset * (x.offset + 1) - 2 * x.offset := by ring
      rw [this]
      omega

theorem step_adv (C : Int) (hC4 : 4 ≤ C) (hC : C ≤ 46339) (x : Online_r2)
    (hs : x.snaps = C) (hck : 0 ≤ x.check) (hch : x.checkpoint.ch x.check ≠ x.capo)
    (hlow : C + 2 ≤ x.capo)
    (hrest : x.t = 0 →
      2 ≤ x.offset ∧ 1 ≤ x.iter ∧ x.iter ≤ x.offset ∧ 2 ≤ x.incr ∧
      x.incr + x.offset = C + 1 ∧ x.ind = x.incr + x.iter - 1 ∧ OrdOk C x ∧
      (x.iter < x.offset →
        x.capo + 2 * (x.offset - x.iter - 1) + x.offset * (x.offset + 1)
          ≤ C * C + 2 * C - 3) ∧
      (x.iter = x.offset →
        x.capo + 2 * (x.offset - 2) + (x.offset - 1) * x.offset ≤ C * C + 2 * C - 3)) :
    x.revolve.1 = Action.terminate ∨ Continues C x := by
  have hs1 : isub x.snaps 1 = C - 1 := by rw [hs]; exact isub_eq (by omega) (by omega)
  have hs2 : iadd x.snaps 2 = C + 2 := by rw [hs]; exact iadd_eq (by omega) (by omega)
  have hn : ¬ (x.check = -1 ∨ (x.checkpoint.ch x.check ≠ x.capo ∧ x.capo ≤ isub x.snaps 1)) := by
    intro hc
    rcases hc with hc | hc
    · omega
    · have := hc.2
      rw [hs1] at this
      omega
  have hrev : x.revolve = x.counted.shot2 := by
    rw [r2_revolve_eq, if_neg hn, if_neg (by rw [hs1]; omega), if_neg hch]
  have h2 : x.counted.snaps ≠ 2 := by show x.snaps ≠ 2; omega
  have h3 : x.counted.snaps ≠ 3 := by show x.snaps ≠ 3; omega
  have hc : ¬ x.counted.capo < iadd x.counted.snaps 2 := by
    show ¬ x.capo < iadd x.snaps 2
    rw [hs2]; omega
  by_cases ht : x.t = 0
  · right
    obtain ⟨r1, r2, r3, r4, r5, r6, r7, r8, r9⟩ := hrest ht
    unfold Continues
    rw [hrev]
    by_cases hio : x.iter = x.offset
    · obtain ⟨g1, g2, g3, g4, g5, g6, g7, g8, g9, g10, g11⟩ :=
        shot2_last x.counted h2 h3 hc ht hio
      have e1 : isub x.offset 1 = x.offset - 1 := isub_eq (by omega) (by omega)
      have e2 : iadd x.incr 1 = x.incr + 1 := iadd_eq (by omega) (by omega)
      refine ⟨Or.inr g1, by rw [g2]; exact hs, ?_⟩
      refine Phase2.shot ?_ ?_ (by rw [g7]; exact ht) (by rw [g8]) ?_ ?_ ?_ ?_ ?_
        (by rw [g3]; show C + 1 ≤ x.capo; omega) ?_
      · rw [g4]
        show 0 ≤ x.checkpoint.ord_ch (isub x.snaps 1)
        rw [hs1]
        exact r7 _ (by omega) (le_refl _)
      · rw [g4, g5, g3]
        show Function.update x.checkpoint.ch _ x.capo _ = x.capo
        rw [Function.update_same]
      · rw [g8, g9]; show 1 ≤ isub x.offset 1; rw [e1]; omega
      · rw [g10]; show 2 ≤ iadd x.incr 1; rw [e2]; omega
      · rw [g10, g9]; show iadd x.incr 1 + isub x.offset 1 = C + 1; rw [e1, e2]; omega
      · rw [g11, g10, g8]; show iadd x.incr 1 = iadd x.incr 1 + 1 - 1; omega
      · intro k hk0 hk
        rw [g6]
        by_cases hk1 : k = x.counted.incr
        · subst hk1
          rw [Function.update_same]
          show 0 ≤ x.checkpoint.ord_ch (isub x.snaps 1)
          rw [hs1]
          exact r7 _ (by omega) (le_refl _)
        · rw [Function.update_noteq hk1]
          exact shiftLoop_fst_nonneg _ _ (C - 1) hs1 (show 0 ≤ x.incr by omega) _ _ r7 k hk0 hk
      · rw [g3, g9, g8]
        show x.capo + 2 * (isub x.offset 1 - 1) + isub x.offset 1 * (isub x.offset 1 + 1) ≤ _
        rw [e1]
        have h9 := r9 hio
        have : (x.offset - 1) * (x.offset - 1 + 1) = (x.offset - 1) * x.offset := by ring
        rw [this]
        omega
    · rw [shot2_next x.counted h2 h3 hc ht hio]
      have e1 : iadd x.iter 1 = x.iter + 1 := iadd_eq (by omega) (by omega)
      have e2 : iadd x.ind 1 = x.ind + 1 := iadd_eq (by omega) (by omega)
      refine ⟨Or.inr rfl, hs, ?_⟩
      refine Phase2.shot ?_ ?_ ht ?_ ?_ r4 r5 ?_ ?_ (by show C + 1 ≤ x.capo; omega) ?_
      · show 0 ≤ x.checkpoint.ord_ch x.ind
        exact r7 _ (by omega) (by omega)
      · show Function.update x.checkpoint.ch _ x.capo _ = x.capo
        rw [Function.update_same]
      · show 1 ≤ iadd x.iter 1; rw [e1]; omega
      · show iadd x.iter 1 ≤ x.offset; rw [e1]; omega
      · show iadd x.ind 1 = x.incr + iadd x.iter 1 - 1; rw [e1, e2]; omega
      · intro k hk0 hk
        exact r7 k hk0 hk
      · show x.capo + 2 * (x.offset - iadd x.iter 1) + x.offset * (x.offset + 1) ≤ _
        rw [e1]
        have h8 := r8 (by omega)
        omega
  · left
    rw [hrev, shot2_end x.counted h2 h3 hc ht]

/-- One call of `Online_r2::revolve` with `4 ≤ C ≤ 46339` slots: it returns `terminate`, or
it returns `advance` or `takeshot` and leaves a state of the same kind. -/
theorem r2_step (C : Int) (hC4 : 4 ≤ C) (hC : C ≤ 46339) (x : Online_r2)
    (hs : x.snaps = C) (h : Phase2 C x) :
    x.revolve.1 = Action.terminate ∨ Continues C x := by
  cases h with
  | fresh hck hcapo => exact Or.inr (step_fresh C hC4 hC x hs hck hcapo)
  | stored hck hch hold h0 h1 ht hiter hoff hord =>
    exact Or.inr (step_stored C hC4 hC x hs hck hch hold h0 h1 ht hiter hoff hord)
  | moved hck hch h0 h1 => exact Or.inr (step_moved C hC4 hC x hs hck hch h0 h1)
  | jumped hck hch hcapo ht hiter hoff hind hord =>
    exact Or.inr (step_jumped C hC4 hC x hs hck hch hcapo ht hiter hoff hind hord)
  | shot hck hch ht hi1 hio hincr hsum hind hord hlow hpot =>
    exact Or.inr (step_shot C hC4 hC x hs hck hch ht hi1 hio hincr hsum hind hord hlow hpot)
  | adv hck hch hlow hrest => exact step_adv C hC4 hC x hs hck hch hlow hrest

/-- With two or three slots `Online_r2::revolve` never ends: every call returns `advance`
or `takeshot`. -/
theorem r2_small (x : Online_r2) (h : x.snaps = 2 ∨ x.snaps = 3) :
    (x.revolve.1 = Action.advance ∨ x.revolve.1 = Action.takeshot) ∧
      x.revolve.2.snaps = x.snaps := by
  rw [r2_revolve_eq]
  by_cases h1 : x.check = -1 ∨ (x.checkpoint.ch x.check ≠ x.capo ∧ x.capo ≤ isub x.snaps 1)
  · rw [if_pos h1]
    exact ⟨Or.inr rfl, first_snaps _⟩
  · rw [if_neg h1]
    by_cases h2 : x.capo < isub x.snaps 1
    · rw [if_pos h2]
      exact ⟨Or.inl rfl, rfl⟩
    · rw [if_neg h2]
      by_cases h3 : x.checkpoint.ch x.check = x.capo
      · rw [if_pos h3]
        unfold Online_r2.adv2
        rcases h with h | h
        · have e1 : x.counted.snaps ≠ 1 := by show x.snaps ≠ 1; omega
          have e2 : x.counted.snaps = 2 := h
          rw [if_neg e1, if_pos e2]
          exact ⟨Or.inl rfl, rfl⟩
        · have e1 : x.counted.snaps ≠ 1 := by show x.snaps ≠ 1; omega
          have e2 : x.counted.snaps ≠ 2 := by show x.snaps ≠ 2; omega
          have e3 : x.counted.snaps = 3 := h
          rw [if_neg e1, if_neg e2, if_pos e3]
          simp only []
          split <;> exact ⟨Or.inl rfl, rfl⟩
      · rw [if_neg h3]
        unfold Online_r2.shot2
        rcases h with h | h
        · have e2 : x.counted.snaps = 2 := h
          rw [if_pos e2]
          exact ⟨Or.inr rfl, rfl⟩
        · have e2 : x.counted.snaps ≠ 2 := by show x.snaps ≠ 2; omega
          have e3 : x.counted.snaps = 3 := h
          rw [if_neg e2, if_pos e3]
          simp only []
          split <;> exact ⟨Or.inr trivial, rfl⟩

/-- The first call of a freshly constructed `Online_r3` returns `advance`. -/
theorem r3_first (fuel : Nat) (sn : Int) (c : Checkpoint) (m : Online_r3) :
    ∃ y, (Online_r3.new sn c m).revolve fuel = some (Action.advance, y) ∧ y.snaps = sn := by
  unfold Online_r3.revolve
  simp only []
  have hc : (Online_r3.new sn c m).capo =
      isub (idiv (imul (iadd (Online_r3.new sn c m).snaps 2)
        (iadd (Online_r3.new sn c m).snaps 1)) 2) 1 := rfl
  rw [if_pos hc]
  exact ⟨_, rfl, rfl⟩

/-- A call of `Online_r3::revolve` returns `advance`, `takeshot` or `terminate`. -/
theorem r3_actions (fuel : Nat) (y y' : Online_r3) (a : Action)
    (h : y.revolve fuel = some (a, y')) :
    a = Action.advance ∨ a = Action.takeshot ∨ a = Action.terminate := by
  unfold Online_r3.revolve at h
  simp only [] at h
  split at h
  · cases h; exact Or.inl rfl
  · split at h
    · cases h; exact Or.inl rfl
    · split at h
      · split at h
        · cases h; exact Or.inr (Or.inl rfl)
        · split at h
          · cases h
          · split at h
            · cases h
            · cases h; exact Or.inr (Or.inl rfl)
      · cases h; exact Or.inr (Or.inr rfl)

/-- The first call of a freshly constructed `Moin` returns `advance`. -/
theorem moin_first (i0 : Int) (sn : Int) (c : Checkpoint) (m : Moin) :
    ((Moin.new sn c m).revolve i0).1 = Action.advance := by
  unfold Moin.revolve
  exact congrArg Prod.fst (if_pos rfl)

/-- A call of `Moin::revolve` returns `advance` or `takeshot`: every path through the
method ends in a `return` of one of the two. -/
theorem moin_actions (i0 : Int) (z : Moin) :
    (z.revolve i0).1 = Action.advance ∨ (z.revolve i0).1 = Action.takeshot := by
  unfold Moin.revolve
  simp only []
  split
  · exact Or.inl rfl
  · split
    · exact Or.inr rfl
    · split
      · exact Or.inl rfl
      · generalize Moin.is_dispensable _ i0 = p
        obtain ⟨dis, index⟩ := p
        simp only []
        split
        · exact Or.inr rfl
        · split
          · exact Or.inr rfl
          · exact Or.inl rfl

/-- The façade in online mode: `Online_r2` is at work (`r = 2`) in a state of the `r = 1`
or `r = 2` phase, or `Online_r3` (`r = 3`), or `Moin` (`r = 4`). -/
def OnlineInv (C : Int) (s : Facade) : Prop :=
  s.online = true ∧ s.snaps = C ∧
    ((s.r = 2 ∧ ∃ x, s.f = Schedule.r2 x ∧ x.snaps = C ∧ (C = 2 ∨ C = 3 ∨ Phase2 C x)) ∨
     (s.r = 3 ∧ ∃ y, s.f = Schedule.r3 y) ∨ (s.r = 4 ∧ ∃ z, s.f = Schedule.moin z))

/-- A call of the façade at which `Online_r2` returns `terminate`: `Online_r3` is
constructed and its first action, `advance`, is returned. -/
theorem drive_step_r2_end (w : World) (s : Drive) (x : Online_r2)
    (hf : s.r.f = Schedule.r2 x) (hon : s.r.online = true) (hr : s.r.r = 2)
    (hx : x.revolve.1 = Action.terminate) :
    ∃ t y, s.step w = some t ∧ t.r.f = Schedule.r3 y ∧ t.r.r = 3 ∧ t.r.online = true ∧
      t.r.snaps = s.r.snaps ∧ t.h.acts = s.h.acts ++ [Action.advance] := by
  obtain ⟨y, hy, -⟩ := r3_first w.fuel s.r.snaps (w.init_ord_ch x.revolve.2.checkpoint) w.raw3
  unfold Drive.step Facade.revolve
  simp only [hf, Schedule.revolve, hon, hr, hx, true_and, and_self, if_true, Schedule.checkpoint, hy]
  have e : iadd 2 1 = 3 := by decide
  simp only [e]
  rw [if_neg (by intro h; exact Action.noConfusion h.1)]
  exact ⟨_, _, rfl, rfl, rfl, rfl, rfl, see_acts _ _ _ _ _⟩

/-- A call of the façade while `Online_r3` is at work: the action of `Online_r3`, or, when
that is `terminate`, the first action of a new `Moin`, which is `advance`. -/
theorem drive_step_r3 (w : World) (s : Drive) (y : Online_r3)
    (hf : s.r.f = Schedule.r3 y) (hon : s.r.online = true) (hr : s.r.r = 3) :
    s.step w = none ∨
    ∃ t a, s.step w = some t ∧ (a = Action.advance ∨ a = Action.takeshot) ∧
      ((t.r.r = 3 ∧ ∃ y', t.r.f = Schedule.r3 y') ∨
        (t.r.r = 4 ∧ a = Action.advance ∧ ∃ z, t.r.f = Schedule.moin z)) ∧
      t.r.online = true ∧ t.r.snaps = s.r.snaps ∧ t.h.acts = s.h.acts ++ [a] := by
  cases hy : y.revolve w.fuel with
  | none =>
    left
    unfold Drive.step Facade.revolve
    simp only [hf, Schedule.revolve, hy]
  | some p =>
    right
    obtain ⟨a, y'⟩ := p
    have e23 : ¬ ((3 : Int) = 2) := by decide
    rcases r3_actions w.fuel y y' a hy with ha | ha | ha
    · subst ha
      unfold Drive.step Facade.revolve
      simp only [hf, Schedule.revolve, hy, hon, hr, e23, and_false, if_false]
      rw [if_neg (by intro h; exact Action.noConfusion h.2.1)]
      exact ⟨_, Action.advance, rfl, Or.inl rfl, Or.inl ⟨rfl, _, rfl⟩, rfl, rfl,
        see_acts _ _ _ _ _⟩
    · subst ha
      unfold Drive.step Facade.revolve
      simp only [hf, Schedule.revolve, hy, hon, hr, e23, and_false, if_false]
      rw [if_neg (by intro h; exact Action.noConfusion h.2.1)]
      exact ⟨_, Action.takeshot, rfl, Or.inr rfl, Or.inl ⟨rfl, _, rfl⟩, rfl, rfl,
        see_acts _ _ _ _ _⟩
    · subst ha
      have hm := moin_first (w.index0 (Moin.new s.r.snaps (w.init_ord_ch y'.checkpoint) w.rawMoin))
        s.r.snaps (w.init_ord_ch y'.checkpoint) w.rawMoin
      unfold Drive.step Facade.revolve
      simp only [hf, Schedule.revolve, hy, hon, hr, e23, and_false, if_false, true_and,
        and_self, if_true, Schedule.checkpoint]
      have e34 : iadd 3 1 = 4 := by decide
      refine ⟨_, Action.advance, rfl, Or.inl rfl, Or.inr ⟨e34, rfl, _, rfl⟩, rfl, rfl, ?_⟩
      rw [see_acts, hm]

/-- A call of the façade while `Moin` is at work. -/
theorem drive_step_moin (w : World) (s : Drive) (z : Moin)
    (hf : s.r.f = Schedule.moin z) (hr : s.r.r = 4) :
    ∃ t a, s.step w = some t ∧ (a = Action.advance ∨ a = Action.takeshot) ∧
      t.r.r = 4 ∧ (∃ z', t.r.f = Schedule.moin z') ∧
      t.r.online = s.r.online ∧ t.r.snaps = s.r.snaps ∧ t.h.acts = s.h.acts ++ [a] := by
  have ha := moin_actions (w.index0 z) z
  have hne : (z.revolve (w.index0 z)).1 ≠ Action.terminate := by
    rcases ha with h | h <;> rw [h] <;> exact fun h => Action.noConfusion h
  have e : s.step w = some
      { r := { s.r with
          oldcapo := s.r.capo
          f := Schedule.moin (z.revolve (w.index0 z)).2
          check := (z.revolve (w.index0 z)).2.check
          capo := (z.revolve (w.index0 z)).2.capo
          fine := (z.revolve (w.index0 z)).2.fine
          info := (z.revolve (w.index0 z)).2.info }
        h := s.h.see (z.revolve (w.index0 z)).1 (z.revolve (w.index0 z)).2.check
          (z.revolve (w.index0 z)).2.capo (z.revolve (w.index0 z)).2.fine } := by
    unfold Drive.step Facade.revolve
    simp only [hf, Schedule.revolve]
    have e1 : ¬ (s.r.online = true ∧ (z.revolve (w.index0 z)).1 = Action.terminate ∧ s.r.r = 2) :=
      fun h => hne h.2.1
    rw [if_neg e1]
    simp only []
    have e2 : ¬ (s.r.online = true ∧ (z.revolve (w.index0 z)).1 = Action.terminate ∧ s.r.r = 3) :=
      fun h => hne h.2.1
    rw [if_neg e2]
    rfl
  exact ⟨_, _, e, ha, hr, ⟨_, rfl⟩, rfl, rfl, see_acts _ _ _ _ _⟩

/-- One call of the façade in online mode with `2 ≤ C ≤ 46339` slots: it returns `advance`
or `takeshot` and stays in online mode; only a loop of `Online_r3::choose_cp` that does
not end within the fuel can keep the call from returning. -/
theorem drive_step_online (w : World) (C : Int) (hC2 : 2 ≤ C) (hC : C ≤ 46339) (s : Drive)
    (h : OnlineInv C s.r) :
    (s.step w = none ∧ s.r.r = 3) ∨
    ∃ t a, s.step w = some t ∧ (a = Action.advance ∨ a = Action.takeshot) ∧
      t.h.acts = s.h.acts ++ [a] ∧ OnlineInv C t.r ∧
      (t.r.r = s.r.r ∨ (t.r.r = s.r.r + 1 ∧ a = Action.advance)) := by
  obtain ⟨hon, hsn, hph⟩ := h
  rcases hph with ⟨hr, x, hf, hxs, hx⟩ | ⟨hr, y, hf⟩ | ⟨hr, z, hf⟩
  · right
    have key : x.revolve.1 = Action.terminate ∨
        ((x.revolve.1 = Action.advance ∨ x.revolve.1 = Action.takeshot) ∧
          x.revolve.2.snaps = C ∧ (C = 2 ∨ C = 3 ∨ Phase2 C x.revolve.2)) := by
      by_cases hsmall : C = 2 ∨ C = 3
      · obtain ⟨g1, g2⟩ := r2_small x (by rw [hxs]; exact hsmall)
        refine Or.inr ⟨g1, by rw [g2]; exact hxs, ?_⟩
        rcases hsmall with h | h
        · exact Or.inl h
        · exact Or.inr (Or.inl h)
      · have hP : Phase2 C x := by
          rcases hx with h | h | h
          · exact absurd (Or.inl h) hsmall
          · exact absurd (Or.inr h) hsmall
          · exact h
        rcases r2_step C (by omega) hC x hxs hP with h | ⟨g1, g2, g3⟩
        · exact Or.inl h
        · exact Or.inr ⟨g1, g2, Or.inr (Or.inr g3)⟩
    rcases key with hterm | ⟨ha, hs', hP'⟩
    · obtain ⟨t, y, h1, h2, h3, h4, h5, h6⟩ := drive_step_r2_end w s x hf hon hr hterm
      exact ⟨t, Action.advance, h1, Or.inl rfl, h6, ⟨h4, by rw [h5]; exact hsn,
        Or.inr (Or.inl ⟨h3, y, h2⟩)⟩, Or.inr ⟨by rw [h3, hr]; rfl, rfl⟩⟩
    · have hne : x.revolve.1 ≠ Action.terminate := by
        rcases ha with h | h <;> rw [h] <;> exact fun h => Action.noConfusion h
      refine ⟨_, x.revolve.1, drive_step_r2 w s x hf hne, ha, see_acts _ _ _ _ _,
        ⟨hon, hsn, ?_⟩, Or.inl rfl⟩
      exact Or.inl ⟨hr, x.revolve.2, rfl, hs', hP'⟩
  · rcases drive_step_r3 w s y hf hon hr with h | ⟨t, a, h1, h2, h3, h4, h5, h6⟩
    · exact Or.inl ⟨h, hr⟩
    · right
      rcases h3 with h | ⟨g1, g2, g3⟩
      · exact ⟨t, a, h1, h2, h6, ⟨h4, by rw [h5]; exact hsn, Or.inr (Or.inl h)⟩,
          Or.inl (by rw [h.1, hr])⟩
      · exact ⟨t, a, h1, h2, h6, ⟨h4, by rw [h5]; exact hsn, Or.inr (Or.inr ⟨g1, g3⟩)⟩,
          Or.inr ⟨by rw [g1, hr]; rfl, g2⟩⟩
  · right
    obtain ⟨t, a, h1, h2, h3, h4, h5, h6, h7⟩ := drive_step_moin w s z hf hr
    exact ⟨t, a, h1, h2, h7, ⟨by rw [h5]; exact hon, by rw [h6]; exact hsn,
      Or.inr (Or.inr ⟨h3, h4⟩)⟩, Or.inl (by rw [h3, hr])⟩

/-- The system right after `Revolve(C)`: `Online_r2` is freshly constructed. -/
theorem drive_start_online (w : World) (C : Int) (c : Checkpoint) (raw2 : Online_r2)
    (m : Facade) : OnlineInv C (Drive.start w C c raw2 m).r :=
  ⟨rfl, rfl, Or.inl ⟨rfl, _, drive_start_f w C c raw2 m, rfl,
    Or.inr (Or.inr (Phase2.fresh rfl rfl))⟩⟩

/-- A run of `n + 1` calls is a run of `n` calls followed by one call. -/
theorem drive_run_last (w : World) (n : Nat) (s t : Drive)
    (h : Drive.run w (n + 1) s = some t) :
    ∃ u, Drive.run w n s = some u ∧ u.step w = some t := by
  cases hn : Drive.run w n s with
  | none =>
    exfalso
    have key : ∀ (n : Nat) (s : Drive), Drive.run w n s = none →
        Drive.run w (n + 1) s = none := by
      intro n
      induction n with
      | zero => intro s hs; simp [Drive.run] at hs
      | succ n ih =>
        intro s hs
        simp only [Drive.run] at hs ⊢
        cases hst : s.step w with
        | none => rfl
        | some u =>
          rw [hst] at hs
          simp only [] at hs ⊢
          exact ih u hs
    rw [key n s hn] at h
    cases h
  | some u =>
    refine ⟨u, rfl, ?_⟩
    rw [← drive_run_succ w n s u hn]
    exact h

/-- The system after `n` calls in online mode. -/
theorem drive_run_online (w : World) (C : Int) (hC2 : 2 ≤ C) (hC : C ≤ 46339) (s : Drive)
    (hs : OnlineInv C s.r) :
    ∀ (n : Nat) (t : Drive), Drive.run w n s = some t →
      OnlineInv C t.r ∧ ∃ l : List Action, t.h.acts = s.h.acts ++ l ∧ l.length = n ∧
        ∀ a ∈ l, a = Action.advance ∨ a = Action.takeshot := by
  intro n
  induction n with
  | zero =>
    intro t ht
    simp only [Drive.run] at ht
    cases ht
    exact ⟨hs, [], by simp, rfl, by simp⟩
  | succ n ih =>
    intro t ht
    obtain ⟨u, hu, hut⟩ := drive_run_last w n s t ht
    obtain ⟨hI, l, hl1, hl2, hl3⟩ := ih u hu
    rcases drive_step_online w C hC2 hC u hI with ⟨h, -⟩ | ⟨t', a, h1, h2, h3, h4, -⟩
    · rw [h] at hut; cases hut
    · rw [h1] at hut
      cases hut
      refine ⟨h4, l ++ [a], by rw [h3, hl1, List.append_assoc], by simp [hl2], ?_⟩
      intro b hb
      rcases List.mem_append.1 hb with hb | hb
      · exact hl3 b hb
      · rw [List.mem_singleton.1 hb]; exact h2

/-- C25: with `2 ≤ C ≤ 46339` slots (beyond that `(C+2)*(C+1)` in the constructor of
`Online_r3` overflows `int`), as long as `turn()` has not been called every `step()` of
the online façade returns `advance` or `takeshot` to the host, never `terminate`,
`restore`, `firsturn`, `youturn` or `error`. After `n` calls that returned, the façade is
still in online mode with `Online_r2` (`r = 2`), `Online_r3` (`r = 3`) or `Moin` (`r = 4`)
at work, the host has seen `n` actions, all `advance` or `takeshot`, and the next call
again returns one of the two; when it replaces the scheduler (`r` goes up by one) the
action is the new scheduler's first, `advance`. Only a loop of `Online_r3::choose_cp` that
does not end within the fuel of the model can keep a call from returning. -/
theorem online_facade_never_terminates (w : World) (C : Int) (hC2 : 2 ≤ C) (hC : C ≤ 46339)
    (c : Checkpoint) (raw2 : Online_r2) (m : Facade) (n : Nat) (t : Drive)
    (h : Drive.run w n (Drive.start w C c raw2 m) = some t) :
    t.r.online = true ∧ t.h.acts.length = n ∧
      (∀ a ∈ t.h.acts, a = Action.advance ∨ a = Action.takeshot) ∧
      ((t.r.r = 2 ∧ ∃ x, t.r.f = Schedule.r2 x) ∨ (t.r.r = 3 ∧ ∃ y, t.r.f = Schedule.r3 y) ∨
        (t.r.r = 4 ∧ ∃ z, t.r.f = Schedule.moin z)) ∧
      ((t.step w = none ∧ t.r.r = 3) ∨
        ∃ u a, t.step w = some u ∧ (a = Action.advance ∨ a = Action.takeshot) ∧
          u.h.acts = t.h.acts ++ [a] ∧ u.r.online = true ∧
          (u.r.r = t.r.r ∨ (u.r.r = t.r.r + 1 ∧ a = Action.advance))) := by
  obtain ⟨hI, l, hl1, hl2, hl3⟩ :=
    drive_run_online w C hC2 hC _ (drive_start_online w C c raw2 m) n t h
  have hacts : t.h.acts = l := by
    rw [hl1]
    show [] ++ l = l
    rfl
  refine ⟨hI.1, by rw [hacts]; exact hl2, by rw [hacts]; exact hl3, ?_, ?_⟩
  · rcases hI.2.2 with ⟨h1, x, h2, -⟩ | h1 | h1
    · exact Or.inl ⟨h1, x, h2⟩
    · exact Or.inr (Or.inl h1)
    · exact Or.inr (Or.inr h1)
  · rcases drive_step_online w C hC2 hC t hI with h1 | ⟨u, a, h1, h2, h3, h4, h5⟩
    · exact Or.inl h1
    · exact Or.inr ⟨u, a, h1, h2, h3, h4.1, h5⟩

set_option maxRecDepth 10000000 in
/-- Witness for C25: with four slots the first 40 calls all return `advance` or `takeshot`;
by then `Online_r2` and `Online_r3` have ended, `Moin` is at work and `capo = 37`. -/
theorem online_facade_never_terminates_witness :
    (2 : Int) ≤ 4 ∧ (4 : Int) ≤ 46339 ∧
    ∃ t, Drive.run World.zero 40
        (Drive.start World.zero 4 Checkpoint.zero Online_r2.zero Facade.zero) = some t ∧
      t.r.r = 4 ∧ t.r.capo = 37 ∧ t.r.online = true ∧ t.h.acts.length = 40 ∧
      ∀ a ∈ t.h.acts, a = Action.advance ∨ a = Action.takeshot := by
  obtain ⟨t, ht, hr, hc⟩ : ∃ t, Drive.run World.zero 40
      (Drive.start World.zero 4 Checkpoint.zero Online_r2.zero Facade.zero) = some t ∧
      t.r.r = 4 ∧ t.r.capo = 37 := by decide!
  obtain ⟨h1, h2, h3, -⟩ :=
    online_facade_never_terminates World.zero 4 (by decide) (by decide) Checkpoint.zero
      Online_r2.zero Facade.zero 40 t ht
  exact ⟨by decide, by decide, t, ht, hr, hc, h1, h2, h3⟩

/-! ## What a takeshot stores -/

/-- The second call of `Moin::revolve` (`start` cleared, `start1` set) returns `takeshot`. -/
theorem moin_second (i0 : Int) (z : Moin) (h1 : z.start = false) (h2 : z.start1 = true) :
    (z.revolve i0).1 = Action.takeshot := by
  unfold Moin.revolve
  simp only []
  rw [if_neg (by rw [h1]; exact Bool.false_ne_true), if_pos h2]

theorem entered_writes (o : Offline) :
    o.entered.checkpoint.number_of_writes = o.checkpoint.number_of_writes := by
  unfold Offline.entered; simp only []; split <;> rfl

/-- A call of `Offline::revolve` changes `number_of_writes` only when it returns
`takeshot`, and then it adds one to the entry of the slot that `check` names. -/
theorem offline_writes (o o' : Offline) (a : Action) (h : o.revolve = some (a, o')) :
    (a = Action.takeshot ∧
      o'.checkpoint.number_of_writes =
        Function.update o.checkpoint.number_of_writes o'.check
          (iadd (o.checkpoint.number_of_writes o'.check) 1)) ∨
    (a ≠ Action.takeshot ∧ o'.checkpoint.number_of_writes = o.checkpoint.number_of_writes) := by
  by_cases hn : o.check < -1 ∨ o.capo > o.fine
  · unfold Offline.revolve at h
    simp only [] at h
    rw [if_pos hn] at h
    simp only [Option.some.injEq, Prod.mk.injEq] at h
    obtain ⟨rfl, rfl⟩ := h
    exact Or.inr ⟨by decide, rfl⟩
  rw [revolve_entered o hn] at h
  have hw := entered_writes o
  generalize o.entered = e at h hw
  split at h
  · unfold Offline.case0 at h
    split at h
    · simp only [Option.some.injEq, Prod.mk.injEq] at h
      obtain ⟨rfl, rfl⟩ := h
      exact Or.inr ⟨by decide, hw⟩
    · simp only [Option.some.injEq, Prod.mk.injEq] at h
      obtain ⟨rfl, rfl⟩ := h
      exact Or.inr ⟨by decide, hw⟩
  split at h
  · unfold Offline.case1 at h
    simp only [] at h
    split at h
    · simp only [Option.some.injEq, Prod.mk.injEq] at h
      obtain ⟨rfl, rfl⟩ := h
      exact Or.inr ⟨by decide, hw⟩
    · simp only [Option.some.injEq, Prod.mk.injEq] at h
      obtain ⟨rfl, rfl⟩ := h
      exact Or.inr ⟨by decide, hw⟩
  split at h
  · unfold Offline.initshot at h
    simp only [] at h
    repeat' split at h
    all_goals first
      | (exfalso; simp at h; done)
      | (simp only [Option.some.injEq, Prod.mk.injEq] at h
         obtain ⟨rfl, rfl⟩ := h
         first
           | exact Or.inr ⟨by decide, hw⟩
           | (refine Or.inl ⟨rfl, ?_⟩
              show Function.update e.checkpoint.number_of_writes 0
                (iadd (e.checkpoint.number_of_writes 0) 1) = _
              rw [hw]))
  split at h
  · unfold Offline.shot at h
    simp only [] at h
    repeat' split at h
    all_goals first
      | (exfalso; simp at h; done)
      | (simp only [Option.some.injEq, Prod.mk.injEq] at h
         obtain ⟨rfl, rfl⟩ := h
         first
           | exact Or.inr ⟨by decide, hw⟩
           | (refine Or.inl ⟨rfl, ?_⟩
              show Function.update e.checkpoint.number_of_writes _
                (iadd (e.checkpoint.number_of_writes _) 1) = _
              rw [hw]))
  · unfold Offline.adv at h
    simp only [] at h
    repeat' split at h
    all_goals first
      | (exfalso; simp at h; done)
      | (simp only [Option.some.injEq, Prod.mk.injEq] at h
         obtain ⟨rfl, rfl⟩ := h
         exact Or.inr ⟨by decide, hw⟩)

/-- The write counts after one call, read off the action the host has recorded. -/
theorem step_writes (s t : Sys) (h : s.step = some t) :
    (∀ a, t.h.acts = s.h.acts ++ [a] → a ≠ Action.takeshot →
      t.o.checkpoint.number_of_writes = s.o.checkpoint.number_of_writes) ∧
    (t.h.acts = s.h.acts ++ [Action.takeshot] →
      t.o.checkpoint.number_of_writes =
        Function.update s.o.checkpoint.number_of_writes t.o.check
          (iadd (s.o.checkpoint.number_of_writes t.o.check) 1)) := by
  unfold Sys.step at h
  cases hr : s.o.revolve with
  | none => rw [hr] at h; simp at h
  | some p =>
    obtain ⟨b, o'⟩ := p
    rw [hr] at h
    simp only [Option.some.injEq] at h
    subst h
    have hacts : (s.h.react b o').acts = s.h.acts ++ [b] := react_acts _ _ _
    constructor
    · intro a ha hne
      have ha1 : (s.h.react b o').acts = s.h.acts ++ [a] := ha
      rw [hacts] at ha1
      have hab : b = a := by simpa using ha1
      rcases offline_writes s.o o' b hr with ⟨h1, -⟩ | ⟨-, h2⟩
      · exact absurd (hab ▸ h1) hne
      · exact h2
    · intro ha
      have ha1 : (s.h.react b o').acts = s.h.acts ++ [Action.takeshot] := ha
      rw [hacts] at ha1
      have hab : b = Action.takeshot := by simpa using ha1
      rcases offline_writes s.o o' b hr with ⟨-, h2⟩ | ⟨h1, -⟩
      · exact h2
      · exact absurd hab h1

/-- The states passed at the joints of a reversal that splits its sub-range: after the
advance, after the takeshot into slot `k + 1`, after the reversal of the upper part, after
the restore from slot `k`, and at the end. -/
theorem split_states (C : Int) (hC : C ≤ 64) (k r : Int) (l l1 mN n1 n2 : Nat)
    (cnt1 cnt2 : Int) (hk0 : 0 ≤ k) (hk : k + 1 < C) (hl : l = l1 + mN) (hm1 : 1 ≤ mN)
    (hl1 : 2 ≤ l1) (hr1 : 1 ≤ r) (hr : r ≤ 64) (hlow : bz (C - k) (r - 1) < l)
    (hup : (l : Int) ≤ bz (C - k) r)
    (hloop : repsLoop ((l : Int).toNat + 1) l (C - k) 0 1 = some (r, bz (C - k) r))
    (hamount : amount l (C - k) r = mN) (hc1 : cnt1 ≤ r * l1) (hc10 : 0 ≤ cnt1)
    (run1 : Reverses C (k + 1) l1 r n1 cnt1) (run2 : Reverses C k mN (r - 1) n2 cnt2)
    (s : Sys) (a : Int) (hR : Ready C s.view k a (a + l)) (ha0 : 0 ≤ a)
    (hal : a + l ≤ 16777216) (hadv0 : 0 ≤ s.view.advances)
    (hadv : s.view.advances + r * l < 2147483648) :
    ∃ s1 s2 s3 s4 s5, s.step = some s1 ∧ s1.view.acts = s.view.acts ++ [Action.advance] ∧
      s1.step = some s2 ∧ s2.view.acts = s1.view.acts ++ [Action.takeshot] ∧
      s2.view.check = k + 1 ∧ Ready C s2.view (k + 1) (a + mN) (a + mN + l1) ∧
      0 ≤ s2.view.advances ∧ s2.view.advances + r * l1 < 2147483648 ∧
      Sys.run n1 s2 = some s3 ∧ s3.step = some s4 ∧
      s4.view.acts = s3.view.acts ++ [Action.restore] ∧ Ready C s4.view k a (a + mN) ∧
      0 ≤ s4.view.advances ∧ s4.view.advances + (r - 1) * mN < 2147483648 ∧
      Sys.run n2 s4 = some s5 ∧ Sys.run (1 + 1 + n1 + 1 + n2) s = some s5 := by
  have hlI : (l : Int) = l1 + mN := by rw [hl]; push_cast; ring
  have hrm : (mN : Int) ≤ r * mN := by nlinarith
  have hrl : r * (l : Int) = r * l1 + r * mN := by rw [hlI]; ring
  have hrl1 : (0 : Int) ≤ r * l1 := by positivity
  have hrm1 : (r - 1) * (mN : Int) = r * mN - mN := by ring
  have hll : (l : Int) ≤ r * l := by nlinarith
  -- advance
  obtain ⟨s1, hs1, hv1⟩ := view_adv s k a l (C - k) r hR.online hR.check hR.capo hR.fine
    hR.oldfine (by rw [hR.snaps]; ring) (by rw [hR.snaps]; exact hC) hR.chk hk0 ha0 hal
    (by omega) (by omega) hr1 hr hlow hup hloop hadv0 (by omega)
  rw [hamount] at hv1
  -- takeshot
  obtain ⟨s2, hs2, hv2⟩ := view_shot s1 k (a + mN) l1
    (by rw [hv1]; exact hR.online) (by rw [hv1]; exact hR.check) (by rw [hv1])
    (by rw [hv1]; show s.view.fine = _; rw [hR.fine]; omega) (by omega) (by omega) (by omega)
    hk0 (by rw [hv1]; show k + 1 < s.view.snaps; rw [hR.snaps]; exact hk)
    (by rw [hv1]; show s.view.snaps ≤ 64; rw [hR.snaps]; exact hC)
    (by rw [hv1]; show s.view.ch k ≠ _; rw [hR.chk]; omega)
  have ha2 : s2.view.acts = s1.view.acts ++ [Action.takeshot] := by rw [hv2]
  rw [hv1] at hv2
  have hR2 : Ready C s2.view (k + 1) (a + mN) (a + mN + l1) := by
    rw [hv2]
    exact
      { online := hR.online
        snaps := hR.snaps
        check := rfl
        capo := rfl
        fine := by show s.view.fine = _; rw [hR.fine]; omega
        oldfine := rfl
        chk := by show Function.update s.view.ch (k + 1) (a + mN) (k + 1) = _; simp
        ch0 := by
          show Function.update s.view.ch (k + 1) (a + mN) 0 ≤ _
          rw [Function.update_noteq (by omega)]
          have := hR.ch0; omega
        cur := rfl
        slot := by
          show Function.update s.view.slots (k + 1) (some (a + (mN : Int))) (k + 1) = _
          simp
        noterm := not_mem_append_one (not_mem_append_one hR.noterm (by decide)) (by decide)
        noerr := not_mem_append_one (not_mem_append_one hR.noerr (by decide)) (by decide) }
  have h2ch : ∀ j, j ≤ k → s2.view.ch j = s.view.ch j := by
    intro j hj
    rw [hv2]
    show Function.update s.view.ch (k + 1) (a + mN) j = _
    rw [Function.update_noteq (by omega)]
  have h2adv : s2.view.advances = s.view.advances + mN := by rw [hv2]
  have h2slots : ∀ j, j ≤ k → s2.view.slots j = s.view.slots j := by
    intro j hj
    rw [hv2]
    show Function.update s.view.slots (k + 1) (some (a + (mN : Int))) j = _
    rw [Function.update_noteq (by omega)]
  -- the upper part
  obtain ⟨s3, hrun1, hD1⟩ := run1 s2 (a + mN) hR2 (by omega) (by omega)
    (by rw [h2adv]; omega) (by rw [h2adv]; omega)
  have hI3 := hrun1.2 n1 s3 (le_refl _) hrun1.1
  have h3chk : s3.view.ch k = a := by rw [hI3.frame k (by omega), h2ch k (le_refl k), hR.chk]
  have h3ch0 : s3.view.ch 0 ≤ a := by
    rw [hI3.frame 0 (by omega), h2ch 0 hk0]; exact hR.ch0
  have h3slot : s3.view.slots k = some a := by
    rw [hD1.slots k (by omega), h2slots k (le_refl k)]; exact hR.slot
  -- restore
  obtain ⟨s4, hs4, hv4⟩ := view_restore s3 k (a + mN) hI3.online
    (by rw [hD1.check]; ring) hD1.capo hD1.fine hk0 (by omega)
  have ha4 : s4.view.acts = s3.view.acts ++ [Action.restore] := by rw [hv4]
  rw [h3chk, h3slot] at hv4
  have hR4 : Ready C s4.view k a (a + mN) := by
    rw [hv4]
    exact
      { online := hI3.online
        snaps := hI3.snaps
        check := by show s3.view.check = k; rw [hD1.check]; ring
        capo := rfl
        fine := hD1.fine
        oldfine := rfl
        chk := h3chk
        ch0 := h3ch0
        cur := rfl
        slot := h3slot
        noterm := not_mem_append_one hI3.noterm (by decide)
        noerr := not_mem_append_one hI3.noerr (by decide) }
  have h4adv : s4.view.advances = s.view.advances + mN + cnt1 := by
    rw [hv4]; show s3.view.advances = _; rw [hD1.advances, h2adv]
  -- the lower part
  obtain ⟨s5, hrun2, -⟩ := run2 s4 a hR4 ha0 (by omega) (by rw [h4adv]; omega)
    (by rw [h4adv]; omega)
  refine ⟨s1, s2, s3, s4, s5, hs1, by rw [hv1], hs2, ha2, hR2.check, hR2,
    by rw [h2adv]; omega, by rw [h2adv]; omega, hrun1.1, hs4, ha4, hR4,
    by rw [h4adv]; omega, by rw [h4adv]; omega, hrun2.1, ?_⟩
  have e1 : Sys.run 1 s = some s1 := by rw [run_succ_of_step hs1]; rfl
  have e2 : Sys.run (1 + 1) s = some s2 := by
    rw [run_add 1 1 s s1 e1, run_succ_of_step hs2]; rfl
  have e3 : Sys.run (1 + 1 + n1) s = some s3 := by
    rw [run_add (1 + 1) n1 s s2 e2]; exact hrun1.1
  have e4 : Sys.run (1 + 1 + n1 + 1) s = some s4 := by
    rw [run_add (1 + 1 + n1) 1 s s3 e3, run_succ_of_step hs4]; rfl
  rw [run_add (1 + 1 + n1 + 1) n2 s s4 e4]
  exact hrun2.1

/-- The states passed at the joints of a reversal whose advance stops one step below
`fine`: after the advance, after the combined step, after the restore, and at the end. -/
theorem tail_states (C : Int) (hC : C ≤ 64) (k r : Int) (l mN n2 : Nat) (cnt2 : Int)
    (hk0 : 0 ≤ k) (hk : k < C) (hl : l = mN + 1) (hm1 : 1 ≤ mN) (hr1 : 1 ≤ r) (hr : r ≤ 64)
    (hlow : bz (C - k) (r - 1) < l) (hup : (l : Int) ≤ bz (C - k) r)
    (hloop : repsLoop ((l : Int).toNat + 1) l (C - k) 0 1 = some (r, bz (C - k) r))
    (hamount : amount l (C - k) r = mN) (run2 : Reverses C k mN (r - 1) n2 cnt2)
    (s : Sys) (a : Int) (hR : Ready C s.view k a (a + l)) (ha0 : 0 ≤ a)
    (hal : a + l ≤ 16777216) (hadv0 : 0 ≤ s.view.advances)
    (hadv : s.view.advances + r * l < 2147483648) :
    ∃ s1 s2 s3 s4, s.step = some s1 ∧ s1.view.acts = s.view.acts ++ [Action.advance] ∧
      s1.step = some s2 ∧ s2.view.acts = s1.view.acts ++ [turnAction s.view.turn] ∧
      s2.step = some s3 ∧ s3.view.acts = s2.view.acts ++ [Action.restore] ∧
      Ready C s3.view k a (a + mN) ∧ 0 ≤ s3.view.advances ∧
      s3.view.advances + (r - 1) * mN < 2147483648 ∧
      Sys.run n2 s3 = some s4 ∧ Sys.run (1 + 1 + 1 + n2) s = some s4 := by
  have hlI : (l : Int) = mN + 1 := by rw [hl]; push_cast; ring
  have hrm : (mN : Int) ≤ r * mN := by nlinarith
  have hrl : r * (l : Int) = r * mN + r := by rw [hlI]; ring
  have hrm1 : (r - 1) * (mN : Int) = r * mN - mN := by ring
  have hll : (l : Int) ≤ r * l := by nlinarith
  -- advance
  obtain ⟨s1, hs1, hv1⟩ := view_adv s k a l (C - k) r hR.online hR.check hR.capo hR.fine
    hR.oldfine (by rw [hR.snaps]; ring) (by rw [hR.snaps]; exact hC) hR.chk hk0 ha0 hal
    (by omega) (by omega) hr1 hr hlow hup hloop hadv0 (by omega)
  rw [hamount] at hv1
  -- the combined step
  obtain ⟨s2, hs2, hv2⟩ := view_turn s1 k (a + mN)
    (by rw [hv1]; exact hR.check) (by rw [hv1])
    (by rw [hv1]; show s.view.fine = _; rw [hR.fine]; omega) (by omega) (by omega) hk0
    (by omega)
  have ha2 : s2.view.acts = s1.view.acts ++ [turnAction s.view.turn] := by
    rw [hv2, hv1]
  rw [hv1] at hv2
  have hne : ¬ s.view.ch k = a + mN := by rw [hR.chk]; omega
  simp only [hne, if_false] at hv2
  -- restore
  obtain ⟨s3, hs3, hv3⟩ := view_restore s2 k (a + mN)
    (by rw [hv2]; exact hR.online) (by rw [hv2]) (by rw [hv2]) (by rw [hv2])
    hk0 (by rw [hv2]; show s.view.ch 0 ≠ _; have := hR.ch0; omega)
  have ha3 : s3.view.acts = s2.view.acts ++ [Action.restore] := by rw [hv3]
  rw [hv2] at hv3
  simp only [hR.chk, hR.slot] at hv3
  have hR3 : Ready C s3.view k a (a + mN) := by
    rw [hv3]
    exact
      { online := hR.online
        snaps := hR.snaps
        check := rfl
        capo := rfl
        fine := rfl
        oldfine := rfl
        chk := hR.chk
        ch0 := hR.ch0
        cur := rfl
        slot := hR.slot
        noterm := not_mem_append_one (not_mem_append_one (not_mem_append_one hR.noterm
          (by decide)) (turnAction_ne_terminate _).symm) (by decide)
        noerr := not_mem_append_one (not_mem_append_one (not_mem_append_one hR.noerr
          (by decide)) (turnAction_ne_error _).symm) (by decide) }
  have h3adv : s3.view.advances = s.view.advances + mN := by rw [hv3]
  obtain ⟨s4, hrun2, -⟩ := run2 s3 a hR3 ha0 (by omega) (by rw [h3adv]; omega)
    (by rw [h3adv]; omega)
  refine ⟨s1, s2, s3, s4, hs1, by rw [hv1], hs2, ha2, hs3, ha3, hR3, by rw [h3adv]; omega,
    by rw [h3adv]; omega, hrun2.1, ?_⟩
  have e1 : Sys.run 1 s = some s1 := by rw [run_succ_of_step hs1]; rfl
  have e2 : Sys.run (1 + 1) s = some s2 := by
    rw [run_add 1 1 s s1 e1, run_succ_of_step hs2]; rfl
  have e3 : Sys.run (1 + 1 + 1) s = some s3 := by
    rw [run_add (1 + 1) 1 s s2 e2, run_succ_of_step hs3]; rfl
  rw [run_add (1 + 1 + 1) n2 s s3 e3]
  exact hrun2.1

/-- The write counts of a reversal: `n` calls from any state that is `Ready` for a
sub-range of length `l` above slot `k` add `W j` to the write count of slot `j`. -/
def Wrote (C k : Int) (l : Nat) (ρ : Int) (n : Nat) (W : Int → Int) : Prop :=
  ∀ (s t : Sys) (a : Int), Ready C s.view k a (a + l) → 0 ≤ a → a + l ≤ 16777216 →
    0 ≤ s.view.advances → s.view.advances + ρ * l < 2147483648 → Sys.run n s = some t →
    ∀ j, 0 ≤ s.o.checkpoint.number_of_writes j →
      s.o.checkpoint.number_of_writes j + l < 2147483648 →
      t.o.checkpoint.number_of_writes j = s.o.checkpoint.number_of_writes j + W j

theorem turnAction_ne_takeshot (t : Int) : turnAction t ≠ Action.takeshot := by
  unfold turnAction; split <;> decide

theorem wrote_one (C : Int) (hC : C ≤ 64) (k ρ : Int) (hk0 : 0 ≤ k) (hk : k < C) :
    Wrote C k 1 ρ 1 (fun _ => 0) := by
  intro s t a hR ha0 hal _ _ hrun j _ _
  obtain ⟨t1, hst, hv⟩ := view_turn s k a hR.check hR.capo hR.fine ha0
    (by push_cast at hal; omega) hk0 (by omega)
  rw [run_succ_of_step hst] at hrun
  simp only [Sys.run, Option.some.injEq] at hrun
  subst hrun
  have hacts : t1.view.acts = s.view.acts ++ [turnAction s.view.turn] := by rw [hv]
  rw [(step_writes s t1 hst).1 _ hacts (turnAction_ne_takeshot _)]
  simp

theorem wrote_tail (C : Int) (hC : C ≤ 64) (k r : Int) (l mN n2 : Nat) (cnt2 : Int)
    (W2 : Int → Int)
    (hk0 : 0 ≤ k) (hk : k < C) (hl : l = mN + 1) (hm1 : 1 ≤ mN) (hr1 : 1 ≤ r) (hr : r ≤ 64)
    (hlow : bz (C - k) (r - 1) < l) (hup : (l : Int) ≤ bz (C - k) r)
    (hloop : repsLoop ((l : Int).toNat + 1) l (C - k) 0 1 = some (r, bz (C - k) r))
    (hamount : amount l (C - k) r = mN) (run2 : Reverses C k mN (r - 1) n2 cnt2)
    (w2 : Wrote C k mN (r - 1) n2 W2) :
    Wrote C k l r (1 + 1 + 1 + n2) W2 := by
  intro s t a hR ha0 hal hadv0 hadv hrun j hj0 hj
  obtain ⟨s1, s2, s3, s4, hs1, ha1, hs2, ha2, hs3, ha3, hR3, hb1, hb2, hrun2, hall⟩ :=
    tail_states C hC k r l mN n2 cnt2 hk0 hk hl hm1 hr1 hr hlow hup hloop hamount run2
      s a hR ha0 hal hadv0 hadv
  rw [hall] at hrun
  simp only [Option.some.injEq] at hrun
  subst hrun
  have e1 := (step_writes s s1 hs1).1 _ ha1 (by decide)
  have e2 := (step_writes s1 s2 hs2).1 _ ha2 (turnAction_ne_takeshot _)
  have e3 := (step_writes s2 s3 hs3).1 _ ha3 (by decide)
  have e : s3.o.checkpoint.number_of_writes = s.o.checkpoint.number_of_writes := by
    rw [e3, e2, e1]
  have hlI : (l : Int) = mN + 1 := by rw [hl]; push_cast; ring
  have := w2 s3 s4 a hR3 ha0 (by omega) hb1 hb2 hrun2 j (by rw [e]; exact hj0)
    (by rw [e]; omega)
  rw [this, e]

theorem wrote_split (C : Int) (hC : C ≤ 64) (k r : Int) (l l1 mN n1 n2 : Nat)
    (cnt1 cnt2 : Int) (W1 W2 : Int → Int)
    (hk0 : 0 ≤ k) (hk : k + 1 < C) (hl : l = l1 + mN) (hm1 : 1 ≤ mN)
    (hl1 : 2 ≤ l1) (hr1 : 1 ≤ r) (hr : r ≤ 64) (hlow : bz (C - k) (r - 1) < l)
    (hup : (l : Int) ≤ bz (C - k) r)
    (hloop : repsLoop ((l : Int).toNat + 1) l (C - k) 0 1 = some (r, bz (C - k) r))
    (hamount : amount l (C - k) r = mN) (hc1 : cnt1 ≤ r * l1) (hc10 : 0 ≤ cnt1)
    (run1 : Reverses C (k + 1) l1 r n1 cnt1) (run2 : Reverses C k mN (r - 1) n2 cnt2)
    (w1 : Wrote C (k + 1) l1 r n1 W1) (w2 : Wrote C k mN (r - 1) n2 W2)
    (hW1 : ∀ j, 0 ≤ W1 j ∧ W1 j ≤ (l1 : Int) - 1) :
    Wrote C k l r (1 + 1 + n1 + 1 + n2)
      (fun j => (if j = k + 1 then 1 else 0) + W1 j + W2 j) := by
  intro s t a hR ha0 hal hadv0 hadv hrun j hj0 hj
  obtain ⟨s1, s2, s3, s4, s5, hs1, ha1, hs2, ha2, hck2, hR2, hb1, hb2, hrun1, hs4, ha4, hR4,
      hb3, hb4, hrun2, hall⟩ :=
    split_states C hC k r l l1 mN n1 n2 cnt1 cnt2 hk0 hk hl hm1 hl1 hr1 hr hlow hup hloop
      hamount hc1 hc10 run1 run2 s a hR ha0 hal hadv0 hadv
  rw [hall] at hrun
  simp only [Option.some.injEq] at hrun
  subst hrun
  have hlI : (l : Int) = l1 + mN := by rw [hl]; push_cast; ring
  have e1 := (step_writes s s1 hs1).1 _ ha1 (by decide)
  have e2 := (step_writes s1 s2 hs2).2 ha2
  have hck2' : s2.o.check = k + 1 := hck2
  rw [hck2', e1] at e2
  have e2j : s2.o.checkpoint.number_of_writes j
      = s.o.checkpoint.number_of_writes j + (if j = k + 1 then 1 else 0) := by
    rw [e2]
    by_cases hjk : j = k + 1
    · subst hjk
      rw [Function.update_same, if_pos rfl]
      exact iadd_eq (by omega) (by omega)
    · rw [Function.update_noteq hjk, if_neg hjk]
      omega
  have h01 : (0 : Int) ≤ (if j = k + 1 then 1 else 0) ∧
      (if j = k + 1 then (1 : Int) else 0) ≤ 1 := by
    split <;> constructor <;> decide
  have e3 := w1 s2 s3 (a + mN) hR2 (by omega) (by omega) hb1 hb2 hrun1 j
    (by rw [e2j]; omega) (by rw [e2j]; omega)
  have e4 := (step_writes s3 s4 hs4).1 _ ha4 (by decide)
  have hW := hW1 j
  have e5 := w2 s4 s5 a hR4 ha0 (by omega) hb3 hb4 hrun2 j
    (by rw [e4, e3, e2j]; omega) (by rw [e4, e3, e2j]; omega)
  rw [e5, e4, e3, e2j]
  ring

theorem bz_one_right {d : Int} (hd : 0 ≤ d) : bz d 1 = d + 1 := by
  rw [bz_symm, bz_one_left hd]

theorem bz_two_right {d : Int} (hd : 0 ≤ d) : 2 * bz d 2 = (d + 1) * (d + 2) := by
  obtain ⟨n, rfl⟩ := Int.eq_ofNat_of_zero_le hd
  induction n with
  | zero =>
    rw [Nat.cast_zero, bz_zero_left (by omega)]
    norm_num
  | succ n ih =>
    have hP := bz_pascal ((n + 1 : Nat) : Int) 2 (by omega)
    have e1 : ((n + 1 : Nat) : Int) - 1 = (n : Int) := by push_cast; ring
    have e2 : (2 : Int) - 1 = 1 := by norm_num
    rw [e1, e2, bz_one_right (by omega)] at hP
    have := ih (by omega)
    rw [hP]
    push_cast at *
    nlinarith

/-- The repetition number of a sub-range of at most `3 ds - 1` steps is 1 or 2. -/
theorem reps_small (l ds r : Int) (hds : 1 ≤ ds) (hl2 : 2 ≤ l) (hl : l ≤ 3 * ds - 1)
    (hlow : bz ds (r - 1) < l) (hup : l ≤ bz ds r) :
    (r = 1 ∧ l ≤ ds + 1) ∨ (r = 2 ∧ ds + 1 < l) := by
  have h0 := bz_zero_right (show 0 ≤ ds by omega)
  have h1 := bz_one_right (show 0 ≤ ds by omega)
  have h2 := bz_two_right (show 0 ≤ ds by omega)
  have hr1 : 1 ≤ r := by
    by_contra hc
    have := bz_mono_right_le ds (show r ≤ 0 by omega)
    omega
  have hr2 : r ≤ 2 := by
    by_contra hc
    have := bz_mono_right_le ds (show 2 ≤ r - 1 by omega)
    nlinarith [sq_nonneg (ds - 2)]
  rcases (show r = 1 ∨ r = 2 by omega) with e | e
  · subst e
    left
    exact ⟨rfl, by omega⟩
  · subst e
    right
    refine ⟨rfl, ?_⟩
    have e1 : (2 : Int) - 1 = 1 := by norm_num
    rw [e1] at hlow
    omega

/-- With at most `2 ds` steps the advance moves one step. -/
theorem amount_small (l ds r : Int) (hds : 1 ≤ ds) (hl2 : 2 ≤ l) (hl : l ≤ 2 * ds)
    (hlow : bz ds (r - 1) < l) (hup : l ≤ bz ds r) : amount l ds r = 1 := by
  have h0 := bz_zero_right (show 0 ≤ ds by omega)
  have h1 := bz_one_right (show 0 ≤ ds by omega)
  rcases reps_small l ds r hds hl2 (by omega) hlow hup with ⟨e, hle⟩ | ⟨e, hlt⟩
  · subst e
    unfold amount
    have e0 : (1 : Int) - 1 = 0 := by norm_num
    have e1 : (1 : Int) - 2 = -1 := by norm_num
    rw [e0, e1, h0, h1, bz_neg_right _ (by omega : (-1 : Int) < 0)]
    simp only [if_true]
    by_cases c1 : l ≤ 1 + bz (ds - 2) 0
    · rw [if_pos c1]
    · rw [if_neg c1]
      by_cases c2 : l ≥ ds + 1 - bz (ds - 3) 1
      · rw [if_pos c2]
      · exfalso
        by_cases d3 : 3 ≤ ds
        · rw [bz_one_right (by omega)] at c2
          rw [bz_zero_right (by omega)] at c1
          omega
        · rw [bz_neg_left _ (by omega)] at c2
          by_cases d2 : ds = 2
          · rw [d2] at c1 c2
            have : bz (2 - 2) 0 = 1 := by decide
            rw [this] at c1
            omega
          · have d1 : ds = 1 := by omega
            rw [d1] at c2
            omega
  · subst e
    unfold amount
    have e0 : (2 : Int) - 1 = 1 := by norm_num
    have e1 : (2 : Int) - 2 = 0 := by norm_num
    rw [e0, e1, h0, h1]
    have c1 : l ≤ ds + 1 + bz (ds - 2) 1 := by
      by_cases d2 : 2 ≤ ds
      · rw [bz_one_right (by omega)]; omega
      · omega
    rw [if_pos c1]
    simp

/-- Between `2 ds + 1` and `3 ds - 1` steps the advance leaves `2 ds - 1` steps above its
target. -/
theorem amount_mid (l ds r : Int) (hds : 2 ≤ ds) (hl2 : 2 * ds < l) (hl : l ≤ 3 * ds - 1)
    (hlow : bz ds (r - 1) < l) (hup : l ≤ bz ds r) : amount l ds r = l - 2 * ds + 1 := by
  have h0 := bz_zero_right (show 0 ≤ ds by omega)
  have h1 := bz_one_right (show 0 ≤ ds by omega)
  have h2 := bz_two_right (show 0 ≤ ds by omega)
  rcases reps_small l ds r (by omega) (by omega) hl hlow hup with ⟨e, hle⟩ | ⟨e, hlt⟩
  · omega
  · subst e
    unfold amount
    have e0 : (2 : Int) - 1 = 1 := by norm_num
    rw [e0, h1, bz_one_right (show 0 ≤ ds - 2 by omega), bz_one_right (show 0 ≤ ds - 1 by omega)]
    have c1 : ¬ l ≤ ds + 1 + (ds - 2 + 1) := by omega
    rw [if_neg c1]
    have c2 : ¬ l ≥ bz ds 2 - bz (ds - 3) 2 := by
      by_cases d3 : 3 ≤ ds
      · have h3 := bz_two_right (show 0 ≤ ds - 3 by omega)
        have : bz ds 2 - bz (ds - 3) 2 = 3 * ds := by nlinarith
        rw [this]; omega
      · have d2 : ds = 2 := by omega
        subst d2
        have hneg : bz (2 - 3) 2 = 0 := bz_neg_left _ (by decide)
        rw [hneg]
        omega
    rw [if_neg c2]
    ring

theorem Wrote.relax {C k : Int} {l : Nat} {r ρ : Int} {n : Nat} {W : Int → Int}
    (h : Wrote C k l r n W) (hr : r ≤ ρ) : Wrote C k l ρ n W := by
  intro s t a hR ha0 hal hadv0 hadv
  have : r * (l : Int) ≤ ρ * l := by nlinarith
  exact h s t a hR ha0 hal hadv0 (by omega)

/-- The write counts of a reversal, with the reversal itself: a sub-range of length `l`
above slot `k` leaves the slots up to `k` unwritten, and a slot `j > k` with
`l ≤ 2 (C - k) + (j - k)` is written once when `l ≥ j - k + 2` and not at all
otherwise. -/
theorem reverse_writes (C : Int) (hC : C ≤ 64) :
    ∀ (l : Nat) (k ρ : Int), 1 ≤ l → (l : Int) ≤ 16777216 → 0 ≤ k → k < C → 0 ≤ ρ →
      ρ ≤ 64 → (l : Int) ≤ bz (C - k) ρ →
      ∃ (n : Nat) (cnt : Int) (W : Int → Int), 0 ≤ cnt ∧ cnt ≤ ρ * l ∧
        (∀ r, 1 ≤ r → bz (C - k) (r - 1) ≤ l → (l : Int) ≤ bz (C - k) r →
          cnt = r * l - bz (C - k + 1) (r - 1)) ∧
        Reverses C k l ρ n cnt ∧ Wrote C k l ρ n W ∧
        (∀ j, 0 ≤ W j ∧ W j ≤ (l : Int) - 1) ∧ (∀ j, j ≤ k → W j = 0) ∧
        (∀ j, k < j → j < C → (l : Int) ≤ 2 * (C - k) + (j - k) →
          W j = if j - k + 2 ≤ (l : Int) then 1 else 0) := by
  intro l
  induction l using Nat.strong_induction_on with
  | _ l ih =>
    intro k ρ hl1 hlB hk0 hk hρ0 hρ hlρ
    by_cases hone : l = 1
    · subst hone
      refine ⟨1, 0, fun _ => 0, le_refl 0, by positivity, ?_, ?_, wrote_one C hC k ρ hk0 hk,
        ?_, fun _ _ => rfl, ?_⟩
      · intro r hr1 hlow _
        have := one_count (C - k) r (by omega) hr1 (by simpa using hlow)
        rw [this]; push_cast; ring
      · intro s a hR ha0 hal _ _
        exact reverse_one C hC s k a hk0 hk hR ha0 hal
      · intro j
        constructor
        · exact le_refl 0
        · show (0 : Int) ≤ ((1 : Nat) : Int) - 1
          norm_num
      · intro j hj _ _
        show (0 : Int) = _
        rw [if_neg (by push_cast; omega)]
    · have hl2 : 2 ≤ l := by omega
      obtain ⟨r, hr0, hrρ, hup, hlowall, hloop⟩ :=
        repsLoop_start (l : Int) (C - k) ρ (by omega) (by omega) hlB hρ0 hρ hlρ
      have hr1 : 1 ≤ r := by
        by_contra hc
        have : r = 0 := by omega
        rw [this, bz_zero_right (by omega)] at hup
        omega
      have hlow := hlowall (r - 1) (by omega) (by omega)
      obtain ⟨hm1, hm2, hm3, hm4, hm5, hm6, hm7⟩ :=
        amount_spec (l : Int) (C - k) r (by omega) hr1 hlow hup
      obtain ⟨mN, hmN⟩ := Int.eq_ofNat_of_zero_le (show 0 ≤ amount (l : Int) (C - k) r by omega)
      rw [hmN] at hm1 hm2 hm3 hm4 hm5 hm6 hm7
      have hmN1 : 1 ≤ mN := by omega
      have hmNl : mN < l := by omega
      -- the lower part
      obtain ⟨n2, cnt2, W2, hc20, hc2le, hc2eq, run2, w2, hW2b, hW2f, hW2r⟩ :=
        ih mN hmNl k (r - 1) hmN1 (by omega) hk0 hk (by omega) (by omega) hm4
      have hcnt2 : cnt2 = (r - 1) * mN - bz (C - k + 1) (r - 2) := by
        by_cases hr2 : r = 1
        · subst hr2
          rw [bz_neg_right _ (by omega)]
          have : ((1 : Int) - 1) * mN = 0 := by ring
          rw [this] at hc2le ⊢
          omega
        · have := hc2eq (r - 1) (by omega) (by
            have e : r - 1 - 1 = r - 2 := by ring
            rw [e]; exact hm3) hm4
          have e : r - 1 - 1 = r - 2 := by ring
          rw [e] at this
          exact this
      have hP := bz_pascal (C - k + 1) (r - 1) (by omega)
      have e1 : r - 1 - 1 = r - 2 := by ring
      have e2 : C - k + 1 - 1 = C - k := by ring
      rw [e1, e2] at hP
      have hB2 := bz_nonneg (C - k + 1) (r - 1)
      have hrl : r * (l : Int) ≤ ρ * l := by nlinarith
      have huniq : ∀ (cnt : Int), cnt = r * l - bz (C - k + 1) (r - 1) →
          ∀ r', 1 ≤ r' → bz (C - k) (r' - 1) ≤ l → (l : Int) ≤ bz (C - k) r' →
            cnt = r' * l - bz (C - k + 1) (r' - 1) := by
        intro cnt hcnt r' h1 h2 h3
        rw [hcnt]
        exact (count_unique (l : Int) (C - k) r r' (by omega) hr1 hlow hup h1 h2 h3).symm
      -- the amount advanced in the regime of the write counts
      have hreg : ∀ j, k < j → j < C → (l : Int) ≤ 2 * (C - k) + (j - k) →
          ((l : Int) ≤ 2 * (C - k) ∧ mN = 1) ∨
          (2 * (C - k) < (l : Int) ∧ (mN : Int) = l - 2 * (C - k) + 1) := by
        intro j hj1 hj2 hjl
        by_cases hs : (l : Int) ≤ 2 * (C - k)
        · left
          have := amount_small (l : Int) (C - k) r (by omega) (by omega) hs hlow hup
          rw [hmN] at this
          exact ⟨hs, by omega⟩
        · right
          have := amount_mid (l : Int) (C - k) r (by omega) (by omega) (by omega) hlow hup
          rw [hmN] at this
          exact ⟨by omega, this⟩
      by_cases htail : l = mN + 1
      · -- the advance stops one step below `fine`
        have hone' : bz (C - k) (r - 1) = r := by
          have := one_count (C - k - 1) r (by omega) hr1 (by
            have : (l : Int) - mN = 1 := by omega
            rw [this] at hm5; exact hm5)
          have e : C - k - 1 + 1 = C - k := by ring
          rwa [e] at this
        have hcnt : (mN : Int) + cnt2 = r * l - bz (C - k + 1) (r - 1) := by
          have hlI : (l : Int) = mN + 1 := by omega
          rw [hcnt2, hP, hone', hlI]; ring
        refine ⟨1 + 1 + 1 + n2, mN + cnt2, W2, by omega, by omega, huniq _ hcnt, ?_, ?_, ?_,
          hW2f, ?_⟩
        · exact (reverse_tail C hC k r l mN n2 cnt2 hk0 hk htail hmN1 hr1 (by omega) hlow hup
            hloop hmN run2).weaken hrρ
        · exact (wrote_tail C hC k r l mN n2 cnt2 W2 hk0 hk htail hmN1 hr1 (by omega) hlow hup
            hloop hmN run2 w2).relax hrρ
        · intro j
          have := hW2b j
          omega
        · intro j hj1 hj2 hjl
          rw [hW2r j hj1 hj2 (by omega)]
          rcases hreg j hj1 hj2 hjl with ⟨-, h1⟩ | ⟨h1, h2⟩
          · rw [if_neg (by omega), if_neg (by omega)]
          · omega
      · -- the advance leaves a sub-range that needs a further slot
        have hds : C - k ≠ 1 := by
          intro h; have := hm7 h; omega
        obtain ⟨l1, hl1def⟩ : ∃ l1 : Nat, l = l1 + mN := ⟨l - mN, by omega⟩
        have hl1I : (l : Int) - mN = l1 := by omega
        rw [hl1I] at hm5 hm6
        have e3 : C - (k + 1) = C - k - 1 := by ring
        obtain ⟨n1, cnt1, W1, hc10, hc1le, hc1eq, run1, w1, hW1b, hW1f, hW1r⟩ :=
          ih l1 (by omega) (k + 1) r (by omega) (by omega) (by omega) (by omega) (by omega)
            (by omega) (by rw [e3]; exact hm6)
        have hcnt1 : cnt1 = r * l1 - bz (C - k) (r - 1) := by
          have := hc1eq r hr1 (by rw [e3]; exact hm5) (by rw [e3]; exact hm6)
          have e4 : C - (k + 1) + 1 = C - k := by ring
          rw [e4] at this
          exact this
        have hcnt : (mN : Int) + cnt1 + cnt2 = r * l - bz (C - k + 1) (r - 1) := by
          have hlI : (l : Int) = l1 + mN := by omega
          rw [hcnt1, hcnt2, hP, hlI]; ring
        have h01 : ∀ j : Int, (0 : Int) ≤ (if j = k + 1 then 1 else 0) ∧
            (if j = k + 1 then (1 : Int) else 0) ≤ 1 := by
          intro j
          split <;> constructor <;> decide
        refine ⟨1 + 1 + n1 + 1 + n2, mN + cnt1 + cnt2,
          fun j => (if j = k + 1 then 1 else 0) + W1 j + W2 j,
          by omega, by omega, huniq _ hcnt, ?_, ?_, ?_, ?_, ?_⟩
        · exact (reverse_split C hC k r l l1 mN n1 n2 cnt1 cnt2 hk0 (by omega) hl1def hmN1
            (by omega) hr1 (by omega) hlow hup hloop hmN hc1le hc10 run1 run2).weaken hrρ
        · exact (wrote_split C hC k r l l1 mN n1 n2 cnt1 cnt2 W1 W2 hk0 (by omega) hl1def hmN1
            (by omega) hr1 (by omega) hlow hup hloop hmN hc1le hc10 run1 run2 w1 w2
            hW1b).relax hrρ
        · intro j
          have a1 := hW1b j
          have a2 := hW2b j
          have a3 := h01 j
          show 0 ≤ (if j = k + 1 then (1 : Int) else 0) + W1 j + W2 j ∧
            (if j = k + 1 then (1 : Int) else 0) + W1 j + W2 j ≤ (l : Int) - 1
          omega
        · intro j hj
          show (if j = k + 1 then (1 : Int) else 0) + W1 j + W2 j = 0
          rw [if_neg (by omega), hW1f j (by omega), hW2f j hj]
          rfl
        · intro j hj1 hj2 hjl
          show (if j = k + 1 then (1 : Int) else 0) + W1 j + W2 j = _
          have hW2z : W2 j = 0 := by
            rcases hreg j hj1 hj2 hjl with ⟨-, h1⟩ | ⟨h1, h2⟩
            · have := hW2b j
              omega
            · rw [hW2r j hj1 hj2 (by omega), if_neg (by omega)]
          rw [hW2z]
          by_cases hjk : j = k + 1
          · rw [if_pos hjk, hW1f j (by omega), if_pos (by omega)]
            rfl
          · rw [if_neg hjk]
            have hW1 := hW1r j (by omega) hj2 (by
              rcases hreg j hj1 hj2 hjl with ⟨h0, h1⟩ | ⟨h1, h2⟩ <;> omega)
            rw [hW1]
            rcases hreg j hj1 hj2 hjl with ⟨h0, h1⟩ | ⟨h1, h2⟩
            · by_cases hc : j - k + 2 ≤ (l : Int)
              · rw [if_pos hc, if_pos (by omega)]; rfl
              · rw [if_neg hc, if_neg (by omega)]; rfl
            · rw [if_pos (by omega), if_pos (by omega)]; rfl

/-- The value of `get_number_of_writes_i` on its `int` branches. -/
theorem writes_formula (wrest : Int → Int → Int → Int) (L C i : Int) (hC1 : 1 ≤ C)
    (hC : C ≤ 64) (hi0 : 0 ≤ i) (hi : i < C) (hreg : L ≤ 2 * C + i) :
    get_number_of_writes_i wrest L C i = if i = 0 then 1 else if L ≤ 1 + i then 0 else 1 := by
  unfold get_number_of_writes_i
  have e1 : iadd 1 i = 1 + i := iadd_eq (by omega) (by omega)
  have e2 : imul 2 C = 2 * C := imul_eq (by omega) (by omega)
  rw [e1, e2, iadd_eq (by omega) (by omega), if_pos hreg]

/-- The write counts of runs of at least two steps: for `1 ≤ C ≤ 64`, a slot `0 ≤ i < C`
and `2 ≤ L ≤ 2 C + i`, the run
from construction reaches after `N` calls the state in which the next call returns
`terminate` (and no call before does), and there `number_of_writes[i]` has grown by
`get_number_of_writes_i(L, C, i)`: by 1 for `i = 0`, by 0 when `L ≤ 1 + i`, by 1
otherwise. The call that returns `terminate` leaves the count as it is. -/
theorem offline_write_counts (wrest : Int → Int → Int → Int) (L C i : Int) (hL2 : 2 ≤ L)
    (hC1 : 1 ≤ C) (hC : C ≤ 64) (hi0 : 0 ≤ i) (hi : i < C) (hreg : L ≤ 2 * C + i)
    (c : Checkpoint) (turn oldfine oldsnaps : Int) (num_ch : Int → Int)
    (hw0 : 0 ≤ c.number_of_writes i) (hw : c.number_of_writes i ≤ 1073741824) :
    ∃ (N : Nat) (t u : Sys),
      Sys.run N (Sys.init L C c turn oldfine oldsnaps num_ch) = some t ∧
      Action.terminate ∉ t.h.acts ∧ t.step = some u ∧
      u.h.acts = t.h.acts ++ [Action.terminate] ∧
      t.o.checkpoint.number_of_writes i
        = c.number_of_writes i + get_number_of_writes_i wrest L C i ∧
      u.o.checkpoint.number_of_writes i = t.o.checkpoint.number_of_writes i ∧
      get_number_of_writes_i wrest L C i
        = (if i = 0 then 1 else if L ≤ 1 + i then 0 else 1) := by
  have hL : L ≤ 16777216 := by omega
  have hL0 : 0 ≤ L := by omega
  have hr : L ≤ bz C 64 := by
    have h2 := bz_two_right (show 0 ≤ C by omega)
    have := bz_mono_right_le C (show (2 : Int) ≤ 64 by decide)
    nlinarith [sq_nonneg (C - 2)]
  obtain ⟨lN, hlN⟩ := Int.eq_ofNat_of_zero_le hL0
  have hC0 : C - 0 = C := sub_zero C
  obtain ⟨n, cnt, W, -, -, -, hrev, hwrote, hWb, hWf, hWr⟩ :=
    reverse_writes C hC lN 0 64 (by omega) (by omega)
      (le_refl 0) (by omega) (by omega) (le_refl _) (by rw [hC0, ← hlN]; exact hr)
  obtain ⟨s1, hs1, hv1⟩ := view_initshot (Sys.init L C c turn oldfine oldsnaps num_ch) L 64
    rfl rfl rfl hL2 hL hC1 hC (by omega) (le_refl _) hr
  have ha1 : s1.view.acts
      = (Sys.init L C c turn oldfine oldsnaps num_ch).view.acts ++ [Action.takeshot] := by
    rw [hv1]
  have hck1 : s1.o.check = 0 := by
    show s1.view.check = 0
    rw [hv1]
  rw [view_init] at hv1
  have hR : Ready C s1.view 0 0 (0 + lN) := by
    rw [hv1]
    exact
      { online := rfl
        snaps := rfl
        check := rfl
        capo := rfl
        fine := by show L = 0 + (lN : Int); omega
        oldfine := by show L = 0 + (lN : Int); omega
        chk := by show Function.update (Function.update c.ch 0 0) 0 0 0 = 0; simp
        ch0 := by
          show Function.update (Function.update c.ch 0 0) 0 0 0 ≤ 0
          simp
        cur := rfl
        slot := by
          show Function.update (fun _ => (none : Option Int)) 0 (some 0) 0 = some 0
          simp
        noterm := by simp
        noerr := by simp }
  have h1adv : s1.view.advances = 0 := by rw [hv1]
  obtain ⟨t, hrun, hD⟩ := hrev s1 0 hR (le_refl 0) (by omega) (by rw [h1adv])
    (by rw [h1adv]; omega)
  have hI := hrun.2 n t (le_refl _) hrun.1
  -- the write count of slot `i` after the first takeshot
  have e1 := (step_writes _ s1 hs1).2 ha1
  rw [hck1] at e1
  have e1i : s1.o.checkpoint.number_of_writes i
      = c.number_of_writes i + (if i = 0 then 1 else 0) := by
    rw [e1]
    show Function.update c.number_of_writes 0 (iadd (c.number_of_writes 0) 1) i = _
    by_cases h0 : i = 0
    · subst h0
      rw [Function.update_same, if_pos rfl]
      exact iadd_eq (by omega) (by omega)
    · rw [Function.update_noteq h0, if_neg h0]
      omega
  have h01 : (0 : Int) ≤ (if i = 0 then 1 else 0) ∧ (if i = 0 then (1 : Int) else 0) ≤ 1 := by
    split <;> constructor <;> decide
  have e2 := hwrote s1 t 0 hR (le_refl 0) (by omega) (by rw [h1adv])
    (by rw [h1adv]; omega) hrun.1 i (by rw [e1i]; omega) (by rw [e1i]; omega)
  -- the last call
  obtain ⟨u, hst, hv⟩ := view_terminate t (by rw [hD.check]; ring) (by rw [hD.fine, hD.capo])
  have hau : u.view.acts = t.view.acts ++ [Action.terminate] := by rw [hv]
  have e3 := (step_writes t u hst).1 _ hau (by decide)
  have hform := writes_formula wrest L C i hC1 hC hi0 hi hreg
  refine ⟨1 + n, t, u, ?_, hI.noterm, hst, hau, ?_, by rw [e3], hform⟩
  · have r1 : Sys.run 1 (Sys.init L C c turn oldfine oldsnaps num_ch) = some s1 := by
      rw [run_succ_of_step hs1]; rfl
    rw [run_add 1 n _ s1 r1]
    exact hrun.1
  · rw [e2, e1i, hform]
    by_cases h0 : i = 0
    · subst h0
      rw [if_pos rfl, if_pos rfl, hWf 0 (le_refl 0)]
      ring
    · rw [if_neg h0, if_neg h0, hWr i (by omega) hi (by rw [hC0, ← hlN]; omega)]
      by_cases hc : L ≤ 1 + i
      · rw [if_pos hc, if_neg (by omega)]
        ring
      · rw [if_neg hc, if_pos (by omega)]
        ring

/-- The write count of slot 2 for `L = 8`, `C = 3` (slot 1 is written twice in this run,
and `8 > 2 * 3 + 1`). -/
theorem offline_write_counts_witness :
    (2 : Int) ≤ 8 ∧ (1 : Int) ≤ 3 ∧ (3 : Int) ≤ 64 ∧ (0 : Int) ≤ 2 ∧ (2 : Int) < 3 ∧
    (8 : Int) ≤ 2 * 3 + 2 ∧
    ∃ (N : Nat) (t u : Sys),
      Sys.run N (Sys.init 8 3 Checkpoint.zero 0 0 0 (fun _ => 0)) = some t ∧
      Action.terminate ∉ t.h.acts ∧ t.step = some u ∧
      u.h.acts = t.h.acts ++ [Action.terminate] ∧
      t.o.checkpoint.number_of_writes 2
        = Checkpoint.zero.number_of_writes 2
          + get_number_of_writes_i (fun _ _ _ => 0) 8 3 2 ∧
      u.o.checkpoint.number_of_writes 2 = t.o.checkpoint.number_of_writes 2 ∧
      get_number_of_writes_i (fun _ _ _ => 0) 8 3 2
        = (if (2 : Int) = 0 then 1 else if (8 : Int) ≤ 1 + 2 then 0 else 1) :=
  ⟨by decide, by decide, by decide, by decide, by decide, by decide,
    offline_write_counts (fun _ _ _ => 0) 8 3 2 (by decide) (by decide) (by decide) (by decide)
      (by decide) (by decide) Checkpoint.zero 0 0 0 (fun _ => 0) (by decide) (by decide)⟩

/-- C29: `get_number_of_writes_i(1, 1, 0)` returns 1, but the run for `L = 1`, `C = 1` is
`firsturn`, `terminate`, without a takeshot, and `number_of_writes[0]` stays 0: the test
`i == 0` comes before the test `l <= 1 + i`, for which the table above the function gives
the write count 0. -/
theorem writes_formula_one_step :
    get_number_of_writes_i (fun _ _ _ => 0) 1 1 0 = 1 ∧
    ∃ t, Sys.run 2 (Sys.init 1 1 Checkpoint.zero 0 0 0 (fun _ => 0)) = some t ∧
      t.h.acts = [Action.firsturn, Action.terminate] ∧
      t.o.checkpoint.number_of_writes 0 = 0 ∧
      t.o.checkpoint.number_of_writes 0
        ≠ Checkpoint.zero.number_of_writes 0 + get_number_of_writes_i (fun _ _ _ => 0) 1 1 0 :=
  ⟨rfl, _, rfl, rfl, rfl, by decide⟩

/-! ## The first call of `Online_r3` -/

/-- C32, as amended: the first call of a freshly constructed `Online_r3` with
`0 ≤ C ≤ 46339` slots, whose `capo` is the value `(C+2)(C+1)/2 - 1` set by the constructor,
returns `advance`, raises `capo` by 1, to `(C+2)(C+1)/2`, and sets `forward = 3`,
`ind_now = 1`, `cp = 0`. -/
theorem r3_first_call (fuel : Nat) (sn : Int) (c : Checkpoint) (m : Online_r3)
    (h0 : 0 ≤ sn) (hsn : sn ≤ 46339) :
    (Online_r3.new sn c m).capo = (sn + 2) * (sn + 1) / 2 - 1 ∧
    ∃ y, (Online_r3.new sn c m).revolve fuel = some (Action.advance, y) ∧
      y.capo = (sn + 2) * (sn + 1) / 2 ∧ y.capo = (Online_r3.new sn c m).capo + 1 ∧
      y.forward = 3 ∧ y.ind_now = 1 ∧ y.cp = 0 := by
  have hp0 : 0 ≤ (sn + 2) * (sn + 1) := mul_nonneg (by omega) (by omega)
  have hp1 : 2 ≤ (sn + 2) * (sn + 1) := by nlinarith
  have hp : (sn + 2) * (sn + 1) ≤ 2147483647 := by nlinarith
  have hcapo : (Online_r3.new sn c m).capo = (sn + 2) * (sn + 1) / 2 - 1 := by
    show isub (idiv (imul (iadd sn 2) (iadd sn 1)) 2) 1 = _
    rw [iadd_eq (by omega) (by omega), iadd_eq (by omega) (by omega),
      imul_eq (by omega) (by omega), (idiv_nonneg hp0 hp (by norm_num : (0 : Int) < 2)).1,
      Int.tdiv_eq_ediv hp0 (by norm_num), isub_eq (by omega) (by omega)]
  refine ⟨hcapo, ?_⟩
  unfold Online_r3.revolve
  simp only []
  have hc : (Online_r3.new sn c m).capo =
      isub (idiv (imul (iadd (Online_r3.new sn c m).snaps 2)
        (iadd (Online_r3.new sn c m).snaps 1)) 2) 1 := rfl
  rw [if_pos hc]
  have e : iadd (Online_r3.new sn c m).capo 1 = (sn + 2) * (sn + 1) / 2 := by
    rw [hcapo, iadd_eq (by omega) (by omega)]
    ring
  refine ⟨_, rfl, e, ?_, rfl, rfl, rfl⟩
  show iadd (Online_r3.new sn c m).capo 1 = _
  rw [e, hcapo]
  ring

/-- Witness for C32, as amended: with 5 slots `capo` goes from 20 to 21. -/
theorem r3_first_call_witness :
    (Online_r3.new 5 Checkpoint.zero Online_r3.zero).capo = 20 ∧
    ∃ y, (Online_r3.new 5 Checkpoint.zero Online_r3.zero).revolve 0
        = some (Action.advance, y) ∧ y.capo = 21 ∧ y.forward = 3 ∧ y.ind_now = 1 ∧ y.cp = 0 :=
  have key := r3_first_call 0 5 Checkpoint.zero Online_r3.zero (by decide) (by decide)
  ⟨key.1.trans (by decide),
    key.2.elim fun y h => ⟨y, h.1, h.2.1.trans (by decide), h.2.2.2.1, h.2.2.2.2.1,
      h.2.2.2.2.2⟩⟩

/-- C32, counterexample: with 4 slots the first call of `Online_r3` returns `advance` with
`forward = 3`, but `capo` goes from 14 to 15, not to 17. Step 15 is `ch3[1]`, the step
whose checkpoint the scheduler keeps for good. -/
theorem r3_first_call_counterexample :
    (Online_r3.new 4 Checkpoint.zero Online_r3.zero).capo = 14 ∧
    ∃ y, (Online_r3.new 4 Checkpoint.zero Online_r3.zero).revolve 0
        = some (Action.advance, y) ∧ y.capo = 15 ∧ y.capo ≠ 14 + 3 ∧ y.forward = 3 ∧
      y.ch3 1 = 15 :=
  ⟨by decide, _, rfl, by decide, by decide, rfl, by decide⟩

/-! ## After `terminate` -/

/-- A difference of two `int`s that is not zero does not wrap to zero. -/
theorem isub_ne_zero (a b : Int) (hab : b < a) (hlo : -2147483648 ≤ b) (hhi : a ≤ 2147483647) :
    isub a b ≠ 0 := by
  unfold isub wrap
  omega

/-- A call of `Offline::revolve` that returns `terminate` was made with `capo = fine` and
with `check = -1` or `capo = ch[0]`; it counts the call and changes nothing else. -/
theorem terminate_call (o o' : Offline) (hlo : -2147483648 ≤ o.capo)
    (hhi : o.fine ≤ 2147483647) (h : o.revolve = some (Action.terminate, o')) :
    o.fine = o.capo ∧ (o.check = -1 ∨ o.capo = o.checkpoint.ch 0) ∧ -1 ≤ o.check ∧
      o' = o.counted := by
  by_cases hn : o.check < -1 ∨ o.capo > o.fine
  · rw [revolve_gate o hn] at h
    simp at h
  · have hcf : o.capo ≤ o.fine := by
      by_contra hc
      exact hn (Or.inr (by omega))
    have hck : -1 ≤ o.check := by
      by_contra hc
      exact hn (Or.inl (by omega))
    rw [revolve_entered o hn, entered_fine, entered_capo, entered_check] at h
    by_cases hlt : o.capo < o.fine
    · have hne := isub_ne_zero o.fine o.capo hlt hlo hhi
      rw [if_neg hne] at h
      exfalso
      split at h
      · rcases case1_action _ _ _ h with h1 | h1 <;> cases h1
      · split at h
        · rcases initshot_action _ _ _ h with h1 | h1 <;> cases h1
        · split at h
          · rcases shot_action _ _ _ h with h1 | h1 <;> cases h1
          · rcases adv_action _ _ _ h with h1 | h1 <;> cases h1
    · have hfc : o.fine = o.capo := by omega
      have he : o.entered = o.counted := by
        unfold Offline.entered Offline.counted
        simp only []
        rw [if_neg (by
          intro hc
          exact hlt hc.2)]
      have e0 : isub o.fine o.capo = 0 := by
        rw [hfc]
        show wrap (o.capo - o.capo) = 0
        rw [sub_self]
        decide
      rw [if_pos e0, he] at h
      unfold Offline.case0 at h
      split at h
      · rename_i hc
        simp only [Option.some.injEq, Prod.mk.injEq, true_and] at h
        exact ⟨hfc, hc, hck, h.symm⟩
      · simp at h

/-- After a call that returned `terminate`, every further call returns `terminate`. -/
theorem terminate_again (o : Offline) (hf : o.fine = o.capo)
    (hc : o.check = -1 ∨ o.capo = o.checkpoint.ch 0) (hck : -1 ≤ o.check) :
    o.revolve = some (Action.terminate, o.counted) := by
  have hn : ¬ (o.check < -1 ∨ o.capo > o.fine) := by omega
  have he : o.entered = o.counted := by
    unfold Offline.entered Offline.counted
    simp only []
    rw [if_neg (by
      intro h
      have := h.2
      omega)]
  have e0 : isub o.entered.fine o.entered.capo = 0 := by
    rw [entered_fine, entered_capo, hf]
    show wrap (o.capo - o.capo) = 0
    rw [sub_self]
    decide
  rw [revolve_entered o hn, if_pos e0, he]
  unfold Offline.case0
  have hc' : o.counted.check = -1 ∨ o.counted.capo = o.counted.checkpoint.ch 0 := hc
  rw [if_pos hc']

/-- The calls after `terminate`: `j` further calls return `terminate` each and count
themselves in `commands`. -/
theorem terminate_run (j : Nat) (o : Offline) (h : Host) (hf : o.fine = o.capo)
    (hc : o.check = -1 ∨ o.capo = o.checkpoint.ch 0) (hck : -1 ≤ o.check) :
    ∃ u, Sys.run j { o := o, h := h } = some u ∧
      u.h.acts = h.acts ++ List.replicate j Action.terminate ∧
      u.o = { o with checkpoint := { o.checkpoint with
        commands := (fun x => iadd x 1)^[j] o.checkpoint.commands } } := by
  induction j generalizing o h with
  | zero => exact ⟨_, rfl, by simp, rfl⟩
  | succ j ih =>
    have hst : Sys.step { o := o, h := h }
        = some { o := o.counted, h := h.react Action.terminate o.counted } :=
      Sys.step_eq (terminate_again o hf hc hck)
    obtain ⟨u, hu, hacts, huo⟩ := ih o.counted (h.react Action.terminate o.counted) hf hc hck
    refine ⟨u, by rw [run_succ_of_step hst]; exact hu, ?_, ?_⟩
    · rw [hacts, react_acts, List.replicate_succ, List.append_assoc]
      rfl
    · rw [huo, Function.iterate_succ_apply]
      rfl

/-- C36: `terminate` is absorbing. When a call of `Offline::revolve` (with `capo` and
`fine` of type `int`) returns `terminate`, the call has left everything but the counter
`commands` as it was, and any number `j` of further calls return `terminate` each and
again leave `check`, `capo`, `fine`, all slots `ch[i]` and every other member as they were:
only `commands` goes up, by one per call. -/
theorem offline_terminate_absorbing (o o' : Offline) (hlo : -2147483648 ≤ o.capo)
    (hhi : o.fine ≤ 2147483647) (h : o.revolve = some (Action.terminate, o')) :
    o' = { o with checkpoint := { o.checkpoint with
        commands := iadd o.checkpoint.commands 1 } } ∧
      ∀ (g : Host) (j : Nat), ∃ u, Sys.run j { o := o', h := g } = some u ∧
        u.h.acts = g.acts ++ List.replicate j Action.terminate ∧
        u.o.check = o.check ∧ u.o.capo = o.capo ∧ u.o.fine = o.fine ∧
        u.o.checkpoint.ch = o.checkpoint.ch ∧
        u.o = { o with checkpoint := { o.checkpoint with
          commands := (fun x => iadd x 1)^[j + 1] o.checkpoint.commands } } := by
  obtain ⟨hf, hc, hck, ho⟩ := terminate_call o o' hlo hhi h
  refine ⟨ho, ?_⟩
  intro g j
  subst ho
  obtain ⟨u, hu, hacts, huo⟩ := terminate_run j o.counted g hf hc hck
  have e : u.o = { o with checkpoint := { o.checkpoint with
      commands := (fun x => iadd x 1)^[j + 1] o.checkpoint.commands } } := by
    rw [huo, Function.iterate_succ_apply]
    rfl
  refine ⟨u, hu, hacts, ?_, ?_, ?_, ?_, e⟩
  · rw [e]
  · rw [e]
  · rw [e]
  · rw [e]

/-- Witness for C36: the run for `L = 1`, `C = 1` returns `firsturn` and then
`terminate`; three calls later the state differs from the one before the `terminate` in
`commands` only, which went from 1 to 5. -/
theorem offline_terminate_absorbing_witness :
    ∃ s t u, Sys.run 1 (Sys.init 1 1 Checkpoint.zero 0 0 0 (fun _ => 0)) = some s ∧
      s.o.revolve = some (Action.terminate, t) ∧
      Sys.run 3 { o := t, h := s.h.react Action.terminate t } = some u ∧
      u.h.acts = [Action.firsturn, Action.terminate, Action.terminate, Action.terminate,
        Action.terminate] ∧
      s.o.checkpoint.commands = 1 ∧ u.o.checkpoint.commands = 5 ∧
      u.o = { s.o with checkpoint := { s.o.checkpoint with commands := 5 } } := by
  have hs : Sys.run 1 (Sys.init 1 1 Checkpoint.zero 0 0 0 (fun _ => 0)) = some
      { o := ((Offline.construct 1 1 Checkpoint.zero 0 0 0 (fun _ => 0)).revolve.get rfl).2
        h := Host.start.react Action.firsturn
          ((Offline.construct 1 1 Checkpoint.zero 0 0 0 (fun _ => 0)).revolve.get rfl).2 } := rfl
  obtain ⟨h1, h2⟩ := offline_terminate_absorbing
    ((Offline.construct 1 1 Checkpoint.zero 0 0 0 (fun _ => 0)).revolve.get rfl).2 _
    (by decide) (by decide) rfl
  obtain ⟨u, hu, hacts, -, -, -, -, huo⟩ := h2
    (((Host.start.react Action.firsturn
      ((Offline.construct 1 1 Checkpoint.zero 0 0 0 (fun _ => 0)).revolve.get rfl).2)).react
        Action.terminate _) 3
  exact ⟨_, _, u, hs, rfl, hu, hacts, rfl, by rw [huo]; rfl, by rw [huo]; rfl⟩

/-! ## An advance stops short of `fine` -/

/-- An advance leaves `check`, the slots and `snaps` as they are. -/
theorem adv_frame (x x' : Offline) (a : Action) (h : x.adv = some (a, x')) :
    x'.check = x.check ∧ x'.checkpoint.ch = x.checkpoint.ch ∧ x'.snaps = x.snaps ∧
      x'.fine = x.fine := by
  unfold Offline.adv at h
  simp only [] at h
  repeat' split at h
  all_goals first
    | (exfalso; simp at h; done)
    | (simp only [Option.some.injEq, Prod.mk.injEq] at h
       obtain ⟨-, rfl⟩ := h
       exact ⟨rfl, rfl, rfl, rfl⟩)

/-- A call that returns `advance`, made in offline mode with `0 ≤ capo`, `fine ≤ 2^24` and
`1 ≤ snaps ≤ 64`: `capo` goes up and stays below `fine`, and the slot `check` still holds
the old `capo`. -/
theorem advance_short (o o' : Offline) (hon : o.online = false) (hcapo : 0 ≤ o.capo)
    (hfine : o.fine ≤ 16777216) (hs1 : 1 ≤ o.snaps) (hs : o.snaps ≤ 64)
    (hck : o.check ≤ 2147483647) (h : o.revolve = some (Action.advance, o')) :
    o.capo < o'.capo ∧ o'.capo < o.fine ∧ o'.fine = o.fine ∧ o'.check = o.check ∧
      0 ≤ o.check ∧ o'.checkpoint.ch o'.check = o.capo := by
  obtain ⟨hn, h0, h1, h2, h3, ha⟩ := revolve_advance o o' h
  have hl : isub o.fine o.capo = o.fine - o.capo :=
    isub_eq (by omega) (by omega)
  rw [hl] at h0 h1
  have hcf : o.capo ≤ o.fine := by
    by_contra hc
    exact hn (Or.inr (by omega))
  have hck0 : 0 ≤ o.check := by
    by_contra hc
    exact hn (Or.inl (by omega))
  have key := adv_increases o.entered o' o.check
    (by rw [entered_capo]; exact hcapo) (by rw [entered_fine]; exact hfine)
    (by rw [entered_fine, entered_capo]; omega) (by rw [entered_snaps]; exact hs1)
    (by rw [entered_snaps]; exact hs)
    (by rw [entered_online, entered_num_ch, entered_check, hon]; rfl)
    hck0 hck ha
  rw [entered_capo, entered_fine] at key
  obtain ⟨f1, f2, -, -⟩ := adv_frame _ _ _ ha
  rw [entered_check] at f1
  rw [entered_ch o h2] at f2
  exact ⟨key.1, key.2.1, key.2.2, f1, hck0, by rw [f2, f1]; exact h3⟩

/-- A call made with `0 ≤ check`, `capo < fine` and a slot `check` that does not hold
`capo` returns `takeshot`, `firsturn`, `youturn` or `error`. -/
theorem revolve_below_fine (o o' : Offline) (a : Action) (hck : 0 ≤ o.check)
    (hlt : o.capo < o.fine) (hlo : -2147483648 ≤ o.capo) (hhi : o.fine ≤ 2147483647)
    (hch : o.checkpoint.ch o.check ≠ o.capo) (h : o.revolve = some (a, o')) :
    a = Action.takeshot ∨ a = Action.firsturn ∨ a = Action.youturn ∨ a = Action.error := by
  have hn : ¬ (o.check < -1 ∨ o.capo > o.fine) := by omega
  have hne := isub_ne_zero o.fine o.capo hlt hlo hhi
  have hck1 : o.check ≠ -1 := by omega
  rw [revolve_entered o hn, entered_fine, entered_capo, entered_check, entered_ch o hck1,
    if_neg hne, if_neg hck1, if_pos hch] at h
  split at h
  · rcases case1_action _ _ _ h with h1 | h1
    · exact Or.inr (Or.inl h1)
    · exact Or.inr (Or.inr (Or.inl h1))
  · rcases shot_action _ _ _ h with h1 | h1
    · exact Or.inl h1
    · exact Or.inr (Or.inr (Or.inr h1))

/-- A call of `Offline::revolve` leaves `snaps` and `online` as they are. -/
theorem revolve_consts (o o' : Offline) (a : Action) (h : o.revolve = some (a, o')) :
    o'.snaps = o.snaps ∧ o'.online = o.online := by
  by_cases hn : o.check < -1 ∨ o.capo > o.fine
  · rw [revolve_gate o hn] at h
    simp only [Option.some.injEq, Prod.mk.injEq] at h
    obtain ⟨-, rfl⟩ := h
    exact ⟨rfl, rfl⟩
  · rw [revolve_entered o hn] at h
    have e1 := entered_snaps o
    have e2 := entered_online o
    generalize o.entered = e at h e1 e2
    rw [← e1, ← e2]
    unfold Offline.case0 Offline.case1 Offline.initshot Offline.shot Offline.adv at h
    simp only [] at h
    repeat' split at h
    all_goals first
      | (exfalso; simp at h; done)
      | (simp only [Option.some.injEq, Prod.mk.injEq] at h
         obtain ⟨-, rfl⟩ := h
         exact ⟨rfl, rfl⟩)

/-- In a run from construction `snaps` stays `C` and `online` stays false. -/
theorem run_consts (n : Nat) (s t : Sys) (h : Sys.run n s = some t) :
    t.o.snaps = s.o.snaps ∧ t.o.online = s.o.online := by
  induction n generalizing s with
  | zero =>
    simp only [Sys.run] at h
    cases h
    exact ⟨rfl, rfl⟩
  | succ n ih =>
    cases hs : s.step with
    | none => simp [Sys.run, hs] at h
    | some u =>
      rw [run_succ_of_step hs] at h
      obtain ⟨h1, h2⟩ := ih u h
      unfold Sys.step at hs
      cases hr : s.o.revolve with
      | none => rw [hr] at hs; simp at hs
      | some p =>
        obtain ⟨a, o'⟩ := p
        rw [hr] at hs
        simp only [Option.some.injEq] at hs
        subst hs
        obtain ⟨g1, g2⟩ := revolve_consts _ _ _ hr
        exact ⟨by rw [h1]; exact g1, by rw [h2]; exact g2⟩

/-- C35: in the run from construction with `0 ≤ L ≤ 2^24`, `1 ≤ C ≤ 64` and repetition
number at most 64, every call that returns `advance` leaves `capo ≤ fine - 1` (and has
raised `capo`, with `fine` as it was); the call after it returns `takeshot`, `firsturn` or
`youturn`, never `restore`. -/
theorem offline_advance_below_fine (L C : Int) (hL0 : 0 ≤ L) (hL : L ≤ 16777216)
    (hC1 : 1 ≤ C) (hC : C ≤ 64) (hr : L ≤ bz C 64) (c : Checkpoint)
    (turn oldfine oldsnaps : Int) (num_ch : Int → Int) (n : Nat) (t : Sys) (o' : Offline)
    (hrun : Sys.run n (Sys.init L C c turn oldfine oldsnaps num_ch) = some t)
    (h : t.o.revolve = some (Action.advance, o')) :
    o'.capo ≤ o'.fine - 1 ∧ t.o.capo < o'.capo ∧ o'.fine = t.o.fine ∧
      ∃ a o'', o'.revolve = some (a, o'') ∧
        (a = Action.takeshot ∨ a = Action.firsturn ∨ a = Action.youturn) := by
  obtain ⟨t0, ht0, hS⟩ := offline_states L C hL0 hL hC1 hC hr c turn oldfine oldsnaps num_ch n
  rw [hrun] at ht0
  cases ht0
  have hon : t.o.online = false := (run_consts n _ t hrun).2
  have hsn : t.o.snaps = C := (run_consts n _ t hrun).1
  have hcapo : 0 ≤ t.o.capo := hS.capo_ge
  have hfine : t.o.fine ≤ 16777216 := le_trans hS.fine_le hL
  have hck : t.o.check < C := hS.check_lt
  obtain ⟨a1, a2, a3, a4, a5, a6⟩ := advance_short t.o o' hon hcapo hfine
    (by rw [hsn]; exact hC1) (by rw [hsn]; exact hC) (by omega) h
  refine ⟨by omega, a1, a3, ?_⟩
  obtain ⟨t2, ht2, hS2⟩ :=
    offline_states L C hL0 hL hC1 hC hr c turn oldfine oldsnaps num_ch (n + 2)
  rw [run_add n 2 _ t hrun, run_succ_of_step (Sys.step_eq h)] at ht2
  cases hr2 : o'.revolve with
  | none =>
    simp only [Sys.run, Sys.step, hr2] at ht2
    cases ht2
  | some p =>
    obtain ⟨a, o''⟩ := p
    simp only [Sys.run, Sys.step, hr2, Option.some.injEq] at ht2
    subst ht2
    have hne : a ≠ Action.error := by
      intro hc
      apply hS2.noerr
      show Action.error ∈ ((t.h.react Action.advance o').react a o'').acts
      rw [react_acts, hc]
      simp
    rcases revolve_below_fine o' o'' a (by omega) (by omega) (by omega) (by omega)
      (by rw [a6]; omega) hr2 with h1 | h1 | h1 | h1
    · exact ⟨a, o'', rfl, Or.inl h1⟩
    · exact ⟨a, o'', rfl, Or.inr (Or.inl h1)⟩
    · exact ⟨a, o'', rfl, Or.inr (Or.inr h1)⟩
    · exact absurd h1 hne

/-- Witness for C35: in the run for `L = 4`, `C = 2` the second call is an advance from
`capo = 0` to `capo = 1`, with `fine = 4`. -/
theorem offline_advance_below_fine_witness :
    ∃ t o', Sys.run 1 (Sys.init 4 2 Checkpoint.zero 0 0 0 (fun _ => 0)) = some t ∧
      t.o.revolve = some (Action.advance, o') ∧ o'.capo = 1 ∧ o'.fine = 4 ∧
      o'.capo ≤ o'.fine - 1 ∧ t.o.capo < o'.capo ∧ o'.fine = t.o.fine ∧
      ∃ a o'', o'.revolve = some (a, o'') ∧
        (a = Action.takeshot ∨ a = Action.firsturn ∨ a = Action.youturn) :=
  ⟨(Sys.run 1 (Sys.init 4 2 Checkpoint.zero 0 0 0 (fun _ => 0))).get rfl,
    (((Sys.run 1 (Sys.init 4 2 Checkpoint.zero 0 0 0 (fun _ => 0))).get rfl).o.revolve.get rfl).2,
    rfl, rfl, rfl, rfl,
    offline_advance_below_fine 4 2 (by decide) (by decide) (by decide) (by decide) (by decide)
      Checkpoint.zero 0 0 0 (fun _ => 0) 1 _ _ rfl rfl⟩

/-! ## The binomial coefficients of the advance branch -/

/-- The binomial coefficient "`n` choose `k`", read as `0` when `n` is negative, `k` is
negative or `k` exceeds `n`. -/
def binom (n k : Int) : Int :=
  if n < 0 ∨ k < 0 ∨ n < k then 0 else ((n.toNat.choose k.toNat : Nat) : Int)

theorem bz_eq_binom (d r : Int) : bz d r = binom (r + d) r := by
  unfold bz binom
  by_cases h : d < 0 ∨ r < 0
  · rw [if_pos h, if_pos (by omega)]
  · rw [if_neg h, if_neg (by omega), add_comm]

/-- The passes of the loop: before the pass number `k + 1` it holds `reps = k` and
`range = C(k + ds, k)`, and the division of that pass is exact. -/
theorem repsLoop_pass (l ds : Int) (hds1 : 1 ≤ ds) (hds : ds ≤ 64) (hl : l ≤ 16777216)
    (k : Nat) (hk : (k : Int) ≤ 64) (hlow : ∀ j : Int, 0 ≤ j → j < k → bz ds j < l) :
    repsLoop (l.toNat + 1) l ds 0 1 = repsLoop (l.toNat + 1 - k) l ds k (bz ds k) := by
  induction k with
  | zero =>
    rw [Nat.sub_zero, Nat.cast_zero, bz_zero_right (by omega)]
  | succ k ih =>
    have hlt : bz ds k < l := hlow k (by omega) (by push_cast; omega)
    rw [ih (by push_cast at hk; omega) (fun j h0 h1 => hlow j h0 (by push_cast; omega))]
    have hge := bz_ge_succ hds1 (show (0 : Int) ≤ k by omega)
    obtain ⟨f, hf⟩ : ∃ f, l.toNat + 1 - k = f + 1 := ⟨l.toNat - k, by omega⟩
    have hf' : l.toNat + 1 - (k + 1) = f := by omega
    rw [hf, hf']
    conv_lhs => unfold repsLoop
    rw [if_pos hlt]
    have e1 : iadd (k : Int) 1 = k + 1 := iadd_eq (by omega) (by omega)
    have e2 : iadd ((k : Int) + 1) ds = k + 1 + ds := iadd_eq (by omega) (by omega)
    have hb := bz_nonneg ds k
    have hm := mul_small hb (by omega : bz ds k < 16777216)
      (by omega : 0 ≤ (k : Int) + 1 + ds) (by push_cast at hk; omega)
    have e3 : imul (bz ds k) (k + 1 + ds) = bz ds k * (k + 1 + ds) :=
      imul_eq (by omega) hm.2
    have hid := bz_mul_right ds ((k : Int) + 1) (by omega)
    have ek : (k : Int) + 1 - 1 = k := by ring
    rw [ek] at hid
    have e4 : idiv (bz ds k * (k + 1 + ds)) (k + 1) = bz ds (k + 1) :=
      idiv_exact (by omega) (bz_nonneg _ _) (by rw [hid]; ring) hm.2
    rw [e1, e2, e3, e4]
    push_cast
    rfl

/-- The dividends of the advance branch are exact multiples of their divisors. -/
theorem binos_exact (l ds r : Int) (hds1 : 1 ≤ ds) (hds : ds ≤ 64) (hl : l ≤ 16777216)
    (hr1 : 1 ≤ r) (hr : r ≤ 64) (hlow : bz ds (r - 1) < l) :
    imul (bz ds r) r = bz ds (r - 1) * iadd ds r ∧
      (ds > 1 → imul (bz ds (r - 1)) ds = bz (ds - 1) (r - 1) * isub (iadd ds r) 1) ∧
      (ds > 2 → imul (bz (ds - 1) (r - 1)) (isub ds 1)
          = bz (ds - 2) (r - 1) * isub (iadd ds r) 2) ∧
      imul (bz (ds - 1) (r - 1)) (isub r 1) = bz ds (r - 2) * ds ∧
      (ds > 3 → imul (bz (ds - 2) (r - 1)) (isub ds 2) = bz (ds - 3) r * r) := by
  have hb1 := bz_nonneg ds (r - 1)
  have hb2 : bz (ds - 1) (r - 1) ≤ bz ds (r - 1) := by
    have := bz_mono_left (ds - 1) (r - 1)
    have e : ds - 1 + 1 = ds := by ring
    rwa [e] at this
  have hb2' := bz_nonneg (ds - 1) (r - 1)
  have hb3 : bz (ds - 2) (r - 1) ≤ bz (ds - 1) (r - 1) := by
    have := bz_mono_left (ds - 2) (r - 1)
    have e : ds - 2 + 1 = ds - 1 := by ring
    rwa [e] at this
  have hb3' := bz_nonneg (ds - 2) (r - 1)
  have hm1 := mul_small hb1 (by omega : bz ds (r - 1) < 16777216)
    (by omega : 0 ≤ ds + r) (by omega : ds + r ≤ 128)
  have hid1 := bz_mul_right ds r (by omega)
  refine ⟨?_, ?_, ?_, ?_, ?_⟩
  · rw [iadd_eq (by omega) (by omega), imul_eq (by rw [hid1]; omega) (by rw [hid1]; omega)]
    exact hid1
  · intro h1
    have hm := mul_small hb1 (by omega : bz ds (r - 1) < 16777216)
      (by omega : 0 ≤ ds) (by omega : ds ≤ 128)
    have hid := bz_mul_left ds (r - 1) (by omega)
    rw [iadd_eq (by omega) (by omega), isub_eq (by omega) (by omega),
      imul_eq (by omega) hm.2, hid]
    ring
  · intro h2
    have hm := mul_small hb2' (by omega : bz (ds - 1) (r - 1) < 16777216)
      (by omega : 0 ≤ ds - 1) (by omega : ds - 1 ≤ 128)
    have hid := bz_mul_left (ds - 1) (r - 1) (by omega)
    have e : ds - 1 - 1 = ds - 2 := by ring
    rw [e] at hid
    rw [iadd_eq (by omega) (by omega), isub_eq (by omega) (by omega),
      isub_eq (by omega) (by omega), imul_eq (by omega) hm.2, hid]
    ring
  · have hm := mul_small hb2' (by omega : bz (ds - 1) (r - 1) < 16777216)
      (by omega : 0 ≤ r - 1) (by omega : r - 1 ≤ 128)
    rw [isub_eq (by omega) (by omega), imul_eq (by omega) hm.2]
    by_cases h1 : r = 1
    · have hz : r - 1 = 0 := by omega
      rw [bz_neg_right _ (by omega : r - 2 < 0), hz, mul_zero, zero_mul]
    · have hid := bz_mul_cross ds (r - 2) (by omega) (by omega)
      have e : r - 2 + 1 = r - 1 := by ring
      rw [e] at hid
      exact hid
  · intro h3
    have hm := mul_small hb3' (by omega : bz (ds - 2) (r - 1) < 16777216)
      (by omega : 0 ≤ ds - 2) (by omega : ds - 2 ≤ 128)
    have hid := bz_mul_cross (ds - 2) (r - 1) (by omega) (by omega)
    have e : r - 1 + 1 = r := by ring
    have e' : ds - 2 - 1 = ds - 3 := by ring
    rw [e, e'] at hid
    rw [isub_eq (by omega) (by omega), imul_eq (by omega) hm.2]
    exact hid.symm

/-- C34: the advance branch of `revolve` (the C++ method and the C function share it) on a
sub-range of length `l = fine - capo` with `2 ≤ l ≤ 2^24`, with `1 ≤ ds ≤ 64` and
repetition number at most 64. The loop ends with `reps = r`, the least value with
`l ≤ C(r + ds, r)`, which is at least 1, and with `range = C(r + ds, r)`; before pass
`k + 1` it holds `reps = k`, `range = C(k + ds, k)`, and the dividend of the pass is
`C(k + 1 + ds, k + 1)` times the divisor. The five terms are
`bino1 = C(r + ds - 1, r - 1)`, `bino2 = C(r + ds - 2, r - 1)`, `bino3 = C(r + ds - 3, r - 1)`,
`bino4 = C(r + ds - 2, r - 2)`, `bino5 = C(r + ds - 3, r)`, the values fixed for `ds ≤ 3`
included, and every dividend is its quotient times the divisor. -/
theorem advance_binomials (l ds : Int) (hds1 : 1 ≤ ds) (hds : ds ≤ 64) (hl2 : 2 ≤ l)
    (hl : l ≤ 16777216) (hr : l ≤ binom (64 + ds) 64) :
    ∃ r range b1 b2 b3 b4 b5,
      repsLoop (l.toNat + 1) l ds 0 1 = some (r, range) ∧
      binos range r ds = (b1, b2, b3, b4, b5) ∧
      1 ≤ r ∧ r ≤ 64 ∧ l ≤ binom (r + ds) r ∧ (∀ j, 0 ≤ j → j < r → binom (j + ds) j < l) ∧
      range = binom (r + ds) r ∧ b1 = binom (r + ds - 1) (r - 1) ∧
      b2 = binom (r + ds - 2) (r - 1) ∧ b3 = binom (r + ds - 3) (r - 1) ∧
      b4 = binom (r + ds - 2) (r - 2) ∧ b5 = binom (r + ds - 3) r ∧
      (∀ k : Nat, (k : Int) < r →
        repsLoop (l.toNat + 1) l ds 0 1
          = repsLoop (l.toNat + 1 - k) l ds k (binom (k + ds) k) ∧
        binom (k + ds) k < l ∧
        imul (binom (k + ds) k) (iadd (iadd k 1) ds)
          = binom (k + 1 + ds) (k + 1) * iadd k 1) ∧
      imul range r = b1 * iadd ds r ∧
      (ds > 1 → imul b1 ds = b2 * isub (iadd ds r) 1) ∧
      (ds > 2 → imul b2 (isub ds 1) = b3 * isub (iadd ds r) 2) ∧
      imul b2 (isub r 1) = b4 * ds ∧
      (ds > 3 → imul b3 (isub ds 2) = b5 * r) := by
  rw [← bz_eq_binom] at hr
  obtain ⟨r, hr0, hr64, hup, hlow, hloop⟩ :=
    repsLoop_start l ds 64 hds1 hds hl (by omega) (le_refl _) hr
  have hr1 : 1 ≤ r := by
    by_contra hc
    have : r = 0 := by omega
    subst this
    rw [bz_zero_right (by omega)] at hup
    omega
  have hlow1 := hlow (r - 1) (by omega) (by omega)
  have hb := binos_spec l ds r hds1 hds hl hr1 hr64 hlow1
  obtain ⟨x1, x2, x3, x4, x5⟩ := binos_exact l ds r hds1 hds hl hr1 hr64 hlow1
  refine ⟨r, bz ds r, _, _, _, _, _, hloop, hb, hr1, hr64, ?_, ?_, ?_, ?_, ?_, ?_, ?_, ?_, ?_,
    x1, x2, x3, x4, x5⟩
  · rw [← bz_eq_binom]; exact hup
  · intro j h0 h1
    rw [← bz_eq_binom]
    exact hlow j h0 h1
  · exact bz_eq_binom _ _
  · rw [bz_eq_binom]; congr 1; ring
  · rw [bz_eq_binom]; congr 1; ring
  · rw [bz_eq_binom]; congr 1; ring
  · rw [bz_eq_binom]; congr 1; ring
  · rw [bz_eq_binom]; congr 1; ring
  · intro k hk
    clear x1 x2 x3 x4 x5
    rw [← bz_eq_binom, ← bz_eq_binom]
    have hlt : bz ds k < l := hlow k (by omega) hk
    refine ⟨repsLoop_pass l ds hds1 hds hl k (by omega)
      (fun j h0 h1 => hlow j h0 (by omega)), hlt, ?_⟩
    have e1 : iadd (k : Int) 1 = k + 1 := iadd_eq (by omega) (by omega)
    have e2 : iadd ((k : Int) + 1) ds = k + 1 + ds := iadd_eq (by omega) (by omega)
    have hm := mul_small (bz_nonneg ds k) (by omega : bz ds k < 16777216)
      (by omega : 0 ≤ (k : Int) + 1 + ds) (by omega)
    have hid := bz_mul_right ds ((k : Int) + 1) (by omega)
    have ek : (k : Int) + 1 - 1 = k := by ring
    rw [ek] at hid
    rw [e1, e2, imul_eq (by omega) hm.2, hid]
    ring

/-- Witness for C34: a sub-range of 11 steps with 3 free slots has `r = 3`,
`range = C(6, 3) = 20` and the five terms 10, 6, 3, 4, 1. -/
theorem advance_binomials_witness :
    (2 : Int) ≤ 11 ∧ (11 : Int) ≤ binom (64 + 3) 64 ∧
      repsLoop ((11 : Int).toNat + 1) 11 3 0 1 = some (3, 20) ∧
      binos 20 3 3 = (10, 6, 3, 4, 1) ∧
      ∃ r range b1 b2 b3 b4 b5,
        repsLoop ((11 : Int).toNat + 1) 11 3 0 1 = some (r, range) ∧
        binos range r 3 = (b1, b2, b3, b4, b5) ∧
        1 ≤ r ∧ r ≤ 64 ∧ 11 ≤ binom (r + 3) r ∧ (∀ j, 0 ≤ j → j < r → binom (j + 3) j < 11) ∧
        range = binom (r + 3) r ∧ b1 = binom (r + 3 - 1) (r - 1) ∧
        b2 = binom (r + 3 - 2) (r - 1) ∧ b3 = binom (r + 3 - 3) (r - 1) ∧
        b4 = binom (r + 3 - 2) (r - 2) ∧ b5 = binom (r + 3 - 3) r ∧
        (∀ k : Nat, (k : Int) < r →
          repsLoop ((11 : Int).toNat + 1) 11 3 0 1
            = repsLoop ((11 : Int).toNat + 1 - k) 11 3 k (binom (k + 3) k) ∧
          binom (k + 3) k < 11 ∧
          imul (binom (k + 3) k) (iadd (iadd k 1) 3)
            = binom (k + 1 + 3) (k + 1) * iadd k 1) ∧
        imul range r = b1 * iadd 3 r ∧
        ((3 : Int) > 1 → imul b1 3 = b2 * isub (iadd 3 r) 1) ∧
        ((3 : Int) > 2 → imul b2 (isub 3 1) = b3 * isub (iadd 3 r) 2) ∧
        imul b2 (isub r 1) = b4 * 3 ∧
        ((3 : Int) > 3 → imul b3 (isub 3 2) = b5 * r) :=
  ⟨by decide, by decide, by decide, by decide,
    advance_binomials 11 3 (by decide) (by decide) (by decide) (by decide) (by decide)⟩

/-! ## The numbering of the RAM and ROM slots -/

/-- One pass of the loop `for (i = 0; i < snaps; i++) if (where[i]) indizes_ram[i] = j++;
else indizes_rom[i] = k++;` of the multi-stage constructor: the tables `indizes_ram`,
`indizes_rom` and the counters `j`, `k`. -/
def indexStep (wh : Int → Bool) (st : (Int → Int) × (Int → Int) × Int × Int) (i : Nat) :
    (Int → Int) × (Int → Int) × Int × Int :=
  if wh (i : Int) then (Function.update st.1 (i : Int) st.2.2.1, st.2.1, iadd st.2.2.1 1, st.2.2.2)
  else (st.1, Function.update st.2.1 (i : Int) st.2.2.2, st.2.2.1, iadd st.2.2.2 1)

/-- The tables `indizes_ram` and `indizes_rom` built by `Revolve::Revolve(int st, int sn,
int sn_ram)` from the table `where`, with the final values of `j` and `k`. The entries the
loop does not assign are those of `ram0` and `rom0`. -/
def multiStageIndizes (wh : Int → Bool) (sn : Int) (ram0 rom0 : Int → Int) :
    (Int → Int) × (Int → Int) × Int × Int :=
  (List.range sn.toNat).foldl (indexStep wh) (ram0, rom0, 0, 0)

/-- The numbering loop over the slots `0 .. m-1` when `where` marks the slots from `T` on. -/
theorem indexLoop_spec (wh : Int → Bool) (sn T : Int) (ram0 rom0 : Int → Int) (hT : 0 ≤ T)
    (hsn : sn ≤ 2147483647)
    (hwh : ∀ i : Int, 0 ≤ i → i < sn → wh i = decide (T ≤ i)) (m : Nat) (hm : (m : Int) ≤ sn) :
    ((List.range m).foldl (indexStep wh) (ram0, rom0, 0, 0)).2.2.1 = max 0 ((m : Int) - T) ∧
    ((List.range m).foldl (indexStep wh) (ram0, rom0, 0, 0)).2.2.2 = min (m : Int) T ∧
    (∀ i : Int, ((List.range m).foldl (indexStep wh) (ram0, rom0, 0, 0)).1 i
      = if T ≤ i ∧ i < m then i - T else ram0 i) ∧
    (∀ i : Int, ((List.range m).foldl (indexStep wh) (ram0, rom0, 0, 0)).2.1 i
      = if 0 ≤ i ∧ i < T ∧ i < m then i else rom0 i) := by
  induction m with
  | zero =>
    refine ⟨by simp only [List.range_zero, List.foldl_nil]; push_cast; omega,
      by simp only [List.range_zero, List.foldl_nil]; push_cast; omega, ?_, ?_⟩
    · intro i
      simp only [List.range_zero, List.foldl_nil]
      rw [if_neg (by push_cast; omega)]
    · intro i
      simp only [List.range_zero, List.foldl_nil]
      rw [if_neg (by push_cast; omega)]
  | succ m ih =>
    obtain ⟨i1, i2, i3, i4⟩ := ih (by push_cast at hm; omega)
    rw [List.range_succ, List.foldl_append, List.foldl_cons, List.foldl_nil]
    generalize (List.range m).foldl (indexStep wh) (ram0, rom0, 0, 0) = st at i1 i2 i3 i4 ⊢
    have hw := hwh (m : Int) (by omega) (by push_cast at hm; omega)
    unfold indexStep
    by_cases hTm : T ≤ (m : Int)
    · have hw' : wh (m : Int) = true := by rw [hw]; exact decide_eq_true hTm
      rw [if_pos hw']
      refine ⟨?_, ?_, ?_, ?_⟩
      · show iadd st.2.2.1 1 = _
        rw [i1, iadd_eq (by push_cast at hm; omega) (by push_cast at hm; omega)]
        push_cast
        omega
      · show st.2.2.2 = _
        rw [i2]
        push_cast
        omega
      · intro i
        show Function.update st.1 (m : Int) st.2.2.1 i = _
        by_cases him : i = (m : Int)
        · subst him
          rw [Function.update_same, i1, if_pos (by push_cast; omega)]
          omega
        · rw [Function.update_noteq him, i3]
          by_cases hc : T ≤ i ∧ i < (m : Int)
          · rw [if_pos hc, if_pos (by push_cast; omega)]
          · rw [if_neg hc, if_neg (by push_cast; omega)]
      · intro i
        show st.2.1 i = _
        rw [i4]
        by_cases hc : 0 ≤ i ∧ i < T ∧ i < (m : Int)
        · rw [if_pos hc, if_pos (by push_cast; omega)]
        · rw [if_neg hc, if_neg (by push_cast; omega)]
    · have hw' : ¬ wh (m : Int) = true := by
        rw [hw]
        simp only [decide_eq_true_eq]
        exact hTm
      rw [if_neg hw']
      refine ⟨?_, ?_, ?_, ?_⟩
      · show st.2.2.1 = _
        rw [i1]
        push_cast
        omega
      · show iadd st.2.2.2 1 = _
        rw [i2, iadd_eq (by push_cast at hm; omega) (by push_cast at hm; omega)]
        push_cast
        omega
      · intro i
        show st.1 i = _
        rw [i3]
        by_cases hc : T ≤ i ∧ i < (m : Int)
        · rw [if_pos hc, if_pos (by push_cast; omega)]
        · rw [if_neg hc, if_neg (by push_cast; omega)]
      · intro i
        show Function.update st.2.1 (m : Int) st.2.2.2 i = _
        by_cases him : i = (m : Int)
        · subst him
          rw [Function.update_same, i2, if_pos (by push_cast; omega)]
          omega
        · rw [Function.update_noteq him, i4]
          by_cases hc : 0 ≤ i ∧ i < T ∧ i < (m : Int)
          · rw [if_pos hc, if_pos (by push_cast; omega)]
          · rw [if_neg hc, if_neg (by push_cast; omega)]

/-- C38: for `1 ≤ C_ram ≤ C`, whatever `L` and the predicted traffic values are, the
multi-stage constructor marks as RAM exactly the slots `i` with `C - C_ram ≤ i < C`, which
are `C_ram` slots; the numbering loop then ends with `j = C_ram` and `k = C - C_ram`, gives
the RAM slot `i` the number `i - (C - C_ram)` in `indizes_ram` and the ROM slot `i` the
number `i` in `indizes_rom`, so both kinds are numbered from 0 in increasing slot order,
and it assigns no other entry of the two tables. -/
theorem multistage_ram_slots (wrest rrest : Int → Int → Int → Int) (st sn sn_ram : Int)
    (where0 : Int → Bool) (ram0 rom0 : Int → Int) (h1 : 1 ≤ sn_ram) (hram : sn_ram ≤ sn)
    (hsn : sn ≤ 2147483647) :
    (∀ i : Int, 0 ≤ i → i < sn →
      (multiStageWhere wrest rrest st sn sn_ram where0 i = true ↔ sn - sn_ram ≤ i)) ∧
    ((Finset.Ico 0 sn).filter
      (fun i => multiStageWhere wrest rrest st sn sn_ram where0 i = true)).card
        = sn_ram.toNat ∧
    (multiStageIndizes (multiStageWhere wrest rrest st sn sn_ram where0) sn ram0 rom0).2.2.1
      = sn_ram ∧
    (multiStageIndizes (multiStageWhere wrest rrest st sn sn_ram where0) sn ram0 rom0).2.2.2
      = sn - sn_ram ∧
    (∀ i : Int,
      (multiStageIndizes (multiStageWhere wrest rrest st sn sn_ram where0) sn ram0 rom0).1 i
        = if sn - sn_ram ≤ i ∧ i < sn then i - (sn - sn_ram) else ram0 i) ∧
    (∀ i : Int,
      (multiStageIndizes (multiStageWhere wrest rrest st sn sn_ram where0) sn ram0 rom0).2.1 i
        = if 0 ≤ i ∧ i < sn - sn_ram then i else rom0 i) := by
  have hwh : ∀ i : Int, 0 ≤ i → i < sn →
      multiStageWhere wrest rrest st sn sn_ram where0 i = decide (sn - sn_ram ≤ i) :=
    fun i h0 h => multiStageWhere_eq wrest rrest st sn sn_ram where0 h1 hram hsn i h0 h
  obtain ⟨k1, k2, k3, k4⟩ := indexLoop_spec (multiStageWhere wrest rrest st sn sn_ram where0)
    sn (sn - sn_ram) ram0 rom0 (by omega) hsn hwh sn.toNat
    (by rw [Int.toNat_of_nonneg (by omega)])
  rw [Int.toNat_of_nonneg (by omega)] at k1 k2 k3 k4
  refine ⟨?_, ?_, ?_, ?_, ?_, ?_⟩
  · intro i h0 h
    rw [hwh i h0 h, decide_eq_true_eq]
  · have e : (Finset.Ico 0 sn).filter
        (fun i => multiStageWhere wrest rrest st sn sn_ram where0 i = true)
          = Finset.Ico (sn - sn_ram) sn := by
      ext i
      simp only [Finset.mem_filter, Finset.mem_Ico]
      constructor
      · rintro ⟨⟨h0, h⟩, hw⟩
        rw [hwh i h0 h, decide_eq_true_eq] at hw
        exact ⟨hw, h⟩
      · rintro ⟨h0, h⟩
        refine ⟨⟨by omega, h⟩, ?_⟩
        rw [hwh i (by omega) h, decide_eq_true_eq]
        exact h0
    rw [e, Int.card_Ico]
    congr 1
    ring
  · unfold multiStageIndizes
    rw [k1]
    omega
  · unfold multiStageIndizes
    rw [k2]
    omega
  · intro i
    unfold multiStageIndizes
    rw [k3]
  · intro i
    unfold multiStageIndizes
    rw [k4]
    by_cases hc : 0 ≤ i ∧ i < sn - sn_ram
    · rw [if_pos hc, if_pos (by omega)]
    · rw [if_neg hc, if_neg (by omega)]

/-- Witness for C38: `Revolve(2, 3, 1)` marks slot 2 only; it is RAM slot 0, and the slots
0 and 1 are the ROM slots 0 and 1. -/
theorem multistage_ram_slots_witness :
    multiStageWhere (fun _ _ _ => 0) (fun _ _ _ => 0) 2 3 1 (fun _ => false) 2 = true ∧
    (multiStageIndizes (multiStageWhere (fun _ _ _ => 0) (fun _ _ _ => 0) 2 3 1
      (fun _ => false)) 3 (fun _ => 7) (fun _ => 7)).1 2 = 0 ∧
    (multiStageIndizes (multiStageWhere (fun _ _ _ => 0) (fun _ _ _ => 0) 2 3 1
      (fun _ => false)) 3 (fun _ => 7) (fun _ => 7)).2.1 1 = 1 ∧
    (multiStageIndizes (multiStageWhere (fun _ _ _ => 0) (fun _ _ _ => 0) 2 3 1
      (fun _ => false)) 3 (fun _ => 7) (fun _ => 7)).2.2.1 = 1 :=
  have key := multistage_ram_slots (fun _ _ _ => 0) (fun _ _ _ => 0) 2 3 1 (fun _ => false)
    (fun _ => 7) (fun _ => 7) (by decide) (by decide) (by decide)
  ⟨(key.1 2 (by decide) (by decide)).2 (by decide),
    (key.2.2.2.2.1 2).trans (by decide), (key.2.2.2.2.2 1).trans (by decide), key.2.2.1⟩

/-! ## `numforw` and the number of slots -/

/-- The expression `j * L - C(C + j, j - 1)`, of which `numforw(L, C)` is the value at the
repetition number, grows with `j` up to the repetition number. -/
theorem forw_le_at_reps (L C r : Int) (hC0 : 0 ≤ C)
    (hlow : ∀ j, 0 ≤ j → j < r → bz C j < L) (k : Nat) (j : Int) (hj0 : 0 ≤ j)
    (hjk : j + k = r) :
    j * L - bz (C + 1) (j - 1) ≤ r * L - bz (C + 1) (r - 1) := by
  induction k generalizing j with
  | zero =>
    have : j = r := by push_cast at hjk; omega
    subst this
    exact le_refl _
  | succ k ih =>
    have h1 := ih (j + 1) (by omega) (by push_cast at hjk ⊢; omega)
    have hlt := hlow j hj0 (by push_cast at hjk; omega)
    have hp := bz_pascal (C + 1) j (Or.inl (by omega))
    have e1 : C + 1 - 1 = C := by ring
    have e2 : j + 1 - 1 = j := by ring
    rw [e1] at hp
    rw [e2] at h1
    have : (j + 1) * L = j * L + L := by ring
    omega

/-- The value of `numforw` when no product overflows, with the division carried out. -/
theorem numforw_value (L C r : Int) (hC1 : 1 ≤ C) (hC : C ≤ 64) (hr0 : 0 ≤ r)
    (hr : r ≤ 64) (hup : L ≤ bz C r) (hlow : ∀ j, 0 ≤ j → j < r → bz C j < L)
    (hov : bz C r * r ≤ 2147483647) :
    numforw L C = some (r * L - bz (C + 1) (r - 1)) := by
  rw [(numforw_closed_form L C r hC1 hC hr0 hr hup hlow hov).2.1]
  congr 2
  rcases eq_or_lt_of_le hr0 with h | h
  · subst h
    rw [mul_zero, Int.zero_tdiv, bz_neg_right _ (by omega)]
  · have hid := bz_mul_cross (C + 1) (r - 1) (by omega) (by omega)
    have e1 : C + 1 - 1 = C := by ring
    have e2 : r - 1 + 1 = r := by ring
    rw [e1, e2] at hid
    rw [hid, Int.tdiv_eq_ediv (mul_nonneg (bz_nonneg _ _) (by omega)) (by omega)]
    exact Int.mul_ediv_cancel _ (by omega)

/-- C40: adding a slot never increases the predicted number of forward steps. For every
`L` and `1 ≤ C < 64`: when `r ≤ 64` is the repetition number of `(L, C)`, `r'` that of
`(L, C + 1)`, and the largest product formed in either call fits in an `int`, both calls
return a value and `numforw(L, C + 1) ≤ numforw(L, C)`; for `L ≤ 2^24` that is so whenever
the repetition number of `(L, C)` is at most 64; and `numforw(L, C) = L - 1` whenever
`C ≥ L - 1 ≥ 1` (here also for `C = 64`). -/
theorem numforw_mono_snaps (L C : Int) (hC1 : 1 ≤ C) :
    (C < 64 → ∀ r r' : Int, 0 ≤ r → r ≤ 64 → L ≤ bz C r → (∀ j, 0 ≤ j → j < r → bz C j < L) →
      bz C r * r ≤ 2147483647 → 0 ≤ r' → L ≤ bz (C + 1) r' →
      (∀ j, 0 ≤ j → j < r' → bz (C + 1) j < L) → bz (C + 1) r' * r' ≤ 2147483647 →
      ∃ a b, numforw L C = some a ∧ numforw L (C + 1) = some b ∧ b ≤ a ∧ 0 ≤ b) ∧
    (C < 64 → L ≤ 16777216 → L ≤ bz C 64 →
      ∃ a b, numforw L C = some a ∧ numforw L (C + 1) = some b ∧ b ≤ a ∧ 0 ≤ b) ∧
    (C ≤ 64 → 1 ≤ L - 1 → L - 1 ≤ C → numforw L C = some (L - 1)) := by
  have mono : ∀ r r' : Int, 0 ≤ r → L ≤ bz C r → (∀ j, 0 ≤ j → j < r → bz C j < L) →
      0 ≤ r' → (∀ j, 0 ≤ j → j < r' → bz (C + 1) j < L) →
      r' ≤ r ∧ r' * L - bz (C + 1 + 1) (r' - 1) ≤ r * L - bz (C + 1) (r - 1) := by
    intro r r' hr0 hup hlow hr'0 hlow'
    have hle : r' ≤ r := by
      by_contra hc
      have h1 := hlow' r hr0 (by omega)
      have h2 := bz_mono_left C r
      omega
    refine ⟨hle, ?_⟩
    have h1 := forw_le_at_reps L C r (by omega) hlow (r - r').toNat r' hr'0
      (by rw [Int.toNat_of_nonneg (by omega)]; ring)
    have h2 := bz_mono_left (C + 1) (r' - 1)
    omega
  refine ⟨?_, ?_, ?_⟩
  · intro hC r r' hr0 hr hup hlow hov hr'0 hup' hlow' hov'
    obtain ⟨hle, hm⟩ := mono r r' hr0 hup hlow hr'0 hlow'
    have ha := numforw_value L C r hC1 (by omega) hr0 hr hup hlow hov
    have hb := numforw_value L (C + 1) r' (by omega) (by omega) hr'0 (by omega) hup' hlow' hov'
    refine ⟨_, _, ha, hb, hm, ?_⟩
    have h0 := forw_le_at_reps L (C + 1) r' (by omega) hlow' r'.toNat 0 (le_refl 0)
      (by rw [Int.toNat_of_nonneg hr'0]; ring)
    rw [bz_neg_right _ (by omega : (0 : Int) - 1 < 0)] at h0
    omega
  · intro hC hL hr
    obtain ⟨r, hr0, hr64, hup, hlow, ha, -⟩ :=
      numforw_spec L C 64 hC1 (by omega) hL (by omega) (le_refl _) hr
    have hr' : L ≤ bz (C + 1) 64 := le_trans hr (bz_mono_left C 64)
    obtain ⟨r', hr'0, -, -, hlow', hb, hb0⟩ :=
      numforw_spec L (C + 1) 64 (by omega) (by omega) hL (by omega) (le_refl _) hr'
    exact ⟨_, _, ha, hb, (mono r r' hr0 hup hlow hr'0 hlow').2, hb0⟩
  · intro hC h1 h2
    have hb1 : bz C 1 = C + 1 := bz_one_right (by omega)
    have hb0 : bz C 0 = 1 := bz_zero_right (by omega)
    have := numforw_value L C 1 hC1 hC (by omega) (by omega) (by rw [hb1]; omega)
      (by
        intro j hj0 hj
        have : j = 0 := by omega
        subst this
        rw [hb0]
        omega)
      (by rw [hb1]; omega)
    rw [this]
    have e : (1 : Int) - 1 = 0 := by ring
    rw [e, bz_zero_right (by omega)]
    congr 1
    ring

/-- Witness for C40: `numforw(10, 3) = 15` and `numforw(10, 4) = 14`, and
`numforw(4, 3) = 3`. -/
theorem numforw_mono_snaps_witness :
    numforw 10 3 = some 15 ∧ numforw 10 4 = some 14 ∧ numforw 4 3 = some 3 ∧
      (∃ a b, numforw 10 3 = some a ∧ numforw 10 (3 + 1) = some b ∧ b ≤ a ∧ 0 ≤ b) ∧
      numforw 4 3 = some (4 - 1) :=
  ⟨by decide, by decide, by decide,
    (numforw_mono_snaps 10 3 (by decide)).2.1 (by decide) (by decide) (by decide),
    (numforw_mono_snaps 4 3 (by decide)).2.2 (by decide) (by decide) (by decide)⟩

/-! ## The level given by the `is_d` branch of `Moin::revolve` -/

/-- The loop of `Moin::get_lmin` over `l[2], ..., l[n+1]`, started with `l[1]`: the least
of `l[1], ..., l[n+1]`. -/
theorem lminLoop_spec (l : Int → Int) (n : Nat) :
    (∀ i : Int, 1 ≤ i → i < (n : Int) + 2 →
      (List.range n).foldl
        (fun (lmin : Int) (j : Nat) => if l ((j : Int) + 2) < lmin then l ((j : Int) + 2) else lmin)
        (l 1) ≤ l i) ∧
    ∃ i : Int, 1 ≤ i ∧ i < (n : Int) + 2 ∧
      l i = (List.range n).foldl
        (fun (lmin : Int) (j : Nat) => if l ((j : Int) + 2) < lmin then l ((j : Int) + 2) else lmin)
        (l 1) := by
  induction n with
  | zero =>
    refine ⟨?_, 1, le_refl 1, by norm_num, rfl⟩
    intro i h1 h2
    have : i = 1 := by push_cast at h2; omega
    subst this
    exact le_refl _
  | succ n ih =>
    obtain ⟨ih1, k, hk1, hk2, hk3⟩ := ih
    rw [List.range_succ, List.foldl_append, List.foldl_cons, List.foldl_nil]
    generalize (List.range n).foldl
      (fun (lmin : Int) (j : Nat) => if l ((j : Int) + 2) < lmin then l ((j : Int) + 2) else lmin)
      (l 1) = m at ih1 hk3 ⊢
    by_cases hlt : l ((n : Int) + 2) < m
    · rw [if_pos hlt]
      refine ⟨?_, (n : Int) + 2, by omega, by push_cast; omega, rfl⟩
      intro i h1 h2
      by_cases hi : i = (n : Int) + 2
      · rw [hi]
      · have := ih1 i h1 (by push_cast at h2; omega)
        omega
    · rw [if_neg hlt]
      refine ⟨?_, k, hk1, by push_cast; omega, hk3⟩
      intro i h1 h2
      by_cases hi : i = (n : Int) + 2
      · rw [hi]; omega
      · exact ih1 i h1 (by push_cast at h2; omega)

/-- The value of `Moin::get_lmin()` with at least two slots: the least of the levels
`l[1], ..., l[snaps-1]`, a level that is zero included. -/
theorem get_lmin_spec (s : Moin) (hsn : 2 ≤ s.snaps) :
    (∀ i : Int, 1 ≤ i → i < s.snaps → s.get_lmin ≤ s.l i) ∧
      ∃ i : Int, 1 ≤ i ∧ i < s.snaps ∧ s.l i = s.get_lmin := by
  have key := lminLoop_spec s.l (s.snaps - 2).toNat
  rw [Int.toNat_of_nonneg (by omega)] at key
  have e : s.snaps - 2 + 2 = s.snaps := by ring
  rw [e] at key
  exact key

/-- The loop of `Moin::adjust_cp(index)` does not assign `d[index]`. -/
theorem adjust_cp_self (s : Moin) (index : Int) : s.adjust_cp index index = s.d index := by
  unfold Moin.adjust_cp
  generalize s.d = g
  generalize List.range (isub s.snaps 1).toNat = xs
  induction xs generalizing g with
  | nil => rfl
  | cons x xs ih =>
    rw [List.foldl_cons, ih]
    split
    · rename_i hc
      exact Function.update_noteq (Ne.symm hc.1) _ _
    · rfl

/-- A cast of the scheduler the façade points to. -/
def Schedule.asMoin : Schedule → Option Moin
  | Schedule.moin s => some s
  | _ => none

/-- C33, as amended: in every state of `Moin` with at least two slots in which
`Moin::revolve` takes the `is_d` branch (`start` and `start1` cleared, `forward ≤ 0`, no
slot dispensable, `is_d` set), the call returns `takeshot`, the remembered slot
`index_old` receives `ch = capo`, `d = false` and the level `1 + lmin`, where `lmin` is the
value of `get_lmin()`: the least of the levels `l[1], ..., l[snaps-1]` before the call, a
level that is zero and the old level of `index_old` itself included. No other level
changes, `check` becomes `index_old` and `capo` stays. -/
theorem moin_is_d_level (index0 : Int) (s : Moin) (hsn : 2 ≤ s.snaps)
    (h1 : s.start = false) (h2 : s.start1 = false) (h3 : s.forward ≤ 0)
    (h4 : (s.is_dispensable index0).1 = false) (h5 : s.is_d = true) :
    (s.revolve index0).1 = Action.takeshot ∧
      (s.revolve index0).2.checkpoint.ch s.index_old = s.capo ∧
      (s.revolve index0).2.d s.index_old = false ∧
      (s.revolve index0).2.l s.index_old = iadd s.get_lmin 1 ∧
      (∀ i : Int, 1 ≤ i → i < s.snaps → s.get_lmin ≤ s.l i) ∧
      (∃ i : Int, 1 ≤ i ∧ i < s.snaps ∧ s.l i = s.get_lmin) ∧
      (∀ i : Int, i ≠ s.index_old → (s.revolve index0).2.l i = s.l i) ∧
      (s.revolve index0).2.check = s.index_old ∧ (s.revolve index0).2.capo = s.capo ∧
      (s.revolve index0).2.is_d = false := by
  obtain ⟨g1, g2⟩ := get_lmin_spec s hsn
  have hd : (Moin.is_dispensable
      { s with checkpoint := { s.checkpoint with commands := iadd s.checkpoint.commands 1 } }
      index0).1 = false := h4
  unfold Moin.revolve
  simp only []
  rw [if_neg (by rw [h1]; exact Bool.false_ne_true),
    if_neg (by rw [h2]; exact Bool.false_ne_true), if_neg (by omega)]
  generalize Moin.is_dispensable _ index0 = p at hd
  obtain ⟨dis, index⟩ := p
  simp only [] at hd ⊢
  subst hd
  rw [if_neg Bool.false_ne_true, if_pos h5]
  refine ⟨rfl, ?_, ?_, ?_, g1, g2, ?_, rfl, rfl, rfl⟩
  · show Function.update s.checkpoint.ch s.index_old s.capo s.index_old = s.capo
    rw [Function.update_same]
  · show Moin.adjust_cp _ s.index_old s.index_old = false
    rw [adjust_cp_self]
    show Function.update s.d s.index_old false s.index_old = false
    rw [Function.update_same]
  · show Function.update s.l s.index_old (iadd s.get_lmin 1) s.index_old = _
    rw [Function.update_same]
  · intro i hi
    show Function.update s.l s.index_old (iadd s.get_lmin 1) i = _
    rw [Function.update_noteq hi]

/-- A state of `Moin` for concrete runs: 4 slots, `capo = 39`, `is_d` set, `index_old = 1`,
levels `l[2] = 3` and 0 elsewhere, no slot marked dispensable. -/
def Moin.sample : Moin :=
  { Moin.zero with
    snaps := 4
    capo := 39
    is_d := true
    index_old := 1
    l := fun i => if i = 2 then 3 else 0 }

/-- Witness for C33, as amended: a state with 4 slots, levels `l[1] = 0`, `l[2] = 3`,
`l[3] = 0`, `index_old = 1` and `capo = 39`; the call gives slot 1 the level 1. -/
theorem moin_is_d_level_witness :
    (Moin.sample.revolve 0).1 = Action.takeshot ∧
    (Moin.sample.revolve 0).2.checkpoint.ch 1 = 39 ∧
    (Moin.sample.revolve 0).2.l 1 = 1 :=
  have key := moin_is_d_level 0
    Moin.sample
    (by decide) rfl rfl (by decide) (by decide) rfl
  ⟨key.1, key.2.1, key.2.2.2.1.trans (by decide)⟩

set_option maxRecDepth 10000000 in
/-- C33, counterexample: the online façade with 4 slots is in `Moin` after 43 calls, with
levels `l[1] = 0`, `l[2] = 3`, `l[3] = 0`, no slot dispensable, `is_d` set, `index_old = 1`
and `capo = 39`. The 44th call takes the `is_d` branch: slot 1 receives `ch = 39` and the
level 1, that is 1 + the least of all three levels. The least level among the slots with
a non-zero level is 3, so the level would have to be 4. -/
theorem moin_level_counterexample :
    ∃ s, Drive.run World.zero 43 (Drive.init 4) = some s ∧
      ∃ m, s.r.f.asMoin = some m ∧
        m.snaps = 4 ∧ m.start = false ∧ m.start1 = false ∧ m.forward = 0 ∧ m.is_d = true ∧
        (m.is_dispensable 0).1 = false ∧ m.index_old = 1 ∧ m.capo = 39 ∧
        m.l 1 = 0 ∧ m.l 2 = 3 ∧ m.l 3 = 0 ∧
        (m.revolve 0).1 = Action.takeshot ∧ (m.revolve 0).2.checkpoint.ch 1 = 39 ∧
        (m.revolve 0).2.d 1 = false ∧ (m.revolve 0).2.l 1 = 1 ∧
        (m.revolve 0).2.l 1 ≠ 1 + m.l 2 := by
  decide!

/-! ## The C function `revolve` and the method `Offline::revolve` -/

/-- The relation between the variables of the C function and the members of the C++
scheduler during a run: the arguments agree with the members, `check` is not below -1
and below `snaps`, an `int` that is at least 1, the C caller asked for no output (`info ≤ 0`), with
`check = -1` the scheduler stands at step 0, and once a slot is written the statics
`turn`, `oldfine`, `oldsnaps` and the slots `ch[0 .. check]` agree with the members, with
`ch[0] = 0`. -/
structure Sim (s : CState) (o : Offline) : Prop where
  check : s.check = o.check
  capo : s.capo = o.capo
  fine : s.fine = o.fine
  snaps : s.snaps = o.snaps
  offline : o.online = false
  check_ge : -1 ≤ o.check
  check_lt : o.check < o.snaps
  snaps_le : o.snaps ≤ 2147483647
  snaps_ge : 1 ≤ o.snaps
  info : s.info ≤ 0
  fresh : o.check = -1 → o.capo = 0
  turn : 0 ≤ o.check → s.turn = o.turn
  oldfine : 0 ≤ o.check → s.oldfine = o.oldfine
  oldsnaps : 0 ≤ o.check → s.oldsnaps = o.oldsnaps
  ch : ∀ i, 0 ≤ i → i ≤ o.check → s.ch i = o.checkpoint.ch i
  bottom : 0 ≤ o.check → o.checkpoint.ch 0 = 0

/-- The state in which the C function reaches its `switch`. -/
def CState.entered (s : CState) : CState :=
  let s : CState := { s with commands := iadd s.commands 1 }
  if s.check = -1 ∧ s.capo < s.fine then
    { s with turn := 0, ch := Function.update s.ch 0 (isub s.capo 1) }
  else s

theorem c_revolve_entered (s : CState) (hn : ¬ (s.check < -1 ∨ s.capo > s.fine)) :
    s.revolve =
      (if isub s.entered.fine s.entered.capo = 0 then
        if s.entered.check = -1 ∨ s.entered.capo = s.entered.ch 0 then
          some (Action.terminate, { s.entered with check := isub s.entered.check 1 })
        else some (Action.restore,
          { s.entered with capo := s.entered.ch s.entered.check, oldfine := s.entered.fine })
      else if isub s.entered.fine s.entered.capo = 1 then
        (if s.entered.turn = 0 then
          some (Action.firsturn,
            { s.entered with
              fine := isub s.entered.fine 1
              check := if s.entered.check ≥ 0 ∧ s.entered.ch s.entered.check = s.entered.capo
                then isub s.entered.check 1 else s.entered.check
              turn := 1
              oldfine := isub s.entered.fine 1 })
        else some (Action.youturn,
            { s.entered with
              fine := isub s.entered.fine 1
              check := if s.entered.check ≥ 0 ∧ s.entered.ch s.entered.check = s.entered.capo
                then isub s.entered.check 1 else s.entered.check
              oldfine := isub s.entered.fine 1 }))
      else if s.entered.check = -1 ∨ s.entered.ch s.entered.check ≠ s.entered.capo
        then s.entered.shot
      else s.entered.adv) := by
  unfold CState.revolve CState.entered
  simp only []
  rw [if_neg hn]

/-- The entered states are related: the slots agree up to `check`, and when `check = -1`
both have just cleared `turn` and written `ch[0]`. -/
structure SimE (s : CState) (o : Offline) : Prop where
  check : s.check = o.check
  capo : s.capo = o.capo
  fine : s.fine = o.fine
  snaps : s.snaps = o.snaps
  offline : o.online = false
  check_ge : -1 ≤ o.check
  check_lt : o.check < o.snaps
  snaps_le : o.snaps ≤ 2147483647
  snaps_ge : 1 ≤ o.snaps
  info : s.info ≤ 0
  fresh : o.check = -1 → o.capo = 0
  turn : 0 ≤ o.check ∨ o.capo < o.fine → s.turn = o.turn
  oldfine : 0 ≤ o.check → s.oldfine = o.oldfine
  oldsnaps : 0 ≤ o.check → s.oldsnaps = o.oldsnaps
  ch : ∀ i, 0 ≤ i → i ≤ o.check → s.ch i = o.checkpoint.ch i
  bottom : 0 ≤ o.check → o.checkpoint.ch 0 = 0
  capo_le : o.capo ≤ o.fine

theorem sim_entered (s : CState) (o : Offline) (h : Sim s o)
    (hn : ¬ (o.check < -1 ∨ o.capo > o.fine)) : SimE s.entered o.entered := by
  unfold CState.entered Offline.entered
  simp only []
  by_cases hc : o.check = -1 ∧ o.capo < o.fine
  · have hc' : s.check = -1 ∧ s.capo < s.fine := by rw [h.check, h.capo, h.fine]; exact hc
    rw [if_pos hc, if_pos hc']
    exact
      { check := h.check, capo := h.capo, fine := h.fine, snaps := h.snaps
        offline := h.offline, check_ge := h.check_ge, check_lt := h.check_lt, snaps_le := h.snaps_le
        snaps_ge := h.snaps_ge, info := h.info, fresh := h.fresh
        turn := fun _ => rfl
        oldfine := fun h0 => by
          have : o.check = -1 := hc.1
          have h0' : 0 ≤ o.check := h0
          omega
        oldsnaps := fun h0 => by
          have : o.check = -1 := hc.1
          have h0' : 0 ≤ o.check := h0
          omega
        ch := fun i h0 h1 => by
          have : o.check = -1 := hc.1
          have h1' : i ≤ o.check := h1
          omega
        bottom := fun h0 => by
          have : o.check = -1 := hc.1
          have h0' : 0 ≤ o.check := h0
          omega
        capo_le := by
          show o.capo ≤ o.fine
          omega }
  · have hc' : ¬ (s.check = -1 ∧ s.capo < s.fine) := by
      rw [h.check, h.capo, h.fine]; exact hc
    rw [if_neg hc, if_neg hc']
    exact
      { check := h.check, capo := h.capo, fine := h.fine, snaps := h.snaps
        offline := h.offline, check_ge := h.check_ge, check_lt := h.check_lt, snaps_le := h.snaps_le
        snaps_ge := h.snaps_ge, info := h.info, fresh := h.fresh
        turn := fun h0 => by
          show s.turn = o.turn
          have h0' : 0 ≤ o.check ∨ o.capo < o.fine := h0
          have := h.check_ge
          exact h.turn (by omega)
        oldfine := h.oldfine, oldsnaps := h.oldsnaps, ch := h.ch, bottom := h.bottom
        capo_le := by
          show o.capo ≤ o.fine
          omega }

/-- The advance branches of the C function and of the C++ method do the same. -/
theorem adv_sim (s : CState) (o o' : Offline) (a : Action) (h : SimE s o) (hck : 0 ≤ o.check)
    (ho : o.adv = some (a, o')) (ha : a ≠ Action.error) :
    ∃ s', s.adv = some (a, s') ∧ Sim s' o' := by
  have hon := h.offline
  have e1 := h.check
  have e2 := h.capo
  have e3 := h.fine
  have e4 := h.snaps
  have e5 := h.oldfine hck
  have e6 := h.oldsnaps hck
  unfold Offline.adv at ho
  unfold CState.adv
  simp only [e1, e2, e3, e4, e5, e6, hon, Bool.false_eq_true, if_false] at ho ⊢
  split at ho
  · simp only [Option.some.injEq, Prod.mk.injEq] at ho
    exact absurd ho.1.symm ha
  · rename_i h13
    rw [if_neg h13]
    split at ho
    · simp only [Option.some.injEq, Prod.mk.injEq] at ho
      exact absurd ho.1.symm ha
    · rename_i hds
      rw [if_neg hds]
      split at ho
      · cases ho
      · rename_i reps range hloop
        split at ho
        · simp only [Option.some.injEq, Prod.mk.injEq] at ho
          exact absurd ho.1.symm ha
        · rename_i hreps
          rw [if_neg hreps]
          split at ho
          · simp only [Option.some.injEq, Prod.mk.injEq] at ho
            exact absurd ho.1.symm ha
          · rename_i h14
            rw [if_neg h14]
            simp only [Option.some.injEq, Prod.mk.injEq] at ho
            obtain ⟨rfl, rfl⟩ := ho
            refine ⟨_, rfl, ?_⟩
            exact
              { check := rfl, capo := rfl, fine := rfl, snaps := rfl, offline := rfl
                check_ge := h.check_ge, check_lt := h.check_lt, snaps_le := h.snaps_le
                snaps_ge := h.snaps_ge, info := h.info
                fresh := fun hc => by
                  have hc' : o.check = -1 := hc
                  omega
                turn := fun _ => h.turn (Or.inl hck)
                oldfine := fun _ => rfl
                oldsnaps := fun _ => rfl
                ch := h.ch
                bottom := h.bottom }

/-- A later takeshot: the C function and the C++ method do the same. -/
theorem shot_sim (s : CState) (o o' : Offline) (a : Action) (h : SimE s o) (hck : 0 ≤ o.check)
    (ho : o.shot = some (a, o')) (ha : a ≠ Action.error) :
    ∃ s', s.shot = some (a, s') ∧ Sim s' o' := by
  have hon := h.offline
  have e1 := h.check
  have e2 := h.capo
  have e3 := h.fine
  have e4 := h.snaps
  have hlt := h.check_lt
  have hsn := h.snaps_le
  have ec : iadd o.check 1 = o.check + 1 := iadd_eq (by omega) (by omega)
  unfold Offline.shot at ho
  unfold CState.shot
  simp only [e1, e2, e3, e4, hon, ec, Bool.false_eq_true, if_false] at ho ⊢
  split at ho
  · simp only [Option.some.injEq, Prod.mk.injEq] at ho
    exact absurd ho.1.symm ha
  · rename_i h10
    rw [if_neg h10]
    split at ho
    · simp only [Option.some.injEq, Prod.mk.injEq] at ho
      exact absurd ho.1.symm ha
    · rename_i h11
      rw [if_neg h11, if_neg (by omega : ¬ o.check + 1 = 0)]
      simp only [Option.some.injEq, Prod.mk.injEq] at ho
      obtain ⟨rfl, rfl⟩ := ho
      refine ⟨_, rfl, ?_⟩
      have h11' : ¬ iadd (o.check + 1) 1 > o.snaps := h11
      have h10' : ¬ o.check + 1 ≥ 64 := h10
      have ec2 : iadd (o.check + 1) 1 = o.check + 1 + 1 := iadd_eq (by omega) (by omega)
      rw [ec2] at h11'
      exact
        { check := rfl, capo := rfl, fine := rfl, snaps := rfl, offline := rfl
          check_ge := by show -1 ≤ o.check + 1; omega
          check_lt := by show o.check + 1 < o.snaps; omega
          snaps_le := h.snaps_le
          snaps_ge := h.snaps_ge, info := h.info
          fresh := fun hc => by
            have hc' : o.check + 1 = -1 := hc
            omega
          turn := fun _ => h.turn (Or.inl hck)
          oldfine := fun _ => rfl
          oldsnaps := fun _ => h.oldsnaps hck
          ch := fun i h0 h1 => by
            have h1' : i ≤ o.check + 1 := h1
            show Function.update s.ch (o.check + 1) o.capo i
              = Function.update o.checkpoint.ch (o.check + 1) o.capo i
            by_cases hi : i = o.check + 1
            · rw [hi, Function.update_same, Function.update_same]
            · rw [Function.update_noteq hi, Function.update_noteq hi]
              exact h.ch i h0 (by omega)
          bottom := fun _ => by
            show Function.update o.checkpoint.ch (o.check + 1) o.capo 0 = 0
            rw [Function.update_noteq (by omega)]
            exact h.bottom hck }

/-- The first takeshot: the C function, called with `info ≤ 0`, returns `takeshot`
whenever the C++ method does, and both leave the same state. -/
theorem initshot_sim (s : CState) (o o' : Offline) (a : Action) (h : SimE s o)
    (hck : o.check = -1) (hlt : o.capo < o.fine) (ho : o.initshot = some (a, o'))
    (ha : a ≠ Action.error) :
    ∃ s', s.shot = some (a, s') ∧ Sim s' o' := by
  have e1 := h.check
  have e2 := h.capo
  have e3 := h.fine
  have e4 := h.snaps
  have hcap := h.fresh hck
  have hsn1 := h.snaps_ge
  have hinfo : ¬ s.info > 0 := by have := h.info; omega
  have ec : iadd (-1) 1 = 0 := by decide
  have ec1 : iadd 0 1 = 1 := by decide
  unfold Offline.initshot at ho
  unfold CState.shot
  simp only [e1, e2, e3, e4, hck, ec, ec1] at ho ⊢
  rw [if_neg (by unfold checkup; omega), if_neg (by omega)]
  simp only [if_true]
  split at ho
  · simp only [Option.some.injEq, Prod.mk.injEq] at ho
    exact absurd ho.1.symm ha
  · rename_i h14
    rw [if_neg h14, if_neg hinfo]
    have key : a = Action.takeshot ∧ o' =
        { o with
          checkpoint := { o.checkpoint with
            ch := Function.update o.checkpoint.ch 0 0
            number_of_writes := Function.update o.checkpoint.number_of_writes 0
              (iadd (o.checkpoint.number_of_writes 0) 1)
            takeshots := iadd o.checkpoint.takeshots 1 }
          check := 0
          oldsnaps := o.snaps
          oldfine := o.fine } := by
      split at ho
      · split at ho
        · cases ho
        · split at ho
          · simp only [Option.some.injEq, Prod.mk.injEq] at ho
            exact absurd ho.1.symm ha
          · simp only [Option.some.injEq, Prod.mk.injEq] at ho
            exact ⟨ho.1.symm, ho.2.symm⟩
      · simp only [Option.some.injEq, Prod.mk.injEq] at ho
        exact ⟨ho.1.symm, ho.2.symm⟩
    obtain ⟨rfl, rfl⟩ := key
    refine ⟨_, rfl, ?_⟩
    exact
      { check := rfl, capo := rfl, fine := rfl, snaps := rfl
        offline := h.offline
        check_ge := by show (-1 : Int) ≤ 0; omega
        check_lt := by show (0 : Int) < o.snaps; omega
        snaps_le := h.snaps_le
        snaps_ge := h.snaps_ge, info := h.info
        fresh := fun hc => by
          have hc' : (0 : Int) = -1 := hc
          omega
        turn := fun _ => h.turn (Or.inr hlt)
        oldfine := fun _ => rfl
        oldsnaps := fun _ => rfl
        ch := fun i h0 h1 => by
          have h1' : i ≤ 0 := h1
          have hi : i = 0 := by omega
          subst hi
          show Function.update s.ch 0 o.capo 0 = Function.update o.checkpoint.ch 0 0 0
          rw [Function.update_same, Function.update_same]
          exact hcap
        bottom := fun _ => by
          show Function.update o.checkpoint.ch 0 0 0 = 0
          rw [Function.update_same] }

/-- One call: from related states the C function returns the action the C++ method
returns, unless that is `error`, with the same `capo` and `fine`; the states are related
again unless the action is `terminate`. -/
theorem step_sim (s : CState) (o o' : Offline) (a : Action) (h : Sim s o)
    (ho : o.revolve = some (a, o')) (ha : a ≠ Action.error) :
    ∃ s', s.revolve = some (a, s') ∧ s'.capo = o'.capo ∧ s'.fine = o'.fine ∧
      (a ≠ Action.terminate → Sim s' o') := by
  by_cases hn : o.check < -1 ∨ o.capo > o.fine
  · rw [revolve_gate o hn] at ho
    simp only [Option.some.injEq, Prod.mk.injEq] at ho
    exact absurd ho.1.symm ha
  have hn' : ¬ (s.check < -1 ∨ s.capo > s.fine) := by
    rw [h.check, h.capo, h.fine]; exact hn
  have hE := sim_entered s o h hn
  rw [revolve_entered o hn] at ho
  rw [c_revolve_entered s hn']
  generalize s.entered = es at hE ⊢
  generalize o.entered = eo at hE ho
  have e1 := hE.check
  have e2 := hE.capo
  have e3 := hE.fine
  have hle := hE.capo_le
  have hge := hE.check_ge
  rw [e1, e2, e3]
  by_cases h0 : isub eo.fine eo.capo = 0
  · rw [if_pos h0] at ho ⊢
    unfold Offline.case0 at ho
    by_cases hck : eo.check = -1
    · rw [if_pos (Or.inl hck)] at ho
      rw [if_pos (Or.inl hck)]
      simp only [Option.some.injEq, Prod.mk.injEq] at ho
      obtain ⟨rfl, rfl⟩ := ho
      exact ⟨_, rfl, e2, e3, fun hc => absurd rfl hc⟩
    · have hck0 : 0 ≤ eo.check := by omega
      have ech0 : es.ch 0 = eo.checkpoint.ch 0 := hE.ch 0 (le_refl 0) hck0
      rw [ech0]
      by_cases hc0 : eo.capo = eo.checkpoint.ch 0
      · rw [if_pos (Or.inr hc0)] at ho
        rw [if_pos (Or.inr hc0)]
        simp only [Option.some.injEq, Prod.mk.injEq] at ho
        obtain ⟨rfl, rfl⟩ := ho
        exact ⟨_, rfl, e2, e3, fun hc => absurd rfl hc⟩
      · have hnot : ¬ (eo.check = -1 ∨ eo.capo = eo.checkpoint.ch 0) := by
          intro hc
          rcases hc with hc | hc
          · exact hck hc
          · exact hc0 hc
        rw [if_neg hnot] at ho
        rw [if_neg hnot]
        simp only [hE.offline, Bool.false_eq_true, if_false, Option.some.injEq,
          Prod.mk.injEq] at ho
        obtain ⟨rfl, rfl⟩ := ho
        have ech : es.ch eo.check = eo.checkpoint.ch eo.check := hE.ch _ hck0 (le_refl _)
        refine ⟨_, rfl, ech, e3, fun _ => ?_⟩
        exact
          { check := e1, capo := ech, fine := e3, snaps := hE.snaps, offline := rfl
            check_ge := hE.check_ge, check_lt := hE.check_lt, snaps_le := hE.snaps_le
            snaps_ge := hE.snaps_ge, info := hE.info
            fresh := fun hc => absurd hc hck
            turn := fun _ => hE.turn (Or.inl hck0)
            oldfine := fun _ => rfl
            oldsnaps := hE.oldsnaps
            ch := hE.ch
            bottom := hE.bottom }
  · rw [if_neg h0] at ho ⊢
    have hlt : eo.capo < eo.fine := by
      rcases lt_or_eq_of_le hle with hc | hc
      · exact hc
      · exfalso
        apply h0
        rw [hc]
        show wrap (eo.fine - eo.fine) = 0
        rw [sub_self]
        decide
    have eturn : es.turn = eo.turn := hE.turn (Or.inr hlt)
    by_cases h1 : isub eo.fine eo.capo = 1
    · rw [if_pos h1] at ho ⊢
      unfold Offline.case1 at ho
      simp only [] at ho
      have econd : (eo.check ≥ 0 ∧ es.ch eo.check = eo.capo)
          ↔ (eo.check ≥ 0 ∧ eo.checkpoint.ch eo.check = eo.capo) := by
        constructor
        · rintro ⟨c1, c2⟩
          exact ⟨c1, by rw [← hE.ch _ c1 (le_refl _)]; exact c2⟩
        · rintro ⟨c1, c2⟩
          exact ⟨c1, by rw [hE.ch _ c1 (le_refl _)]; exact c2⟩
      have echeck : (if eo.check ≥ 0 ∧ es.ch eo.check = eo.capo then isub eo.check 1
          else eo.check)
          = (if eo.check ≥ 0 ∧ eo.checkpoint.ch eo.check = eo.capo then isub eo.check 1
            else eo.check) := by
        by_cases hc : eo.check ≥ 0 ∧ eo.checkpoint.ch eo.check = eo.capo
        · rw [if_pos hc, if_pos (econd.mpr hc)]
        · rw [if_neg hc, if_neg (fun hx => hc (econd.mp hx))]
      rw [eturn, echeck]
      have hlt' := hE.check_lt
      have hsn' := hE.snaps_le
      have key : ∀ (t1 t2 : Int), Sim
          { es with
            fine := isub eo.fine 1
            check := if eo.check ≥ 0 ∧ eo.checkpoint.ch eo.check = eo.capo
              then isub eo.check 1 else eo.check
            turn := t1
            oldfine := isub eo.fine 1 }
          { eo with
            fine := isub eo.fine 1
            check := if eo.check ≥ 0 ∧ eo.checkpoint.ch eo.check = eo.capo
              then isub eo.check 1 else eo.check
            turn := t1
            oldfine := isub eo.fine 1 } := by
        intro t1 _
        have hchk : ∀ c : Int, c = (if eo.check ≥ 0 ∧ eo.checkpoint.ch eo.check = eo.capo
            then isub eo.check 1 else eo.check) →
            -1 ≤ c ∧ c ≤ eo.check ∧ (c = -1 → eo.capo = 0) := by
          intro c hc
          by_cases hcond : eo.check ≥ 0 ∧ eo.checkpoint.ch eo.check = eo.capo
          · rw [if_pos hcond, isub_eq (by omega) (by omega)] at hc
            refine ⟨by omega, by omega, fun hm => ?_⟩
            have : eo.check = 0 := by omega
            rw [← hcond.2, this]
            exact hE.bottom (by omega)
          · rw [if_neg hcond] at hc
            exact ⟨by omega, by omega, fun hm => hE.fresh (by omega)⟩
        obtain ⟨c1, c2, c3⟩ := hchk _ rfl
        exact
          { check := rfl, capo := e2, fine := rfl, snaps := hE.snaps, offline := hE.offline
            check_ge := c1
            check_lt := lt_of_le_of_lt c2 hE.check_lt
            snaps_le := hE.snaps_le
            snaps_ge := hE.snaps_ge, info := hE.info
            fresh := c3
            turn := fun _ => rfl
            oldfine := fun _ => rfl
            oldsnaps := fun hc => hE.oldsnaps (le_trans hc c2)
            ch := fun i hi0 hi => hE.ch i hi0 (le_trans hi c2)
            bottom := fun hc => hE.bottom (le_trans hc c2) }
      by_cases ht : eo.turn = 0
      · rw [if_pos ht] at ho ⊢
        simp only [Option.some.injEq, Prod.mk.injEq] at ho
        obtain ⟨rfl, rfl⟩ := ho
        exact ⟨_, rfl, e2, rfl, fun _ => key 1 0⟩
      · rw [if_neg ht] at ho ⊢
        simp only [Option.some.injEq, Prod.mk.injEq] at ho
        obtain ⟨rfl, rfl⟩ := ho
        refine ⟨_, rfl, e2, rfl, fun _ => ?_⟩
        have := key eo.turn 0
        rw [← eturn] at this ⊢
        exact this
    · rw [if_neg h1] at ho ⊢
      by_cases hck : eo.check = -1
      · rw [if_pos hck] at ho
        rw [if_pos (Or.inl hck)]
        obtain ⟨s', hs', hS⟩ := initshot_sim es eo o' a hE hck hlt ho ha
        exact ⟨s', hs', hS.capo, hS.fine, fun _ => hS⟩
      · rw [if_neg hck] at ho
        have hck0 : 0 ≤ eo.check := by omega
        have ech : es.ch eo.check = eo.checkpoint.ch eo.check := hE.ch _ hck0 (le_refl _)
        rw [ech]
        by_cases hne : eo.checkpoint.ch eo.check ≠ eo.capo
        · rw [if_pos hne] at ho
          rw [if_pos (Or.inr hne)]
          obtain ⟨s', hs', hS⟩ := shot_sim es eo o' a hE hck0 ho ha
          exact ⟨s', hs', hS.capo, hS.fine, fun _ => hS⟩
        · rw [if_neg hne] at ho
          rw [if_neg (by
            intro hc
            rcases hc with hc | hc
            · exact hck hc
            · exact hne hc)]
          obtain ⟨s', hs', hS⟩ := adv_sim es eo o' a hE hck0 ho ha
          exact ⟨s', hs', hS.capo, hS.fine, fun _ => hS⟩

/-- The C function called `n` times by a host that leaves `check`, `capo`, `fine` and
`info` to it: the actions returned and the variables afterwards; `none` when a loop has
not ended. -/
def CState.run : Nat → CState → Option (List Action × CState)
  | 0, s => some ([], s)
  | n + 1, s =>
    match CState.run n s with
    | none => none
    | some (acts, t) =>
      match t.revolve with
      | none => none
      | some (a, u) => some (acts ++ [a], u)

/-- The variables before the first call of the C function: `check = -1`, `capo = 0`,
`fine = L`, `snaps = C`, `info = 0`; the statics and counters are those of `raw`. -/
def CState.init (L C : Int) (raw : CState) : CState :=
  { raw with check := -1, capo := 0, fine := L, snaps := C, info := 0 }

/-- Variables of the C function that are all zero, for concrete runs. -/
def CState.zero : CState :=
  { check := 0, capo := 0, fine := 0, snaps := 0, info := 0, turn := 0, oldsnaps := 0,
    oldfine := 0, ch := fun _ => 0, advances := 0, takeshots := 0, commands := 0 }

theorem sim_init (L C : Int) (hC1 : 1 ≤ C) (hC : C ≤ 64) (c : Checkpoint)
    (turn oldfine oldsnaps : Int) (num_ch : Int → Int) (raw : CState) :
    Sim (CState.init L C raw) (Sys.init L C c turn oldfine oldsnaps num_ch).o where
  check := rfl
  capo := rfl
  fine := rfl
  snaps := rfl
  offline := rfl
  check_ge := by show (-1 : Int) ≤ -1; omega
  check_lt := by show (-1 : Int) < C; omega
  snaps_le := by show C ≤ 2147483647; omega
  snaps_ge := hC1
  info := by show (0 : Int) ≤ 0; omega
  fresh := fun _ => rfl
  turn := fun h => by have h' : (0 : Int) ≤ -1 := h; omega
  oldfine := fun h => by have h' : (0 : Int) ≤ -1 := h; omega
  oldsnaps := fun h => by have h' : (0 : Int) ≤ -1 := h; omega
  ch := fun i h0 h => by have h' : i ≤ (-1 : Int) := h; omega
  bottom := fun h => by have h' : (0 : Int) ≤ -1 := h; omega

/-- The two runs side by side, as long as the C++ run has not returned `terminate`. -/
theorem sim_run (L C : Int) (hL0 : 0 ≤ L) (hL : L ≤ 16777216) (hC1 : 1 ≤ C) (hC : C ≤ 64)
    (hr : L ≤ bz C 64) (c : Checkpoint) (turn oldfine oldsnaps : Int) (num_ch : Int → Int)
    (raw : CState) (n : Nat) :
    ∃ t, Sys.run n (Sys.init L C c turn oldfine oldsnaps num_ch) = some t ∧
      (Action.terminate ∉ t.h.acts.dropLast →
        ∃ s, CState.run n (CState.init L C raw) = some (t.h.acts, s) ∧
          s.capo = t.o.capo ∧ s.fine = t.o.fine ∧
          (Action.terminate ∉ t.h.acts → Sim s t.o)) := by
  induction n with
  | zero =>
    refine ⟨_, rfl, fun _ => ⟨_, rfl, rfl, rfl, fun _ => ?_⟩⟩
    exact sim_init L C hC1 hC c turn oldfine oldsnaps num_ch raw
  | succ n ih =>
    obtain ⟨t, ht, ih⟩ := ih
    obtain ⟨t', ht', hS⟩ :=
      offline_states L C hL0 hL hC1 hC hr c turn oldfine oldsnaps num_ch (n + 1)
    refine ⟨t', ht', ?_⟩
    rw [run_add n 1 _ t ht] at ht'
    cases hrev : t.o.revolve with
    | none =>
      simp only [Sys.run, Sys.step, hrev] at ht'
      cases ht'
    | some p =>
      obtain ⟨a, o'⟩ := p
      simp only [Sys.run, Sys.step, hrev, Option.some.injEq] at ht'
      subst ht'
      have hacts : (t.h.react a o').acts = t.h.acts ++ [a] := react_acts _ _ _
      intro hno
      have hno' : Action.terminate ∉ t.h.acts := by
        have : (t.h.acts ++ [a]).dropLast = t.h.acts := List.dropLast_concat
        show Action.terminate ∉ t.h.acts
        rw [← this, ← hacts]
        exact hno
      obtain ⟨s, hs, -, -, hsim⟩ := ih (fun hm => hno' (List.mem_of_mem_dropLast hm))
      have ha : a ≠ Action.error := by
        intro hc
        apply hS.noerr
        show Action.error ∈ (t.h.react a o').acts
        rw [hacts, hc]
        simp
      obtain ⟨s', hs', e1, e2, hS'⟩ := step_sim s t.o o' a (hsim hno') hrev ha
      refine ⟨s', ?_, e1, e2, ?_⟩
      · show CState.run (n + 1) _ = some ((t.h.react a o').acts, s')
        rw [hacts]
        simp only [CState.run, hs, hs']
      · intro hnt
        apply hS'
        intro hc
        apply hnt
        show Action.terminate ∈ (t.h.react a o').acts
        rw [hacts, hc]
        simp

/-- C37: for `0 ≤ L ≤ 2^24`, `1 ≤ C ≤ 64` and repetition number at most 64, the C function
`revolve` of `src.c`, driven from `check = -1`, `capo = 0`, `fine = L` with `snaps = C` and
`info = 0`, and the C++ method `Offline::revolve`, driven from construction with `(L, C)`,
return the same actions call by call up to and including the first `terminate`, which
is returned by call `N + 1`, and after each of these calls `capo` and `fine` are the same
in both. The contents of the store, of the statics of the C function and of the members
the C++ constructor leaves unassigned are arbitrary. -/
theorem c_and_cpp_agree (L C : Int) (hL0 : 0 ≤ L) (hL : L ≤ 16777216) (hC1 : 1 ≤ C)
    (hC : C ≤ 64) (hr : L ≤ bz C 64) (c : Checkpoint) (turn oldfine oldsnaps : Int)
    (num_ch : Int → Int) (raw : CState) :
    ∃ N : Nat,
      (∃ t, Sys.run (N + 1) (Sys.init L C c turn oldfine oldsnaps num_ch) = some t ∧
        t.h.acts.getLast? = some Action.terminate ∧
        Action.terminate ∉ t.h.acts.dropLast) ∧
      ∀ n, n ≤ N + 1 →
        ∃ t s, Sys.run n (Sys.init L C c turn oldfine oldsnaps num_ch) = some t ∧
          CState.run n (CState.init L C raw) = some (t.h.acts, s) ∧
          s.capo = t.o.capo ∧ s.fine = t.o.fine := by
  obtain ⟨N, adv, -, hall⟩ := offline_terminates L C hL0 hL hC1 hC hr
  obtain ⟨tN, htN, hlast, hbefore, -⟩ := hall c turn oldfine oldsnaps num_ch
  have hdrop : ∀ n t, n ≤ N + 1 →
      Sys.run n (Sys.init L C c turn oldfine oldsnaps num_ch) = some t →
      Action.terminate ∉ t.h.acts.dropLast := by
    intro n t hn ht hm
    cases n with
    | zero =>
      simp only [Sys.run, Option.some.injEq] at ht
      subst ht
      simp [Sys.init, Host.start] at hm
    | succ n =>
      obtain ⟨u, hu⟩ := run_prefix (n + 1) _ t ht n (by omega)
      have hnot := hbefore n u (by omega) hu
      rw [run_add n 1 _ u hu] at ht
      cases hrev : u.o.revolve with
      | none =>
        simp only [Sys.run, Sys.step, hrev] at ht
        cases ht
      | some p =>
        obtain ⟨a, o'⟩ := p
        simp only [Sys.run, Sys.step, hrev, Option.some.injEq] at ht
        subst ht
        have hacts : (u.h.react a o').acts = u.h.acts ++ [a] := react_acts _ _ _
        have hm' : Action.terminate ∈ (u.h.acts ++ [a]).dropLast := by
          rw [← hacts]
          exact hm
        rw [List.dropLast_concat] at hm'
        exact hnot hm'
  refine ⟨N, ⟨tN, htN, hlast, hdrop (N + 1) tN (le_refl _) htN⟩, ?_⟩
  intro n hn
  obtain ⟨t, ht, hsim⟩ :=
    sim_run L C hL0 hL hC1 hC hr c turn oldfine oldsnaps num_ch raw n
  obtain ⟨s, hs, e1, e2, -⟩ := hsim (hdrop n t hn ht)
  exact ⟨t, s, ht, hs, e1, e2⟩

/-- Witness for C37: for `L = 3`, `C = 2` both return `takeshot`, `advance`, `takeshot`,
`advance`, `firsturn`, `restore`, `youturn`, `restore`, `youturn`, `terminate`. -/
theorem c_and_cpp_agree_witness :
    (CState.run 10 (CState.init 3 2 CState.zero)).map Prod.fst
      = some [Action.takeshot, Action.advance, Action.takeshot, Action.advance,
          Action.firsturn, Action.restore, Action.youturn, Action.restore, Action.youturn,
          Action.terminate] ∧
    (Sys.run 10 (Sys.init 3 2 Checkpoint.zero 0 0 0 (fun _ => 0))).map (fun t => t.h.acts)
      = some [Action.takeshot, Action.advance, Action.takeshot, Action.advance,
          Action.firsturn, Action.restore, Action.youturn, Action.restore, Action.youturn,
          Action.terminate] ∧
    ∃ N : Nat,
      (∃ t, Sys.run (N + 1) (Sys.init 3 2 Checkpoint.zero 0 0 0 (fun _ => 0)) = some t ∧
        t.h.acts.getLast? = some Action.terminate ∧
        Action.terminate ∉ t.h.acts.dropLast) ∧
      ∀ n, n ≤ N + 1 →
        ∃ t s, Sys.run n (Sys.init 3 2 Checkpoint.zero 0 0 0 (fun _ => 0)) = some t ∧
          CState.run n (CState.init 3 2 CState.zero) = some (t.h.acts, s) ∧
          s.capo = t.o.capo ∧ s.fine = t.o.fine :=
  ⟨by decide, by decide,
    c_and_cpp_agree 3 2 (by decide) (by decide) (by decide) (by decide) (by decide)
      Checkpoint.zero 0 0 0 (fun _ => 0) CState.zero⟩

/-! ## The end of the `r = 2` phase -/

/-- The exact account of `capo` in the `r = 2` phase with `C ≥ 4` slots: after a takeshot
of that phase `2 capo + offset² + 3 offset - 2 iter = C² + 3C - 2`; after an advance the
same expression has grown by the steps advanced, and once `t` is set `capo` is
`(C² + 3C) / 2`. -/
def Tally (C : Int) (x : Online_r2) : Prop :=
  (x.checkpoint.ch x.check = x.capo → C + 1 ≤ x.capo →
    2 * x.capo + x.offset * x.offset + 3 * x.offset - 2 * x.iter = C * C + 3 * C - 2) ∧
  (x.checkpoint.ch x.check ≠ x.capo → C + 2 ≤ x.capo →
    (x.t = 0 →
      (x.iter < x.offset →
        2 * x.capo + x.offset * x.offset + 3 * x.offset - 2 * x.iter = C * C + 3 * C) ∧
      (x.iter = x.offset →
        2 * x.capo + x.offset * x.offset + x.offset = C * C + 3 * C + 2)) ∧
    (x.t ≠ 0 → 2 * x.capo = C * C + 3 * C))

/-- A bound on the number of calls before `terminate`: twice the steps left up to
`(C² + 3C) / 2`, plus one when the next call is a takeshot. -/
def weight (C : Int) (x : Online_r2) : Int :=
  C * C + 3 * C - 2 * x.capo +
    (if x.check ≠ -1 ∧ x.checkpoint.ch x.check = x.capo then 0 else 1)

theorem weight_hit (C : Int) (x : Online_r2) (h1 : x.check ≠ -1)
    (h2 : x.checkpoint.ch x.check = x.capo) : weight C x = C * C + 3 * C - 2 * x.capo := by
  unfold weight
  rw [if_pos ⟨h1, h2⟩]
  ring

theorem weight_miss (C : Int) (x : Online_r2)
    (h : x.check = -1 ∨ x.checkpoint.ch x.check ≠ x.capo) :
    weight C x = C * C + 3 * C - 2 * x.capo + 1 := by
  unfold weight
  rw [if_neg (by
    intro hc
    rcases h with h | h
    · exact hc.1 h
    · exact h hc.2)]

/-- A call that is not the last: it returns `advance` or `takeshot`, it is made below
`capo = (C² + 3C) / 2`, the account holds again and the weight has gone down. -/
def Goes (C : Int) (x : Online_r2) : Prop :=
  Tally C x.revolve.2 ∧ weight C x.revolve.2 + 1 ≤ weight C x ∧
    0 ≤ weight C x.revolve.2 ∧ 2 * x.capo < C * C + 3 * C

theorem goes_first (C : Int) (x : Online_r2)
    (hrev : x.revolve = x.counted.first) (hck : iadd x.check 1 ≠ -1)
    (h0 : 0 ≤ x.capo) (h1 : x.capo ≤ C - 1)
    (hmiss : x.check = -1 ∨ x.checkpoint.ch x.check ≠ x.capo) : Goes C x := by
  have e1 : x.revolve.2.check = iadd x.check 1 := by rw [hrev, first_check]; rfl
  have e2 : x.revolve.2.capo = x.capo := by rw [hrev, first_capo]; rfl
  have e3 : x.revolve.2.checkpoint.ch (iadd x.check 1) = x.capo := by
    rw [hrev, first_ch]
    show Function.update x.checkpoint.ch (iadd x.check 1) x.capo (iadd x.check 1) = x.capo
    rw [Function.update_same]
  have hsq : 0 ≤ C * C := mul_self_nonneg C
  have hhit : x.revolve.2.checkpoint.ch x.revolve.2.check = x.revolve.2.capo := by
    rw [e1, e3, e2]
  refine ⟨⟨?_, ?_⟩, ?_, ?_, by omega⟩
  · intro _ hc
    rw [e2] at hc
    omega
  · intro hc
    exact absurd hhit hc
  · rw [weight_hit C _ (by rw [e1]; exact hck) hhit, weight_miss C x hmiss, e2]
  · rw [weight_hit C _ (by rw [e1]; exact hck) hhit, e2]
    omega

theorem goes_stored (C : Int) (hC4 : 4 ≤ C) (hC : C ≤ 46339) (x : Online_r2)
    (hs : x.snaps = C) (hck : x.check = x.capo) (hch : x.checkpoint.ch x.check = x.capo)
    (hold : x.oldcapo_o = x.capo) (h0 : 0 ≤ x.capo) (h1 : x.capo ≤ C - 1) : Goes C x := by
  have hs1 : isub x.snaps 1 = C - 1 := by rw [hs]; exact isub_eq (by omega) (by omega)
  have hsq : 0 ≤ C * C := mul_self_nonneg C
  have hn : ¬ (x.check = -1 ∨ (x.checkpoint.ch x.check ≠ x.capo ∧ x.capo ≤ isub x.snaps 1)) := by
    intro hc
    rcases hc with hc | hc
    · omega
    · exact hc.1 hch
  have key : x.revolve.2.check = x.check ∧ x.revolve.2.checkpoint.ch = x.checkpoint.ch ∧
      x.capo + 1 ≤ x.revolve.2.capo ∧ x.revolve.2.capo ≤ C + 1 := by
    rw [r2_revolve_eq, if_neg hn]
    by_cases hlt : x.capo < isub x.snaps 1
    · rw [if_pos hlt]
      rw [hs1] at hlt
      have e : iadd x.oldcapo_o 1 = x.capo + 1 := by
        rw [hold]; exact iadd_eq (by omega) (by omega)
      refine ⟨rfl, rfl, ?_, ?_⟩
      · show x.capo + 1 ≤ iadd x.oldcapo_o 1
        rw [e]
      · show iadd x.oldcapo_o 1 ≤ C + 1
        rw [e]; omega
    · rw [if_neg hlt, if_pos hch]
      rw [hs1] at hlt
      have hcapo : x.capo = C - 1 := by omega
      rw [adv2_jump x.counted (by show x.snaps ≠ 1; omega) (by show x.snaps ≠ 2; omega)
        (by show x.snaps ≠ 3; omega) (by show x.capo = isub x.snaps 1; rw [hs1, hcapo])]
      have e : iadd x.capo 2 = C + 1 := by
        rw [hcapo, iadd_eq (by omega) (by omega)]; ring
      refine ⟨rfl, rfl, ?_, ?_⟩
      · show x.capo + 1 ≤ iadd x.capo 2
        rw [e]; omega
      · show iadd x.capo 2 ≤ C + 1
        rw [e]
  obtain ⟨k1, k2, k3, k4⟩ := key
  have hmiss : x.revolve.2.checkpoint.ch x.revolve.2.check ≠ x.revolve.2.capo := by
    rw [k1, k2, hch]; omega
  refine ⟨⟨?_, ?_⟩, ?_, ?_, by omega⟩
  · intro hc
    exact absurd hc hmiss
  · intro _ hc
    omega
  · rw [weight_miss C x.revolve.2 (Or.inr hmiss), weight_hit C x (by omega) hch]
    omega
  · rw [weight_miss C x.revolve.2 (Or.inr hmiss)]
    omega

/-- A call that leaves the scheduler on a checkpoint just written at `capo = C + 1`, with
`iter = 1` and `offset = C - 1`, is not the last. -/
theorem goes_hit (C : Int) (hC4 : 4 ≤ C) (x y : Online_r2) (hy : x.revolve.2 = y)
    (hhit : y.checkpoint.ch y.check = y.capo) (e1 : y.capo = C + 1) (e2 : y.check = C - 1)
    (e3 : y.iter = 1) (e4 : y.offset = C - 1)
    (wx : weight C x = C * C + 3 * C - 2 * (C + 1) + 1)
    (hw0 : 0 ≤ C * C + 3 * C - 2 * (C + 1)) (hlt : 2 * x.capo < C * C + 3 * C) :
    Goes C x := by
  unfold Goes
  rw [hy]
  have hck' : y.check ≠ -1 := by rw [e2]; omega
  refine ⟨⟨?_, ?_⟩, ?_, ?_, hlt⟩
  · intro _ _
    rw [e1, e3, e4]
    ring
  · intro hc
    exact absurd hhit hc
  · rw [weight_hit C y hck' hhit, wx, e1]
  · rw [weight_hit C y hck' hhit, e1]
    exact hw0

theorem goes_jumped (C : Int) (hC4 : 4 ≤ C) (hC : C ≤ 46339) (x : Online_r2)
    (hs : x.snaps = C) (hck : x.check = C - 1) (hch : x.checkpoint.ch x.check = C - 1)
    (hcapo : x.capo = C + 1) (hiter : x.iter = 1) (hoff : x.offset = C - 1)
    (hind : x.ind = C - 1) : Goes C x := by
  have hs1 : isub x.snaps 1 = C - 1 := by rw [hs]; exact isub_eq (by omega) (by omega)
  have hs2 : iadd x.snaps 2 = C + 2 := by rw [hs]; exact iadd_eq (by omega) (by omega)
  have hs3 : iadd x.snaps 1 = C + 1 := by rw [hs]; exact iadd_eq (by omega) (by omega)
  have hsq : 0 ≤ C * C := mul_self_nonneg C
  have hw0 : 0 ≤ C * C + 3 * C - 2 * (C + 1) := by omega
  have hmiss : x.checkpoint.ch x.check ≠ x.capo := by rw [hch, hcapo]; omega
  have hlt : 2 * x.capo < C * C + 3 * C := by rw [hcapo]; omega
  have hn : ¬ (x.check = -1 ∨ (x.checkpoint.ch x.check ≠ x.capo ∧ x.capo ≤ isub x.snaps 1)) := by
    intro hc
    rcases hc with hc | hc
    · omega
    · have := hc.2
      rw [hs1] at this
      omega
  have hrev : x.revolve = x.counted.shot2 := by
    rw [r2_revolve_eq, if_neg hn, if_neg (by rw [hs1]; omega), if_neg (by rw [hch]; omega)]
  obtain ⟨-, -, g3, g4, g5, -, -, g8, g9, -, -⟩ :=
    shot2_entry x.counted (by show x.snaps ≠ 2; omega) (by show x.snaps ≠ 3; omega)
      (by show x.capo < iadd x.snaps 2; rw [hs2]; omega)
      (by show x.capo = iadd x.snaps 1; rw [hs3]; exact hcapo)
  have hhit : x.counted.shot2.2.checkpoint.ch x.counted.shot2.2.check
      = x.counted.shot2.2.capo := by
    rw [g4, g5, g3]
    show Function.update x.checkpoint.ch x.ind x.capo x.ind = x.capo
    rw [Function.update_same]
  have e1 : x.counted.shot2.2.capo = C + 1 := by rw [g3]; exact hcapo
  have e2 : x.counted.shot2.2.check = C - 1 := by rw [g4]; exact hind
  have e3 : x.counted.shot2.2.iter = 1 := by rw [g8]; exact hiter
  have e4 : x.counted.shot2.2.offset = C - 1 := by rw [g9]; exact hoff
  have wx : weight C x = C * C + 3 * C - 2 * (C + 1) + 1 := by
    rw [weight_miss C x (Or.inr hmiss), hcapo]
  exact goes_hit C hC4 x _ (by rw [hrev]) hhit e1 e2 e3 e4 wx hw0 hlt

theorem goes_shot (C : Int) (hC4 : 4 ≤ C) (hC : C ≤ 46339) (x : Online_r2)
    (hs : x.snaps = C) (hck : 0 ≤ x.check) (hch : x.checkpoint.ch x.check = x.capo)
    (ht : x.t = 0) (hi1 : 1 ≤ x.iter) (hio : x.iter ≤ x.offset)
    (hlow : C + 1 ≤ x.capo)
    (hpot : x.capo + 2 * (x.offset - x.iter) + x.offset * (x.offset + 1)
      ≤ C * C + 2 * C - 3) (hT : Tally C x) : Goes C x := by
  have hs1 : isub x.snaps 1 = C - 1 := by rw [hs]; exact isub_eq (by omega) (by omega)
  have hsq := square_le C hC4 hC
  have hoo : 0 ≤ x.offset * (x.offset + 1) := mul_nonneg (by omega) (by omega)
  have hoo2 : x.offset ≤ x.offset * x.offset := by nlinarith
  have hn : ¬ (x.check = -1 ∨ (x.checkpoint.ch x.check ≠ x.capo ∧ x.capo ≤ isub x.snaps 1)) := by
    intro hc
    rcases hc with hc | hc
    · omega
    · exact hc.1 hch
  have hrev : x.revolve = x.counted.adv2 := by
    rw [r2_revolve_eq, if_neg hn, if_neg (by rw [hs1]; omega), if_pos hch]
  obtain ⟨g1, g2, g3, g4, g5, g6, g7, g8, g9, g10, g11⟩ :=
    adv2_cycle x.counted (by show x.snaps ≠ 1; omega) (by show x.snaps ≠ 2; omega)
      (by show x.snaps ≠ 3; omega) (by show x.capo ≠ isub x.snaps 1; rw [hs1]; omega) ht
  have e1 : iadd x.capo 1 = x.capo + 1 := iadd_eq (by omega) (by omega)
  have e2 : iadd x.capo 2 = x.capo + 2 := iadd_eq (by omega) (by omega)
  rw [← hrev] at g3 g4 g5 g6 g8 g9
  have hcapo : x.revolve.2.capo = if x.iter < x.offset then x.capo + 1 else x.capo + 2 := by
    rw [g3]
    show (if x.iter < x.offset then iadd x.capo 1 else iadd x.capo 2) = _
    rw [e1, e2]
  have ht' : x.revolve.2.t = if x.offset = 1 then 1 else 0 := g4
  have hiter : x.revolve.2.iter = x.iter := g8
  have hoff : x.revolve.2.offset = x.offset := g9
  have hT1 := hT.1 hch hlow
  have hmiss : x.revolve.2.checkpoint.ch x.revolve.2.check ≠ x.revolve.2.capo := by
    rw [g5, g6, hcapo]
    show x.checkpoint.ch x.check ≠ _
    rw [hch]
    split <;> omega
  refine ⟨⟨?_, ?_⟩, ?_, ?_, by omega⟩
  · intro hc
    exact absurd hc hmiss
  · intro _ _
    rw [ht', hiter, hoff, hcapo]
    refine ⟨?_, ?_⟩
    · intro h0
      have ho1 : x.offset ≠ 1 := by
        intro h1
        rw [if_pos h1] at h0
        exact absurd h0 (by decide)
      refine ⟨?_, ?_⟩
      · intro hlt
        rw [if_pos hlt]
        omega
      · intro heq
        rw [if_neg (by omega)]
        omega
    · intro h1
      have ho1 : x.offset = 1 := by
        by_contra hc
        rw [if_neg hc] at h1
        exact h1 rfl
      have hi : x.iter = 1 := by omega
      have hoo1 : x.offset * x.offset = 1 := by rw [ho1]; norm_num
      rw [if_neg (by omega)]
      omega
  · rw [weight_miss C x.revolve.2 (Or.inr hmiss), weight_hit C x (by omega) hch, hcapo]
    split <;> omega
  · rw [weight_miss C x.revolve.2 (Or.inr hmiss), hcapo]
    split <;> omega

theorem goes_adv (C : Int) (hC4 : 4 ≤ C) (hC : C ≤ 46339) (x : Online_r2)
    (hs : x.snaps = C) (hck : 0 ≤ x.check) (hch : x.checkpoint.ch x.check ≠ x.capo)
    (hlow : C + 2 ≤ x.capo) (ht : x.t = 0)
    (hrest : 2 ≤ x.offset ∧ 1 ≤ x.iter ∧ x.iter ≤ x.offset ∧ 2 ≤ x.incr ∧
      x.incr + x.offset = C + 1 ∧ x.ind = x.incr + x.iter - 1 ∧ OrdOk C x ∧
      (x.iter < x.offset →
        x.capo + 2 * (x.offset - x.iter - 1) + x.offset * (x.offset + 1)
          ≤ C * C + 2 * C - 3) ∧
      (x.iter = x.offset →
        x.capo + 2 * (x.offset - 2) + (x.offset - 1) * x.offset ≤ C * C + 2 * C - 3))
    (hT : Tally C x) : Goes C x := by
  have hs1 : isub x.snaps 1 = C - 1 := by rw [hs]; exact isub_eq (by omega) (by omega)
  have hs2 : iadd x.snaps 2 = C + 2 := by rw [hs]; exact iadd_eq (by omega) (by omega)
  have hn : ¬ (x.check = -1 ∨ (x.checkpoint.ch x.check ≠ x.capo ∧ x.capo ≤ isub x.snaps 1)) := by
    intro hc
    rcases hc with hc | hc
    · omega
    · have := hc.2
      rw [hs1] at this
      omega
  have hrev : x.revolve = x.counted.shot2 := by
    rw [r2_revolve_eq, if_neg hn, if_neg (by rw [hs1]; omega), if_neg hch]
  have h2 : x.counted.snaps ≠ 2 := by show x.snaps ≠ 2; omega
  have h3 : x.counted.snaps ≠ 3 := by show x.snaps ≠ 3; omega
  have hc : ¬ x.counted.capo < iadd x.counted.snaps 2 := by
    show ¬ x.capo < iadd x.snaps 2
    rw [hs2]; omega
  obtain ⟨r1, r2, r3, r4, r5, r6, r7, r8, r9⟩ := hrest
  obtain ⟨t1, t2⟩ := (hT.2 hch hlow).1 ht
  have hoo2 : x.offset ≤ x.offset * x.offset := by nlinarith
  by_cases hio : x.iter = x.offset
  · obtain ⟨g1, g2, g3, g4, g5, g6, g7, g8, g9, g10, g11⟩ :=
      shot2_last x.counted h2 h3 hc ht hio
    rw [← hrev] at g3 g4 g5 g8 g9
    have e1 : isub x.offset 1 = x.offset - 1 := isub_eq (by omega) (by omega)
    have ecapo : x.revolve.2.capo = x.capo := g3
    have eiter : x.revolve.2.iter = 1 := g8
    have eoff : x.revolve.2.offset = x.offset - 1 := by rw [g9]; exact e1
    have hck' : 0 ≤ x.revolve.2.check := by
      rw [g4]
      show 0 ≤ x.checkpoint.ord_ch (isub x.snaps 1)
      rw [hs1]
      exact r7 _ (by omega) (le_refl _)
    have hhit : x.revolve.2.checkpoint.ch x.revolve.2.check = x.revolve.2.capo := by
      rw [g4, g5, g3]
      show Function.update x.checkpoint.ch _ x.capo _ = x.capo
      rw [Function.update_same]
    have h9 := t2 hio
    have esq : (x.offset - 1) * (x.offset - 1) = x.offset * x.offset - 2 * x.offset + 1 := by
      ring
    refine ⟨⟨?_, ?_⟩, ?_, ?_, by omega⟩
    · intro _ _
      rw [ecapo, eiter, eoff, esq]
      omega
    · intro hx
      exact absurd hhit hx
    · rw [weight_hit C x.revolve.2 (by omega) hhit, weight_miss C x (Or.inr hch), ecapo]
    · rw [weight_hit C x.revolve.2 (by omega) hhit, ecapo]
      omega
  · have hrev' := shot2_next x.counted h2 h3 hc ht hio
    rw [← hrev] at hrev'
    have e1 : iadd x.iter 1 = x.iter + 1 := iadd_eq (by omega) (by omega)
    have ecapo : x.revolve.2.capo = x.capo := by rw [hrev']; rfl
    have eiter : x.revolve.2.iter = x.iter + 1 := by rw [hrev']; exact e1
    have eoff : x.revolve.2.offset = x.offset := by rw [hrev']; rfl
    have hck' : 0 ≤ x.revolve.2.check := by
      rw [hrev']
      show 0 ≤ x.checkpoint.ord_ch x.ind
      exact r7 _ (by omega) (by omega)
    have hhit : x.revolve.2.checkpoint.ch x.revolve.2.check = x.revolve.2.capo := by
      rw [hrev']
      show Function.update x.checkpoint.ch _ x.capo _ = x.capo
      rw [Function.update_same]
    have h8 := t1 (by omega)
    refine ⟨⟨?_, ?_⟩, ?_, ?_, by omega⟩
    · intro _ _
      rw [ecapo, eiter, eoff]
      omega
    · intro hx
      exact absurd hhit hx
    · rw [weight_hit C x.revolve.2 (by omega) hhit, weight_miss C x (Or.inr hch), ecapo]
    · rw [weight_hit C x.revolve.2 (by omega) hhit, ecapo]
      omega

/-- One call of `Online_r2::revolve` with `4 ≤ C ≤ 46339` slots, with the account of
`capo`: the call returns `terminate` at `capo = (C² + 3C) / 2`, leaving `capo` as it is, or
it returns `advance` or `takeshot` below that value. -/
theorem tally_step (C : Int) (hC4 : 4 ≤ C) (hC : C ≤ 46339) (x : Online_r2)
    (hs : x.snaps = C) (h : Phase2 C x) (hT : Tally C x) :
    (x.revolve.1 = Action.terminate ∧ x.revolve.2.capo = x.capo ∧
      2 * x.capo = C * C + 3 * C) ∨ (Continues C x ∧ Goes C x) := by
  cases h with
  | fresh hck hcapo =>
    refine Or.inr ⟨step_fresh C hC4 hC x hs hck hcapo, ?_⟩
    exact goes_first C x (by rw [r2_revolve_eq, if_pos (Or.inl hck)])
      (by rw [hck]; decide) (by omega) (by omega) (Or.inl hck)
  | stored hck hch hold h0 h1 ht hiter hoff hord =>
    exact Or.inr ⟨step_stored C hC4 hC x hs hck hch hold h0 h1 ht hiter hoff hord,
      goes_stored C hC4 hC x hs hck hch hold h0 h1⟩
  | moved hck hch h0 h1 =>
    have hs1 : isub x.snaps 1 = C - 1 := by rw [hs]; exact isub_eq (by omega) (by omega)
    refine Or.inr ⟨step_moved C hC4 hC x hs hck hch h0 h1, ?_⟩
    exact goes_first C x
      (by rw [r2_revolve_eq, if_pos (Or.inr ⟨by rw [hch]; omega, by rw [hs1]; exact h1⟩)])
      (by rw [hck, iadd_eq (by omega) (by omega)]; omega) (by omega) h1
      (Or.inr (by rw [hch]; omega))
  | jumped hck hch hcapo ht hiter hoff hind hord =>
    exact Or.inr ⟨step_jumped C hC4 hC x hs hck hch hcapo ht hiter hoff hind hord,
      goes_jumped C hC4 hC x hs hck hch hcapo hiter hoff hind⟩
  | shot hck hch ht hi1 hio hincr hsum hind hord hlow hpot =>
    exact Or.inr ⟨step_shot C hC4 hC x hs hck hch ht hi1 hio hincr hsum hind hord hlow hpot,
      goes_shot C hC4 hC x hs hck hch ht hi1 hio hlow hpot hT⟩
  | adv hck hch hlow hrest =>
    by_cases ht : x.t = 0
    · rcases step_adv C hC4 hC x hs hck hch hlow hrest with h1 | h1
      · exfalso
        have hs1 : isub x.snaps 1 = C - 1 := by rw [hs]; exact isub_eq (by omega) (by omega)
        have hs2 : iadd x.snaps 2 = C + 2 := by rw [hs]; exact iadd_eq (by omega) (by omega)
        have hn : ¬ (x.check = -1 ∨
            (x.checkpoint.ch x.check ≠ x.capo ∧ x.capo ≤ isub x.snaps 1)) := by
          intro hc
          rcases hc with hc | hc
          · omega
          · have := hc.2
            rw [hs1] at this
            omega
        have hrev : x.revolve = x.counted.shot2 := by
          rw [r2_revolve_eq, if_neg hn, if_neg (by rw [hs1]; omega), if_neg hch]
        have h2 : x.counted.snaps ≠ 2 := by show x.snaps ≠ 2; omega
        have h3 : x.counted.snaps ≠ 3 := by show x.snaps ≠ 3; omega
        have hc : ¬ x.counted.capo < iadd x.counted.snaps 2 := by
          show ¬ x.capo < iadd x.snaps 2
          rw [hs2]; omega
        rw [hrev] at h1
        by_cases hio : x.iter = x.offset
        · rw [(shot2_last x.counted h2 h3 hc ht hio).1] at h1
          cases h1
        · rw [shot2_next x.counted h2 h3 hc ht hio] at h1
          cases h1
      · exact Or.inr ⟨h1, goes_adv C hC4 hC x hs hck hch hlow ht (hrest ht) hT⟩
    · left
      have hs1 : isub x.snaps 1 = C - 1 := by rw [hs]; exact isub_eq (by omega) (by omega)
      have hs2 : iadd x.snaps 2 = C + 2 := by rw [hs]; exact iadd_eq (by omega) (by omega)
      have hn : ¬ (x.check = -1 ∨
          (x.checkpoint.ch x.check ≠ x.capo ∧ x.capo ≤ isub x.snaps 1)) := by
        intro hc
        rcases hc with hc | hc
        · omega
        · have := hc.2
          rw [hs1] at this
          omega
      have hrev : x.revolve = x.counted.shot2 := by
        rw [r2_revolve_eq, if_neg hn, if_neg (by rw [hs1]; omega), if_neg hch]
      have h2 : x.counted.snaps ≠ 2 := by show x.snaps ≠ 2; omega
      have h3 : x.counted.snaps ≠ 3 := by show x.snaps ≠ 3; omega
      have hc : ¬ x.counted.capo < iadd x.counted.snaps 2 := by
        show ¬ x.capo < iadd x.snaps 2
        rw [hs2]; omega
      rw [hrev, shot2_end x.counted h2 h3 hc ht]
      exact ⟨rfl, rfl, (hT.2 hch hlow).2 ht⟩

theorem r2_run_shift (n : Nat) (x : Online_r2) :
    Online_r2.run (n + 1) x = Online_r2.run n x.revolve.2 := by
  induction n with
  | zero => rfl
  | succ n ih =>
    show (Online_r2.run (n + 1) x).revolve.2 = (Online_r2.run n x.revolve.2).revolve.2
    rw [ih]

/-- From a state of the run with weight at most `n`, call `N + 1` is the first to return
`terminate`, for some `N ≤ n`. -/
theorem r2_run_ends (C : Int) (hC4 : 4 ≤ C) (hC : C ≤ 46339) (n : Nat) :
    ∀ x : Online_r2, x.snaps = C → Phase2 C x → Tally C x → weight C x ≤ n →
      ∃ N : Nat, N ≤ n ∧
        (∀ k, k < N →
          (Online_r2.act k x = Action.advance ∨ Online_r2.act k x = Action.takeshot) ∧
          2 * (Online_r2.run k x).capo < C * C + 3 * C) ∧
        Online_r2.act N x = Action.terminate ∧
        2 * (Online_r2.run N x).capo = C * C + 3 * C ∧
        (Online_r2.run (N + 1) x).capo = (Online_r2.run N x).capo := by
  induction n with
  | zero =>
    intro x hs hP hT hw
    rcases tally_step C hC4 hC x hs hP hT with h | h
    · exact ⟨0, le_refl 0, fun k hk => absurd hk (Nat.not_lt_zero k), h.1, h.2.2, h.2.1⟩
    · obtain ⟨-, -, g2, g3, -⟩ := h
      push_cast at hw
      omega
  | succ n ih =>
    intro x hs hP hT hw
    rcases tally_step C hC4 hC x hs hP hT with h | h
    · exact ⟨0, Nat.zero_le _, fun k hk => absurd hk (Nat.not_lt_zero k), h.1, h.2.2, h.2.1⟩
    · obtain ⟨⟨hact, hs', hP'⟩, hT', g2, g3, g4⟩ := h
      obtain ⟨N, hN, h1, h2, h3, h4⟩ := ih x.revolve.2 hs' hP' hT'
        (by push_cast at hw; omega)
      refine ⟨N + 1, by omega, ?_, ?_, ?_, ?_⟩
      · intro k hk
        cases k with
        | zero => exact ⟨hact, g4⟩
        | succ k =>
          have := h1 k (by omega)
          unfold Online_r2.act at this ⊢
          rw [r2_run_shift]
          exact this
      · unfold Online_r2.act at h2 ⊢
        rw [r2_run_shift]
        exact h2
      · rw [r2_run_shift]
        exact h3
      · rw [r2_run_shift (N + 1) x, r2_run_shift N x]
        exact h4

/-- C31: a freshly constructed `Online_r2` with `4 ≤ C ≤ 46339` slots. Some call `N + 1`
returns `terminate`; every call before it returns `takeshot` or `advance` (so the branch
"not implemented yet", which returns `error`, is not reached) and is made with
`capo < (C+2)(C+1)/2 - 1`; the call that returns `terminate` is made with
`capo = (C+2)(C+1)/2 - 1` and leaves it so, and that is the `capo` the constructor of
`Online_r3` sets. -/
theorem online_r2_ends (C : Int) (hC4 : 4 ≤ C) (hC : C ≤ 46339) (c : Checkpoint)
    (m : Online_r2) :
    ∃ N : Nat,
      (∀ k, k < N →
        (Online_r2.act k (Online_r2.new C c m) = Action.advance ∨
          Online_r2.act k (Online_r2.new C c m) = Action.takeshot) ∧
        (Online_r2.run k (Online_r2.new C c m)).capo < (C + 2) * (C + 1) / 2 - 1) ∧
      Online_r2.act N (Online_r2.new C c m) = Action.terminate ∧
      (Online_r2.run N (Online_r2.new C c m)).capo = (C + 2) * (C + 1) / 2 - 1 ∧
      (Online_r2.run (N + 1) (Online_r2.new C c m)).capo = (C + 2) * (C + 1) / 2 - 1 ∧
      ∀ (c3 : Checkpoint) (m3 : Online_r3),
        (Online_r3.new C c3 m3).capo = (Online_r2.run N (Online_r2.new C c m)).capo := by
  have hsq := square_le C hC4 hC
  have hsq0 : 0 ≤ C * C := mul_self_nonneg C
  have hT : Tally C (Online_r2.new C c m) := by
    refine ⟨?_, ?_⟩
    · intro _ h
      have h' : C + 1 ≤ 0 := h
      omega
    · intro _ h
      have h' : C + 2 ≤ 0 := h
      omega
  have hw : weight C (Online_r2.new C c m) = C * C + 3 * C + 1 := by
    rw [weight_miss C _ (Or.inl rfl)]
    show C * C + 3 * C - 2 * 0 + 1 = _
    ring
  obtain ⟨N, -, h1, h2, h3, h4⟩ := r2_run_ends C hC4 hC (C * C + 3 * C + 1).toNat
    (Online_r2.new C c m) rfl (Phase2.fresh rfl rfl) hT
    (by rw [hw, Int.toNat_of_nonneg (by omega)])
  have hprod : (C + 2) * (C + 1) = C * C + 3 * C + 2 := by ring
  have hK : (C + 2) * (C + 1) / 2 - 1 = (Online_r2.run N (Online_r2.new C c m)).capo := by
    rw [hprod]
    omega
  refine ⟨N, ?_, h2, hK.symm, by rw [h4]; exact hK.symm, ?_⟩
  · intro k hk
    obtain ⟨a1, a2⟩ := h1 k hk
    refine ⟨a1, ?_⟩
    rw [hprod]
    omega
  · intro c3 m3
    show isub (idiv (imul (iadd C 2) (iadd C 1)) 2) 1 = _
    rw [iadd_eq (by omega) (by omega), iadd_eq (by omega) (by omega),
      imul_eq (by rw [hprod]; omega) (by rw [hprod]; omega), hprod]
    have e : C * C + 3 * C + 2 = ((Online_r2.run N (Online_r2.new C c m)).capo + 1) * 2 := by
      omega
    have hc0 : 0 ≤ (Online_r2.run N (Online_r2.new C c m)).capo := by omega
    rw [idiv_exact (by omega) (by omega) e (by omega), isub_eq (by omega) (by omega)]
    ring

set_option maxRecDepth 1000000 in
/-- Witness for C31: with 4 slots call 21 returns `terminate`, at `capo = 14`. -/
theorem online_r2_ends_witness :
    Online_r2.act 20 (Online_r2.new 4 Checkpoint.zero Online_r2.zero) = Action.terminate ∧
    Online_r2.act 19 (Online_r2.new 4 Checkpoint.zero Online_r2.zero) = Action.advance ∧
    (Online_r2.run 20 (Online_r2.new 4 Checkpoint.zero Online_r2.zero)).capo = 14 ∧
    ∃ N : Nat,
      (∀ k, k < N →
        (Online_r2.act k (Online_r2.new 4 Checkpoint.zero Online_r2.zero) = Action.advance ∨
          Online_r2.act k (Online_r2.new 4 Checkpoint.zero Online_r2.zero) = Action.takeshot) ∧
        (Online_r2.run k (Online_r2.new 4 Checkpoint.zero Online_r2.zero)).capo
          < (4 + 2) * (4 + 1) / 2 - 1) ∧
      Online_r2.act N (Online_r2.new 4 Checkpoint.zero Online_r2.zero) = Action.terminate ∧
      (Online_r2.run N (Online_r2.new 4 Checkpoint.zero Online_r2.zero)).capo
        = (4 + 2) * (4 + 1) / 2 - 1 ∧
      (Online_r2.run (N + 1) (Online_r2.new 4 Checkpoint.zero Online_r2.zero)).capo
        = (4 + 2) * (4 + 1) / 2 - 1 ∧
      ∀ (c3 : Checkpoint) (m3 : Online_r3),
        (Online_r3.new 4 c3 m3).capo
          = (Online_r2.run N (Online_r2.new 4 Checkpoint.zero Online_r2.zero)).capo :=
  ⟨by decide, by decide, by decide,
    online_r2_ends 4 (by decide) (by decide) Checkpoint.zero Online_r2.zero⟩

end Revolve
